import Mathlib

/-!
# libeval: a shallow embedding of the expression evaluator

The definitions below follow `src/eval.c`, `src/hashtable.c` and `src/func.c`
function by function and keep their names.

Conventions of the embedding.

* A C string is a `List Char`; reading at or past its end yields the
  terminating NUL (`Char.ofNat 0`).  A `char *` that may be `NULL` is an
  `Option (List Char)`.
* `double` arithmetic is not reduced to a concrete number system: the
  evaluator is written over an arbitrary record `Arith V` of the operations
  the C code applies to doubles (`+ - * /`, `fmod`, `pow`, unary minus,
  `== 0.0`, `strtod`).  Every general theorem holds for all such records.
* The process-wide variables of `eval.c` (`G_eval_error`, `G_pb_token`, the
  arena globals, `G_varfn_table`, the two function-local statics) are the
  fields of `State`, passed explicitly and returned by every procedure.
* `malloc` is an oracle of the environment: `Env.malloc i` says whether the
  `i`-th call of `malloc` in the life of the process succeeds.
* The grammar procedures are mutually recursive and a registered callable may
  call `eval` again, so they take a fuel argument; `none` means that the fuel
  ran out.  General results are stated for all sufficiently large fuel;
  runs on concrete text use a fixed amount that suffices.
-/

namespace Libeval

/-! ## Characters and C library helpers -/

/-- The terminating NUL character of a C string. -/
def NUL : Char := Char.ofNat 0

/-- The backslash character, the modulo operator of the evaluator. -/
def BSLASH : Char := Char.ofNat 92

/-- `buf[i]` for a C string: the NUL terminator at and after the end. -/
def charAt (buf : List Char) (i : Nat) : Char := buf.getD i NUL

/-- `isspace` in the C locale: space, `\t`, `\n`, `\v`, `\f`, `\r`. -/
def isspace (c : Char) : Bool := c.toNat = 32 || (9 ≤ c.toNat && c.toNat ≤ 13)

/-- `isdigit`: `0` to `9`. -/
def isdigit (c : Char) : Bool := 48 ≤ c.toNat && c.toNat ≤ 57

/-- `isalpha` in the C locale: `A`-`Z` and `a`-`z`. -/
def isalpha (c : Char) : Bool :=
  (65 ≤ c.toNat && c.toNat ≤ 90) || (97 ≤ c.toNat && c.toNat ≤ 122)

/-- `strcmp` on C strings: the sign of the first difference, characters
compared by code, and a NUL inside a list ends the string there. -/
def strcmp : List Char → List Char → Int
  | [], [] => 0
  | [], c :: _ => if c = NUL then 0 else -1
  | c :: _, [] => if c = NUL then 0 else 1
  | a :: as, b :: bs =>
    if a = b then (if a = NUL then 0 else strcmp as bs)
    else if a.toNat < b.toNat then -1 else 1

/-! ## Double arithmetic, kept abstract -/

/-- The operations `eval.c` applies to values of type `double`. -/
structure Arith (V : Type) where
  /-- The constant `0.0`. -/
  zero : V
  /-- The constant `100.0`. -/
  hundred : V
  /-- Addition `lhs+rhs`. -/
  add : V → V → V
  /-- Subtraction `lhs-rhs`. -/
  sub : V → V → V
  /-- Multiplication `lhs*rhs`. -/
  mul : V → V → V
  /-- Division `lhs/rhs`. -/
  div : V → V → V
  /-- The library call `fmod(lhs, rhs)`. -/
  fmod : V → V → V
  /-- The library call `pow(lhs, rhs)`. -/
  pow : V → V → V
  /-- Unary minus. -/
  neg : V → V
  /-- The comparison `x == 0.0`. -/
  isZero : V → Bool
  /-- The library call `strtod(tbuf, NULL)`. -/
  strtod : List Char → V

/-! ## Callables, symbol entries, tokens -/

/-- The opaque `void *data` registered with a function: `NULL` or a pointer
to a C string (the only use `eval.c` itself makes of it, in `cust_func`). -/
abbrev Data := Option (List Char)

/-- A `FunctionPtr`.  `native f` is a callable that does not touch the
evaluator: from the argument count, the argument array (a cell is `none`
while nothing was stored in it) and the context it returns its status and
what it wrote to the output slot (`none`: nothing written).  `cust_func` is
the callable of that name in `eval.c`, which evaluates its context as an
expression text. -/
inductive FunctionPtr (V : Type) where
  | native (f : Int → List (Option V) → Data → Int × Option V)
  | cust_func

/-- The record `VarFn`: a variable (`fn = NULL`) or a function. -/
structure VarFn (V : Type) where
  value : V
  fn : Option (FunctionPtr V)
  nargs : Int
  data : Data
  name : List Char

/-- The record `Token` without its debugging string `str`/`buf`. -/
structure Token (V : Type) where
  type : Char
  value : V
  args : Int
  fn : Option (FunctionPtr V)
  data : Data

/-! ## The hash table of `hashtable.c` -/

def HASHTABLE_TAG : Nat := 0x74486261
def HASHBUCKET_TAG : Nat := 0x62486b63
def BLOCK_SIZE : Nat := 100

/-- One `struct hashbucket_struct`; the `link` field is the list structure of
the chain (or of the pool) the bucket stands in. -/
structure hashbucket (K W : Type) where
  tag : Nat
  key : Option K
  val : Option W

/-- The record `struct hashtable_struct`.  `table` is the slot array, each
slot the chain of its buckets, head first; `pool` the free buckets, head
first; `blocks` the number of bucket blocks allocated after creation.  The
destructors `kdel`/`vdel` only release memory, so only their presence is
kept. -/
structure hashtable (K W : Type) where
  tag : Nat
  size : Nat
  table : List (List (hashbucket K W))
  hash : Option K → Nat
  comp : Option K → Option K → Int
  kdel : Bool
  vdel : Bool
  pool : List (hashbucket K W)
  blocks : Nat
  old_size : Nat
  curr_slot : Nat
  item_count : Nat

/-- The slot `hc % p_ht->size` of `lookup`: the `unsigned int` hash code is
stored in the `int hc` and converted to `unsigned long` (64 bits) for the
remainder, so a code of 2^31 or more is sign-extended first. -/
def slot_index (h : Nat) (size : Nat) : Nat :=
  (if h % 2 ^ 32 < 2 ^ 31 then h % 2 ^ 32 else 2 ^ 64 - 2 ^ 32 + h % 2 ^ 32) % size

/-- The search loop of `lookup` along one chain: `.error 4` on a bucket
without the live tag, else the position of the first bucket whose key
compares equal. -/
def chain_find {K W : Type} (comp : Option K → Option K → Int) (key : Option K) :
    List (hashbucket K W) → Nat → Except Int (Option Nat)
  | [], _ => .ok none
  | hb :: rest, i =>
    if hb.tag ≠ HASHBUCKET_TAG then .error 4
    else if comp key hb.key = 0 then .ok (some i)
    else chain_find comp key rest (i + 1)

/-- The internal `lookup`: its return code, the slot selected, the position
of the bucket found in that slot's chain, and the value found. -/
def lookup {K W : Type} (ht : hashtable K W) (key : Option K) :
    Int × Nat × Option Nat × Option W :=
  let slot := slot_index (ht.hash key) ht.size
  let chain := ht.table.getD slot []
  match chain_find ht.comp key chain 0 with
  | .error e => (e, slot, none, none)
  | .ok none => (-1, slot, none, none)
  | .ok (some i) =>
    (0, slot, some i, match chain.get? i with
                      | some hb => hb.val
                      | none => none)

/-- `ht_lookup`: 0 and the value when the key is present, else non-zero. -/
def ht_lookup {K W : Type} (p_ht : Option (hashtable K W)) (key : Option K) :
    Int × Option W :=
  match p_ht with
  | none => (1, none)
  | some ht =>
    if ht.tag ≠ HASHTABLE_TAG then (1, none)
    else
      match lookup ht key with
      | (0, _, some _, v) => (0, v)
      | (0, _, none, v) => (3, v)
      | (_, _, _, v) => (2, v)

/-- A pool bucket as `ht_create` and `ht_insert` initialise it. -/
def free_bucket {K W : Type} : hashbucket K W := { tag := 0, key := none, val := none }

/-- `ht_create` with a hash and a comparison function, after a successful
`malloc`: `p_size` empty slots and the first block of `BLOCK_SIZE` buckets in
the pool. -/
def ht_create {K W : Type} (p_size : Nat) (p_hash : Option K → Nat)
    (p_comp : Option K → Option K → Int) (p_kdel p_vdel : Bool) : hashtable K W :=
  { tag := HASHTABLE_TAG, size := p_size, table := List.replicate p_size [],
    hash := p_hash, comp := p_comp, kdel := p_kdel, vdel := p_vdel,
    pool := List.replicate BLOCK_SIZE free_bucket, blocks := 0,
    old_size := 0, curr_slot := 0, item_count := 0 }

/-- `ht_insert`, given whether the `malloc` of a new bucket block would
succeed: the return code, the table afterwards, and whether `malloc` was
called.  (`lookup` always selects a slot, so the return code 3 of the C
function has no counterpart.) -/
def ht_insert {K W : Type} (p_ht : Option (hashtable K W)) (p_key : Option K)
    (p_val : Option W) (mallocOk : Bool) : Int × Option (hashtable K W) × Bool :=
  match p_ht with
  | none => (1, none, false)
  | some ht =>
    if ht.tag ≠ HASHTABLE_TAG then (1, some ht, false)
    else
      match lookup ht p_key with
      | (rc, slot, found, _) =>
        if rc > 0 then (2, some ht, false)
        else
          match found with
          | some i =>
            let chain := ht.table.getD slot []
            match chain.get? i with
            | some hb =>
              (0, some { ht with
                          table := ht.table.set slot
                            (chain.set i { hb with key := p_key, val := p_val }) }, false)
            | none => (0, some ht, false)
          | none =>
            if ht.pool.isEmpty && !mallocOk then (4, some ht, true)
            else
              let grown := ht.pool.isEmpty
              let pool := if grown then List.replicate BLOCK_SIZE free_bucket else ht.pool
              let blocks := if grown then ht.blocks + 1 else ht.blocks
              let hb : hashbucket K W := { tag := HASHBUCKET_TAG, key := p_key, val := p_val }
              (0, some { ht with
                          pool := pool.tail,
                          blocks := blocks,
                          table := ht.table.set slot (hb :: ht.table.getD slot []),
                          item_count := ht.item_count + 1 }, grown)

/-! ## The arena of `eval.c` and the evaluator state -/

def MIN_ALLOC_SIZE : Nat := 5000

def EVAL_SYNTAX_ERROR : Int := 1
def EVAL_DIVIDE_BY_ZERO : Int := 2
def EVAL_UNKNOWN_NAME : Int := 3
def EVAL_BAD_LITERAL : Int := 4
def EVAL_MEM_ERROR : Int := 5
def EVAL_CONVERT_ERROR : Int := 6
def EVAL_NESTED_PARENS : Int := 7
def EVAL_NULL_EXPRESSION : Int := 8
def EVAL_FUNCTION_ERROR : Int := 9
def EVAL_ARGS_ERROR : Int := 10

/-- One invocation of a registered callable, as recorded in `State.calls`:
the argument count and the argument array it was handed. -/
structure Call (V : Type) where
  args : Int
  arg : List (Option V)
deriving DecidableEq

/-- The process-wide state of `eval.c`.  `G_cur_node` lists the capacities of
the arena blocks, head first.  `recurse` is the static counter of `eval`,
`done` the static flag of `set_funcs`.  Two fields are bookkeeping of the
embedding and are never read by the code: `mallocs` counts the calls of
`malloc` made so far (the index into the oracle), `calls` records every
invocation of a callable, oldest first. -/
structure State (V : Type) where
  G_eval_error : Int
  G_pb_token : Token V
  G_cur_node : List Nat
  G_cur_data_pos : Nat
  G_cur_data_size : Nat
  G_varfn_table : Option (hashtable (List Char) (VarFn V))
  G_var_count : Int
  recurse : Int
  done : Bool
  mallocs : Nat
  calls : List (Call V)

/-- What the evaluator is run against: the double arithmetic, the `malloc`
oracle, and the bodies of the built-in functions of `func.c` (`fn[i]`), which
are numeric code outside the evaluator. -/
structure Env (V : Type) where
  A : Arith V
  malloc : Nat → Bool
  fn : Nat → Int → List (Option V) → Data → Int × Option V

variable {V : Type}

/-- The token `pull_token` starts from, also the empty pushback slot. -/
def null_token (E : Env V) : Token V :=
  { type := NUL, value := E.A.zero, args := 0, fn := none, data := none }

/-- The state of a freshly loaded program. -/
def initial_state (E : Env V) : State V :=
  { G_eval_error := 0, G_pb_token := null_token E, G_cur_node := [],
    G_cur_data_pos := 0, G_cur_data_size := 0, G_varfn_table := none,
    G_var_count := 0, recurse := 0, done := false, mallocs := 0, calls := [] }

/-- `lalloc(size)`: whether a pointer was returned (`false`: `NULL`), and the
state afterwards. -/
def lalloc (E : Env V) (size : Nat) (s : State V) : Bool × State V :=
  if size > s.G_cur_data_size - s.G_cur_data_pos then
    let asize := if size < MIN_ALLOC_SIZE then MIN_ALLOC_SIZE else size + MIN_ALLOC_SIZE
    let s1 := { s with mallocs := s.mallocs + 1 }
    if E.malloc s.mallocs then
      (true, { s1 with G_cur_node := asize :: s.G_cur_node,
                       G_cur_data_pos := size, G_cur_data_size := asize })
    else (false, s1)
  else (true, { s with G_cur_data_pos := s.G_cur_data_pos + size })

/-- `lfreeall()`. -/
def lfreeall (s : State V) : State V :=
  { s with G_cur_node := [], G_cur_data_pos := 0, G_cur_data_size := 0 }

/-- `strlen` of a C string held in a list: the characters before the first
NUL. -/
def strlen : List Char → Nat
  | [] => 0
  | c :: cs => if c = NUL then 0 else strlen cs + 1

/-- `copy_str(str, lim)`: only its effect on the arena is kept, the copy
itself is read by debugging output alone. -/
def copy_str (E : Env V) (str : List Char) (lim : Int) (s : State V) : Bool × State V :=
  let len : Int := strlen str
  let lim := if lim ≤ 0 then len else lim
  let len := if len > lim then lim else len
  lalloc E (len + 1).toNat s

/-! ## The symbol table -/

/-- `vhash`: the sum of `k[i] << i` over the first 32 characters, in 32-bit
arithmetic (characters are taken to be 7-bit, as every key of the evaluator
is). -/
def vhash_loop : List Char → Nat → Nat → Nat
  | [], _, h => h
  | c :: cs, i, h =>
    if c = NUL ∨ ¬ i < 32 then h else vhash_loop cs (i + 1) ((h + c.toNat * 2 ^ i) % 2 ^ 32)

def vhash (key : Option (List Char)) : Nat :=
  match key with
  | none => 0
  | some k => vhash_loop k 0 0

/-- `vcomp`: `strcmp` allowing `NULL`s. -/
def vcomp (key1 key2 : Option (List Char)) : Int :=
  match key1, key2 with
  | none, none => 0
  | none, some _ => -1
  | some _, none => 1
  | some a, some b => strcmp a b

/-- `create_fn` after a successful `malloc`. -/
def create_fn (E : Env V) (name : List Char) (fn : Option (FunctionPtr V)) (args : Int)
    (data : Data) : VarFn V :=
  { value := E.A.zero, fn := fn, nargs := args, data := data, name := name }

/-- `create_var` after a successful `malloc`. -/
def create_var (name : List Char) (value : V) : VarFn V :=
  { value := value, fn := none, nargs := 0, data := none, name := name }

/-- The allocation of `G_varfn_table` that opens `eval_set_var`,
`eval_get_var` and `eval_def_fn`: `ht_create(500, vhash, vcomp, NULL, vdel)`
when the table is still `NULL`.  `false` when `ht_create` returned `NULL`. -/
def ensure_table (E : Env V) (s : State V) : Bool × State V :=
  match s.G_varfn_table with
  | some _ => (true, s)
  | none =>
    let s1 := { s with mallocs := s.mallocs + 1 }
    if E.malloc s.mallocs then
      (true, { s1 with G_varfn_table := some (ht_create 500 vhash vcomp false true) })
    else (false, s1)

/-- Writing through the pointer a lookup returned (`f->fn = fn`,
`var->value = value`): the entry stored under `name` is replaced. -/
def table_store (s : State V) (name : List Char) (vf : VarFn V) : State V :=
  match s.G_varfn_table with
  | none => s
  | some ht =>
    match lookup ht (some name) with
    | (_, slot, some i, _) =>
      let chain := ht.table.getD slot []
      match chain.get? i with
      | some hb =>
        let hb1 : hashbucket (List Char) (VarFn V) := { hb with val := some vf }
        let ht1 : hashtable (List Char) (VarFn V) :=
          { ht with table := ht.table.set slot (chain.set i hb1) }
        { s with G_varfn_table := some ht1 }
      | none => s
    | _ => s

/-- The body of `eval_def_fn` after its call of `set_funcs`.  (A lookup that
succeeds with a `NULL` value cannot occur, every value inserted being a
record; the code would dereference `NULL` there and the embedding leaves the
state alone.) -/
def eval_def_fn_body (E : Env V) (name : List Char) (fn : Option (FunctionPtr V))
    (data : Data) (args : Int) (s : State V) : Int × State V :=
  match ensure_table E s with
  | (false, s) => (1, s)
  | (true, s) =>
    match ht_lookup s.G_varfn_table (some name) with
    | (0, some f) =>
      if f.fn.isNone then (4, s)
      else (0, table_store s name { f with fn := fn, data := data, nargs := args })
    | (0, none) => (0, s)
    | _ =>
      let s1 := { s with mallocs := s.mallocs + 1 }
      if E.malloc s.mallocs then
        let f := create_fn E name fn args data
        match ht_insert s1.G_varfn_table (some f.name) (some f) (E.malloc s1.mallocs) with
        | (rc, t, called) =>
          let s2 := { s1 with G_varfn_table := t,
                              mallocs := if called then s1.mallocs + 1 else s1.mallocs }
          if rc ≠ 0 then (3, s2) else (0, s2)
      else (2, s1)

/-- The names of the built-in functions, `fnname[]` of `func.c`. -/
def fnname : List String :=
  ["abs", "int", "round", "trunc", "floor", "ceil",
   "sin", "cos", "tan", "asin", "acos", "atan",
   "sinh", "cosh", "tanh", "asinh", "acosh", "atanh",
   "ln", "exp", "log", "sqrt", "rand", "sum",
   "min", "max", "avg", "med", "var", "std",
   "deg", "rad", "fact", "sign"]

/-- The arities of the built-in functions, `fnargs[]` of `func.c`. -/
def fnargs : List Int :=
  [1, 1, 1, 1, 1, 1, 1, 1, 1, 1, 1, 1, 1, 1, 1, 1, 1, 1, 1, 1, 1, 1, 0,
   -1, -1, -1, -1, -1, -1, -1, 1, 1, 1, 1, 0]

/-- The loop of `set_funcs`: define the built-ins from index `i` on, stopping
at the first failure. -/
def set_funcs_loop (E : Env V) : List String → Nat → State V → Int × State V
  | [], _, s => (0, s)
  | nm :: rest, i, s =>
    match eval_def_fn_body E nm.toList (some (FunctionPtr.native (E.fn i))) none
        (fnargs.getD i 0) s with
    | (rc, s1) => if rc ≠ 0 then (1, s1) else set_funcs_loop E rest (i + 1) s1

/-- `set_funcs`: install the built-in functions once.  The calls of
`eval_def_fn` it makes find `done` set, so their own `set_funcs` does
nothing. -/
def set_funcs (E : Env V) (s : State V) : Int × State V :=
  if s.done then (0, s)
  else set_funcs_loop E fnname 0 { s with done := true }

/-- `eval_def_fn`. -/
def eval_def_fn (E : Env V) (name : List Char) (fn : Option (FunctionPtr V))
    (data : Data) (args : Int) (s : State V) : Int × State V :=
  eval_def_fn_body E name fn data args (set_funcs E s).2

/-! ## The tokenizer -/

/-- The loop `while(isspace(buf[i])) i++`, run on the text from `buf[i]` on. -/
def skip_space : List Char → Nat → Nat
  | [], i => i
  | c :: cs, i => if isspace c then skip_space cs (i + 1) else i

/-- The scanning loops of `pull_token`, run on the text from `buf[i]` on:
`while(p(buf[i])) { if(j < 100) tbuf[j++] = buf[i]; i++; }` with `tbuf` the
characters stored so far (`j` is its length). -/
def scan (p : Char → Bool) : List Char → List Char → Nat → List Char × Nat
  | [], tbuf, i => (tbuf, i)
  | c :: cs, tbuf, i =>
    if p c then scan p cs (if tbuf.length < 100 then tbuf ++ [c] else tbuf) (i + 1)
    else (tbuf, i)

/-- The characters an identifier continues with. -/
def isident (c : Char) : Bool := isalpha c || isdigit c || c = '_'

/-- The single-character tokens of `pull_token`'s `switch`. -/
def is_op_char (c : Char) : Bool :=
  c = '+' || c = '-' || c = '*' || c = '/' || c = BSLASH || c = '%' || c = '^' ||
  c = '(' || c = ')' || c = ','

/-- `pull_token(buf, pos)` for a non-`NULL` `buf`: the token, the new `*pos`
and the state.  Two branches of the C function are dead and left out: the
test `tok.str == NULL` of the number case (`tok.str` points to `tok.buf`
there), and a lookup that succeeds with a `NULL` entry (every entry inserted
is a record), where the embedding returns the empty token. -/
def pull_token (E : Env V) (buf : List Char) (pos : Nat) (s : State V) :
    Token V × Nat × State V :=
  let tok := null_token E
  if s.G_pb_token.type ≠ NUL then
    (s.G_pb_token, pos, { s with G_pb_token := null_token E })
  else
    let i := skip_space (buf.drop pos) pos
    let c := charAt buf i
    if is_op_char c then
      ({ tok with type := c }, i + 1, s)
    else if isdigit c || c = '.' then
      let r1 := scan isdigit (buf.drop i) [] i
      let r2 :=
        if charAt buf r1.2 = '.' then
          scan isdigit (buf.drop (r1.2 + 1))
            (if r1.1.length < 100 then r1.1 ++ ['.'] else r1.1) (r1.2 + 1)
        else r1
      if r2.1.length = 100 then
        (tok, r2.2, { s with G_eval_error := EVAL_BAD_LITERAL })
      else
        let s1 := (copy_str E r2.1 0 s).2
        ({ tok with value := E.A.strtod r2.1, type := 'n' }, r2.2, s1)
    else if isalpha c || c = '_' then
      let r := scan isident (buf.drop i) [] i
      match ht_lookup s.G_varfn_table (some r.1) with
      | (0, some vf) =>
        let s1 := (copy_str E r.1 0 s).2
        ({ tok with args := vf.nargs, fn := vf.fn, data := vf.data, value := vf.value,
                    type := if vf.fn.isNone then 'v' else 'f' }, r.2, s1)
      | (0, none) => (tok, r.2, s)
      | _ => (tok, r.2, { s with G_eval_error := EVAL_UNKNOWN_NAME })
    else if c = NUL then
      (tok, i, s)
    else
      (tok, i, { s with G_eval_error := EVAL_SYNTAX_ERROR })

/-- `push_token(tok)`: the return code and the state. -/
def push_token (tok : Token V) (s : State V) : Int × State V :=
  if s.G_pb_token.type ≠ NUL then (1, s)
  else (0, { s with G_pb_token := tok })

/-! ## The grammar procedures -/

/-- The loop `while(tok.type == '%') { rv = rv/100.0; tok = pull_token(buf, pos); }`
that ends `eval_item`. -/
def percent_loop (E : Env V) :
    Nat → List Char → Nat → V → Token V → State V → Option (V × Token V × Nat × State V)
  | 0, _, _, _, _, _ => none
  | fuel + 1, buf, pos, rv, tok, s =>
    if tok.type = '%' then
      match pull_token E buf pos s with
      | (tok1, pos1, s1) => percent_loop E fuel buf pos1 (E.A.div rv E.A.hundred) tok1 s1
    else some (rv, tok, pos, s)

/-- The statements of `eval_item` after its `switch`: pull a token, apply the
trailing percent signs, push back the token that ended them. -/
def eval_item_tail (E : Env V) (fuel : Nat) (buf : List Char) (pos : Nat) (rv : V)
    (s : State V) : Option (V × Nat × State V) :=
  match pull_token E buf pos s with
  | (tok, pos1, s1) =>
    match percent_loop E fuel buf pos1 rv tok s1 with
    | none => none
    | some (rv1, tok1, pos2, s2) =>
      if tok1.type ≠ NUL then some (rv1, pos2, (push_token tok1 s2).2)
      else some (rv1, pos2, s2)

/-- The copy loop of `eval_args` into the newly allocated array of
`arglen + 8` cells: `tmp[i] = (*arg)[i]` for `i < arglen`. -/
def copy_args (arg : List (Option V)) (arglen : Nat) : List (Option V) :=
  (List.range (arglen + 8)).map (fun i => if i < arglen then arg.getD i none else none)

/-- The result of `eval_args`: its return code, `*pos`, `*args`, the array
`*arg` (the empty list for `NULL`), `*arglen`, and the state. -/
structure ArgsResult (V : Type) where
  rc : Int
  pos : Nat
  args : Int
  arg : List (Option V)
  arglen : Nat
  st : State V

mutual

/-- `eval_expr`: `expr = term+expr | term-expr | term`. -/
def eval_expr (E : Env V) : Nat → List Char → Nat → State V → Option (V × Nat × State V)
  | 0, _, _, _ => none
  | fuel + 1, buf, pos, s =>
    match eval_term E fuel buf pos s with
    | none => none
    | some (lhs, pos1, s1) =>
      if s1.G_eval_error ≠ 0 then some (E.A.zero, pos1, s1)
      else
        match pull_token E buf pos1 s1 with
        | (tok, pos2, s2) =>
          if s2.G_eval_error ≠ 0 then some (E.A.zero, pos2, s2)
          else if tok.type = NUL then some (lhs, pos2, s2)
          else if tok.type = '+' then
            match eval_expr E fuel buf pos2 s2 with
            | none => none
            | some (rhs, pos3, s3) => some (E.A.add lhs rhs, pos3, s3)
          else if tok.type = '-' then
            match eval_expr E fuel buf pos2 s2 with
            | none => none
            | some (rhs, pos3, s3) => some (E.A.sub lhs rhs, pos3, s3)
          else if tok.type = ')' then some (lhs, pos2, (push_token tok s2).2)
          else if tok.type = ',' then some (lhs, pos2, (push_token tok s2).2)
          else some (lhs, pos2, { s2 with G_eval_error := EVAL_SYNTAX_ERROR })
termination_by structural fuel _ _ _ => fuel

/-- `eval_term`: `term = fact*term | fact/term | fact\term | fact`. -/
def eval_term (E : Env V) : Nat → List Char → Nat → State V → Option (V × Nat × State V)
  | 0, _, _, _ => none
  | fuel + 1, buf, pos, s =>
    match eval_fact E fuel buf pos s with
    | none => none
    | some (lhs, pos1, s1) =>
      if s1.G_eval_error ≠ 0 then some (E.A.zero, pos1, s1)
      else
        match pull_token E buf pos1 s1 with
        | (tok, pos2, s2) =>
          if s2.G_eval_error ≠ 0 then some (E.A.zero, pos2, s2)
          else if tok.type = NUL then some (lhs, pos2, s2)
          else if tok.type = '*' then
            match eval_term E fuel buf pos2 s2 with
            | none => none
            | some (rhs, pos3, s3) => some (E.A.mul lhs rhs, pos3, s3)
          else if tok.type = '/' then
            match eval_term E fuel buf pos2 s2 with
            | none => none
            | some (rhs, pos3, s3) =>
              if E.A.isZero rhs then
                some (E.A.zero, pos3, { s3 with G_eval_error := EVAL_DIVIDE_BY_ZERO })
              else some (E.A.div lhs rhs, pos3, s3)
          else if tok.type = BSLASH then
            match eval_term E fuel buf pos2 s2 with
            | none => none
            | some (rhs, pos3, s3) =>
              if E.A.isZero rhs then
                some (E.A.zero, pos3, { s3 with G_eval_error := EVAL_DIVIDE_BY_ZERO })
              else some (E.A.fmod lhs rhs, pos3, s3)
          else some (lhs, pos2, (push_token tok s2).2)
termination_by structural fuel _ _ _ => fuel

/-- `eval_fact`: `fact = item^fact | item`. -/
def eval_fact (E : Env V) : Nat → List Char → Nat → State V → Option (V × Nat × State V)
  | 0, _, _, _ => none
  | fuel + 1, buf, pos, s =>
    match eval_item E fuel buf pos s with
    | none => none
    | some (lhs, pos1, s1) =>
      if s1.G_eval_error ≠ 0 then some (E.A.zero, pos1, s1)
      else
        match pull_token E buf pos1 s1 with
        | (tok, pos2, s2) =>
          if s2.G_eval_error ≠ 0 then some (E.A.zero, pos2, s2)
          else if tok.type = NUL then some (lhs, pos2, s2)
          else if tok.type = '^' then
            match eval_fact E fuel buf pos2 s2 with
            | none => none
            | some (rhs, pos3, s3) =>
              if s3.G_eval_error ≠ 0 then some (E.A.zero, pos3, s3)
              else some (E.A.pow lhs rhs, pos3, s3)
          else some (lhs, pos2, (push_token tok s2).2)
termination_by structural fuel _ _ _ => fuel

/-- `eval_item`: a signed factor, a variable, a function call, a number or a
parenthesised expression, followed by any number of percent signs.  Each
invocation of a callable is appended to `calls` first.  (A function token
always carries a callable; a call through `NULL` has no result.) -/
def eval_item (E : Env V) : Nat → List Char → Nat → State V → Option (V × Nat × State V)
  | 0, _, _, _ => none
  | fuel + 1, buf, pos, s =>
    match pull_token E buf pos s with
    | (tok, pos1, s1) =>
      if s1.G_eval_error ≠ 0 then some (E.A.zero, pos1, s1)
      else if tok.type = '+' then
        match eval_fact E fuel buf pos1 s1 with
        | none => none
        | some (v, pos2, s2) => eval_item_tail E fuel buf pos2 v s2
      else if tok.type = '-' then
        match eval_fact E fuel buf pos1 s1 with
        | none => none
        | some (v, pos2, s2) => eval_item_tail E fuel buf pos2 (E.A.neg v) s2
      else if tok.type = 'v' then eval_item_tail E fuel buf pos1 tok.value s1
      else if tok.type = 'f' then
        match pull_token E buf pos1 s1 with
        | (tok2, pos2, s2) =>
          if s2.G_eval_error ≠ 0 then eval_item_tail E fuel buf pos2 E.A.zero s2
          else if tok2.type ≠ '(' then
            eval_item_tail E fuel buf pos2 E.A.zero { s2 with G_eval_error := EVAL_SYNTAX_ERROR }
          else
            let tlen : Nat := if tok.args > 0 then tok.args.toNat else 0
            let a := if tok.args > 0 then lalloc E (8 * tlen) s2 else (true, s2)
            if a.1 = false then
              eval_item_tail E fuel buf pos2 E.A.zero { a.2 with G_eval_error := EVAL_MEM_ERROR }
            else
              match eval_args E fuel buf pos2 tok.args (List.replicate tlen none) tlen 0 a.2 with
              | none => none
              | some r =>
                if r.rc ≠ 0 then eval_item_tail E fuel buf r.pos E.A.zero r.st
                else if (tok.args < 0 ∧ r.args < 1) ∨ (¬ tok.args < 0 ∧ r.args ≠ tok.args) then
                  eval_item_tail E fuel buf r.pos E.A.zero
                    { r.st with G_eval_error := EVAL_ARGS_ERROR }
                else
                  match pull_token E buf r.pos r.st with
                  | (tok3, pos3, s3) =>
                    if tok3.type ≠ ')' then
                      eval_item_tail E fuel buf pos3 E.A.zero
                        { s3 with G_eval_error := EVAL_SYNTAX_ERROR }
                    else if s3.G_eval_error ≠ 0 then eval_item_tail E fuel buf pos3 E.A.zero s3
                    else
                      let s4 := { s3 with calls := s3.calls ++ [{ args := r.args, arg := r.arg }] }
                      match tok.fn with
                      | none => none
                      | some (FunctionPtr.native f) =>
                        let out := f r.args r.arg tok.data
                        eval_item_tail E fuel buf pos3 (out.2.getD E.A.zero)
                          (if out.1 ≠ 0 then { s4 with G_eval_error := EVAL_FUNCTION_ERROR }
                           else s4)
                      | some FunctionPtr.cust_func =>
                        match eval E fuel tok.data (some E.A.zero) s4 with
                        | none => none
                        | some (code, out, s5) =>
                          eval_item_tail E fuel buf pos3 (out.getD E.A.zero)
                            (if code ≠ 0 then { s5 with G_eval_error := EVAL_FUNCTION_ERROR }
                             else s5)
      else if tok.type = 'n' then eval_item_tail E fuel buf pos1 tok.value s1
      else if tok.type = '(' then
        match eval_expr E fuel buf pos1 s1 with
        | none => none
        | some (v, pos2, s2) =>
          match pull_token E buf pos2 s2 with
          | (tok2, pos3, s3) =>
            eval_item_tail E fuel buf pos3 v
              (if tok2.type ≠ ')' then { s3 with G_eval_error := EVAL_SYNTAX_ERROR } else s3)
      else eval_item_tail E fuel buf pos1 E.A.zero (push_token tok s1).2
termination_by structural fuel _ _ _ => fuel

/-- `eval_args`: `args = expr,args | expr |`, storing argument number `argpos`
and those after it. -/
def eval_args (E : Env V) :
    Nat → List Char → Nat → Int → List (Option V) → Nat → Nat → State V →
      Option (ArgsResult V)
  | 0, _, _, _, _, _, _, _ => none
  | fuel + 1, buf, pos, args, arg, arglen, argpos, s =>
    match pull_token E buf pos s with
    | (tok, pos1, s1) =>
      let s2 := (push_token tok s1).2
      if tok.type = ')' then
        some { rc := 0, pos := pos1, args := args, arg := arg, arglen := arglen,
               st := (push_token tok s2).2 }
      else
        let args1 : Int := argpos + 1
        let a := if argpos ≥ arglen then lalloc E (8 * (arglen + 8)) s2 else (true, s2)
        if a.1 = false then
          some { rc := 1, pos := pos1, args := args1, arg := arg, arglen := arglen,
                 st := { a.2 with G_eval_error := EVAL_MEM_ERROR } }
        else
          let arg1 := if argpos ≥ arglen then copy_args arg arglen else arg
          let arglen1 := if argpos ≥ arglen then arglen + 8 else arglen
          match eval_expr E fuel buf pos1 a.2 with
          | none => none
          | some (v, pos2, s3) =>
            let arg2 := arg1.set argpos (some v)
            if s3.G_eval_error ≠ 0 then
              some { rc := 2, pos := pos2, args := args1, arg := arg2, arglen := arglen1, st := s3 }
            else
              match pull_token E buf pos2 s3 with
              | (tok2, pos3, s4) =>
                if tok2.type = ',' then
                  match eval_args E fuel buf pos3 args1 arg2 arglen1 (argpos + 1) s4 with
                  | none => none
                  | some r => if r.rc ≠ 0 then some { r with rc := 3 } else some r
                else if tok2.type = ')' then
                  some { rc := 0, pos := pos3, args := args1, arg := arg2, arglen := arglen1,
                         st := (push_token tok2 s4).2 }
                else
                  some { rc := 4, pos := pos3, args := args1, arg := arg2, arglen := arglen1,
                         st := { s4 with G_eval_error := EVAL_SYNTAX_ERROR } }
termination_by structural fuel _ _ _ _ _ _ _ => fuel

/-- `eval(expr, result)`: the return code, the content of the output slot
afterwards (`result` is `none` for a `NULL` pointer, else the content of the
slot before the call) and the state. -/
def eval (E : Env V) :
    Nat → Option (List Char) → Option V → State V → Option (Int × Option V × State V)
  | 0, _, _, _ => none
  | fuel + 1, expr, result, s =>
    let s1 := (set_funcs E { s with recurse := s.recurse + 1 }).2
    match expr with
    | none => some (EVAL_NULL_EXPRESSION, result, s1)
    | some buf =>
      match eval_expr E fuel buf 0 { s1 with G_eval_error := 0, G_pb_token := null_token E } with
      | none => none
      | some (rv, _, s2) =>
        let s3 := { s2 with recurse := s2.recurse - 1 }
        let s4 := if s3.recurse = 0 then lfreeall s3 else s3
        if s4.G_eval_error ≠ 0 then some (s4.G_eval_error, result, s4)
        else some (0, result.map (fun _ => rv), s4)
termination_by structural fuel _ _ _ => fuel

end

/-! ## Vocabulary of the statements -/

/-- The token of a single-character operator. -/
def op_token (E : Env V) (c : Char) : Token V := { null_token E with type := c }

/-- The token of a numeric literal. -/
def num_token (E : Env V) (w : List Char) : Token V :=
  { null_token E with value := E.A.strtod w, type := 'n' }

/-- A numeric literal: digits, optionally followed by a point and digits,
not empty. -/
def is_literal (w : List Char) : Bool :=
  !w.isEmpty &&
    ((w.dropWhile isdigit).isEmpty ||
      ((w.dropWhile isdigit).head? = some '.' && (w.dropWhile isdigit).tail.all isdigit))

/-- The state `s1` agrees with `s` on everything but the pushback slot and
the arena. -/
def Keeps (s s1 : State V) : Prop :=
  s1.G_eval_error = s.G_eval_error ∧ s1.G_varfn_table = s.G_varfn_table ∧
  s1.done = s.done ∧ s1.recurse = s.recurse ∧ s1.calls = s.calls ∧
  s1.G_var_count = s.G_var_count

/-- The unread input at cursor `pos` in state `s` is `rest`: either the
pushback slot is empty and `buf` reads `rest` from `pos` on, or the slot holds
the token that a pull at some `p0` returns, `buf` reads `rest` from `p0` on,
and `pos` is where that pull leaves the cursor. -/
def TextAt (E : Env V) (buf : List Char) (pos : Nat) (s : State V) (rest : List Char) : Prop :=
  (s.G_pb_token = null_token E ∧ buf.drop pos = rest) ∨
  (s.G_pb_token.type ≠ NUL ∧ ∃ p0, buf.drop p0 = rest ∧
    (pull_token E buf p0 { s with G_pb_token := null_token E }).1 = s.G_pb_token ∧
    (pull_token E buf p0 { s with G_pb_token := null_token E }).2.1 = pos)

/-- What may follow a piece of text handled by a grammar procedure: the end
of the input, or a single-character token the procedure leaves alone. -/
def Delim (stop : Char → Bool) (rest : List Char) : Prop :=
  rest = [] ∨ ∃ c r, rest = c :: r ∧ is_op_char c = true ∧ stop c = true

/-- The tokens `eval_item` leaves alone: all but the percent sign. -/
def stopI (c : Char) : Bool := c != '%'

/-- The tokens `eval_fact` leaves alone. -/
def stopF (c : Char) : Bool := c != '%' && c != '^'

/-- The tokens `eval_term` leaves alone. -/
def stopT (c : Char) : Bool := c != '%' && c != '^' && c != '*' && c != '/' && c != BSLASH

/-- The tokens `eval_expr` leaves alone without raising an error. -/
def stopE (c : Char) : Bool := c == ')' || c == ','

/-- `YieldsFrom n E P stop T e v`: with fuel `n` or more, wherever the unread
input starts with the text `e`, followed by the end of the input or by a
token that `stop` accepts, the procedure `P` run in an error-free state with
symbol table `T` (the built-ins installed) returns `v`, raises no error, and
leaves what follows `e` unread. -/
def YieldsFrom (n : Nat) (E : Env V)
    (P : Nat → List Char → Nat → State V → Option (V × Nat × State V))
    (stop : Char → Bool) (T : Option (hashtable (List Char) (VarFn V)))
    (e : List Char) (v : V) : Prop :=
  ∀ fuel, n ≤ fuel → ∀ buf pos (s : State V) rest,
    TextAt E buf pos s (e ++ rest) → Delim stop rest →
    s.G_eval_error = 0 → s.G_varfn_table = T → s.done = true →
    ∃ pos1 s1, P fuel buf pos s = some (v, pos1, s1) ∧ TextAt E buf pos1 s1 rest ∧
      s1.G_eval_error = 0 ∧ s1.G_varfn_table = T ∧ s1.done = true

/-- `Yields E P stop T e v`: `YieldsFrom` for some amount of fuel. -/
def Yields (E : Env V) (P : Nat → List Char → Nat → State V → Option (V × Nat × State V))
    (stop : Char → Bool) (T : Option (hashtable (List Char) (VarFn V)))
    (e : List Char) (v : V) : Prop :=
  ∃ n, YieldsFrom n E P stop T e v

/-- The return code and the output slot of a run of `eval`. -/
def outcome (r : Option (Int × Option V × State V)) : Option (Int × Option V) :=
  r.map (fun x => (x.1, x.2.1))

/-! ## An exact instance of the arithmetic

The concrete runs below need numbers.  `Exact` is the field of fractions in
lowest terms; on the values that occur in those runs (small integers and
fractions such as 1/2) its operations are those of `double`, which represents
them without rounding. -/

/-- A fraction `num/den` in lowest terms, `den` positive. -/
structure Exact where
  num : Int
  den : Nat
deriving DecidableEq, Repr

namespace Exact

/-- The fraction `n/d` reduced to lowest terms (`0` when `d = 0`). -/
def norm (n : Int) (d : Nat) : Exact :=
  if d = 0 then ⟨0, 1⟩ else ⟨n / (Nat.gcd n.natAbs d : Nat), d / Nat.gcd n.natAbs d⟩

def add (x y : Exact) : Exact := norm (x.num * y.den + y.num * x.den) (x.den * y.den)

def neg (x : Exact) : Exact := ⟨-x.num, x.den⟩

def sub (x y : Exact) : Exact := add x (neg y)

def mul (x y : Exact) : Exact := norm (x.num * y.num) (x.den * y.den)

/-- The reciprocal (`0` for `0`, which no run below divides by). -/
def inv (x : Exact) : Exact :=
  if x.num = 0 then ⟨0, 1⟩
  else if 0 < x.num then ⟨x.den, x.num.natAbs⟩ else ⟨-x.den, x.num.natAbs⟩

def div (x y : Exact) : Exact := mul x (inv y)

/-- `fmod(x, y)`: `x - y * trunc(x/y)`. -/
def fmod (x y : Exact) : Exact :=
  sub x (mul y ⟨Int.tdiv (div x y).num (div x y).den, 1⟩)

/-- `pow(x, y)` for an integer `y` (`0` for any other exponent, where the
result need not be a fraction). -/
def pow (x y : Exact) : Exact :=
  if y.den = 1 then
    if 0 ≤ y.num then norm (x.num ^ y.num.toNat) (x.den ^ y.num.toNat)
    else inv (norm (x.num ^ y.num.natAbs) (x.den ^ y.num.natAbs))
  else ⟨0, 1⟩

/-- The number a string of decimal digits denotes. -/
def digits : List Char → Nat → Nat
  | [], acc => acc
  | c :: cs, acc => digits cs (10 * acc + (c.toNat - 48))

/-- `strtod` on a decimal literal: digits, optionally a point and digits. -/
def strtod (s : List Char) : Exact :=
  let ip := s.takeWhile isdigit
  let fp := match s.dropWhile isdigit with
            | '.' :: r => r.takeWhile isdigit
            | _ => []
  norm (digits (ip ++ fp) 0) (10 ^ fp.length)

end Exact

/-- Exact arithmetic on fractions. -/
def exactArith : Arith Exact :=
  { zero := ⟨0, 1⟩, hundred := ⟨100, 1⟩, add := Exact.add, sub := Exact.sub, mul := Exact.mul,
    div := Exact.div, fmod := Exact.fmod, pow := Exact.pow, neg := Exact.neg,
    isZero := fun x => x.num = 0, strtod := Exact.strtod }

/-- The environment of the concrete runs: exact arithmetic, a `malloc` that
always succeeds, and built-in functions that all return their first argument
(their numeric bodies play no part in the runs). -/
def exactEnv : Env Exact :=
  { A := exactArith, malloc := fun _ => true,
    fn := fun _ _ arg _ => (0, arg.headD none) }

/-- A concrete run of `eval` from the state of a freshly loaded program, with
the output slot holding 0 beforehand. -/
def run (text : String) : Option (Int × Option Exact) :=
  outcome (eval exactEnv 64 (some text.toList) (some ⟨0, 1⟩) (initial_state exactEnv))

/-- The arithmetic operation a binary operator character denotes. -/
def binop (A : Arith V) (c : Char) : V → V → V :=
  if c = '+' then A.add else if c = '-' then A.sub else if c = '*' then A.mul
  else if c = '/' then A.div else A.fmod

/-- A concrete run that also shows the log of callable invocations. -/
def run_calls (text : String) : Option (Int × Option Exact × List (Call Exact)) :=
  (eval exactEnv 64 (some text.toList) (some ⟨0, 1⟩) (initial_state exactEnv)).map
    (fun r => (r.1, r.2.1, r.2.2.calls))

/-- The state after `eval_def_fn("f", f7, NULL, 1)` on a freshly loaded
program, `f7` being a callable that stores 7 and returns 0. -/
def state_f1 : State Exact :=
  (eval_def_fn exactEnv "f".toList (some (FunctionPtr.native (fun _ _ _ => (0, some ⟨7, 1⟩))))
    none 1 (initial_state exactEnv)).2

/-- The state after `eval_def_fn("g", cust_func, "1)", 0)`: `g` evaluates the
text `1)` with a nested call of `eval`. -/
def state_g_nested : State Exact :=
  (eval_def_fn exactEnv "g".toList (some FunctionPtr.cust_func) (some "1)".toList) 0
    (initial_state exactEnv)).2

/-- The state after `eval_def_fn("g", g1, NULL, 0)`, `g1` being a callable
that stores 1 and returns 0 without calling `eval`. -/
def state_g_plain : State Exact :=
  (eval_def_fn exactEnv "g".toList (some (FunctionPtr.native (fun _ _ _ => (0, some ⟨1, 1⟩))))
    none 0 (initial_state exactEnv)).2

/-- A natural-number literal: one or more digits. -/
def is_natural (w : List Char) : Bool := !w.isEmpty && w.all isdigit

/-- A numeric literal of exactly 100 characters: one hundred nines. -/
def hundred_nines : List Char := List.replicate 100 '9'

/-- A concrete run on a text given as a list of characters. -/
def run_chars (text : List Char) : Option (Int × Option Exact) :=
  outcome (eval exactEnv 64 (some text) (some ⟨0, 1⟩) (initial_state exactEnv))

/-- The state of a program whose built-in functions are installed and
nothing else done. -/
def state_ready : State Exact := (set_funcs exactEnv (initial_state exactEnv)).2

/-- The symbol entry of the built-in `sum`: variadic, with the body the
environment gives `fn[23]`. -/
def sum_entry : VarFn Exact :=
  { value := ⟨0, 1⟩, fn := some (FunctionPtr.native (exactEnv.fn 23)), nargs := -1,
    data := none, name := "sum".toList }

/-! ## Vocabulary for function calls -/

/-- An identifier: a letter or an underscore, then letters, digits and
underscores. -/
def is_name (w : List Char) : Bool :=
  match w with
  | [] => false
  | c :: cs => (isalpha c || c = '_') && cs.all isident

/-- The token of an identifier bound to the entry `vf`. -/
def name_token (E : Env V) (vf : VarFn V) : Token V :=
  { null_token E with args := vf.nargs, fn := vf.fn, data := vf.data, value := vf.value,
                      type := if vf.fn.isNone then 'v' else 'f' }

/-- Argument texts separated by commas. -/
def join_args : List (List Char) → List Char
  | [] => []
  | [e] => e
  | e :: es => e ++ ',' :: join_args es

/-- The text of a call: the name, `(`, the arguments separated by commas, `)`. -/
def call_text (name : List Char) (es : List (List Char)) : List Char :=
  name ++ '(' :: (join_args es ++ [')'])

/-- Wherever the text `e` is followed by a comma, a closing parenthesis or the
end of the input, its first token is neither the end of the input nor a
closing parenthesis, and pulling it raises no error. -/
def StartsArg (E : Env V) (T : Option (hashtable (List Char) (VarFn V)))
    (e : List Char) : Prop :=
  ∀ buf pos (s : State V) rest, s.G_pb_token = null_token E → s.G_varfn_table = T →
    buf.drop pos = e ++ rest → Delim stopE rest →
    (pull_token E buf pos s).1.type ≠ NUL ∧ (pull_token E buf pos s).1.type ≠ ')' ∧
    (pull_token E buf pos s).2.2.G_eval_error = s.G_eval_error

/-- An error-free argument expression with value `v`: a text that starts
with a token and that `eval_expr` evaluates to `v` without error wherever it
is followed by a comma, a closing parenthesis or the end of the input. -/
def ArgExpr (E : Env V) (T : Option (hashtable (List Char) (VarFn V)))
    (e : List Char) (v : V) : Prop :=
  StartsArg E T e ∧ Yields E (eval_expr E) stopE T e v

/-! ## Vocabulary for the entry point -/

/-- The state `s1` agrees with `s` on everything the tokenizer and the
grammar procedures work on: the error flag, the pushback slot, the arena, the
nesting depth and the log of invocations. -/
def SameSession (s s1 : State V) : Prop :=
  s1.G_eval_error = s.G_eval_error ∧ s1.G_pb_token = s.G_pb_token ∧
  s1.G_cur_node = s.G_cur_node ∧ s1.G_cur_data_pos = s.G_cur_data_pos ∧
  s1.G_cur_data_size = s.G_cur_data_size ∧ s1.recurse = s.recurse ∧ s1.calls = s.calls

/-- The symbol table a call of `eval` in state `s` tokenizes against: the
table of `s` once `set_funcs` has run. -/
def eval_table (E : Env V) (s : State V) : Option (hashtable (List Char) (VarFn V)) :=
  (set_funcs E { s with recurse := s.recurse + 1 }).2.G_varfn_table

/-- The value `v` after `k` rounds of the percent loop of `eval_item`, each of
which replaces `rv` by `rv/100.0`. -/
def percent (A : Arith V) (v : V) : Nat → V
  | 0 => v
  | k + 1 => percent A (A.div v A.hundred) k

/-! ## Vocabulary for determinism -/

/-- Two states that a grammar procedure cannot tell apart: they agree on the
error flag and the pushback slot, both hold the symbol table `T`, and both
have the built-ins installed.  The arena, the nesting depth and the
bookkeeping fields are free. -/
def Paired (T : Option (hashtable (List Char) (VarFn V))) (s s' : State V) : Prop :=
  s'.G_eval_error = s.G_eval_error ∧ s'.G_pb_token = s.G_pb_token ∧
  s.G_varfn_table = T ∧ s'.G_varfn_table = T ∧ s.done = true ∧ s'.done = true

/-- Two results of a grammar procedure that agree: both ran out of fuel, or
both returned the same value and cursor and left paired states. -/
def PairedRes (T : Option (hashtable (List Char) (VarFn V)))
    (r r' : Option (V × Nat × State V)) : Prop :=
  (r = none ∧ r' = none) ∨
  ∃ v p t t', r = some (v, p, t) ∧ r' = some (v, p, t') ∧ Paired T t t'

/-- Two results of `eval_args` that agree. -/
def PairedArgs (T : Option (hashtable (List Char) (VarFn V)))
    (r r' : Option (ArgsResult V)) : Prop :=
  (r = none ∧ r' = none) ∨
  ∃ rc p n a l t t', r = some ⟨rc, p, n, a, l, t⟩ ∧ r' = some ⟨rc, p, n, a, l, t'⟩ ∧
    Paired T t t'

/-- Two results of `eval` that agree. -/
def PairedEval (T : Option (hashtable (List Char) (VarFn V)))
    (r r' : Option (Int × Option V × State V)) : Prop :=
  (r = none ∧ r' = none) ∨
  ∃ c o t t', r = some (c, o, t) ∧ r' = some (c, o, t') ∧ Paired T t t'

/-! ## More states and entries for the concrete runs -/

/-- The state of a freshly loaded program after one call of `eval` with a
`NULL` text. -/
def state_after_null : State Exact :=
  match eval exactEnv 64 none (some ⟨0, 1⟩) (initial_state exactEnv) with
  | some r => r.2.2
  | none => initial_state exactEnv

/-- What a run of `eval` shows of the nesting depth and the arena: the return
code, the output slot, `recurse`, the blocks of the arena, and the position
and capacity of its head block. -/
structure DepthView where
  code : Int
  out : Option Exact
  recurse : Int
  blocks : List Nat
  pos : Nat
  size : Nat
deriving DecidableEq

/-- The view of a run of `eval`. -/
def depth_and_arena (r : Option (Int × Option Exact × State Exact)) : Option DepthView :=
  r.map (fun x => ⟨x.1, x.2.1, x.2.2.recurse, x.2.2.G_cur_node, x.2.2.G_cur_data_pos,
    x.2.2.G_cur_data_size⟩)

/-- An identifier of exactly 100 characters. -/
def hundred_letters : List Char := List.replicate 100 'a'

/-- The state after `eval_def_fn(name, f7, NULL, 0)` on a freshly loaded
program, `name` being one hundred letters and `f7` a callable that stores 7
and returns 0. -/
def state_long_name : State Exact :=
  (eval_def_fn exactEnv hundred_letters
    (some (FunctionPtr.native (fun _ _ _ => (0, some ⟨7, 1⟩)))) none 0
    (initial_state exactEnv)).2

/-- A callable that stores 7 in its output slot and then reports failure. -/
def failing_fn : Int → List (Option Exact) → Data → Int × Option Exact :=
  fun _ _ _ => (1, some ⟨7, 1⟩)

/-- The state after `eval_def_fn("bad", failing_fn, NULL, 1)` on a freshly
loaded program. -/
def state_bad : State Exact :=
  (eval_def_fn exactEnv "bad".toList (some (FunctionPtr.native failing_fn)) none 1
    (initial_state exactEnv)).2

/-- The symbol entry of `bad` in `state_bad`. -/
def bad_entry : VarFn Exact :=
  { value := ⟨0, 1⟩, fn := some (FunctionPtr.native failing_fn), nargs := 1,
    data := none, name := "bad".toList }

/-- The symbol entry of the built-in `rand`: arity 0, with the body the
environment gives `fn[22]`. -/
def rand_entry : VarFn Exact :=
  { value := ⟨0, 1⟩, fn := some (FunctionPtr.native (exactEnv.fn 22)), nargs := 0,
    data := none, name := "rand".toList }

/-- The state `state_ready` with the error flag set, a token in the pushback
slot, a used arena block and a nesting depth of 3: the same symbol table seen
in the middle of some other evaluation. -/
def state_dirty : State Exact :=
  { state_ready with G_eval_error := 7, G_pb_token := op_token exactEnv ')',
                     G_cur_node := [5000], G_cur_data_pos := 17, G_cur_data_size := 5000,
                     recurse := 3 }

/-! ## More of `hashtable.c`: removal and iteration -/

/-- `ht_remove`: the return code, the table afterwards, and what the internal
`lookup` stored in `*p_val`.  The bucket found is unlinked from its chain,
cleared and pushed on the pool; `item_count` is an `unsigned long`. -/
def ht_remove {K W : Type} (p_ht : Option (hashtable K W)) (p_key : Option K) :
    Int × Option (hashtable K W) × Option W :=
  match p_ht with
  | none => (1, none, none)
  | some ht =>
    if ht.tag ≠ HASHTABLE_TAG then (1, some ht, none)
    else
      match lookup ht p_key with
      | (0, slot, some i, v) =>
        (0, some { ht with
                    table := ht.table.set slot ((ht.table.getD slot []).eraseIdx i),
                    pool := free_bucket :: ht.pool,
                    item_count := if ht.item_count = 0 then 2 ^ 64 - 1
                                  else ht.item_count - 1 }, v)
      | (0, _, none, v) => (3, some ht, v)
      | (_, _, _, v) => (2, some ht, v)

/-- One call of the visitor of `ht_iterate`, as recorded in the log of a run:
the slot number, the key and the value it was handed, and what it returned. -/
structure Visit (K W : Type) where
  slot : Nat
  key : Option K
  val : Option W
  ret : Int

/-- The result of `ht_iterate`: the return code, the content of `*p_rv`
afterwards (`none` for a `NULL` pointer), the state of the visitor, and the
log of the calls made, oldest first (bookkeeping of the embedding). -/
structure IterResult (K W S : Type) where
  rc : Int
  p_rv : Option Int
  st : S
  seen : List (Visit K W)

/-- The inner loop of `ht_iterate` along the chain of slot `i`.  The visitor
`p_func` works on a state of its own, of type `S`, and does not touch the
table.  The return code 0 says that the chain was walked to its end. -/
def iterate_chain {K W S : Type} (p_func : Nat → Option K → Option W → S → Int × S)
    (i : Nat) : List (hashbucket K W) → Option Int → S → List (Visit K W) → IterResult K W S
  | [], p_rv, st, seen => ⟨0, p_rv, st, seen⟩
  | hb :: rest, p_rv, st, seen =>
    if hb.tag ≠ HASHBUCKET_TAG then ⟨4, p_rv, st, seen⟩
    else
      match p_func i hb.key hb.val st with
      | (rv, st1) =>
        let seen1 := seen ++ [⟨i, hb.key, hb.val, rv⟩]
        if rv ≠ 0 then ⟨5, p_rv.map (fun _ => rv), st1, seen1⟩
        else iterate_chain p_func i rest p_rv st1 seen1

/-- The outer loop of `ht_iterate`: the `n` slots from number `i` on. -/
def iterate_slots {K W S : Type} (p_func : Nat → Option K → Option W → S → Int × S)
    (ht : hashtable K W) : Nat → Nat → Option Int → S → List (Visit K W) → IterResult K W S
  | 0, _, p_rv, st, seen => ⟨0, p_rv, st, seen⟩
  | n + 1, i, p_rv, st, seen =>
    let r := iterate_chain p_func i (ht.table.getD i []) p_rv st seen
    if r.rc ≠ 0 then r else iterate_slots p_func ht n (i + 1) r.p_rv r.st r.seen

/-- `ht_iterate`; `p_func` is `none` for a `NULL` visitor, `p_rv` is `none`
for a `NULL` pointer and else the content of the slot before the call.  The
second loop of the C function runs over the `old_size` slots of the old
table, which no function ever creates (`old_size` stays 0). -/
def ht_iterate {K W S : Type} (p_ht : Option (hashtable K W))
    (p_func : Option (Nat → Option K → Option W → S → Int × S)) (p_rv : Option Int)
    (st : S) : IterResult K W S :=
  match p_ht with
  | none => ⟨1, p_rv, st, []⟩
  | some ht =>
    if ht.tag ≠ HASHTABLE_TAG then ⟨1, p_rv, st, []⟩
    else
      match p_func with
      | none => ⟨0, p_rv, st, []⟩
      | some f => iterate_slots f ht ht.size 0 p_rv st []

/-! ## More of the symbol table: variables -/

/-- `eval_set_var`: the return code and the state.  (As in `eval_def_fn`, a
lookup that succeeds with a `NULL` value cannot occur and the embedding leaves
the state alone there.) -/
def eval_set_var (E : Env V) (name : List Char) (value : V) (s : State V) : Int × State V :=
  match ensure_table E (set_funcs E s).2 with
  | (false, s) => (1, s)
  | (true, s) =>
    match ht_lookup s.G_varfn_table (some name) with
    | (0, some var) =>
      if var.fn.isSome then (4, s)
      else (0, table_store s name { var with value := value })
    | (0, none) => (0, s)
    | _ =>
      let s1 := { s with mallocs := s.mallocs + 1 }
      if E.malloc s.mallocs then
        let var := create_var name value
        match ht_insert s1.G_varfn_table (some var.name) (some var) (E.malloc s1.mallocs) with
        | (rc, t, called) =>
          let s2 := { s1 with G_varfn_table := t,
                              mallocs := if called then s1.mallocs + 1 else s1.mallocs }
          if rc ≠ 0 then (3, s2) else (0, { s2 with G_var_count := s2.G_var_count + 1 })
      else (2, s1)

/-- `eval_get_var`: the return code, the content of `*value` afterwards
(`value` is `none` for a `NULL` pointer, else the content of the slot before
the call), and the state. -/
def eval_get_var (E : Env V) (name : List Char) (value : Option V) (s : State V) :
    Int × Option V × State V :=
  match ensure_table E (set_funcs E s).2 with
  | (false, s) => (1, value, s)
  | (true, s) =>
    match ht_lookup s.G_varfn_table (some name) with
    | (0, some var) =>
      if var.fn.isSome then (3, value, s)
      else (0, value.map (fun _ => var.value), s)
    | (0, none) => (0, value, s)
    | _ => (2, value, s)

/-! ## Vocabulary for the hash table -/

/-- A call of `ht_insert` (with the outcome of the `malloc` it may make) or
of `ht_remove`. -/
inductive TableOp (K W : Type) where
  | insert (key : Option K) (val : Option W) (mallocOk : Bool)
  | remove (key : Option K)

/-- The key a call works on. -/
def TableOp.key {K W : Type} : TableOp K W → Option K
  | .insert k _ _ => k
  | .remove k => k

/-- The table after one call, whatever it returned. -/
def apply_op {K W : Type} (ht : hashtable K W) (op : TableOp K W) : hashtable K W :=
  match op with
  | .insert k v m => ((ht_insert (some ht) k v m).2.1).getD ht
  | .remove k => ((ht_remove (some ht) k).2.1).getD ht

/-- The table after a sequence of calls. -/
def run_ops {K W : Type} (ht : hashtable K W) (ops : List (TableOp K W)) : hashtable K W :=
  ops.foldl apply_op ht

/-- The live buckets of a table: those of its chains, slot by slot. -/
def live {K W : Type} (ht : hashtable K W) : List (hashbucket K W) := ht.table.flatten

/-- The entries of the chains `chains`, the first of which is slot `i`: slot
number, key and value of every bucket, in the order of the slots and, in a
slot, from the head of its chain. -/
def entries_from {K W : Type} : List (List (hashbucket K W)) → Nat →
    List (Nat × Option K × Option W)
  | [], _ => []
  | c :: cs, i => c.map (fun hb => (i, hb.key, hb.val)) ++ entries_from cs (i + 1)

/-- The live entries of a table. -/
def entries {K W : Type} (ht : hashtable K W) : List (Nat × Option K × Option W) :=
  entries_from ht.table 0

/-- What `ht_create` establishes and every call keeps: the tag is set, there
are `size` slots and at least one, every bucket of a chain carries the live
tag, and every bucket of the pool is cleared. -/
def WellFormed {K W : Type} (ht : hashtable K W) : Prop :=
  ht.tag = HASHTABLE_TAG ∧ ht.table.length = ht.size ∧ 0 < ht.size ∧
  (∀ chain ∈ ht.table, ∀ hb ∈ chain, hb.tag = HASHBUCKET_TAG) ∧
  (∀ hb ∈ ht.pool, hb.tag = 0 ∧ hb.key = none ∧ hb.val = none)

/-- The comparison `comp` treats "compares equal" as an equivalence: every
key compares equal to itself, and comparing equal is symmetric and
transitive. -/
def EquivComp {K : Type} (comp : Option K → Option K → Int) : Prop :=
  (∀ a, comp a a = 0) ∧ (∀ a b, comp a b = 0 → comp b a = 0) ∧
  (∀ a b c, comp a b = 0 → comp b c = 0 → comp a c = 0)

/-- The hash function gives equal codes to keys that compare equal. -/
def HashRespects {K : Type} (hash : Option K → Nat) (comp : Option K → Option K → Int) :
    Prop :=
  ∀ a b, comp a b = 0 → hash a = hash b

/-- The chain `lookup` walks for the key `k`. -/
def chain_of {K W : Type} (ht : hashtable K W) (k : Option K) : List (hashbucket K W) :=
  ht.table.getD (slot_index (ht.hash k) ht.size) []

/-- The first bucket of a chain whose key compares equal to `k`. -/
def first_match {K W : Type} (comp : Option K → Option K → Int) (k : Option K)
    (chain : List (hashbucket K W)) : Option (hashbucket K W) :=
  chain.find? (fun hb => decide (comp k hb.key = 0))

/-- The four ways a call on the key `k` changes the chain of `k`: a new bucket
at the head when no key of the chain compares equal to `k`; key and value of
the first matching bucket replaced (`ht_insert`); its value alone replaced (a
write through the pointer a lookup returned); the first matching bucket
unlinked (`ht_remove`). -/
inductive ChainStep {K W : Type} (comp : Option K → Option K → Int) (k : Option K) :
    List (hashbucket K W) → List (hashbucket K W) → Prop where
  | fresh (v : Option W) (chain : List (hashbucket K W))
      (h : ∀ hb ∈ chain, comp k hb.key ≠ 0) :
      ChainStep comp k chain ({ tag := HASHBUCKET_TAG, key := k, val := v } :: chain)
  | update (v : Option W) (pre : List (hashbucket K W)) (hb : hashbucket K W)
      (post : List (hashbucket K W)) (h : ∀ x ∈ pre, comp k x.key ≠ 0)
      (hm : comp k hb.key = 0) :
      ChainStep comp k (pre ++ hb :: post) (pre ++ { hb with key := k, val := v } :: post)
  | store (v : Option W) (pre : List (hashbucket K W)) (hb : hashbucket K W)
      (post : List (hashbucket K W)) (h : ∀ x ∈ pre, comp k x.key ≠ 0)
      (hm : comp k hb.key = 0) :
      ChainStep comp k (pre ++ hb :: post) (pre ++ { hb with val := v } :: post)
  | unlink (pre : List (hashbucket K W)) (hb : hashbucket K W)
      (post : List (hashbucket K W)) (h : ∀ x ∈ pre, comp k x.key ≠ 0)
      (hm : comp k hb.key = 0) :
      ChainStep comp k (pre ++ hb :: post) (pre ++ post)

/-- The table `ht1` differs from `ht` in the chain of the key `k`, which took
a `ChainStep`, and possibly in the pool, the block count and the item count;
the chains of the other slots and the configuration are the same. -/
def TableStep {K W : Type} (k : Option K) (ht ht1 : hashtable K W) : Prop :=
  ht1.tag = ht.tag ∧ ht1.size = ht.size ∧ ht1.hash = ht.hash ∧ ht1.comp = ht.comp ∧
  ∃ c1, ChainStep ht.comp k (chain_of ht k) c1 ∧
    ht1.table = ht.table.set (slot_index (ht.hash k) ht.size) c1

/-- No two buckets of a chain hold keys that compare equal. -/
def UniqueKeys {K W : Type} (comp : Option K → Option K → Int)
    (chain : List (hashbucket K W)) : Prop :=
  chain.Pairwise (fun a b => comp a.key b.key ≠ 0)

/-- Every bucket stands in the slot its key hashes to. -/
def InSlot {K W : Type} (ht : hashtable K W) : Prop :=
  ∀ i, i < ht.table.length → ∀ hb ∈ ht.table.getD i [],
    slot_index (ht.hash hb.key) ht.size = i

/-- The bucket accounting of a table: the pool and the chains together hold
the `BLOCK_SIZE` buckets of the block allocated with the table and of every
block allocated later, and `item_count` is the number of live buckets. -/
def Accounted {K W : Type} (ht : hashtable K W) : Prop :=
  ht.pool.length + (live ht).length = BLOCK_SIZE * (1 + ht.blocks) ∧
  ht.item_count = (live ht).length

/-- What a visit shows of the entry visited: slot number, key and value. -/
def Visit.entry {K W : Type} (x : Visit K W) : Nat × Option K × Option W :=
  (x.slot, x.key, x.val)

/-- The visitor called on the entries of a list in turn, up to and including
the first call that returns non-zero: what `ht_iterate` is compared with. -/
def visit_list {K W S : Type} (p_func : Nat → Option K → Option W → S → Int × S) :
    List (Nat × Option K × Option W) → Option Int → S → List (Visit K W) → IterResult K W S
  | [], p_rv, st, seen => ⟨0, p_rv, st, seen⟩
  | e :: rest, p_rv, st, seen =>
    match p_func e.1 e.2.1 e.2.2 st with
    | (rv, st1) =>
      let seen1 := seen ++ [⟨e.1, e.2.1, e.2.2, rv⟩]
      if rv ≠ 0 then ⟨5, p_rv.map (fun _ => rv), st1, seen1⟩
      else visit_list p_func rest p_rv st1 seen1

/-! ## A small table for the concrete runs -/

/-- A comparison of keys that are numbers, `NULL` allowed, in the manner of
the `comp` of the test program of `hashtable.c`. -/
def key_comp (a b : Option Nat) : Int :=
  match a, b with
  | none, none => 0
  | none, some _ => -9999
  | some _, none => 9999
  | some x, some y => if x < y then -1 else if x = y then 0 else 1

/-- A hash function for keys that are numbers. -/
def key_hash (k : Option Nat) : Nat :=
  match k with
  | none => 0
  | some x => x

/-- A table of three slots holding the keys 1, 4 and 7 (all in slot 1) and 2. -/
def small_table : hashtable Nat Nat :=
  run_ops (ht_create 3 key_hash key_comp false false)
    [.insert (some 1) (some 10) true, .insert (some 4) (some 40) true,
     .insert (some 2) (some 20) true, .insert (some 7) (some 70) true]

/-- A visitor that counts its calls and always returns 0. -/
def visit_count : Nat → Option Nat → Option Nat → Nat → Int × Nat :=
  fun _ _ _ n => (0, n + 1)

/-- A visitor that counts its calls and returns 7 at the key `k0`, else 0. -/
def visit_stop_at (k0 : Nat) : Nat → Option Nat → Option Nat → Nat → Int × Nat :=
  fun _ k _ n => (if k = some k0 then 7 else 0, n + 1)

/-! ## Vocabulary for the symbol table -/

/-- The C string held in a list: the characters before the first NUL. -/
def c_string (w : List Char) : List Char := w.takeWhile (fun c => c != NUL)

/-- What every call that creates or changes the symbol table keeps: the
table is well-formed, it hashes with `vhash` and compares with `vcomp`, and
every live bucket holds a record. -/
def SymOk (ht : hashtable (List Char) (VarFn V)) : Prop :=
  WellFormed ht ∧ ht.hash = vhash ∧ ht.comp = vcomp ∧ ∀ hb ∈ live ht, hb.val ≠ none

/-- The symbol table of the state, if there is one, is as `SymOk` says. -/
def TableOk (s : State V) : Prop :=
  ∀ ht, s.G_varfn_table = some ht → SymOk ht

/-- The table `ht1` is `ht` with the record `vf` put under `name`: written
into the first bucket whose key compares equal to `name`, or, when there is
none, into a bucket taken from the pool that `ht_insert` puts at the head of
the chain. -/
def SymPut (name : List Char) (vf : VarFn V) (ht ht1 : hashtable (List Char) (VarFn V)) :
    Prop :=
  (∃ pre hb post, chain_of ht (some name) = pre ++ hb :: post ∧
    (∀ x ∈ pre, ht.comp (some name) x.key ≠ 0) ∧ ht.comp (some name) hb.key = 0 ∧
    ht1 = { ht with
            table := ht.table.set (slot_index (ht.hash (some name)) ht.size)
              (pre ++ { hb with val := some vf } :: post) }) ∨
  ((∀ hb ∈ chain_of ht (some name), ht.comp (some name) hb.key ≠ 0) ∧
    ht1 = { ht with
            pool := (if ht.pool.isEmpty then List.replicate BLOCK_SIZE free_bucket
                     else ht.pool).tail,
            blocks := if ht.pool.isEmpty then ht.blocks + 1 else ht.blocks,
            table := ht.table.set (slot_index (ht.hash (some name)) ht.size)
              ({ tag := HASHBUCKET_TAG, key := some name, val := some vf } ::
                chain_of ht (some name)),
            item_count := ht.item_count + 1 })

/-- The symbol table that `eval_set_var`, `eval_get_var` and `eval_def_fn`
work on when called in the state `s`: the table of `s` once `set_funcs` has
run and the table was allocated if there was none. -/
def sym_table (E : Env V) (s : State V) : Option (hashtable (List Char) (VarFn V)) :=
  (ensure_table E (set_funcs E s).2).2.G_varfn_table

/-- What `eval_get_var` makes of the result of its lookup: the return code
and the content of `*value`. -/
def get_result (r : Int × Option (VarFn V)) (value : Option V) : Int × Option V :=
  match r with
  | (0, some var) => if var.fn.isSome then (3, value) else (0, value.map (fun _ => var.value))
  | (0, none) => (0, value)
  | _ => (2, value)

/-- Every record of the symbol table of the state is a function. -/
def AllFunctions (s : State V) : Prop :=
  ∀ T, s.G_varfn_table = some T → ∀ hb ∈ live T, ∀ f, hb.val = some f → f.fn ≠ none

/-- The name is bound in the state: a lookup in its symbol table succeeds. -/
def Bound (s : State V) (name : List Char) : Prop :=
  (ht_lookup s.G_varfn_table (some name)).1 = 0

/-- A callable that stores the number of its arguments plus the length of
its context string and returns 0. -/
def context_fn : Int → List (Option Exact) → Data → Int × Option Exact :=
  fun n _ data => (0, some ⟨n + ((data.getD []).length : Int), 1⟩)

/-! ## Vocabulary for termination -/

/-- No name of the table is bound to `cust_func`, the callable that calls
`eval` again: every callable returns without entering the evaluator. -/
def AllNative (T : Option (hashtable (List Char) (VarFn V))) : Prop :=
  ∀ name vf, ht_lookup T (some name) = (0, some vf) → vf.fn ≠ some FunctionPtr.cust_func

/-- A function token comes from the table `T`: it carries the callable and
the context of a record that a lookup in `T` returns, and that record has a
callable. -/
def TokOk (T : Option (hashtable (List Char) (VarFn V))) (tok : Token V) : Prop :=
  tok.type = 'f' → ∃ name vf, ht_lookup T (some name) = (0, some vf) ∧ vf.fn ≠ none ∧
    tok.fn = vf.fn ∧ tok.data = vf.data

/-- What no grammar procedure changes: the symbol table and the flag of
`set_funcs`. -/
def fixed_part (s : State V) : Option (hashtable (List Char) (VarFn V)) × Bool :=
  (s.G_varfn_table, s.done)

/-- The state holds the symbol table `T` with the built-ins installed, and a
pushback slot as `TokOk` says. -/
def Ready (T : Option (hashtable (List Char) (VarFn V))) (s : State V) : Prop :=
  fixed_part s = (T, true) ∧ TokOk T s.G_pb_token

/-- The callables of the table `T` terminate.  A native callable is a total
function.  `cust_func` returns when the evaluation of its context does: for
every name bound to it, that call of `eval` returns in every state as `Ready`
says, with any fuel of `N` or more. -/
def CallablesHalt (E : Env V) (N : Nat) (T : Option (hashtable (List Char) (VarFn V))) :
    Prop :=
  ∀ name vf, ht_lookup T (some name) = (0, some vf) → vf.fn = some FunctionPtr.cust_func →
    ∀ s : State V, Ready T s → ∀ fuel, N ≤ fuel →
      ∃ r, eval E fuel vf.data (some E.A.zero) s = some r

/-- What is left to read: twice the number of characters of `buf` from `pos`
on, plus one when a token waits in the pushback slot. -/
def unread (buf : List Char) (pos : Nat) (s : State V) : Nat :=
  2 * (buf.length - pos) + (if s.G_pb_token.type = NUL then 0 else 1)

/-- A grammar procedure returned, in a state as `Ready` says, with no more
left to read than `m`. -/
def Halts (T : Option (hashtable (List Char) (VarFn V))) (buf : List Char) (m : Nat)
    (r : Option (V × Nat × State V)) : Prop :=
  ∃ v p t, r = some (v, p, t) ∧ Ready T t ∧ unread buf p t ≤ m

/-- The same for `eval_args`. -/
def HaltsArgs (T : Option (hashtable (List Char) (VarFn V))) (buf : List Char) (m : Nat)
    (r : Option (ArgsResult V)) : Prop :=
  ∃ a, r = some a ∧ Ready T a.st ∧ unread buf a.pos a.st ≤ m

/-- No record of the symbol table of the state holds `cust_func`. -/
def NativeRecords (s : State V) : Prop :=
  ∀ T, s.G_varfn_table = some T → ∀ hb ∈ live T, ∀ f, hb.val = some f →
    f.fn ≠ some FunctionPtr.cust_func

/-! ## The error messages of `eval.c` -/

def MIN_ERR_VALUE : Int := 0
def MAX_ERR_VALUE : Int := 10

/-- `G_eval_err_str`, the messages of the codes 0 to 10. -/
def G_eval_err_str : List String :=
  ["No Error", "Syntax Error", "Divide By Zero", "Unkown Name",
   "Bad Literal Value", "Error Allocating Memory", "Integer Convert Error",
   "Missing Close Parentheses", "NULL Expression String",
   "Error in Function Evaluation", "Invalid Argument Count"]

/-- `eval_error(err)`. -/
def eval_error (err : Int) : String :=
  if err < MIN_ERR_VALUE ∨ err > MAX_ERR_VALUE then "Unknown Error Value"
  else G_eval_err_str.getD err.toNat ""

/-! ## The comparison of `func.c` -/

/-- `dcomp` of `func.c`, the comparison `func_med` hands to `qsort`, on
numbers with a decidable linear order (a NaN is outside the embedding). -/
def dcomp {R : Type} [LinearOrderedRing R] (v1 v2 : R) : Int :=
  let d1 := if v1 < 0 then -v1 else v1
  let d2 := if v2 < 0 then -v2 else v2
  if d1 < d2 then -1
  else if d2 > d2 then 1
  else 0

/-- `dcompi` of `func.c`. -/
def dcompi {R : Type} [LinearOrderedRing R] (v1 v2 : R) : Int := - dcomp v1 v2

/-! ## Vocabulary for the hash of the symbol table -/

/-- The pointer `lalloc(size)` returns, `G_cur_node->data+G_cur_data_pos`
read before the position is advanced: the number of the block it points into
and the offset in the `data` of that block.  The blocks allocated since the
last `lfreeall` are numbered from 1 in the order of their allocation, so the
head block carries the number of blocks.  `none` when `lalloc` returns
`NULL`. -/
def lalloc_ptr (E : Env V) (size : Nat) (s : State V) : Option (Nat × Nat) :=
  if size > s.G_cur_data_size - s.G_cur_data_pos then
    if E.malloc s.mallocs then some (s.G_cur_node.length + 1, 0) else none
  else some (s.G_cur_node.length, s.G_cur_data_pos)

/-- A call of `lalloc` or of `lfreeall`. -/
inductive ArenaOp where
  | alloc (size : Nat)
  | free_all

/-- A span handed out by `lalloc`: the block, the offset of the first byte
and the number of bytes. -/
structure Span where
  block : Nat
  off : Nat
  len : Nat
deriving DecidableEq

/-- The arena after a sequence of calls of `lalloc` and `lfreeall`, the only
functions that write the arena variables, and the spans handed out since the
last `lfreeall`, newest first. -/
def arena_run (E : Env V) : List ArenaOp → State V → List Span → State V × List Span
  | [], s, log => (s, log)
  | .alloc n :: ops, s, log =>
    arena_run E ops (lalloc E n s).2
      (match lalloc_ptr E n s with
       | some p => ⟨p.1, p.2, n⟩ :: log
       | none => log)
  | .free_all :: ops, s, _ => arena_run E ops (lfreeall s) []

/-- The capacity of the block number `b`. -/
def block_capacity (s : State V) (b : Nat) : Nat := s.G_cur_node.reverse.getD (b - 1) 0

/-- The arena variables fit together: the position is within the capacity,
and the capacity is that of the head block, 0 when there is no block. -/
def ArenaOk (s : State V) : Prop :=
  s.G_cur_data_pos ≤ s.G_cur_data_size ∧ s.G_cur_data_size = s.G_cur_node.headD 0

/-- The spans of the list lie in blocks of the arena, each inside its block
and, in the head block, below the position, and two spans of one block do not
overlap. -/
def SpansOk (s : State V) (log : List Span) : Prop :=
  (∀ x ∈ log, 1 ≤ x.block ∧ x.block ≤ s.G_cur_node.length ∧
    x.off + x.len ≤ block_capacity s x.block) ∧
  (∀ x ∈ log, x.block = s.G_cur_node.length → x.off + x.len ≤ s.G_cur_data_pos) ∧
  log.Pairwise (fun a b => a.block = b.block → a.off + a.len ≤ b.off ∨ b.off + b.len ≤ a.off)

/-- Every request of the sequence asks for at least one byte. -/
def PositiveRequests (ops : List ArenaOp) : Prop :=
  ∀ n, ArenaOp.alloc n ∈ ops → 1 ≤ n

/-! ## A hash code with the top bit set -/

/-- A hash function that gives every key the code 2^31. -/
def high_hash : Option Nat → Nat := fun _ => 2 ^ 31

/-- An identifier of 32 letters; its `vhash` is 2^32 - 97. -/
def long_key : List Char := List.replicate 32 'a'

/-! ## Vocabulary for the bounds of the tokenizer -/

/-- The characters in the scan buffer `tbuf` of `pull_token` when a pull that
reads the text returns: what the loops stored before the terminator is
written behind them (nothing in the branches that do not use the buffer). -/
def pull_tbuf (buf : List Char) (pos : Nat) : List Char :=
  let i := skip_space (buf.drop pos) pos
  let c := charAt buf i
  if is_op_char c then []
  else if isdigit c || c = '.' then
    let r1 := scan isdigit (buf.drop i) [] i
    (if charAt buf r1.2 = '.' then
      scan isdigit (buf.drop (r1.2 + 1))
        (if r1.1.length < 100 then r1.1 ++ ['.'] else r1.1) (r1.2 + 1)
    else r1).1
  else if isalpha c || c = '_' then (scan isident (buf.drop i) [] i).1
  else []

/-- An identifier of 101 characters; its first 100 are `hundred_letters`. -/
def long_name : List Char := List.replicate 101 'a'

/-! ## Vocabulary for functions without a callable -/

/-- Every record of the symbol table that holds a callable has the value
`create_fn` gave it, 0: no call writes the value of a function. -/
def FnValuesZero (E : Env V) (s : State V) : Prop :=
  ∀ T, s.G_varfn_table = some T → ∀ hb ∈ live T, ∀ f, hb.val = some f → f.fn ≠ none →
    f.value = E.A.zero

/-! ## A `malloc` that runs out -/

/-- The environment `exactEnv` with a `malloc` that serves its first `k`
calls and fails from then on. -/
def scarceEnv (k : Nat) : Env Exact :=
  { exactEnv with malloc := fun i => decide (i < k) }

/-- The state a run of `eval` leaves behind (that of a freshly loaded program
when the run has no result). -/
def state_of (r : Option (Int × Option Exact × State Exact)) : State Exact :=
  match r with
  | some x => x.2.2
  | none => initial_state exactEnv

/-- With 36 allocations to be had: the state after `eval("abs(1)")` on a
freshly loaded program.  The built-ins took 35 allocations, the arena block
the last one, and the arena was released on return. -/
def state_freed : State Exact :=
  state_of (eval (scarceEnv 36) 64 (some "abs(1)".toList) (some ⟨0, 1⟩)
    (initial_state exactEnv))

/-- With 36 allocations to be had: the state after `eval(NULL)` and then
`eval("abs(1)")` on a freshly loaded program.  The first call leaves the
nesting depth at 1, so the second one keeps its arena block. -/
def state_kept : State Exact :=
  state_of (eval (scarceEnv 36) 64 (some "abs(1)".toList) (some ⟨0, 1⟩)
    (state_of (eval (scarceEnv 36) 64 none (some ⟨0, 1⟩) (initial_state exactEnv))))

/-- The arena of a state: its blocks, and the position and capacity of the
head block. -/
def arena_of (s : State Exact) : List Nat × Nat × Nat :=
  (s.G_cur_node, s.G_cur_data_pos, s.G_cur_data_size)

/-! ## More states for the concrete runs -/

/-- The state after `eval_def_fn("sin", context_fn, "abc", 2)` on a freshly
loaded program: the built-in `sin`, of arity 1, redefined with arity 2. -/
def state_sin2 : State Exact :=
  (eval_def_fn exactEnv "sin".toList (some (FunctionPtr.native context_fn))
    (some "abc".toList) 2 (initial_state exactEnv)).2

/-- The state after `eval_def_fn("g", cust_func, "1", 0)` on a freshly loaded
program: `g` evaluates the text `1` with a nested call of `eval`. -/
def state_g_one : State Exact :=
  (eval_def_fn exactEnv "g".toList (some FunctionPtr.cust_func) (some "1".toList) 0
    (initial_state exactEnv)).2

/-- Every record of the table that holds `cust_func` has the context `d`. -/
def cust_contexts (T : Option (hashtable (List Char) (VarFn V))) (d : Data) : Bool :=
  match T with
  | none => true
  | some T0 =>
    (live T0).all (fun hb =>
      match hb.val with
      | some f =>
        match f.fn with
        | some FunctionPtr.cust_func => decide (f.data = d)
        | _ => true
      | none => true)

/-! ## The tokenizer on known input -/

theorem charAt_of_drop {buf : List Char} {p : Nat} {c : Char} {r : List Char}
    (h : buf.drop p = c :: r) : charAt buf p = c := by
  unfold charAt
  have h1 : (buf.drop p).head? = some c := by rw [h]; rfl
  rw [List.head?_drop] at h1
  simp [List.getD, h1]

theorem charAt_of_drop_nil {buf : List Char} {p : Nat}
    (h : buf.drop p = []) : charAt buf p = NUL := by
  unfold charAt
  have h1 : (buf.drop p).head? = none := by rw [h]; rfl
  rw [List.head?_drop] at h1
  simp [List.getD, h1]

theorem drop_add_of_drop {buf : List Char} {p : Nat} {w r : List Char}
    (h : buf.drop p = w ++ r) : buf.drop (p + w.length) = r := by
  rw [← List.drop_drop, h, List.drop_left]

theorem op_not_space {c : Char} (h : is_op_char c = true) : isspace c = false := by
  simp only [is_op_char, Bool.or_eq_true, decide_eq_true_eq] at h
  rcases h with ((((((((h | h) | h) | h) | h) | h) | h) | h) | h) | h <;> subst h <;> decide

theorem op_ne_NUL {c : Char} (h : is_op_char c = true) : c ≠ NUL := by
  intro hc; subst hc; revert h; decide

theorem skip_space_of_not {c : Char} {r : List Char} {i : Nat} (h : isspace c = false) :
    skip_space (c :: r) i = i := by
  simp [skip_space, h]

/-- Pulling a single-character operator from an empty pushback slot. -/
theorem pull_op (E : Env V) {buf : List Char} {p : Nat} {c : Char} {r : List Char}
    (s : State V) (hpb : s.G_pb_token = null_token E) (h : buf.drop p = c :: r)
    (hc : is_op_char c = true) :
    pull_token E buf p s = (op_token E c, p + 1, s) := by
  unfold pull_token
  have h0 : ¬ (s.G_pb_token.type ≠ NUL) := by rw [hpb]; simp [null_token]
  rw [if_neg h0]
  simp only [h, skip_space_of_not (op_not_space hc), charAt_of_drop h, hc, if_true, op_token]

/-- Pulling at the end of the text from an empty pushback slot. -/
theorem pull_end (E : Env V) {buf : List Char} {p : Nat}
    (s : State V) (hpb : s.G_pb_token = null_token E) (h : buf.drop p = []) :
    pull_token E buf p s = (null_token E, p, s) := by
  unfold pull_token
  have h0 : ¬ (s.G_pb_token.type ≠ NUL) := by rw [hpb]; simp [null_token]
  rw [if_neg h0]
  have h1 : is_op_char NUL = false := by decide
  have h2 : (isdigit NUL || decide (NUL = '.')) = false := by decide
  have h3 : (isalpha NUL || decide (NUL = '_')) = false := by decide
  simp [h, skip_space, charAt_of_drop_nil h, h1, h2, h3]

/-- Pulling from a full pushback slot. -/
theorem pull_pb (E : Env V) (buf : List Char) (p : Nat) (s : State V)
    (h : s.G_pb_token.type ≠ NUL) :
    pull_token E buf p s = (s.G_pb_token, p, { s with G_pb_token := null_token E }) := by
  unfold pull_token
  rw [if_pos h]

theorem scan_all (p : Char → Bool) (w r tbuf : List Char) (i : Nat)
    (hw : ∀ c ∈ w, p c = true) (hr : ∀ c ∈ r.head?, p c = false)
    (hlen : tbuf.length + w.length ≤ 100) :
    scan p (w ++ r) tbuf i = (tbuf ++ w, i + w.length) := by
  induction w generalizing tbuf i with
  | nil =>
    cases r with
    | nil => simp [scan]
    | cons c r => simp [scan, hr c (by simp)]
  | cons a w ih =>
    have ha : p a = true := hw a (by simp)
    have hl : tbuf.length < 100 := by simp at hlen; omega
    have e : scan p (a :: w ++ r) tbuf i = scan p (w ++ r) (tbuf ++ [a]) (i + 1) := by
      simp [scan, ha, hl]
    rw [e, ih (tbuf ++ [a]) (i + 1) (fun c hc => hw c (by simp [hc]))
      (by simp at hlen ⊢; omega)]
    simp; omega

theorem op_cases {c : Char} (h : is_op_char c = true) :
    c = '+' ∨ c = '-' ∨ c = '*' ∨ c = '/' ∨ c = BSLASH ∨ c = '%' ∨ c = '^' ∨
      c = '(' ∨ c = ')' ∨ c = ',' := by
  simp only [is_op_char, Bool.or_eq_true, decide_eq_true_eq] at h
  tauto

theorem numstart_not_op {c : Char} (h : isdigit c = true ∨ c = '.') : is_op_char c = false := by
  cases hc : is_op_char c with
  | false => rfl
  | true =>
    exfalso
    rcases op_cases hc with h1 | h1 | h1 | h1 | h1 | h1 | h1 | h1 | h1 | h1 <;> subst h1 <;>
      revert h <;> decide

theorem numstart_not_space {c : Char} (h : isdigit c = true ∨ c = '.') : isspace c = false := by
  rcases h with h | h
  · simp only [isdigit, Bool.and_eq_true, decide_eq_true_eq] at h
    simp only [isspace, Bool.or_eq_false_iff, decide_eq_false_iff_not, Bool.and_eq_false_iff]
    omega
  · subst h; decide

theorem literal_split {w : List Char} (h : is_literal w = true) :
    ∃ ds fs, (∀ c ∈ ds, isdigit c = true) ∧ (∀ c ∈ fs, isdigit c = true) ∧
      (w = ds ∨ w = ds ++ '.' :: fs) ∧ w ≠ [] := by
  unfold is_literal at h
  simp only [Bool.and_eq_true, Bool.or_eq_true, Bool.not_eq_true', List.isEmpty_eq_false,
    List.isEmpty_iff, decide_eq_true_eq, List.all_eq_true] at h
  obtain ⟨hne, hd⟩ := h
  have hsplit : w.takeWhile isdigit ++ w.dropWhile isdigit = w := List.takeWhile_append_dropWhile _ _
  have hds : ∀ c ∈ w.takeWhile isdigit, isdigit c = true := fun c hc => List.mem_takeWhile_imp hc
  rcases hd with hd | ⟨hh, ht⟩
  · refine ⟨w.takeWhile isdigit, [], hds, by simp, Or.inl ?_, hne⟩
    rw [hd, List.append_nil] at hsplit
    exact hsplit.symm
  · refine ⟨w.takeWhile isdigit, (w.dropWhile isdigit).tail, hds, ht, Or.inr ?_, hne⟩
    cases hdw : w.dropWhile isdigit with
    | nil => rw [hdw] at hh; simp at hh
    | cons a t =>
      rw [hdw] at hh hsplit
      simp at hh
      subst hh
      simp [hsplit]

theorem charAt_eq_headD {buf : List Char} {p : Nat} {l : List Char}
    (h : buf.drop p = l) : charAt buf p = l.headD NUL := by
  cases l with
  | nil => exact charAt_of_drop_nil h
  | cons c r => exact charAt_of_drop h

/-- Pulling a numeric literal of fewer than 100 characters from an empty
pushback slot, when the character after it is neither a digit nor a point. -/
theorem pull_literal (E : Env V) {buf : List Char} {p : Nat} {w r : List Char}
    (s : State V) (hpb : s.G_pb_token = null_token E) (h : buf.drop p = w ++ r)
    (hw : is_literal w = true) (hlen : w.length < 100)
    (hr : ∀ c ∈ r.head?, isdigit c = false ∧ c ≠ '.') :
    pull_token E buf p s = (num_token E w, p + w.length, (copy_str E w 0 s).2) := by
  obtain ⟨ds, fs, hds, hfs, hsplit, hne⟩ := literal_split hw
  have h0 : ¬ (s.G_pb_token.type ≠ NUL) := by rw [hpb]; simp [null_token]
  have hrd : ∀ c ∈ r.head?, isdigit c = false := fun c hc => (hr c hc).1
  -- the first character
  obtain ⟨c0, w', hw'⟩ : ∃ c0 w', w = c0 :: w' := by
    cases w with
    | nil => exact absurd rfl hne
    | cons a t => exact ⟨a, t, rfl⟩
  have hc0 : isdigit c0 = true ∨ c0 = '.' := by
    rcases hsplit with e | e
    · left; apply hds; rw [← e, hw']; simp
    · cases ds with
      | nil => right; rw [hw'] at e; simp at e; exact e.1
      | cons a t => left; rw [hw'] at e; simp at e; rw [e.1]; exact hds a (by simp)
  have hdrop : buf.drop p = c0 :: (w' ++ r) := by rw [h, hw']; rfl
  have hskip : skip_space (buf.drop p) p = p := by
    rw [hdrop]; exact skip_space_of_not (numstart_not_space hc0)
  have hch : charAt buf p = c0 := charAt_of_drop hdrop
  have hnum : (isdigit c0 || decide (c0 = '.')) = true := by
    rcases hc0 with e | e <;> simp [e]
  have hdot : isdigit '.' = false := by decide
  unfold pull_token
  rw [if_neg h0]
  simp only [hskip, hch, numstart_not_op hc0, hnum, if_true, Bool.false_eq_true, if_false]
  rcases hsplit with e | e
  · -- digits only
    have hs1 : scan isdigit (buf.drop p) [] p = (w, p + w.length) := by
      rw [h]
      have := scan_all isdigit w r [] p (by rw [e]; exact hds) hrd (by simp; omega)
      simpa using this
    have hnd : charAt buf (p + w.length) ≠ '.' := by
      rw [charAt_eq_headD (drop_add_of_drop h)]
      cases r with
      | nil => simp [NUL]
      | cons a t => simpa using (hr a (by simp)).2
    simp only [hs1, if_neg hnd]
    have hl : ¬ w.length = 100 := by omega
    simp only [if_neg hl, num_token]
  · -- digits, point, digits
    have h1 : buf.drop p = ds ++ ('.' :: (fs ++ r)) := by rw [h, e]; simp
    have hs1 : scan isdigit (buf.drop p) [] p = (ds, p + ds.length) := by
      rw [h1]
      have := scan_all isdigit ds ('.' :: (fs ++ r)) [] p hds (by simp [hdot])
        (by rw [e] at hlen; simp at hlen ⊢; omega)
      simpa using this
    have h2 : buf.drop (p + ds.length) = '.' :: (fs ++ r) := drop_add_of_drop h1
    have hd : charAt buf (p + ds.length) = '.' := charAt_of_drop h2
    have h3 : buf.drop (p + ds.length + 1) = fs ++ r := by
      have := drop_add_of_drop (w := ['.']) (r := fs ++ r) (by simpa using h2)
      simpa using this
    have hl1 : ds.length < 100 := by rw [e] at hlen; simp at hlen; omega
    have hs2 : scan isdigit (buf.drop (p + ds.length + 1)) (ds ++ ['.']) (p + ds.length + 1)
        = (w, p + w.length) := by
      rw [h3]
      have := scan_all isdigit fs r (ds ++ ['.']) (p + ds.length + 1) hfs hrd
        (by rw [e] at hlen; simp at hlen ⊢; omega)
      rw [this, e]; simp; omega
    simp only [hs1, hd, if_true, hl1, hs2]
    have hl : ¬ w.length = 100 := by omega
    simp only [if_neg hl, num_token]

/-! ## What a step leaves unchanged -/

theorem Keeps.refl (s : State V) : Keeps s s := ⟨rfl, rfl, rfl, rfl, rfl, rfl⟩

theorem Keeps.trans {s s1 s2 : State V} (h1 : Keeps s s1) (h2 : Keeps s1 s2) : Keeps s s2 := by
  unfold Keeps at *
  refine ⟨?_, ?_, ?_, ?_, ?_, ?_⟩
  · rw [h2.1, h1.1]
  · rw [h2.2.1, h1.2.1]
  · rw [h2.2.2.1, h1.2.2.1]
  · rw [h2.2.2.2.1, h1.2.2.2.1]
  · rw [h2.2.2.2.2.1, h1.2.2.2.2.1]
  · rw [h2.2.2.2.2.2, h1.2.2.2.2.2]

theorem Keeps_set_pb (s : State V) (t : Token V) : Keeps s { s with G_pb_token := t } :=
  ⟨rfl, rfl, rfl, rfl, rfl, rfl⟩

theorem lalloc_keeps (E : Env V) (n : Nat) (s : State V) : Keeps s (lalloc E n s).2 := by
  simp only [lalloc, Keeps]
  split_ifs <;> simp

theorem lalloc_pb (E : Env V) (n : Nat) (s : State V) :
    (lalloc E n s).2.G_pb_token = s.G_pb_token := by
  simp only [lalloc]
  split_ifs <;> simp

theorem copy_str_keeps (E : Env V) (w : List Char) (l : Int) (s : State V) :
    Keeps s (copy_str E w l s).2 := lalloc_keeps E _ s

theorem copy_str_pb (E : Env V) (w : List Char) (l : Int) (s : State V) :
    (copy_str E w l s).2.G_pb_token = s.G_pb_token := lalloc_pb E _ s

theorem set_pb_self (s : State V) : { s with G_pb_token := s.G_pb_token } = s := rfl

/-- The token and the cursor a pull returns depend on the state only through
the pushback slot and the symbol table. -/
theorem pull_congr (E : Env V) (buf : List Char) (p : Nat) (s s1 : State V)
    (hpb : s1.G_pb_token = s.G_pb_token) (ht : s1.G_varfn_table = s.G_varfn_table) :
    (pull_token E buf p s1).1 = (pull_token E buf p s).1 ∧
    (pull_token E buf p s1).2.1 = (pull_token E buf p s).2.1 := by
  unfold pull_token
  rw [hpb, ht]
  dsimp only
  split_ifs <;> first | exact ⟨rfl, rfl⟩ | (split <;> exact ⟨rfl, rfl⟩)

theorem null_type (E : Env V) : (null_token E).type = NUL := rfl

theorem op_token_type (E : Env V) (c : Char) : (op_token E c).type = c := rfl

/-! ## Pulling from the unread input -/

/-- Lifting a fact about pulls from an empty pushback slot to any state whose
unread input is `w ++ r`: the pull returns the token `t` of the word `w`,
leaves `r` unread, and pushing `t` back restores the unread input. -/
theorem pull_at (E : Env V) {buf : List Char} {pos : Nat} {s : State V} {w r : List Char}
    {t : Token V} (hT : TextAt E buf pos s (w ++ r)) (ht : t.type ≠ NUL)
    (hclean : ∀ p0 (sx : State V), sx.G_pb_token = null_token E →
      sx.G_varfn_table = s.G_varfn_table → buf.drop p0 = w ++ r →
      (pull_token E buf p0 sx).1 = t ∧ (pull_token E buf p0 sx).2.1 = p0 + w.length ∧
      Keeps sx (pull_token E buf p0 sx).2.2 ∧
      (pull_token E buf p0 sx).2.2.G_pb_token = null_token E) :
    ∃ pos1 s1, pull_token E buf pos s = (t, pos1, s1) ∧ s1.G_pb_token = null_token E ∧
      buf.drop pos1 = r ∧ Keeps s s1 ∧
      TextAt E buf pos1 { s1 with G_pb_token := t } (w ++ r) := by
  rcases hT with ⟨hpb, hd⟩ | ⟨hpb, p0, hd, h1, h2⟩
  · obtain ⟨a1, a2, a3, a4⟩ := hclean pos s hpb rfl hd
    refine ⟨pos + w.length, (pull_token E buf pos s).2.2, ?_, a4, drop_add_of_drop hd, a3, ?_⟩
    · rw [← a1, ← a2]
    · refine Or.inr ⟨ht, pos, hd, ?_, ?_⟩
      · have hc := pull_congr E buf pos s
          { { (pull_token E buf pos s).2.2 with G_pb_token := t } with G_pb_token := null_token E }
          hpb.symm a3.2.1
        exact hc.1.trans a1
      · have hc := pull_congr E buf pos s
          { { (pull_token E buf pos s).2.2 with G_pb_token := t } with G_pb_token := null_token E }
          hpb.symm a3.2.1
        exact hc.2.trans a2
  · obtain ⟨a1, a2, _, _⟩ := hclean p0 { s with G_pb_token := null_token E } rfl rfl hd
    have e1 : s.G_pb_token = t := h1.symm.trans a1
    have e2 : pos = p0 + w.length := h2.symm.trans a2
    refine ⟨pos, { s with G_pb_token := null_token E }, ?_, rfl, ?_, Keeps_set_pb s _, ?_⟩
    · rw [pull_pb E buf pos s hpb, e1]
    · rw [e2]; exact drop_add_of_drop hd
    · refine Or.inr ⟨ht, p0, hd, ?_, ?_⟩
      · exact a1
      · exact a2.trans e2.symm

/-- Pulling when nothing is left unread. -/
theorem pull_end_at (E : Env V) {buf : List Char} {pos : Nat} {s : State V}
    (hT : TextAt E buf pos s []) :
    pull_token E buf pos s = (null_token E, pos, s) ∧ s.G_pb_token = null_token E := by
  rcases hT with ⟨hpb, hd⟩ | ⟨hpb, p0, hd, h1, _⟩
  · exact ⟨pull_end E s hpb hd, hpb⟩
  · exfalso
    rw [pull_end E _ rfl hd] at h1
    exact hpb (by rw [← h1]; rfl)

/-- Pulling a single-character operator. -/
theorem pull_op_at (E : Env V) {buf : List Char} {pos : Nat} {s : State V} {c : Char}
    {r : List Char} (hT : TextAt E buf pos s (c :: r)) (hc : is_op_char c = true) :
    ∃ pos1 s1, pull_token E buf pos s = (op_token E c, pos1, s1) ∧
      s1.G_pb_token = null_token E ∧ buf.drop pos1 = r ∧ Keeps s s1 ∧
      TextAt E buf pos1 { s1 with G_pb_token := op_token E c } (c :: r) := by
  have := pull_at E (w := [c]) (r := r) (t := op_token E c) hT (op_ne_NUL hc)
    (fun p0 sx hpb _ hd => by
      rw [pull_op E sx hpb hd hc]
      exact ⟨rfl, rfl, Keeps.refl sx, hpb⟩)
  exact this

/-- Pulling a numeric literal. -/
theorem pull_literal_at (E : Env V) {buf : List Char} {pos : Nat} {s : State V}
    {w r : List Char} (hT : TextAt E buf pos s (w ++ r)) (hw : is_literal w = true)
    (hlen : w.length < 100) (hr : ∀ c ∈ r.head?, isdigit c = false ∧ c ≠ '.') :
    ∃ pos1 s1, pull_token E buf pos s = (num_token E w, pos1, s1) ∧
      s1.G_pb_token = null_token E ∧ buf.drop pos1 = r ∧ Keeps s s1 ∧
      TextAt E buf pos1 { s1 with G_pb_token := num_token E w } (w ++ r) :=
  pull_at E hT (by simp [num_token, NUL])
    (fun p0 sx hpb _ hd => by
      rw [pull_literal E sx hpb hd hw hlen hr]
      exact ⟨rfl, rfl, copy_str_keeps E w 0 sx, (copy_str_pb E w 0 sx).trans hpb⟩)

theorem delim_sep {stop : Char → Bool} {rest : List Char} (h : Delim stop rest) :
    ∀ c ∈ rest.head?, isdigit c = false ∧ c ≠ '.' := by
  intro c hc
  rcases h with h | ⟨a, r, h, ha, _⟩
  · rw [h] at hc; simp at hc
  · rw [h] at hc; simp at hc; subst hc
    have := numstart_not_op (c := a)
    constructor
    · cases hd : isdigit a with
      | false => rfl
      | true => rw [this (Or.inl hd)] at ha; simp at ha
    · intro hd; rw [this (Or.inr hd)] at ha; simp at ha

theorem push_empty (E : Env V) (t : Token V) (s : State V) (h : s.G_pb_token = null_token E) :
    push_token t s = (0, { s with G_pb_token := t }) := by
  unfold push_token
  rw [if_neg (by rw [h]; simp [null_token])]

/-- Looking at the token after a piece of text: at the end of the input the
end token comes back; before a delimiter its token comes back and pushing it
back restores the unread input. -/
theorem peek_delim (E : Env V) {stop : Char → Bool} {buf : List Char} {pos : Nat}
    {s : State V} {rest : List Char} (hT : TextAt E buf pos s rest) (hD : Delim stop rest) :
    (rest = [] ∧ pull_token E buf pos s = (null_token E, pos, s)) ∨
    (∃ c r pos1 s1, rest = c :: r ∧ is_op_char c = true ∧ stop c = true ∧
      pull_token E buf pos s = (op_token E c, pos1, s1) ∧ Keeps s s1 ∧
      TextAt E buf pos1 s1 r ∧
      TextAt E buf pos1 (push_token (op_token E c) s1).2 rest ∧
      Keeps s (push_token (op_token E c) s1).2) := by
  rcases hD with h | ⟨c, r, h, hc, hs⟩
  · subst h
    exact Or.inl ⟨rfl, (pull_end_at E hT).1⟩
  · subst h
    obtain ⟨pos1, s1, h1, h2, h3, h4, h5⟩ := pull_op_at E hT hc
    refine Or.inr ⟨c, r, pos1, s1, rfl, hc, hs, h1, h4, Or.inl ⟨h2, h3⟩, ?_, ?_⟩
    · rw [push_empty E _ s1 h2]; exact h5
    · rw [push_empty E _ s1 h2]; exact h4.trans (Keeps_set_pb s1 _)

/-! ## The grammar procedures on well-formed text -/

theorem Yields_mono (E : Env V) {P : Nat → List Char → Nat → State V → Option (V × Nat × State V)}
    {stop stop1 : Char → Bool} {T : Option (hashtable (List Char) (VarFn V))}
    {e : List Char} {v : V} (hs : ∀ c, stop1 c = true → stop c = true)
    (h : Yields E P stop T e v) : Yields E P stop1 T e v := by
  obtain ⟨n, hn⟩ := h
  refine ⟨n, fun fuel hf buf pos s rest hT hD he hTab hdone => ?_⟩
  refine hn fuel hf buf pos s rest hT ?_ he hTab hdone
  rcases hD with h | ⟨c, r, h, hc, hst⟩
  · exact Or.inl h
  · exact Or.inr ⟨c, r, h, hc, hs c hst⟩

/-- The end of `eval_item` before a token other than a percent sign. -/
theorem tail_stop (E : Env V) {buf : List Char} {pos : Nat} {s : State V} {rest : List Char}
    (rv : V) (hT : TextAt E buf pos s rest) (hD : Delim stopI rest) (fuel : Nat)
    (hf : 1 ≤ fuel) :
    ∃ pos1 s1, eval_item_tail E fuel buf pos rv s = some (rv, pos1, s1) ∧
      TextAt E buf pos1 s1 rest ∧ Keeps s s1 := by
  obtain ⟨f, rfl⟩ : ∃ f, fuel = f + 1 := ⟨fuel - 1, by omega⟩
  rcases peek_delim E hT hD with ⟨_, hp⟩ | ⟨c, r, pos1, s1, hr, hc, hs, hp, hk, _, hT1, hk1⟩
  · refine ⟨pos, s, ?_, hT, Keeps.refl s⟩
    simp [eval_item_tail, hp, percent_loop, null_token, NUL]
  · refine ⟨pos1, (push_token (op_token E c) s1).2, ?_, hT1, hk1⟩
    have h1 : c ≠ '%' := by simpa [stopI] using hs
    have h2 : c ≠ NUL := op_ne_NUL hc
    simp [eval_item_tail, hp, percent_loop, op_token_type, h1, h2]

/-- A numeric literal of fewer than 100 characters is an item. -/
theorem item_literal (E : Env V) (T : Option (hashtable (List Char) (VarFn V)))
    {w : List Char} (hw : is_literal w = true) (hlen : w.length < 100) :
    Yields E (eval_item E) stopI T w (E.A.strtod w) := by
  refine ⟨2, fun fuel hf buf pos s rest hT hD he hTab hdone => ?_⟩
  obtain ⟨f, rfl⟩ : ∃ f, fuel = f + 1 := ⟨fuel - 1, by omega⟩
  obtain ⟨pos1, s1, h1, h2, h3, h4, _⟩ := pull_literal_at E hT hw hlen (delim_sep hD)
  obtain ⟨pos2, s2, h5, h6, h7⟩ := tail_stop E (E.A.strtod w) (Or.inl ⟨h2, h3⟩) hD f (by omega)
  have e1 : s1.G_eval_error = 0 := h4.1.trans he
  refine ⟨pos2, s2, ?_, h6, h7.1.trans e1, (h7.2.1.trans h4.2.1).trans hTab,
    (h7.2.2.1.trans h4.2.2.1).trans hdone⟩
  simp [eval_item, h1, e1, num_token, h5]

theorem good_of_keeps {T : Option (hashtable (List Char) (VarFn V))} {s s1 : State V}
    (hk : Keeps s s1) (he : s.G_eval_error = 0) (hT : s.G_varfn_table = T)
    (hd : s.done = true) :
    s1.G_eval_error = 0 ∧ s1.G_varfn_table = T ∧ s1.done = true :=
  ⟨hk.1.trans he, hk.2.1.trans hT, hk.2.2.1.trans hd⟩

theorem op_token_ne_NUL (E : Env V) {c : Char} (hc : is_op_char c = true) :
    ¬ (op_token E c).type = NUL := by
  rw [op_token_type]; exact op_ne_NUL hc

/-- An item followed by no exponent is a factor. -/
theorem fact_of_item (E : Env V) {T : Option (hashtable (List Char) (VarFn V))}
    {e : List Char} {v : V} (h : Yields E (eval_item E) stopF T e v) :
    Yields E (eval_fact E) stopF T e v := by
  obtain ⟨n, hn⟩ := h
  refine ⟨n + 1, fun fuel hf buf pos s rest hT hD he hTab hdone => ?_⟩
  obtain ⟨f, rfl⟩ : ∃ f, fuel = f + 1 := ⟨fuel - 1, by omega⟩
  obtain ⟨pos1, s1, h1, hT1, he1, hTab1, hd1⟩ :=
    hn f (by omega) buf pos s rest hT hD he hTab hdone
  rcases peek_delim E hT1 hD with ⟨_, hp⟩ | ⟨c, r, pos2, s2, hr, hc, hs, hp, hk, _, hT2, hk2⟩
  · refine ⟨pos1, s1, ?_, hT1, he1, hTab1, hd1⟩
    simp [eval_fact, h1, he1, hp, null_type]
  · obtain ⟨g1, g2, g3⟩ := good_of_keeps hk2 he1 hTab1 hd1
    refine ⟨pos2, (push_token (op_token E c) s2).2, ?_, hT2, g1, g2, g3⟩
    have h2 : c ≠ '^' := by
      simp only [stopF, Bool.and_eq_true, bne_iff_ne, ne_eq] at hs; exact hs.2
    simp [eval_fact, h1, he1, hp, hk.1.trans he1, op_token_type, op_ne_NUL hc, h2]

/-- A factor followed by no multiplicative operator is a term. -/
theorem term_of_fact (E : Env V) {T : Option (hashtable (List Char) (VarFn V))}
    {e : List Char} {v : V} (h : Yields E (eval_fact E) stopT T e v) :
    Yields E (eval_term E) stopT T e v := by
  obtain ⟨n, hn⟩ := h
  refine ⟨n + 1, fun fuel hf buf pos s rest hT hD he hTab hdone => ?_⟩
  obtain ⟨f, rfl⟩ : ∃ f, fuel = f + 1 := ⟨fuel - 1, by omega⟩
  obtain ⟨pos1, s1, h1, hT1, he1, hTab1, hd1⟩ :=
    hn f (by omega) buf pos s rest hT hD he hTab hdone
  rcases peek_delim E hT1 hD with ⟨_, hp⟩ | ⟨c, r, pos2, s2, hr, hc, hs, hp, hk, _, hT2, hk2⟩
  · refine ⟨pos1, s1, ?_, hT1, he1, hTab1, hd1⟩
    simp [eval_term, h1, he1, hp, null_type]
  · obtain ⟨g1, g2, g3⟩ := good_of_keeps hk2 he1 hTab1 hd1
    refine ⟨pos2, (push_token (op_token E c) s2).2, ?_, hT2, g1, g2, g3⟩
    simp only [stopT, Bool.and_eq_true, bne_iff_ne, ne_eq] at hs
    obtain ⟨⟨⟨⟨_, _⟩, h2⟩, h3⟩, h4⟩ := hs
    simp [eval_term, h1, he1, hp, hk.1.trans he1, op_token_type, op_ne_NUL hc, h2, h3, h4]

/-- A term followed by a closing parenthesis, a comma or the end of the input
is an expression. -/
theorem expr_of_term (E : Env V) {T : Option (hashtable (List Char) (VarFn V))}
    {e : List Char} {v : V} (h : Yields E (eval_term E) stopE T e v) :
    Yields E (eval_expr E) stopE T e v := by
  obtain ⟨n, hn⟩ := h
  refine ⟨n + 1, fun fuel hf buf pos s rest hT hD he hTab hdone => ?_⟩
  obtain ⟨f, rfl⟩ : ∃ f, fuel = f + 1 := ⟨fuel - 1, by omega⟩
  obtain ⟨pos1, s1, h1, hT1, he1, hTab1, hd1⟩ :=
    hn f (by omega) buf pos s rest hT hD he hTab hdone
  rcases peek_delim E hT1 hD with ⟨_, hp⟩ | ⟨c, r, pos2, s2, hr, hc, hs, hp, hk, _, hT2, hk2⟩
  · refine ⟨pos1, s1, ?_, hT1, he1, hTab1, hd1⟩
    simp [eval_expr, h1, he1, hp, null_type]
  · obtain ⟨g1, g2, g3⟩ := good_of_keeps hk2 he1 hTab1 hd1
    refine ⟨pos2, (push_token (op_token E c) s2).2, ?_, hT2, g1, g2, g3⟩
    simp only [stopE, Bool.or_eq_true, beq_iff_eq] at hs
    rcases hs with hs | hs <;> subst hs <;>
      simp [eval_expr, h1, he1, hp, hk.1.trans he1, op_token_type, NUL]

theorem stopF_of_stopT {c : Char} (h : stopT c = true) : stopF c = true := by
  simp only [stopT, stopF, Bool.and_eq_true] at h ⊢
  exact ⟨h.1.1.1.1, h.1.1.1.2⟩

theorem stopI_of_stopF {c : Char} (h : stopF c = true) : stopI c = true := by
  simp only [stopI, stopF, Bool.and_eq_true] at h ⊢
  exact h.1

theorem stopT_of_stopE {c : Char} (h : stopE c = true) : stopT c = true := by
  simp only [stopE, Bool.or_eq_true, beq_iff_eq] at h
  rcases h with h | h <;> subst h <;> decide

theorem textAt_nil_form (E : Env V) {buf : List Char} {pos : Nat} {s : State V}
    {r : List Char} (h1 : s.G_pb_token = null_token E) (h2 : buf.drop pos = r) :
    TextAt E buf pos s r := Or.inl ⟨h1, h2⟩

/-- Consuming a single-character operator that stands first in the unread
input. -/
theorem take_op (E : Env V) {T : Option (hashtable (List Char) (VarFn V))}
    {buf : List Char} {pos : Nat} {s : State V} {c : Char} {r : List Char}
    (hT : TextAt E buf pos s (c :: r)) (hc : is_op_char c = true)
    (he : s.G_eval_error = 0) (hTab : s.G_varfn_table = T) (hd : s.done = true) :
    ∃ pos1 s1, pull_token E buf pos s = (op_token E c, pos1, s1) ∧ TextAt E buf pos1 s1 r ∧
      s1.G_eval_error = 0 ∧ s1.G_varfn_table = T ∧ s1.done = true := by
  obtain ⟨pos1, s1, h1, h2, h3, h4, _⟩ := pull_op_at E hT hc
  obtain ⟨g1, g2, g3⟩ := good_of_keeps h4 he hTab hd
  exact ⟨pos1, s1, h1, Or.inl ⟨h2, h3⟩, g1, g2, g3⟩

/-- `fact = item ^ fact`. -/
theorem fact_pow (E : Env V) {T : Option (hashtable (List Char) (VarFn V))}
    {e1 e2 : List Char} {v1 v2 : V} (h1 : Yields E (eval_item E) stopI T e1 v1)
    (h2 : Yields E (eval_fact E) stopF T e2 v2) :
    Yields E (eval_fact E) stopF T (e1 ++ '^' :: e2) (E.A.pow v1 v2) := by
  obtain ⟨n1, hn1⟩ := h1
  obtain ⟨n2, hn2⟩ := h2
  refine ⟨max n1 n2 + 1, fun fuel hf buf pos s rest hT hD he hTab hdone => ?_⟩
  obtain ⟨f, rfl⟩ : ∃ f, fuel = f + 1 := ⟨fuel - 1, by omega⟩
  have hT0 : TextAt E buf pos s (e1 ++ ('^' :: (e2 ++ rest))) := by simpa using hT
  obtain ⟨p1, s1, r1, hT1, he1, hTab1, hd1⟩ := hn1 f (by omega) buf pos s _ hT0
    (Or.inr ⟨'^', _, rfl, by decide, by decide⟩) he hTab hdone
  obtain ⟨p2, s2, r2, hT2, he2, hTab2, hd2⟩ := take_op E hT1 (by decide) he1 hTab1 hd1
  obtain ⟨p3, s3, r3, hT3, he3, hTab3, hd3⟩ := hn2 f (by omega) buf p2 s2 rest hT2 hD he2 hTab2 hd2
  refine ⟨p3, s3, ?_, hT3, he3, hTab3, hd3⟩
  simp [eval_fact, r1, he1, r2, he2, op_token_type, NUL, r3, he3]

/-- `term = fact * term`. -/
theorem term_mul (E : Env V) {T : Option (hashtable (List Char) (VarFn V))}
    {e1 e2 : List Char} {v1 v2 : V} (h1 : Yields E (eval_fact E) stopF T e1 v1)
    (h2 : Yields E (eval_term E) stopT T e2 v2) :
    Yields E (eval_term E) stopT T (e1 ++ '*' :: e2) (E.A.mul v1 v2) := by
  obtain ⟨n1, hn1⟩ := h1
  obtain ⟨n2, hn2⟩ := h2
  refine ⟨max n1 n2 + 1, fun fuel hf buf pos s rest hT hD he hTab hdone => ?_⟩
  obtain ⟨f, rfl⟩ : ∃ f, fuel = f + 1 := ⟨fuel - 1, by omega⟩
  have hT0 : TextAt E buf pos s (e1 ++ ('*' :: (e2 ++ rest))) := by simpa using hT
  obtain ⟨p1, s1, r1, hT1, he1, hTab1, hd1⟩ := hn1 f (by omega) buf pos s _ hT0
    (Or.inr ⟨'*', _, rfl, by decide, by decide⟩) he hTab hdone
  obtain ⟨p2, s2, r2, hT2, he2, hTab2, hd2⟩ := take_op E hT1 (by decide) he1 hTab1 hd1
  obtain ⟨p3, s3, r3, hT3, he3, hTab3, hd3⟩ := hn2 f (by omega) buf p2 s2 rest hT2 hD he2 hTab2 hd2
  refine ⟨p3, s3, ?_, hT3, he3, hTab3, hd3⟩
  simp [eval_term, r1, he1, r2, he2, op_token_type, NUL, r3]

/-- `term = fact / term`, the divisor not being zero. -/
theorem term_div (E : Env V) {T : Option (hashtable (List Char) (VarFn V))}
    {e1 e2 : List Char} {v1 v2 : V} (h1 : Yields E (eval_fact E) stopF T e1 v1)
    (h2 : Yields E (eval_term E) stopT T e2 v2) (hz : E.A.isZero v2 = false) :
    Yields E (eval_term E) stopT T (e1 ++ '/' :: e2) (E.A.div v1 v2) := by
  obtain ⟨n1, hn1⟩ := h1
  obtain ⟨n2, hn2⟩ := h2
  refine ⟨max n1 n2 + 1, fun fuel hf buf pos s rest hT hD he hTab hdone => ?_⟩
  obtain ⟨f, rfl⟩ : ∃ f, fuel = f + 1 := ⟨fuel - 1, by omega⟩
  have hT0 : TextAt E buf pos s (e1 ++ ('/' :: (e2 ++ rest))) := by simpa using hT
  obtain ⟨p1, s1, r1, hT1, he1, hTab1, hd1⟩ := hn1 f (by omega) buf pos s _ hT0
    (Or.inr ⟨'/', _, rfl, by decide, by decide⟩) he hTab hdone
  obtain ⟨p2, s2, r2, hT2, he2, hTab2, hd2⟩ := take_op E hT1 (by decide) he1 hTab1 hd1
  obtain ⟨p3, s3, r3, hT3, he3, hTab3, hd3⟩ := hn2 f (by omega) buf p2 s2 rest hT2 hD he2 hTab2 hd2
  refine ⟨p3, s3, ?_, hT3, he3, hTab3, hd3⟩
  simp [eval_term, r1, he1, r2, he2, op_token_type, NUL, r3, hz]

/-- `term = fact \ term`, the divisor not being zero. -/
theorem term_mod (E : Env V) {T : Option (hashtable (List Char) (VarFn V))}
    {e1 e2 : List Char} {v1 v2 : V} (h1 : Yields E (eval_fact E) stopF T e1 v1)
    (h2 : Yields E (eval_term E) stopT T e2 v2) (hz : E.A.isZero v2 = false) :
    Yields E (eval_term E) stopT T (e1 ++ BSLASH :: e2) (E.A.fmod v1 v2) := by
  obtain ⟨n1, hn1⟩ := h1
  obtain ⟨n2, hn2⟩ := h2
  refine ⟨max n1 n2 + 1, fun fuel hf buf pos s rest hT hD he hTab hdone => ?_⟩
  obtain ⟨f, rfl⟩ : ∃ f, fuel = f + 1 := ⟨fuel - 1, by omega⟩
  have hT0 : TextAt E buf pos s (e1 ++ (BSLASH :: (e2 ++ rest))) := by simpa using hT
  obtain ⟨p1, s1, r1, hT1, he1, hTab1, hd1⟩ := hn1 f (by omega) buf pos s _ hT0
    (Or.inr ⟨BSLASH, _, rfl, by decide, by decide⟩) he hTab hdone
  obtain ⟨p2, s2, r2, hT2, he2, hTab2, hd2⟩ := take_op E hT1 (by decide) he1 hTab1 hd1
  obtain ⟨p3, s3, r3, hT3, he3, hTab3, hd3⟩ := hn2 f (by omega) buf p2 s2 rest hT2 hD he2 hTab2 hd2
  refine ⟨p3, s3, ?_, hT3, he3, hTab3, hd3⟩
  have b1 : ¬ BSLASH = NUL := by decide
  have b2 : ¬ BSLASH = '*' := by decide
  have b3 : ¬ BSLASH = '/' := by decide
  simp [eval_term, r1, he1, r2, he2, op_token_type, b1, b2, b3, r3, hz]

/-- `expr = term + expr`. -/
theorem expr_add (E : Env V) {T : Option (hashtable (List Char) (VarFn V))}
    {e1 e2 : List Char} {v1 v2 : V} (h1 : Yields E (eval_term E) stopT T e1 v1)
    (h2 : Yields E (eval_expr E) stopE T e2 v2) :
    Yields E (eval_expr E) stopE T (e1 ++ '+' :: e2) (E.A.add v1 v2) := by
  obtain ⟨n1, hn1⟩ := h1
  obtain ⟨n2, hn2⟩ := h2
  refine ⟨max n1 n2 + 1, fun fuel hf buf pos s rest hT hD he hTab hdone => ?_⟩
  obtain ⟨f, rfl⟩ : ∃ f, fuel = f + 1 := ⟨fuel - 1, by omega⟩
  have hT0 : TextAt E buf pos s (e1 ++ ('+' :: (e2 ++ rest))) := by simpa using hT
  obtain ⟨p1, s1, r1, hT1, he1, hTab1, hd1⟩ := hn1 f (by omega) buf pos s _ hT0
    (Or.inr ⟨'+', _, rfl, by decide, by decide⟩) he hTab hdone
  obtain ⟨p2, s2, r2, hT2, he2, hTab2, hd2⟩ := take_op E hT1 (by decide) he1 hTab1 hd1
  obtain ⟨p3, s3, r3, hT3, he3, hTab3, hd3⟩ := hn2 f (by omega) buf p2 s2 rest hT2 hD he2 hTab2 hd2
  refine ⟨p3, s3, ?_, hT3, he3, hTab3, hd3⟩
  simp [eval_expr, r1, he1, r2, he2, op_token_type, NUL, r3]

/-- `expr = term - expr`. -/
theorem expr_sub (E : Env V) {T : Option (hashtable (List Char) (VarFn V))}
    {e1 e2 : List Char} {v1 v2 : V} (h1 : Yields E (eval_term E) stopT T e1 v1)
    (h2 : Yields E (eval_expr E) stopE T e2 v2) :
    Yields E (eval_expr E) stopE T (e1 ++ '-' :: e2) (E.A.sub v1 v2) := by
  obtain ⟨n1, hn1⟩ := h1
  obtain ⟨n2, hn2⟩ := h2
  refine ⟨max n1 n2 + 1, fun fuel hf buf pos s rest hT hD he hTab hdone => ?_⟩
  obtain ⟨f, rfl⟩ : ∃ f, fuel = f + 1 := ⟨fuel - 1, by omega⟩
  have hT0 : TextAt E buf pos s (e1 ++ ('-' :: (e2 ++ rest))) := by simpa using hT
  obtain ⟨p1, s1, r1, hT1, he1, hTab1, hd1⟩ := hn1 f (by omega) buf pos s _ hT0
    (Or.inr ⟨'-', _, rfl, by decide, by decide⟩) he hTab hdone
  obtain ⟨p2, s2, r2, hT2, he2, hTab2, hd2⟩ := take_op E hT1 (by decide) he1 hTab1 hd1
  obtain ⟨p3, s3, r3, hT3, he3, hTab3, hd3⟩ := hn2 f (by omega) buf p2 s2 rest hT2 hD he2 hTab2 hd2
  refine ⟨p3, s3, ?_, hT3, he3, hTab3, hd3⟩
  simp [eval_expr, r1, he1, r2, he2, op_token_type, NUL, r3]

/-- `item = - fact`: the sign applies to the whole factor that follows it. -/
theorem item_neg (E : Env V) {T : Option (hashtable (List Char) (VarFn V))}
    {e : List Char} {v : V} (h : Yields E (eval_fact E) stopF T e v) :
    Yields E (eval_item E) stopF T ('-' :: e) (E.A.neg v) := by
  obtain ⟨n, hn⟩ := h
  refine ⟨n + 2, fun fuel hf buf pos s rest hT hD he hTab hdone => ?_⟩
  obtain ⟨f, rfl⟩ : ∃ f, fuel = f + 1 := ⟨fuel - 1, by omega⟩
  have hT0 : TextAt E buf pos s ('-' :: (e ++ rest)) := by simpa using hT
  obtain ⟨p1, s1, r1, hT1, he1, hTab1, hd1⟩ := take_op E hT0 (by decide) he hTab hdone
  obtain ⟨p2, s2, r2, hT2, he2, hTab2, hd2⟩ := hn f (by omega) buf p1 s1 rest hT1 hD he1 hTab1 hd1
  have hD1 : Delim stopI rest := by
    rcases hD with h | ⟨c, r, h, hc, hs⟩
    · exact Or.inl h
    · exact Or.inr ⟨c, r, h, hc, stopI_of_stopF hs⟩
  obtain ⟨p3, s3, r3, hT3, hk3⟩ := tail_stop E (E.A.neg v) hT2 hD1 f (by omega)
  obtain ⟨g1, g2, g3⟩ := good_of_keeps hk3 he2 hTab2 hd2
  refine ⟨p3, s3, ?_, hT3, g1, g2, g3⟩
  simp [eval_item, r1, he1, op_token_type, r2, r3]

/-- `item = ( expr )`. -/
theorem item_paren (E : Env V) {T : Option (hashtable (List Char) (VarFn V))}
    {e : List Char} {v : V} (h : Yields E (eval_expr E) stopE T e v) :
    Yields E (eval_item E) stopI T ('(' :: (e ++ [')'])) v := by
  obtain ⟨n, hn⟩ := h
  refine ⟨n + 2, fun fuel hf buf pos s rest hT hD he hTab hdone => ?_⟩
  obtain ⟨f, rfl⟩ : ∃ f, fuel = f + 1 := ⟨fuel - 1, by omega⟩
  have hT0 : TextAt E buf pos s ('(' :: (e ++ (')' :: rest))) := by simpa using hT
  obtain ⟨p1, s1, r1, hT1, he1, hTab1, hd1⟩ := take_op E hT0 (by decide) he hTab hdone
  obtain ⟨p2, s2, r2, hT2, he2, hTab2, hd2⟩ := hn f (by omega) buf p1 s1 _ hT1
    (Or.inr ⟨')', _, rfl, by decide, by decide⟩) he1 hTab1 hd1
  obtain ⟨p3, s3, r3, hT3, he3, hTab3, hd3⟩ := take_op E hT2 (by decide) he2 hTab2 hd2
  obtain ⟨p4, s4, r4, hT4, hk4⟩ := tail_stop E v hT3 hD f (by omega)
  obtain ⟨g1, g2, g3⟩ := good_of_keeps hk4 he3 hTab3 hd3
  refine ⟨p4, s4, ?_, hT4, g1, g2, g3⟩
  simp [eval_item, r1, he1, op_token_type, r2, r3, r4]

/-! ## The entry point -/

theorem ensure_table_done (E : Env V) (s : State V) : (ensure_table E s).2.done = s.done := by
  unfold ensure_table
  split
  · rfl
  · dsimp only; split_ifs <;> rfl

theorem table_store_done (s : State V) (name : List Char) (vf : VarFn V) :
    (table_store s name vf).done = s.done := by
  unfold table_store
  split
  · rfl
  · split
    · dsimp only
      split <;> rfl
    · rfl

theorem eval_def_fn_body_done (E : Env V) (name : List Char) (fn : Option (FunctionPtr V))
    (data : Data) (args : Int) (s : State V) :
    (eval_def_fn_body E name fn data args s).2.done = s.done := by
  unfold eval_def_fn_body
  have h := ensure_table_done E s
  generalize ensure_table E s = r at h
  obtain ⟨b, s1⟩ := r
  cases b
  · exact h
  · simp only at h ⊢
    split
    · split_ifs
      · exact h
      · simp only [table_store_done]; exact h
    · exact h
    · split_ifs <;> exact h

theorem set_funcs_loop_done (E : Env V) (l : List String) (i : Nat) (s : State V) :
    (set_funcs_loop E l i s).2.done = s.done := by
  induction l generalizing i s with
  | nil => rfl
  | cons nm rest ih =>
    unfold set_funcs_loop
    have h := eval_def_fn_body_done E nm.toList (some (FunctionPtr.native (E.fn i))) none
      (fnargs.getD i 0) s
    generalize eval_def_fn_body E nm.toList (some (FunctionPtr.native (E.fn i))) none
      (fnargs.getD i 0) s = r at h
    obtain ⟨rc, s1⟩ := r
    dsimp only at h ⊢
    split_ifs
    · exact h
    · rw [ih]; exact h

/-- After `set_funcs` the flag `done` is set. -/
theorem set_funcs_done (E : Env V) (s : State V) : (set_funcs E s).2.done = true := by
  unfold set_funcs
  split_ifs with h
  · exact h
  · rw [set_funcs_loop_done]

/-- A complete text that `eval_expr` handles without error makes `eval`
return 0 and store the value in the output slot. -/
theorem eval_of_yields (E : Env V) (s : State V) (result : Option V) {e : List Char} {v : V}
    (h : Yields E (eval_expr E) stopE
      (set_funcs E { s with recurse := s.recurse + 1 }).2.G_varfn_table e v) :
    ∃ n, ∀ fuel, n ≤ fuel →
      outcome (eval E fuel (some e) result s) = some (0, result.map (fun _ => v)) := by
  obtain ⟨n, hn⟩ := h
  refine ⟨n + 1, fun fuel hf => ?_⟩
  obtain ⟨f, rfl⟩ : ∃ f, fuel = f + 1 := ⟨fuel - 1, by omega⟩
  obtain ⟨p1, s1, r1, _, he1, _, _⟩ := hn f (by omega) e 0
    { (set_funcs E { s with recurse := s.recurse + 1 }).2 with
        G_eval_error := 0, G_pb_token := null_token E } []
    (Or.inl ⟨rfl, by simp⟩) (Or.inl rfl) rfl rfl (set_funcs_done E _)
  simp only [eval, r1, outcome]
  by_cases hr : s1.recurse - 1 = 0
  · simp [hr, lfreeall, he1]
  · simp [hr, he1]

/-! ## Function calls -/

theorem namestart_not_op {c : Char} (h : isalpha c = true ∨ c = '_') : is_op_char c = false := by
  cases hc : is_op_char c with
  | false => rfl
  | true =>
    exfalso
    rcases op_cases hc with h1 | h1 | h1 | h1 | h1 | h1 | h1 | h1 | h1 | h1 <;> subst h1 <;>
      revert h <;> decide

theorem namestart_not_space {c : Char} (h : isalpha c = true ∨ c = '_') : isspace c = false := by
  rcases h with h | h
  · simp only [isalpha, Bool.or_eq_true, Bool.and_eq_true, decide_eq_true_eq] at h
    simp only [isspace, Bool.or_eq_false_iff, decide_eq_false_iff_not, Bool.and_eq_false_iff]
    omega
  · subst h; decide

theorem namestart_not_num {c : Char} (h : isalpha c = true ∨ c = '_') :
    (isdigit c || decide (c = '.')) = false := by
  rcases h with h | h
  · simp only [isalpha, Bool.or_eq_true, Bool.and_eq_true, decide_eq_true_eq] at h
    have h1 : isdigit c = false := by
      simp only [isdigit, Bool.and_eq_false_iff, decide_eq_false_iff_not]
      omega
    have h2 : c ≠ '.' := by
      intro e; subst e; revert h; decide
    simp [h1, h2]
  · subst h; decide

/-- Pulling an identifier of at most 100 characters that is bound in the
symbol table, from an empty pushback slot, when the character after it does
not continue an identifier. -/
theorem pull_name (E : Env V) {buf : List Char} {p : Nat} {w r : List Char} {vf : VarFn V}
    (s : State V) (hpb : s.G_pb_token = null_token E) (h : buf.drop p = w ++ r)
    (hw : is_name w = true) (hlen : w.length ≤ 100)
    (hr : ∀ c ∈ r.head?, isident c = false)
    (hlook : ht_lookup s.G_varfn_table (some w) = (0, some vf)) :
    pull_token E buf p s = (name_token E vf, p + w.length, (copy_str E w 0 s).2) := by
  have h0 : ¬ (s.G_pb_token.type ≠ NUL) := by rw [hpb]; simp [null_token]
  obtain ⟨c0, w', hw'⟩ : ∃ c0 w', w = c0 :: w' := by
    cases w with
    | nil => simp [is_name] at hw
    | cons a t => exact ⟨a, t, rfl⟩
  have hc0 : isalpha c0 = true ∨ c0 = '_' := by
    rw [hw'] at hw
    simp only [is_name, Bool.and_eq_true, Bool.or_eq_true, decide_eq_true_eq] at hw
    exact hw.1
  have hall : ∀ c ∈ w, isident c = true := by
    rw [hw'] at hw ⊢
    simp only [is_name, Bool.and_eq_true, Bool.or_eq_true, decide_eq_true_eq,
      List.all_eq_true] at hw
    intro c hc
    rcases List.mem_cons.mp hc with e | e
    · subst e
      rcases hw.1 with h1 | h1
      · simp [isident, h1]
      · simp [isident, h1]
    · exact hw.2 c e
  have hdrop : buf.drop p = c0 :: (w' ++ r) := by rw [h, hw']; rfl
  have hskip : skip_space (buf.drop p) p = p := by
    rw [hdrop]; exact skip_space_of_not (namestart_not_space hc0)
  have hch : charAt buf p = c0 := charAt_of_drop hdrop
  have hal : (isalpha c0 || decide (c0 = '_')) = true := by
    rcases hc0 with e | e <;> simp [e]
  have hs : scan isident (buf.drop p) [] p = (w, p + w.length) := by
    rw [h]
    have := scan_all isident w r [] p hall hr (by simpa using hlen)
    simpa using this
  unfold pull_token
  rw [if_neg h0]
  simp only [hskip, hch, namestart_not_op hc0, namestart_not_num hc0, hal, if_true,
    Bool.false_eq_true, if_false, hs, hlook, name_token]

/-- A pull changes nothing but the error flag, the pushback slot and the
arena, and leaves an empty pushback slot empty. -/
theorem pull_frame (E : Env V) (buf : List Char) (p : Nat) (s : State V) :
    (pull_token E buf p s).2.2.G_varfn_table = s.G_varfn_table ∧
    (pull_token E buf p s).2.2.done = s.done ∧
    (pull_token E buf p s).2.2.calls = s.calls ∧
    (s.G_pb_token = null_token E → (pull_token E buf p s).2.2.G_pb_token = null_token E) := by
  have k := fun w => copy_str_keeps E w 0 s
  have kp := fun w => copy_str_pb E w 0 s
  unfold pull_token
  dsimp only
  split_ifs
  all_goals first
    | exact ⟨rfl, rfl, rfl, fun h => h⟩
    | exact ⟨rfl, rfl, rfl, fun _ => rfl⟩
    | exact ⟨(k _).2.1, (k _).2.2.1, (k _).2.2.2.2.1, fun h => (kp _).trans h⟩
    | (split
       · exact ⟨(k _).2.1, (k _).2.2.1, (k _).2.2.2.2.1, fun h => (kp _).trans h⟩
       · exact ⟨rfl, rfl, rfl, fun h => h⟩
       · exact ⟨rfl, rfl, rfl, fun h => h⟩)

/-- Pulling a bound identifier. -/
theorem pull_name_at (E : Env V) {buf : List Char} {pos : Nat} {s : State V}
    {w r : List Char} {vf : VarFn V} (hT : TextAt E buf pos s (w ++ r))
    (hw : is_name w = true) (hlen : w.length ≤ 100) (hr : ∀ c ∈ r.head?, isident c = false)
    (hlook : ht_lookup s.G_varfn_table (some w) = (0, some vf)) :
    ∃ pos1 s1, pull_token E buf pos s = (name_token E vf, pos1, s1) ∧
      s1.G_pb_token = null_token E ∧ buf.drop pos1 = r ∧ Keeps s s1 ∧
      TextAt E buf pos1 { s1 with G_pb_token := name_token E vf } (w ++ r) :=
  pull_at E hT (by unfold name_token; dsimp only; split_ifs <;> decide)
    (fun p0 sx hpb htab hd => by
      rw [pull_name E sx hpb hd hw hlen hr (by rw [htab]; exact hlook)]
      exact ⟨rfl, rfl, copy_str_keeps E w 0 sx, (copy_str_pb E w 0 sx).trans hpb⟩)

/-- Looking at the first token of an argument and pushing it back, as
`eval_args` does, leaves the unread input as it was. -/
theorem peek_arg (E : Env V) {T : Option (hashtable (List Char) (VarFn V))}
    {buf : List Char} {pos : Nat} {s : State V} {e rest : List Char}
    (hS : StartsArg E T e) (hT : TextAt E buf pos s (e ++ rest)) (hD : Delim stopE rest)
    (hTab : s.G_varfn_table = T) :
    ∃ tok pos1 s1, pull_token E buf pos s = (tok, pos1, s1) ∧ tok.type ≠ NUL ∧
      tok.type ≠ ')' ∧ s1.G_pb_token = null_token E ∧
      s1.G_eval_error = s.G_eval_error ∧ s1.G_varfn_table = s.G_varfn_table ∧
      s1.done = s.done ∧ s1.calls = s.calls ∧
      TextAt E buf pos1 { s1 with G_pb_token := tok } (e ++ rest) := by
  rcases hT with ⟨hpb, hd⟩ | ⟨hpb, p0, hd, h1, h2⟩
  · obtain ⟨a1, a2, a3⟩ := hS buf pos s rest hpb hTab hd hD
    obtain ⟨b1, b2, b3, b4⟩ := pull_frame E buf pos s
    refine ⟨(pull_token E buf pos s).1, (pull_token E buf pos s).2.1,
      (pull_token E buf pos s).2.2, rfl, a1, a2, b4 hpb, a3, b1, b2, b3, ?_⟩
    refine Or.inr ⟨a1, pos, hd, ?_, ?_⟩
    · exact (pull_congr E buf pos s
        { { (pull_token E buf pos s).2.2 with G_pb_token := (pull_token E buf pos s).1 } with
            G_pb_token := null_token E } hpb.symm b1).1
    · exact (pull_congr E buf pos s
        { { (pull_token E buf pos s).2.2 with G_pb_token := (pull_token E buf pos s).1 } with
            G_pb_token := null_token E } hpb.symm b1).2
  · obtain ⟨a1, a2, _⟩ := hS buf p0 { s with G_pb_token := null_token E } rest rfl hTab hd hD
    rw [h1] at a1 a2
    refine ⟨s.G_pb_token, pos, { s with G_pb_token := null_token E }, pull_pb E buf pos s hpb,
      a1, a2, rfl, rfl, rfl, rfl, rfl, ?_⟩
    exact Or.inr ⟨hpb, p0, hd, h1, h2⟩

/-- An allocation does not change the unread input. -/
theorem textAt_lalloc (E : Env V) {buf : List Char} {pos : Nat} {s : State V}
    {r : List Char} (n : Nat) (hT : TextAt E buf pos s r) :
    TextAt E buf pos (lalloc E n s).2 r := by
  have hp := lalloc_pb E n s
  have hk := lalloc_keeps E n s
  rcases hT with ⟨hpb, hd⟩ | ⟨hpb, p0, hd, h1, h2⟩
  · exact Or.inl ⟨hp.trans hpb, hd⟩
  · refine Or.inr ⟨by rw [hp]; exact hpb, p0, hd, ?_, ?_⟩
    · rw [hp, ← h1]
      exact (pull_congr E buf p0 { s with G_pb_token := null_token E }
        { (lalloc E n s).2 with G_pb_token := null_token E } rfl hk.2.1).1
    · rw [← h2]
      exact (pull_congr E buf p0 { s with G_pb_token := null_token E }
        { (lalloc E n s).2 with G_pb_token := null_token E } rfl hk.2.1).2

/-- With a `malloc` that never fails, `lalloc` returns a pointer. -/
theorem lalloc_ok (E : Env V) (hm : ∀ i, E.malloc i = true) (n : Nat) (s : State V) :
    (lalloc E n s).1 = true := by
  simp only [lalloc, hm]
  split_ifs <;> rfl

/-- The copy loop keeps the old cells and appends eight fresh ones. -/
theorem copy_args_eq (arg : List (Option V)) :
    copy_args arg arg.length = arg ++ List.replicate 8 none := by
  apply List.ext_getElem?
  intro i
  unfold copy_args
  by_cases h : i < arg.length
  · rw [List.getElem?_append_left h, List.getElem?_map, List.getElem?_range (by omega)]
    simp [h, List.getD_eq_getElem?_getD]
  · rw [List.getElem?_append_right (Nat.le_of_not_lt h), List.getElem?_replicate,
      List.getElem?_map]
    by_cases h2 : i < arg.length + 8
    · rw [List.getElem?_range h2]
      simp [h, show i - arg.length < 8 by omega]
    · rw [List.getElem?_eq_none (by simpa using Nat.le_of_not_lt h2)]
      simp [show ¬ i - arg.length < 8 by omega]

theorem take_set_succ (l : List (Option V)) (k : Nat) (x : Option V) (h : k < l.length) :
    (l.set k x).take (k + 1) = l.take k ++ [x] := by
  induction l generalizing k with
  | nil => simp at h
  | cons a t ih =>
    cases k with
    | zero => simp
    | succ k =>
      simp only [List.set_cons_succ, List.take_succ_cons, List.cons_append, List.cons.injEq,
        true_and]
      exact ih k (by simpa using h)

theorem take_append_replicate (arg : List (Option V)) (k n : Nat) (h : k ≤ arg.length) :
    (arg ++ List.replicate n none).take k = arg.take k := by
  rw [List.take_append_of_le_length h]

/-- The first argument of an argument list: `eval_args` looks at its first
token, makes room in the array, evaluates it and stores its value in cell
`k`; what remains is the decision on the token that follows. -/
theorem args_head (E : Env V) {T : Option (hashtable (List Char) (VarFn V))}
    (hm : ∀ i, E.malloc i = true) {N : Nat} {e : List Char} {v : V}
    (hS : StartsArg E T e) (hY : YieldsFrom N E (eval_expr E) stopE T e v)
    {f : Nat} (hf : N ≤ f) {buf : List Char} {pos : Nat} {s : State V} {rest1 : List Char}
    (args : Int) (arg : List (Option V)) (k : Nat)
    (hT : TextAt E buf pos s (e ++ rest1)) (hD : Delim stopE rest1)
    (he : s.G_eval_error = 0) (hTab : s.G_varfn_table = T) (hd : s.done = true)
    (hk : k ≤ arg.length) :
    ∃ pos2 s3 arg2, k < arg2.length ∧ arg2.take (k + 1) = arg.take k ++ [some v] ∧
      TextAt E buf pos2 s3 rest1 ∧ s3.G_eval_error = 0 ∧ s3.G_varfn_table = T ∧
      s3.done = true ∧
      eval_args E (f + 1) buf pos args arg arg.length k s =
        (match pull_token E buf pos2 s3 with
         | (tok2, pos3, s4) =>
           if tok2.type = ',' then
             match eval_args E f buf pos3 ((k : Int) + 1) arg2 arg2.length (k + 1) s4 with
             | none => none
             | some r => if r.rc ≠ 0 then some { r with rc := 3 } else some r
           else if tok2.type = ')' then
             some { rc := 0, pos := pos3, args := (k : Int) + 1, arg := arg2,
                    arglen := arg2.length, st := (push_token tok2 s4).2 }
           else
             some { rc := 4, pos := pos3, args := (k : Int) + 1, arg := arg2,
                    arglen := arg2.length,
                    st := { s4 with G_eval_error := EVAL_SYNTAX_ERROR } }) := by
  obtain ⟨tok, pos1, s1, h1, t1, t2, hpb1, he1, hTab1, hd1, _, hT1⟩ :=
    peek_arg E hS hT hD hTab
  have hpush : push_token tok s1 = (0, { s1 with G_pb_token := tok }) := push_empty E tok s1 hpb1
  by_cases hg : k ≥ arg.length
  · -- the array is full: a new one of eight more cells is allocated
    have hkl : k = arg.length := by omega
    have hok := lalloc_ok E hm (8 * (arg.length + 8)) { s1 with G_pb_token := tok }
    have hkp := lalloc_keeps E (8 * (arg.length + 8)) { s1 with G_pb_token := tok }
    have hT2 := textAt_lalloc E (8 * (arg.length + 8)) hT1
    obtain ⟨pos2, s3, r3, hT3, he3, hTab3, hd3⟩ := hY f hf buf pos1 _ rest1 hT2 hD
      (hkp.1.trans (he1.trans he)) (hkp.2.1.trans (hTab1.trans hTab))
      (hkp.2.2.1.trans (hd1.trans hd))
    refine ⟨pos2, s3, (copy_args arg arg.length).set k (some v), ?_, ?_, hT3, he3, hTab3, hd3, ?_⟩
    · rw [List.length_set, copy_args_eq]; simp; omega
    · rw [take_set_succ _ _ _ (by rw [copy_args_eq]; simp; omega), copy_args_eq,
        take_append_replicate _ _ _ hk]
    · have hl : ((copy_args arg arg.length).set k (some v)).length = arg.length + 8 := by
        rw [List.length_set, copy_args_eq]; simp
      simp only [eval_args, h1, hpush, t2, if_false, hg, if_true, hok, Bool.true_eq_false, r3,
        he3, ne_eq, not_true_eq_false, hl, Nat.cast_inj]
  · -- there is room in the array
    obtain ⟨pos2, s3, r3, hT3, he3, hTab3, hd3⟩ := hY f hf buf pos1 _ rest1 hT1 hD
      (he1.trans he) (hTab1.trans hTab) (hd1.trans hd)
    refine ⟨pos2, s3, arg.set k (some v), ?_, ?_, hT3, he3, hTab3, hd3, ?_⟩
    · rw [List.length_set]; omega
    · rw [take_set_succ _ _ _ (by omega)]
    · have hl : (arg.set k (some v)).length = arg.length := List.length_set _ _ _
      simp only [eval_args, h1, hpush, t2, if_false, hg, r3, he3, ne_eq, not_true_eq_false, hl,
        Bool.true_eq_false]

/-- A non-empty argument list of error-free argument expressions: `eval_args`
returns 0, reports their number, stores their values in order from cell `k`
on (keeping the cells before `k`), and leaves the closing parenthesis
unread. -/
theorem eval_args_ok (E : Env V) {T : Option (hashtable (List Char) (VarFn V))}
    (hm : ∀ i, E.malloc i = true) (N : Nat) :
    ∀ (es : List (List Char)) (vs : List V), es ≠ [] →
      List.Forall₂ (fun e v => StartsArg E T e ∧ YieldsFrom N E (eval_expr E) stopE T e v)
        es vs →
      ∀ fuel, N + es.length ≤ fuel → ∀ buf pos (s : State V) rest (args : Int)
        (arg : List (Option V)) (k : Nat),
        TextAt E buf pos s (join_args es ++ ')' :: rest) → s.G_eval_error = 0 →
        s.G_varfn_table = T → s.done = true → k ≤ arg.length →
        ∃ r, eval_args E fuel buf pos args arg arg.length k s = some r ∧ r.rc = 0 ∧
          r.args = (k : Int) + (es.length : Int) ∧
          r.arg.take (k + es.length) = arg.take k ++ vs.map some ∧
          TextAt E buf r.pos r.st (')' :: rest) ∧ r.st.G_eval_error = 0 ∧
          r.st.G_varfn_table = T ∧ r.st.done = true := by
  intro es
  induction es with
  | nil => intro vs h; exact absurd rfl h
  | cons e es ih =>
    intro vs _ hF fuel hf buf pos s rest args arg k hT he hTab hd hk
    cases hF with
    | cons hev hF1 =>
      rename_i v vs1
      obtain ⟨f, rfl⟩ : ∃ f, fuel = f + 1 := ⟨fuel - 1, by simp at hf; omega⟩
      have hfN : N ≤ f := by simp at hf; omega
      cases es with
      | nil =>
        cases hF1
        have hT0 : TextAt E buf pos s (e ++ ')' :: rest) := by simpa [join_args] using hT
        obtain ⟨pos2, s3, arg2, hl2, htk, hT3, he3, hTab3, hd3, heq⟩ :=
          args_head E hm hev.1 hev.2 hfN args arg k hT0
            (Or.inr ⟨')', rest, rfl, by decide, by decide⟩) he hTab hd hk
        obtain ⟨pos3, s4, h4, hpb4, _, hk4, hT4⟩ := pull_op_at E hT3 (by decide)
        obtain ⟨g1, g2, g3⟩ := good_of_keeps (hk4.trans (Keeps_set_pb s4 (op_token E ')')))
          he3 hTab3 hd3
        refine ⟨{ rc := 0, pos := pos3, args := (k : Int) + 1, arg := arg2,
                  arglen := arg2.length, st := { s4 with G_pb_token := op_token E ')' } },
          heq.trans ?_, rfl, by simp, ?_, hT4, g1, g2, g3⟩
        · simp [h4, op_token_type, push_empty E _ s4 hpb4]
        · simpa using htk
      | cons e2 es2 =>
        have hT0 : TextAt E buf pos s (e ++ ',' :: (join_args (e2 :: es2) ++ ')' :: rest)) := by
          simpa [join_args] using hT
        obtain ⟨pos2, s3, arg2, hl2, htk, hT3, he3, hTab3, hd3, heq⟩ :=
          args_head E hm hev.1 hev.2 hfN args arg k hT0
            (Or.inr ⟨',', _, rfl, by decide, by decide⟩) he hTab hd hk
        obtain ⟨pos3, s4, h4, hT4, he4, hTab4, hd4⟩ := take_op E hT3 (by decide) he3 hTab3 hd3
        obtain ⟨r, hr, hrc, hargs, htake, hTr, her, hTabr, hdr⟩ :=
          ih vs1 (by simp) hF1 f (by simp at hf ⊢; omega) buf pos3 s4 rest ((k : Int) + 1)
            arg2 (k + 1) hT4 he4 hTab4 hd4 (by omega)
        refine ⟨r, heq.trans ?_, hrc, ?_, ?_, hTr, her, hTabr, hdr⟩
        · simp only [h4, op_token_type, if_true, hr, hrc, ne_eq, not_true_eq_false, if_false]
        · rw [hargs]; simp only [List.length_cons]; push_cast; omega
        · have e1 : k + (e :: e2 :: es2).length = k + 1 + (e2 :: es2).length := by
            simp; omega
          rw [e1, htake, htk]
          simp

theorem YieldsFrom_mono (E : Env V)
    {P : Nat → List Char → Nat → State V → Option (V × Nat × State V)}
    {stop : Char → Bool} {T : Option (hashtable (List Char) (VarFn V))}
    {e : List Char} {v : V} {n m : Nat} (hnm : n ≤ m) (h : YieldsFrom n E P stop T e v) :
    YieldsFrom m E P stop T e v :=
  fun fuel hf => h fuel (Nat.le_trans hnm hf)

/-- One amount of fuel serves all the arguments of a list. -/
theorem args_uniform (E : Env V) {T : Option (hashtable (List Char) (VarFn V))}
    {es : List (List Char)} {vs : List V} (h : List.Forall₂ (ArgExpr E T) es vs) :
    ∃ N, List.Forall₂
      (fun e v => StartsArg E T e ∧ YieldsFrom N E (eval_expr E) stopE T e v) es vs := by
  induction h with
  | nil => exact ⟨0, List.Forall₂.nil⟩
  | cons hd _ ih =>
    obtain ⟨N2, h2⟩ := ih
    obtain ⟨hs, N1, h1⟩ := hd
    refine ⟨max N1 N2, List.Forall₂.cons ⟨hs, YieldsFrom_mono E (Nat.le_max_left _ _) h1⟩ ?_⟩
    exact List.Forall₂.imp
      (fun _ _ hab => ⟨hab.1, YieldsFrom_mono E (Nat.le_max_right _ _) hab.2⟩) h2

theorem paren_not_ident : ∀ c ∈ ('(' :: (l : List Char)).head?, isident c = false := by
  intro c hc
  simp at hc
  subst hc
  decide

theorem name_token_type_f (E : Env V) {vf : VarFn V} {fp : FunctionPtr V}
    (h : vf.fn = some fp) : (name_token E vf).type = 'f' := by
  simp [name_token, h]

/-- A call of a native function with a non-empty list of error-free argument
expressions that satisfies the declared arity: `eval_item` invokes the
callable with the number of arguments and an array that starts with their
values, in order, and takes its value and its error from what the callable
returns. -/
theorem item_call (E : Env V) {T : Option (hashtable (List Char) (VarFn V))}
    (hm : ∀ i, E.malloc i = true) {name : List Char} (hname : is_name name = true)
    (hnl : name.length ≤ 100) {vf : VarFn V} (hlook : ht_lookup T (some name) = (0, some vf))
    {g : Int → List (Option V) → Data → Int × Option V}
    (hfn : vf.fn = some (FunctionPtr.native g)) {es : List (List Char)} {vs : List V}
    (hes : es ≠ []) (hargs : List.Forall₂ (ArgExpr E T) es vs)
    (harity : vf.nargs < 0 ∨ vf.nargs = (es.length : Int)) :
    ∃ n, ∀ fuel, n ≤ fuel → ∀ buf pos (s : State V) rest,
      TextAt E buf pos s (call_text name es ++ rest) → Delim stopI rest →
      s.G_eval_error = 0 → s.G_varfn_table = T → s.done = true →
      ∃ pos1 s1 arr,
        eval_item E fuel buf pos s =
          some ((g (es.length : Int) arr vf.data).2.getD E.A.zero, pos1, s1) ∧
        TextAt E buf pos1 s1 rest ∧ arr.take es.length = vs.map some ∧
        s1.calls.getLast? = some ⟨(es.length : Int), arr⟩ ∧
        s1.G_eval_error =
          (if (g (es.length : Int) arr vf.data).1 ≠ 0 then EVAL_FUNCTION_ERROR else 0) ∧
        s1.G_varfn_table = T ∧ s1.done = true := by
  obtain ⟨N, hN⟩ := args_uniform E hargs
  refine ⟨N + es.length + 2, fun fuel hf buf pos s rest hT hD he hTab hd => ?_⟩
  obtain ⟨f, rfl⟩ : ∃ f, fuel = f + 1 := ⟨fuel - 1, by omega⟩
  have hT0 : TextAt E buf pos s (name ++ '(' :: (join_args es ++ ')' :: rest)) := by
    simpa [call_text] using hT
  -- the name and the opening parenthesis
  obtain ⟨p1, s1, r1, hpb1, hdr1, hk1, _⟩ :=
    pull_name_at E hT0 hname hnl paren_not_ident (by rw [hTab]; exact hlook)
  obtain ⟨e1, t1, d1⟩ := good_of_keeps hk1 he hTab hd
  obtain ⟨p2, s2, r2, hT2, e2, t2, d2⟩ :=
    take_op E (Or.inl ⟨hpb1, hdr1⟩ : TextAt E buf p1 s1 _) (by decide) e1 t1 d1
  -- the argument array
  have hok : (if vf.nargs > 0 then
      lalloc E (8 * (if vf.nargs > 0 then vf.nargs.toNat else 0)) s2 else (true, s2)).1
        = true := by
    split_ifs
    · exact lalloc_ok E hm _ s2
    · rfl
  have hka : Keeps s2 (if vf.nargs > 0 then
      lalloc E (8 * (if vf.nargs > 0 then vf.nargs.toNat else 0)) s2 else (true, s2)).2 := by
    split_ifs
    · exact lalloc_keeps E _ s2
    · exact Keeps.refl s2
  have hTa : TextAt E buf p2 (if vf.nargs > 0 then
      lalloc E (8 * (if vf.nargs > 0 then vf.nargs.toNat else 0)) s2 else (true, s2)).2
      (join_args es ++ ')' :: rest) := by
    split_ifs
    · exact textAt_lalloc E _ hT2
    · exact hT2
  obtain ⟨ea, ta, da⟩ := good_of_keeps hka e2 t2 d2
  -- the arguments
  obtain ⟨r, hr, hrc, hra, htake, hTr, her, hTabr, hdr⟩ :=
    eval_args_ok E hm N es vs hes hN f (by omega) buf p2 _ rest vf.nargs
      (List.replicate (if vf.nargs > 0 then vf.nargs.toNat else 0) none) 0 hTa ea ta da
      (Nat.zero_le _)
  rw [List.length_replicate] at hr
  obtain ⟨rc, rpos, rargs, rarg, rarglen, rst⟩ := r
  simp only at hrc hra htake hTr her hTabr hdr
  have hra1 : rargs = (es.length : Int) := by rw [hra]; simp
  subst hra1
  subst hrc
  have hm1 : (1 : Int) ≤ (es.length : Int) := by
    have : 1 ≤ es.length := by
      cases es with
      | nil => exact absurd rfl hes
      | cons a t => simp
    exact_mod_cast this
  have harity1 : ¬ ((vf.nargs < 0 ∧ (es.length : Int) < 1) ∨
      (¬ vf.nargs < 0 ∧ (es.length : Int) ≠ vf.nargs)) := by
    rcases harity with h | h
    · intro hc
      rcases hc with ⟨_, h2⟩ | ⟨h1, _⟩
      · omega
      · exact h1 h
    · intro hc
      rcases hc with ⟨h1, _⟩ | ⟨_, h2⟩
      · omega
      · exact h2 h.symm
  -- the closing parenthesis
  obtain ⟨p3, s3, r3, hpb3, hdr3, hk3, _⟩ := pull_op_at E hTr (c := ')') (by decide)
  obtain ⟨e3, t3, d3⟩ := good_of_keeps hk3 her hTabr hdr
  -- the tail, in the state the call leaves
  have hT5 : TextAt E buf p3
      (if (g (es.length : Int) rarg vf.data).1 ≠ 0 then
        { { s3 with calls := s3.calls ++ [({ args := (es.length : Int), arg := rarg } : Call V)] }
            with G_eval_error := EVAL_FUNCTION_ERROR }
       else { s3 with calls := s3.calls ++ [({ args := (es.length : Int), arg := rarg } : Call V)] })
      rest := by
    split_ifs
    · exact Or.inl ⟨hpb3, hdr3⟩
    · exact Or.inl ⟨hpb3, hdr3⟩
  obtain ⟨p4, s4, r4, hT4, hk4⟩ := tail_stop E ((g (es.length : Int) rarg vf.data).2.getD E.A.zero)
    hT5 hD f (by omega)
  refine ⟨p4, s4, rarg, ?_, hT4, by simpa using htake, ?_, ?_, ?_, ?_⟩
  · have ty := name_token_type_f E hfn
    have nf : (name_token E vf).fn = some (FunctionPtr.native g) := by simp [name_token, hfn]
    have na : (name_token E vf).args = vf.nargs := rfl
    have nd : (name_token E vf).data = vf.data := rfl
    simp only [eval_item, r1, e1, ty, r2, e2, op_token_type, na, hok, hr, harity1, r3, e3,
      nf, nd]
    by_cases hz : (g (es.length : Int) rarg vf.data).1 = 0
    · simpa [hz, e3] using r4
    · simpa [hz, e3] using r4
  · rw [hk4.2.2.2.2.1]
    split_ifs <;> simp
  · rw [hk4.1]
    split_ifs <;> simp [e3]
  · rw [hk4.2.1]
    split_ifs <;> exact t3
  · rw [hk4.2.2.1]
    split_ifs <;> exact d3

/-- Whether some text is unread depends on the state only through the
pushback slot and the symbol table. -/
theorem textAt_congr (E : Env V) {buf : List Char} {pos : Nat} {s s1 : State V}
    {r : List Char} (hT : TextAt E buf pos s r) (hp : s1.G_pb_token = s.G_pb_token)
    (ht : s1.G_varfn_table = s.G_varfn_table) : TextAt E buf pos s1 r := by
  rcases hT with ⟨hpb, hd⟩ | ⟨hpb, p0, hd, h1, h2⟩
  · exact Or.inl ⟨hp.trans hpb, hd⟩
  · refine Or.inr ⟨by rw [hp]; exact hpb, p0, hd, ?_, ?_⟩
    · rw [hp, ← h1]
      exact (pull_congr E buf p0 { s with G_pb_token := null_token E }
        { s1 with G_pb_token := null_token E } rfl ht).1
    · rw [← h2]
      exact (pull_congr E buf p0 { s with G_pb_token := null_token E }
        { s1 with G_pb_token := null_token E } rfl ht).2

/-- A numeric literal of fewer than 100 characters is an error-free argument
expression. -/
theorem arg_literal (E : Env V) (T : Option (hashtable (List Char) (VarFn V)))
    {w : List Char} (hw : is_literal w = true) (hlen : w.length < 100) :
    ArgExpr E T w (E.A.strtod w) := by
  refine ⟨fun buf pos s rest hpb _ hd hD => ?_, ?_⟩
  · rw [pull_literal E s hpb hd hw hlen (delim_sep hD)]
    refine ⟨by simp [num_token, NUL], by simp [num_token], (copy_str_keeps E w 0 s).1⟩
  · exact expr_of_term E (Yields_mono E (fun _ h => stopT_of_stopE h)
      (term_of_fact E (Yields_mono E (fun _ h => stopF_of_stopT h)
        (fact_of_item E (Yields_mono E (fun _ h => stopI_of_stopF h)
          (item_literal E T hw hlen))))))

/-- A call with an empty argument list of a function of negative arity:
`eval_item` raises the Argument-count error and invokes nothing. -/
theorem item_call_empty (E : Env V) {T : Option (hashtable (List Char) (VarFn V))}
    {name : List Char} (hname : is_name name = true) (hnl : name.length ≤ 100)
    {vf : VarFn V} (hlook : ht_lookup T (some name) = (0, some vf))
    {fp : FunctionPtr V} (hfn : vf.fn = some fp) (hvar : vf.nargs < 0)
    (fuel : Nat) (hf : 2 ≤ fuel) (buf : List Char) (pos : Nat) (s : State V)
    (rest : List Char) (hT : TextAt E buf pos s (call_text name [] ++ rest))
    (he : s.G_eval_error = 0) (hTab : s.G_varfn_table = T) (hd : s.done = true) :
    ∃ pos1 s1, eval_item E fuel buf pos s = some (E.A.zero, pos1, s1) ∧
      s1.G_eval_error = EVAL_ARGS_ERROR ∧ s1.calls = s.calls := by
  obtain ⟨f, rfl⟩ : ∃ f, fuel = f + 1 := ⟨fuel - 1, by omega⟩
  obtain ⟨f0, rfl⟩ : ∃ f0, f = f0 + 1 := ⟨f - 1, by omega⟩
  have hT0 : TextAt E buf pos s (name ++ '(' :: ')' :: rest) := by
    simpa [call_text, join_args] using hT
  obtain ⟨p1, s1, r1, hpb1, hdr1, hk1, _⟩ :=
    pull_name_at E hT0 hname hnl paren_not_ident (by rw [hTab]; exact hlook)
  obtain ⟨e1, t1, d1⟩ := good_of_keeps hk1 he hTab hd
  obtain ⟨p2, s2, r2, hpb2, hdr2, hk2, _⟩ :=
    pull_op_at E (Or.inl ⟨hpb1, hdr1⟩ : TextAt E buf p1 s1 _) (c := '(') (by decide)
  obtain ⟨e2, t2, d2⟩ := good_of_keeps hk2 e1 t1 d1
  obtain ⟨p3, s3, r3, hpb3, hdr3, hk3, hT3⟩ :=
    pull_op_at E (Or.inl ⟨hpb2, hdr2⟩ : TextAt E buf p2 s2 _) (c := ')') (by decide)
  have hpush1 := push_empty E (op_token E ')') s3 hpb3
  have hpush2 : push_token (op_token E ')') { s3 with G_pb_token := op_token E ')' } =
      (1, { s3 with G_pb_token := op_token E ')' }) := by
    unfold push_token
    rw [if_pos (by simp [op_token_type, NUL])]
  have hT4 : TextAt E buf p3
      { { s3 with G_pb_token := op_token E ')' } with G_eval_error := EVAL_ARGS_ERROR }
      (')' :: rest) := textAt_congr E hT3 rfl rfl
  obtain ⟨p5, s5, r5, _, hk5⟩ := tail_stop E E.A.zero hT4
    (Or.inr ⟨')', rest, rfl, by decide, by decide⟩) (f0 + 1) (by omega)
  refine ⟨p5, s5, ?_, hk5.1, ?_⟩
  · have ty := name_token_type_f E hfn
    have na : (name_token E vf).args = vf.nargs := rfl
    have hn0 : ¬ vf.nargs > 0 := by omega
    have hlt : vf.nargs < 1 := by omega
    have hargs : eval_args E (f0 + 1) buf p2 vf.nargs [] 0 0 s2 =
        some { rc := 0, pos := p3, args := vf.nargs, arg := [], arglen := 0,
               st := { s3 with G_pb_token := op_token E ')' } } := by
      simp [eval_args, r3, hpush1, hpush2, op_token_type]
    simp [eval_item, r1, e1, ty, r2, e2, op_token_type, na, hn0, hargs, hvar, hlt, r5]
  · rw [hk5.2.2.2.2.1]
    exact (hk3.2.2.2.2.1.trans (hk2.2.2.2.2.1.trans hk1.2.2.2.2.1))

/-- An item that ends in an error makes `eval_expr` return with its state. -/
theorem expr_of_item_err (E : Env V) {f : Nat} {buf : List Char} {pos p1 : Nat}
    {s s1 : State V} {v : V} (h : eval_item E f buf pos s = some (v, p1, s1))
    (he : s1.G_eval_error ≠ 0) :
    eval_expr E (f + 3) buf pos s = some (E.A.zero, p1, s1) := by
  simp [eval_expr, eval_term, eval_fact, h, he]

/-- An error-free item that ends the input makes `eval_expr` return its
value and its state. -/
theorem expr_of_item_end (E : Env V) {f : Nat} {buf : List Char} {pos p1 : Nat}
    {s s1 : State V} {v : V} (h : eval_item E f buf pos s = some (v, p1, s1))
    (he : s1.G_eval_error = 0) (hT : TextAt E buf p1 s1 []) :
    eval_expr E (f + 3) buf pos s = some (v, p1, s1) := by
  have hp := (pull_end_at E hT).1
  simp [eval_expr, eval_term, eval_fact, h, he, hp, null_type]

/-- With the built-ins installed, `eval` is `eval_expr` from position 0 in a
state with the error flag and the pushback slot reset, followed by the
decision on the error flag; the invocation log is that of `eval_expr`. -/
theorem eval_done_unfold (E : Env V) (s : State V) (hd : s.done = true) (buf : List Char)
    (result : Option V) (f : Nat) {rv : V} {p1 : Nat} {s1 : State V}
    (h : eval_expr E f buf 0
      { s with recurse := s.recurse + 1, G_eval_error := 0, G_pb_token := null_token E } =
        some (rv, p1, s1)) :
    ∃ s2, s2.calls = s1.calls ∧
      eval E (f + 1) (some buf) result s =
        some (s1.G_eval_error, if s1.G_eval_error = 0 then result.map (fun _ => rv) else result,
          s2) := by
  have hsf : set_funcs E { s with recurse := s.recurse + 1 } =
      (0, { s with recurse := s.recurse + 1 }) := by
    simp [set_funcs, hd]
  by_cases hr : s1.recurse - 1 = 0
  · refine ⟨lfreeall { s1 with recurse := s1.recurse - 1 }, rfl, ?_⟩
    by_cases he : s1.G_eval_error = 0
    · simp [eval, hsf, h, hr, lfreeall, he]
    · simp [eval, hsf, h, hr, lfreeall, he]
  · refine ⟨{ s1 with recurse := s1.recurse - 1 }, rfl, ?_⟩
    by_cases he : s1.G_eval_error = 0
    · simp [eval, hsf, h, hr, he]
    · simp [eval, hsf, h, hr, he]

/-- A whole text that is one call of a native function with a non-empty list
of error-free arguments satisfying the arity: what `eval` returns, the array
the callable was handed, and the last entry of the invocation log. -/
theorem eval_call (E : Env V) (s : State V) (result : Option V)
    (hm : ∀ i, E.malloc i = true) {name : List Char} (hname : is_name name = true)
    (hnl : name.length ≤ 100) (hd : s.done = true) {vf : VarFn V}
    (hlook : ht_lookup s.G_varfn_table (some name) = (0, some vf))
    {g : Int → List (Option V) → Data → Int × Option V}
    (hfn : vf.fn = some (FunctionPtr.native g)) {es : List (List Char)} {vs : List V}
    (hes : es ≠ []) (hargs : List.Forall₂ (ArgExpr E s.G_varfn_table) es vs)
    (harity : vf.nargs < 0 ∨ vf.nargs = (es.length : Int)) :
    ∃ n, ∀ fuel, n ≤ fuel → ∃ s1 arr,
      eval E fuel (some (call_text name es)) result s =
        some (if (g (es.length : Int) arr vf.data).1 = 0 then 0 else EVAL_FUNCTION_ERROR,
              if (g (es.length : Int) arr vf.data).1 = 0 then
                result.map (fun _ => (g (es.length : Int) arr vf.data).2.getD E.A.zero)
              else result, s1) ∧
      arr.take es.length = vs.map some ∧
      s1.calls.getLast? = some ⟨(es.length : Int), arr⟩ := by
  obtain ⟨n, hn⟩ := item_call E hm hname hnl hlook hfn hes hargs harity
  refine ⟨n + 4, fun fuel hf => ?_⟩
  obtain ⟨f, rfl⟩ : ∃ f, fuel = f + 4 := ⟨fuel - 4, by omega⟩
  obtain ⟨p1, s1, arr, h1, hT1, htake, hlast, herr, _, _⟩ := hn f (by omega) (call_text name es) 0
    { s with recurse := s.recurse + 1, G_eval_error := 0, G_pb_token := null_token E } []
    (Or.inl ⟨rfl, by simp⟩) (Or.inl rfl) rfl rfl hd
  by_cases hz : (g (es.length : Int) arr vf.data).1 = 0
  · have he1 : s1.G_eval_error = 0 := by rw [herr]; simp [hz]
    obtain ⟨s2, hc, h4⟩ := eval_done_unfold E s hd _ result (f + 3) (expr_of_item_end E h1 he1 hT1)
    refine ⟨s2, arr, ?_, htake, by rw [hc]; exact hlast⟩
    rw [h4, he1]; simp [hz]
  · have he1 : s1.G_eval_error = EVAL_FUNCTION_ERROR := by rw [herr]; simp [hz]
    have he2 : s1.G_eval_error ≠ 0 := by rw [he1]; decide
    obtain ⟨s2, hc, h4⟩ := eval_done_unfold E s hd _ result (f + 3) (expr_of_item_err E h1 he2)
    refine ⟨s2, arr, ?_, htake, by rw [hc]; exact hlast⟩
    rw [h4, he1]; simp [hz, EVAL_FUNCTION_ERROR]

/-! ## What installing the built-ins leaves unchanged -/

theorem SameSession_refl (s : State V) : SameSession s s :=
  ⟨rfl, rfl, rfl, rfl, rfl, rfl, rfl⟩

theorem SameSession_trans {s s1 s2 : State V} (h1 : SameSession s s1)
    (h2 : SameSession s1 s2) : SameSession s s2 := by
  unfold SameSession at *
  refine ⟨?_, ?_, ?_, ?_, ?_, ?_, ?_⟩
  · rw [h2.1, h1.1]
  · rw [h2.2.1, h1.2.1]
  · rw [h2.2.2.1, h1.2.2.1]
  · rw [h2.2.2.2.1, h1.2.2.2.1]
  · rw [h2.2.2.2.2.1, h1.2.2.2.2.1]
  · rw [h2.2.2.2.2.2.1, h1.2.2.2.2.2.1]
  · rw [h2.2.2.2.2.2.2, h1.2.2.2.2.2.2]

theorem ensure_table_session (E : Env V) (s : State V) :
    SameSession s (ensure_table E s).2 := by
  unfold ensure_table
  split
  · exact SameSession_refl s
  · dsimp only; split_ifs <;> exact ⟨rfl, rfl, rfl, rfl, rfl, rfl, rfl⟩

theorem table_store_session (s : State V) (name : List Char) (vf : VarFn V) :
    SameSession s (table_store s name vf) := by
  unfold table_store
  split
  · exact SameSession_refl s
  · split
    · dsimp only
      split
      · exact ⟨rfl, rfl, rfl, rfl, rfl, rfl, rfl⟩
      · exact SameSession_refl s
    · exact SameSession_refl s

theorem eval_def_fn_body_session (E : Env V) (name : List Char) (fn : Option (FunctionPtr V))
    (data : Data) (args : Int) (s : State V) :
    SameSession s (eval_def_fn_body E name fn data args s).2 := by
  unfold eval_def_fn_body
  have h := ensure_table_session E s
  generalize ensure_table E s = r at h
  obtain ⟨b, s1⟩ := r
  cases b
  · exact h
  · simp only at h ⊢
    split
    · split_ifs
      · exact h
      · exact SameSession_trans h (table_store_session _ _ _)
    · exact h
    · split_ifs <;> exact SameSession_trans h ⟨rfl, rfl, rfl, rfl, rfl, rfl, rfl⟩

theorem set_funcs_loop_session (E : Env V) (l : List String) (i : Nat) (s : State V) :
    SameSession s (set_funcs_loop E l i s).2 := by
  induction l generalizing i s with
  | nil => exact SameSession_refl s
  | cons nm rest ih =>
    unfold set_funcs_loop
    have h := eval_def_fn_body_session E nm.toList (some (FunctionPtr.native (E.fn i))) none
      (fnargs.getD i 0) s
    generalize eval_def_fn_body E nm.toList (some (FunctionPtr.native (E.fn i))) none
      (fnargs.getD i 0) s = r at h
    obtain ⟨rc, s1⟩ := r
    dsimp only at h ⊢
    split_ifs
    · exact h
    · exact SameSession_trans h (ih _ _)

/-- Installing the built-ins touches the symbol table only. -/
theorem set_funcs_session (E : Env V) (s : State V) : SameSession s (set_funcs E s).2 := by
  unfold set_funcs
  split_ifs with h
  · exact SameSession_refl s
  · exact SameSession_trans ⟨rfl, rfl, rfl, rfl, rfl, rfl, rfl⟩ (set_funcs_loop_session E _ _ _)

/-! ## Trailing percent signs -/

/-- One round of the percent loop, seen from `eval_item_tail`. -/
theorem tail_step (E : Env V) {buf : List Char} {pos pos1 : Nat} {s s1 : State V}
    {tok : Token V} (rv : V) (f : Nat) (h : pull_token E buf pos s = (tok, pos1, s1))
    (ht : tok.type = '%') :
    eval_item_tail E (f + 1) buf pos rv s =
      eval_item_tail E f buf pos1 (E.A.div rv E.A.hundred) s1 := by
  simp [eval_item_tail, percent_loop, h, ht]

/-- The tail of `eval_item` on `k` percent signs: `k` divisions by 100. -/
theorem tail_percent (E : Env V) {buf : List Char} {rest : List Char}
    (hD : Delim stopI rest) :
    ∀ (k : Nat) (rv : V) (pos : Nat) (s : State V) (fuel : Nat), k + 1 ≤ fuel →
      TextAt E buf pos s (List.replicate k '%' ++ rest) →
      ∃ pos1 s1, eval_item_tail E fuel buf pos rv s = some (percent E.A rv k, pos1, s1) ∧
        TextAt E buf pos1 s1 rest ∧ Keeps s s1 := by
  intro k
  induction k with
  | zero =>
    intro rv pos s fuel hf hT
    exact tail_stop E rv (by simpa using hT) hD fuel (by omega)
  | succ k ih =>
    intro rv pos s fuel hf hT
    obtain ⟨f, rfl⟩ : ∃ f, fuel = f + 1 := ⟨fuel - 1, by omega⟩
    have hT0 : TextAt E buf pos s ('%' :: (List.replicate k '%' ++ rest)) := by
      simpa [List.replicate_succ] using hT
    obtain ⟨p1, s1, h1, h2, h3, h4, _⟩ := pull_op_at E hT0 (by decide)
    obtain ⟨p2, s2, h5, h6, h7⟩ := ih (E.A.div rv E.A.hundred) p1 s1 f (by omega)
      (Or.inl ⟨h2, h3⟩)
    refine ⟨p2, s2, ?_, h6, h4.trans h7⟩
    rw [tail_step E rv f h1 (op_token_type E '%'), h5]
    rfl

/-- A numeric literal of fewer than 100 characters followed by `k` percent
signs is an item. -/
theorem item_literal_percent (E : Env V) (T : Option (hashtable (List Char) (VarFn V)))
    {w : List Char} (hw : is_literal w = true) (hlen : w.length < 100) (k : Nat) :
    Yields E (eval_item E) stopI T (w ++ List.replicate k '%')
      (percent E.A (E.A.strtod w) k) := by
  refine ⟨k + 2, fun fuel hf buf pos s rest hT hD he hTab hdone => ?_⟩
  obtain ⟨f, rfl⟩ : ∃ f, fuel = f + 1 := ⟨fuel - 1, by omega⟩
  have hT0 : TextAt E buf pos s (w ++ (List.replicate k '%' ++ rest)) := by simpa using hT
  have hsep : ∀ c ∈ (List.replicate k '%' ++ rest).head?, isdigit c = false ∧ c ≠ '.' := by
    cases k with
    | zero => simpa using delim_sep hD
    | succ k =>
      intro c hc
      simp [List.replicate_succ] at hc
      subst hc
      exact ⟨by decide, by decide⟩
  obtain ⟨pos1, s1, h1, h2, h3, h4, _⟩ := pull_literal_at E hT0 hw hlen hsep
  obtain ⟨pos2, s2, h5, h6, h7⟩ := tail_percent E hD k (E.A.strtod w) pos1 s1 f (by omega)
    (Or.inl ⟨h2, h3⟩)
  have e1 : s1.G_eval_error = 0 := h4.1.trans he
  refine ⟨pos2, s2, ?_, h6, h7.1.trans e1, (h7.2.1.trans h4.2.1).trans hTab,
    (h7.2.2.1.trans h4.2.2.1).trans hdone⟩
  simp [eval_item, h1, e1, num_token, h5]

/-! ## Identifiers that are not bound -/

theorem skip_space_append (ws : List Char) (c : Char) (r : List Char) (i : Nat)
    (hws : ∀ x ∈ ws, isspace x = true) (hc : isspace c = false) :
    skip_space (ws ++ c :: r) i = i + ws.length := by
  induction ws generalizing i with
  | nil => simpa using skip_space_of_not hc
  | cons a t ih =>
    have ha : isspace a = true := hws a (List.mem_cons_self a t)
    have e : skip_space (a :: t ++ c :: r) i = skip_space (t ++ c :: r) (i + 1) := by
      simp [skip_space, ha]
    rw [e, ih (i + 1) (fun x hx => hws x (List.mem_cons_of_mem a hx)), List.length_cons]
    omega

/-- Pulling, from an empty pushback slot and after optional white space, an
identifier of at most 100 characters whose lookup fails: the empty token, and
the error flag set to `EVAL_UNKNOWN_NAME`. -/
theorem pull_unknown (E : Env V) {buf : List Char} {p : Nat} {ws w r : List Char}
    (s : State V) (hpb : s.G_pb_token = null_token E) (h : buf.drop p = ws ++ (w ++ r))
    (hws : ∀ x ∈ ws, isspace x = true) (hw : is_name w = true) (hlen : w.length ≤ 100)
    (hr : ∀ c ∈ r.head?, isident c = false)
    (hlook : (ht_lookup s.G_varfn_table (some w)).1 ≠ 0) :
    pull_token E buf p s =
      (null_token E, p + ws.length + w.length, { s with G_eval_error := EVAL_UNKNOWN_NAME }) := by
  have h0 : ¬ (s.G_pb_token.type ≠ NUL) := by rw [hpb]; simp [null_token]
  obtain ⟨c0, w', hw'⟩ : ∃ c0 w', w = c0 :: w' := by
    cases w with
    | nil => simp [is_name] at hw
    | cons a t => exact ⟨a, t, rfl⟩
  have hc0 : isalpha c0 = true ∨ c0 = '_' := by
    rw [hw'] at hw
    simp only [is_name, Bool.and_eq_true, Bool.or_eq_true, decide_eq_true_eq] at hw
    exact hw.1
  have hall : ∀ c ∈ w, isident c = true := by
    rw [hw'] at hw ⊢
    simp only [is_name, Bool.and_eq_true, Bool.or_eq_true, decide_eq_true_eq,
      List.all_eq_true] at hw
    intro c hc
    rcases List.mem_cons.mp hc with e | e
    · subst e
      rcases hw.1 with h1 | h1
      · simp [isident, h1]
      · simp [isident, h1]
    · exact hw.2 c e
  have hskip : skip_space (buf.drop p) p = p + ws.length := by
    rw [h, hw']
    exact skip_space_append ws c0 (w' ++ r) p hws (namestart_not_space hc0)
  have hdrop : buf.drop (p + ws.length) = c0 :: (w' ++ r) := by
    rw [drop_add_of_drop h, hw']; rfl
  have hch : charAt buf (p + ws.length) = c0 := charAt_of_drop hdrop
  have hal : (isalpha c0 || decide (c0 = '_')) = true := by
    rcases hc0 with e | e <;> simp [e]
  have hs : scan isident (buf.drop (p + ws.length)) [] (p + ws.length) =
      (w, p + ws.length + w.length) := by
    rw [drop_add_of_drop h]
    have := scan_all isident w r [] (p + ws.length) hall hr (by simpa using hlen)
    simpa using this
  unfold pull_token
  rw [if_neg h0]
  simp only [hskip, hch, namestart_not_op hc0, namestart_not_num hc0, hal, if_true,
    Bool.false_eq_true, if_false, hs]
  generalize ht_lookup s.G_varfn_table (some w) = lk at hlook
  obtain ⟨rc, v⟩ := lk
  simp only at hlook
  split
  · rename_i heq; simp only [Prod.mk.injEq] at heq; exact absurd heq.1 hlook
  · rename_i heq; simp only [Prod.mk.injEq] at heq; exact absurd heq.1 hlook
  · rfl

/-- What `eval` returns on a text, from what `eval_expr` returns on it. -/
theorem eval_unfold (E : Env V) (s : State V) (buf : List Char) (result : Option V) (f : Nat)
    {rv : V} {p1 : Nat} {s1 : State V}
    (h : eval_expr E f buf 0
      { (set_funcs E { s with recurse := s.recurse + 1 }).2 with
          G_eval_error := 0, G_pb_token := null_token E } = some (rv, p1, s1)) :
    outcome (eval E (f + 1) (some buf) result s) =
      some (s1.G_eval_error, if s1.G_eval_error = 0 then result.map (fun _ => rv) else result) := by
  by_cases hr : s1.recurse - 1 = 0 <;> by_cases he : s1.G_eval_error = 0 <;>
    simp [eval, outcome, h, hr, he, lfreeall]

/-- The state `eval` returns holds the symbol table and the flag `done` that
`eval_expr` left. -/
theorem eval_state_of_expr (E : Env V) (s : State V) (buf : List Char) (result : Option V)
    (f : Nat) {rv : V} {p1 : Nat} {u : State V}
    (h : eval_expr E f buf 0
      { (set_funcs E { s with recurse := s.recurse + 1 }).2 with
          G_eval_error := 0, G_pb_token := null_token E } = some (rv, p1, u)) :
    ∃ s1, eval E (f + 1) (some buf) result s =
        some (u.G_eval_error, if u.G_eval_error = 0 then result.map (fun _ => rv) else result,
          s1) ∧
      s1.G_varfn_table = u.G_varfn_table ∧ s1.done = u.done := by
  by_cases hr : u.recurse - 1 = 0
  · refine ⟨lfreeall { u with recurse := u.recurse - 1 }, ?_, rfl, rfl⟩
    by_cases he : u.G_eval_error = 0 <;> simp [eval, h, hr, he, lfreeall]
  · refine ⟨{ u with recurse := u.recurse - 1 }, ?_, rfl, rfl⟩
    by_cases he : u.G_eval_error = 0 <;> simp [eval, h, hr, he]

/-! ## Calls without arguments -/

/-- A call with an empty argument list of a native function of arity 0:
`eval_item` invokes the callable with count 0 and the `NULL` array. -/
theorem item_call_nil (E : Env V) {T : Option (hashtable (List Char) (VarFn V))}
    {name : List Char} (hname : is_name name = true) (hnl : name.length ≤ 100)
    {vf : VarFn V} (hlook : ht_lookup T (some name) = (0, some vf))
    {g : Int → List (Option V) → Data → Int × Option V}
    (hfn : vf.fn = some (FunctionPtr.native g)) (hzero : vf.nargs = 0)
    (fuel : Nat) (hf : 2 ≤ fuel) (buf : List Char) (pos : Nat) (s : State V)
    (rest : List Char) (hT : TextAt E buf pos s (call_text name [] ++ rest))
    (hD : Delim stopI rest)
    (he : s.G_eval_error = 0) (hTab : s.G_varfn_table = T) (hd : s.done = true) :
    ∃ pos1 s1, eval_item E fuel buf pos s = some ((g 0 [] vf.data).2.getD E.A.zero, pos1, s1) ∧
      TextAt E buf pos1 s1 rest ∧
      s1.G_eval_error = (if (g 0 [] vf.data).1 ≠ 0 then EVAL_FUNCTION_ERROR else 0) ∧
      s1.calls = s.calls ++ [⟨0, []⟩] := by
  obtain ⟨f, rfl⟩ : ∃ f, fuel = f + 1 := ⟨fuel - 1, by omega⟩
  obtain ⟨f0, rfl⟩ : ∃ f0, f = f0 + 1 := ⟨f - 1, by omega⟩
  have hT0 : TextAt E buf pos s (name ++ '(' :: ')' :: rest) := by
    simpa [call_text, join_args] using hT
  obtain ⟨p1, s1, r1, hpb1, hdr1, hk1, _⟩ :=
    pull_name_at E hT0 hname hnl paren_not_ident (by rw [hTab]; exact hlook)
  obtain ⟨e1, t1, d1⟩ := good_of_keeps hk1 he hTab hd
  obtain ⟨p2, s2, r2, hpb2, hdr2, hk2, _⟩ :=
    pull_op_at E (Or.inl ⟨hpb1, hdr1⟩ : TextAt E buf p1 s1 _) (c := '(') (by decide)
  obtain ⟨e2, t2, d2⟩ := good_of_keeps hk2 e1 t1 d1
  obtain ⟨p3, s3, r3, hpb3, hdr3, hk3, hT3⟩ :=
    pull_op_at E (Or.inl ⟨hpb2, hdr2⟩ : TextAt E buf p2 s2 _) (c := ')') (by decide)
  obtain ⟨e3, t3, d3⟩ := good_of_keeps hk3 e2 t2 d2
  have hpush1 := push_empty E (op_token E ')') s3 hpb3
  have hpush2 : push_token (op_token E ')') { s3 with G_pb_token := op_token E ')' } =
      (1, { s3 with G_pb_token := op_token E ')' }) := by
    unfold push_token
    rw [if_pos (by simp [op_token_type, NUL])]
  have hpull : pull_token E buf p3 { s3 with G_pb_token := op_token E ')' } =
      (op_token E ')', p3, s3) := by
    have h := pull_pb E buf p3 { s3 with G_pb_token := op_token E ')' }
      (by simp [op_token_type, NUL])
    rw [h]
    simp only [Prod.mk.injEq, true_and]
    rw [← hpb3]
  have hT5 : TextAt E buf p3
      (if (g 0 [] vf.data).1 ≠ 0 then
        { { s3 with calls := s3.calls ++ [({ args := 0, arg := [] } : Call V)] }
            with G_eval_error := EVAL_FUNCTION_ERROR }
       else { s3 with calls := s3.calls ++ [({ args := 0, arg := [] } : Call V)] })
      rest := by
    split_ifs
    · exact Or.inl ⟨hpb3, hdr3⟩
    · exact Or.inl ⟨hpb3, hdr3⟩
  obtain ⟨p5, s5, r5, hT6, hk5⟩ := tail_stop E ((g 0 [] vf.data).2.getD E.A.zero) hT5 hD
    (f0 + 1) (by omega)
  refine ⟨p5, s5, ?_, hT6, ?_, ?_⟩
  · have ty := name_token_type_f E hfn
    have nf : (name_token E vf).fn = some (FunctionPtr.native g) := by simp [name_token, hfn]
    have na : (name_token E vf).args = 0 := hzero
    have nd : (name_token E vf).data = vf.data := rfl
    have hargs : eval_args E (f0 + 1) buf p2 0 [] 0 0 s2 =
        some { rc := 0, pos := p3, args := 0, arg := [], arglen := 0,
               st := { s3 with G_pb_token := op_token E ')' } } := by
      simp [eval_args, r3, hpush1, hpush2, op_token_type]
    simp only [eval_item, r1, e1, ty, r2, e2, op_token_type, na, nf, nd]
    simp only [lt_self_iff_false, gt_iff_lt, if_false, List.replicate_zero, hargs]
    simp only [hpull, op_token_type]
    by_cases hz : (g 0 [] vf.data).1 = 0
    · simpa [hz, e3] using r5
    · simpa [hz, e3] using r5
  · rw [hk5.1]
    split_ifs <;> simp [e3]
  · rw [hk5.2.2.2.2.1]
    have hc : s3.calls = s.calls :=
      hk3.2.2.2.2.1.trans (hk2.2.2.2.2.1.trans hk1.2.2.2.2.1)
    split_ifs <;> simp [hc]

/-! ## Determinism: the procedures on paired states -/

theorem Paired.of_fields {T : Option (hashtable (List Char) (VarFn V))} {s s' : State V}
    (h1 : s'.G_eval_error = s.G_eval_error) (h2 : s'.G_pb_token = s.G_pb_token)
    (h3 : s.G_varfn_table = T) (h4 : s'.G_varfn_table = T) (h5 : s.done = true)
    (h6 : s'.done = true) : Paired T s s' := ⟨h1, h2, h3, h4, h5, h6⟩

/-- A step that keeps everything but the arena keeps two states paired. -/
theorem Paired.keeps {T : Option (hashtable (List Char) (VarFn V))} {s s' t t' : State V}
    (h : Paired T s s') (k : Keeps s t) (kp : t.G_pb_token = s.G_pb_token)
    (k' : Keeps s' t') (kp' : t'.G_pb_token = s'.G_pb_token) : Paired T t t' := by
  unfold Paired at *
  unfold Keeps at k k'
  refine ⟨?_, ?_, ?_, ?_, ?_, ?_⟩
  · rw [k'.1, k.1, h.1]
  · rw [kp', kp, h.2.1]
  · rw [k.2.1, h.2.2.1]
  · rw [k'.2.1, h.2.2.2.1]
  · rw [k.2.2.1, h.2.2.2.2.1]
  · rw [k'.2.2.1, h.2.2.2.2.2]

theorem Paired.set_error {T : Option (hashtable (List Char) (VarFn V))} {s s' : State V}
    (h : Paired T s s') (e : Int) :
    Paired T { s with G_eval_error := e } { s' with G_eval_error := e } :=
  ⟨rfl, h.2.1, h.2.2.1, h.2.2.2.1, h.2.2.2.2.1, h.2.2.2.2.2⟩

theorem Paired.set_pb {T : Option (hashtable (List Char) (VarFn V))} {s s' : State V}
    (h : Paired T s s') (t : Token V) :
    Paired T { s with G_pb_token := t } { s' with G_pb_token := t } :=
  ⟨h.1, rfl, h.2.2.1, h.2.2.2.1, h.2.2.2.2.1, h.2.2.2.2.2⟩

theorem Paired.log {T : Option (hashtable (List Char) (VarFn V))} {s s' : State V}
    (h : Paired T s s') (c c' : List (Call V)) :
    Paired T { s with calls := c } { s' with calls := c' } :=
  ⟨h.1, h.2.1, h.2.2.1, h.2.2.2.1, h.2.2.2.2.1, h.2.2.2.2.2⟩

theorem push_paired {T : Option (hashtable (List Char) (VarFn V))} {s s' : State V}
    (h : Paired T s s') (tok : Token V) :
    Paired T (push_token tok s).2 (push_token tok s').2 := by
  unfold push_token
  rw [h.2.1]
  split_ifs
  · exact h
  · exact h.set_pb tok

theorem lalloc_paired (E : Env V) {T : Option (hashtable (List Char) (VarFn V))}
    {s s' : State V} (h : Paired T s s') (n n' : Nat) :
    Paired T (lalloc E n s).2 (lalloc E n' s').2 :=
  h.keeps (lalloc_keeps E n s) (lalloc_pb E n s) (lalloc_keeps E n' s') (lalloc_pb E n' s')

/-- The second of two paired states is the first with other values in the
fields a grammar procedure never reads. -/
theorem Paired.exists_aux {T : Option (hashtable (List Char) (VarFn V))} {s s' : State V}
    (h : Paired T s s') :
    ∃ n p z vc rc m c, s' =
      ({ s with G_cur_node := n, G_cur_data_pos := p, G_cur_data_size := z,
                G_var_count := vc, recurse := rc, mallocs := m, calls := c } : State V) := by
  obtain ⟨e, pb, n, p, z, tab, vc, rc, d, m, c⟩ := s
  obtain ⟨e', pb', n', p', z', tab', vc', rc', d', m', c'⟩ := s'
  obtain ⟨h1, h2, h3, h4, h5, h6⟩ := h
  simp only at h1 h2 h3 h4 h5 h6
  subst h1 h2 h3 h5
  subst h4 h6
  exact ⟨n', p', z', vc', rc', m', c', rfl⟩

/-- On paired states `pull_token` returns the same token and cursor and
leaves paired states. -/
theorem pull_paired (E : Env V) {T : Option (hashtable (List Char) (VarFn V))}
    (buf : List Char) (p : Nat) {s s' : State V} (h : Paired T s s') :
    ∃ tok p1 t t', pull_token E buf p s = (tok, p1, t) ∧ pull_token E buf p s' = (tok, p1, t') ∧
      Paired T t t' := by
  obtain ⟨n, q, z, vc, rc, m, c, rfl⟩ := h.exists_aux
  have hT := h.2.2.1
  have hd := h.2.2.2.2.1
  unfold pull_token
  dsimp only
  split_ifs
  · exact ⟨_, _, _, _, rfl, rfl, rfl, rfl, hT, hT, hd, hd⟩
  · exact ⟨_, _, _, _, rfl, rfl, h⟩
  · exact ⟨_, _, _, _, rfl, rfl, rfl, rfl, hT, hT, hd, hd⟩
  · exact ⟨_, _, _, _, rfl, rfl,
      h.keeps (copy_str_keeps E _ 0 _) (copy_str_pb E _ 0 _) (copy_str_keeps E _ 0 _)
        (copy_str_pb E _ 0 _)⟩
  · exact ⟨_, _, _, _, rfl, rfl, rfl, rfl, hT, hT, hd, hd⟩
  · exact ⟨_, _, _, _, rfl, rfl,
      h.keeps (copy_str_keeps E _ 0 _) (copy_str_pb E _ 0 _) (copy_str_keeps E _ 0 _)
        (copy_str_pb E _ 0 _)⟩
  · exact ⟨_, _, _, _, rfl, rfl, rfl, rfl, hT, hT, hd, hd⟩
  · exact ⟨_, _, _, _, rfl, rfl,
      h.keeps (copy_str_keeps E _ 0 _) (copy_str_pb E _ 0 _) (copy_str_keeps E _ 0 _)
        (copy_str_pb E _ 0 _)⟩
  · split
    · exact ⟨_, _, _, _, rfl, rfl,
        h.keeps (copy_str_keeps E _ 0 _) (copy_str_pb E _ 0 _) (copy_str_keeps E _ 0 _)
          (copy_str_pb E _ 0 _)⟩
    · exact ⟨_, _, _, _, rfl, rfl, h⟩
    · exact ⟨_, _, _, _, rfl, rfl, rfl, rfl, hT, hT, hd, hd⟩
  · exact ⟨_, _, _, _, rfl, rfl, h⟩
  · exact ⟨_, _, _, _, rfl, rfl, rfl, rfl, hT, hT, hd, hd⟩

theorem percent_paired (E : Env V) {T : Option (hashtable (List Char) (VarFn V))}
    (buf : List Char) :
    ∀ (fuel pos : Nat) (rv : V) (tok : Token V) (s s' : State V), Paired T s s' →
      (percent_loop E fuel buf pos rv tok s = none ∧
        percent_loop E fuel buf pos rv tok s' = none) ∨
      ∃ v tk p t t', percent_loop E fuel buf pos rv tok s = some (v, tk, p, t) ∧
        percent_loop E fuel buf pos rv tok s' = some (v, tk, p, t') ∧ Paired T t t' := by
  intro fuel
  induction fuel with
  | zero => intro pos rv tok s s' _; exact Or.inl ⟨rfl, rfl⟩
  | succ f ih =>
    intro pos rv tok s s' h
    unfold percent_loop
    by_cases hc : tok.type = '%'
    · obtain ⟨tk, p1, t, t', q1, q2, h1⟩ := pull_paired E buf pos h
      rw [if_pos hc, if_pos hc, q1, q2]
      exact ih p1 _ tk t t' h1
    · rw [if_neg hc, if_neg hc]
      exact Or.inr ⟨_, _, _, _, _, rfl, rfl, h⟩

theorem tail_paired (E : Env V) {T : Option (hashtable (List Char) (VarFn V))}
    (fuel : Nat) (buf : List Char) (pos : Nat) (rv : V) {s s' : State V}
    (h : Paired T s s') :
    PairedRes T (eval_item_tail E fuel buf pos rv s) (eval_item_tail E fuel buf pos rv s') := by
  unfold eval_item_tail
  obtain ⟨tk, p1, t, t', q1, q2, h1⟩ := pull_paired E buf pos h
  rw [q1, q2]
  dsimp only
  rcases percent_paired E buf fuel p1 rv tk t t' h1 with ⟨e1, e2⟩ | ⟨v, tk2, p2, u, u', e1, e2, h2⟩
  · rw [e1, e2]; exact Or.inl ⟨rfl, rfl⟩
  · rw [e1, e2]
    dsimp only
    by_cases hc : tk2.type = NUL
    · rw [if_neg (not_not.mpr hc), if_neg (not_not.mpr hc)]
      exact Or.inr ⟨_, _, _, _, rfl, rfl, h2⟩
    · rw [if_pos hc, if_pos hc]
      exact Or.inr ⟨_, _, _, _, rfl, rfl, push_paired h2 tk2⟩

theorem PairedRes_none {T : Option (hashtable (List Char) (VarFn V))} :
    PairedRes T (none : Option (V × Nat × State V)) none := Or.inl ⟨rfl, rfl⟩

theorem PairedRes_some {T : Option (hashtable (List Char) (VarFn V))} {t t' : State V}
    (v : V) (p : Nat) (h : Paired T t t') : PairedRes T (some (v, p, t)) (some (v, p, t')) :=
  Or.inr ⟨v, p, t, t', rfl, rfl, h⟩

/-- One level of `eval_fact` on paired states, given the levels below. -/
theorem fact_paired_step (E : Env V) {T : Option (hashtable (List Char) (VarFn V))} (f : Nat)
    (hitem : ∀ buf pos (s s' : State V), Paired T s s' →
      PairedRes T (eval_item E f buf pos s) (eval_item E f buf pos s'))
    (hfact : ∀ buf pos (s s' : State V), Paired T s s' →
      PairedRes T (eval_fact E f buf pos s) (eval_fact E f buf pos s')) :
    ∀ buf pos (s s' : State V), Paired T s s' →
      PairedRes T (eval_fact E (f + 1) buf pos s) (eval_fact E (f + 1) buf pos s') := by
  intro buf pos s s' h
  simp only [eval_fact]
  rcases hitem buf pos s s' h with ⟨e1, e2⟩ | ⟨lhs, p1, t, t', e1, e2, h1⟩
  · rw [e1, e2]; exact PairedRes_none
  rw [e1, e2]
  dsimp only
  have g1 : t'.G_eval_error = t.G_eval_error := h1.1
  rw [g1]
  by_cases he : t.G_eval_error = 0
  swap
  · rw [if_pos he, if_pos he]
    exact PairedRes_some _ _ h1
  rw [if_neg (not_not.mpr he), if_neg (not_not.mpr he)]
  obtain ⟨tok, p2, u, u', q1, q2, h2⟩ := pull_paired E buf p1 h1
  rw [q1, q2]
  dsimp only
  have g2 : u'.G_eval_error = u.G_eval_error := h2.1
  rw [g2]
  by_cases he2 : u.G_eval_error = 0
  swap
  · rw [if_pos he2, if_pos he2]
    exact PairedRes_some _ _ h2
  rw [if_neg (not_not.mpr he2), if_neg (not_not.mpr he2)]
  by_cases c0 : tok.type = NUL
  · rw [if_pos c0, if_pos c0]
    exact PairedRes_some _ _ h2
  rw [if_neg c0, if_neg c0]
  by_cases c1 : tok.type = '^'
  · rw [if_pos c1, if_pos c1]
    rcases hfact buf p2 u u' h2 with ⟨e3, e4⟩ | ⟨rhs, p3, w, w', e3, e4, h3⟩
    · rw [e3, e4]; exact PairedRes_none
    rw [e3, e4]
    dsimp only
    have g3 : w'.G_eval_error = w.G_eval_error := h3.1
    rw [g3]
    by_cases he3 : w.G_eval_error = 0
    · rw [if_neg (not_not.mpr he3), if_neg (not_not.mpr he3)]
      exact PairedRes_some _ _ h3
    · rw [if_pos he3, if_pos he3]
      exact PairedRes_some _ _ h3
  · rw [if_neg c1, if_neg c1]
    exact PairedRes_some _ _ (push_paired h2 tok)

/-- One level of `eval_term` on paired states, given the levels below. -/
theorem term_paired_step (E : Env V) {T : Option (hashtable (List Char) (VarFn V))} (f : Nat)
    (hfact : ∀ buf pos (s s' : State V), Paired T s s' →
      PairedRes T (eval_fact E f buf pos s) (eval_fact E f buf pos s'))
    (hterm : ∀ buf pos (s s' : State V), Paired T s s' →
      PairedRes T (eval_term E f buf pos s) (eval_term E f buf pos s')) :
    ∀ buf pos (s s' : State V), Paired T s s' →
      PairedRes T (eval_term E (f + 1) buf pos s) (eval_term E (f + 1) buf pos s') := by
  intro buf pos s s' h
  simp only [eval_term]
  rcases hfact buf pos s s' h with ⟨e1, e2⟩ | ⟨lhs, p1, t, t', e1, e2, h1⟩
  · rw [e1, e2]; exact PairedRes_none
  rw [e1, e2]
  dsimp only
  have g1 : t'.G_eval_error = t.G_eval_error := h1.1
  rw [g1]
  by_cases he : t.G_eval_error = 0
  swap
  · rw [if_pos he, if_pos he]
    exact PairedRes_some _ _ h1
  rw [if_neg (not_not.mpr he), if_neg (not_not.mpr he)]
  obtain ⟨tok, p2, u, u', q1, q2, h2⟩ := pull_paired E buf p1 h1
  rw [q1, q2]
  dsimp only
  have g2 : u'.G_eval_error = u.G_eval_error := h2.1
  rw [g2]
  by_cases he2 : u.G_eval_error = 0
  swap
  · rw [if_pos he2, if_pos he2]
    exact PairedRes_some _ _ h2
  rw [if_neg (not_not.mpr he2), if_neg (not_not.mpr he2)]
  by_cases c0 : tok.type = NUL
  · rw [if_pos c0, if_pos c0]
    exact PairedRes_some _ _ h2
  rw [if_neg c0, if_neg c0]
  by_cases c1 : tok.type = '*'
  · rw [if_pos c1, if_pos c1]
    rcases hterm buf p2 u u' h2 with ⟨e3, e4⟩ | ⟨rhs, p3, w, w', e3, e4, h3⟩
    · rw [e3, e4]; exact PairedRes_none
    rw [e3, e4]
    exact PairedRes_some _ _ h3
  rw [if_neg c1, if_neg c1]
  by_cases c2 : tok.type = '/'
  · rw [if_pos c2, if_pos c2]
    rcases hterm buf p2 u u' h2 with ⟨e3, e4⟩ | ⟨rhs, p3, w, w', e3, e4, h3⟩
    · rw [e3, e4]; exact PairedRes_none
    rw [e3, e4]
    dsimp only
    by_cases hz : E.A.isZero rhs = true
    · rw [if_pos hz, if_pos hz]
      exact PairedRes_some _ _ (h3.set_error _)
    · rw [if_neg hz, if_neg hz]
      exact PairedRes_some _ _ h3
  rw [if_neg c2, if_neg c2]
  by_cases c3 : tok.type = BSLASH
  · rw [if_pos c3, if_pos c3]
    rcases hterm buf p2 u u' h2 with ⟨e3, e4⟩ | ⟨rhs, p3, w, w', e3, e4, h3⟩
    · rw [e3, e4]; exact PairedRes_none
    rw [e3, e4]
    dsimp only
    by_cases hz : E.A.isZero rhs = true
    · rw [if_pos hz, if_pos hz]
      exact PairedRes_some _ _ (h3.set_error _)
    · rw [if_neg hz, if_neg hz]
      exact PairedRes_some _ _ h3
  · rw [if_neg c3, if_neg c3]
    exact PairedRes_some _ _ (push_paired h2 tok)

/-- One level of `eval_expr` on paired states, given the levels below. -/
theorem expr_paired_step (E : Env V) {T : Option (hashtable (List Char) (VarFn V))} (f : Nat)
    (hterm : ∀ buf pos (s s' : State V), Paired T s s' →
      PairedRes T (eval_term E f buf pos s) (eval_term E f buf pos s'))
    (hexpr : ∀ buf pos (s s' : State V), Paired T s s' →
      PairedRes T (eval_expr E f buf pos s) (eval_expr E f buf pos s')) :
    ∀ buf pos (s s' : State V), Paired T s s' →
      PairedRes T (eval_expr E (f + 1) buf pos s) (eval_expr E (f + 1) buf pos s') := by
  intro buf pos s s' h
  simp only [eval_expr]
  rcases hterm buf pos s s' h with ⟨e1, e2⟩ | ⟨lhs, p1, t, t', e1, e2, h1⟩
  · rw [e1, e2]; exact PairedRes_none
  rw [e1, e2]
  dsimp only
  have g1 : t'.G_eval_error = t.G_eval_error := h1.1
  rw [g1]
  by_cases he : t.G_eval_error = 0
  swap
  · rw [if_pos he, if_pos he]
    exact PairedRes_some _ _ h1
  rw [if_neg (not_not.mpr he), if_neg (not_not.mpr he)]
  obtain ⟨tok, p2, u, u', q1, q2, h2⟩ := pull_paired E buf p1 h1
  rw [q1, q2]
  dsimp only
  have g2 : u'.G_eval_error = u.G_eval_error := h2.1
  rw [g2]
  by_cases he2 : u.G_eval_error = 0
  swap
  · rw [if_pos he2, if_pos he2]
    exact PairedRes_some _ _ h2
  rw [if_neg (not_not.mpr he2), if_neg (not_not.mpr he2)]
  by_cases c0 : tok.type = NUL
  · rw [if_pos c0, if_pos c0]
    exact PairedRes_some _ _ h2
  rw [if_neg c0, if_neg c0]
  by_cases c1 : tok.type = '+'
  · rw [if_pos c1, if_pos c1]
    rcases hexpr buf p2 u u' h2 with ⟨e3, e4⟩ | ⟨rhs, p3, w, w', e3, e4, h3⟩
    · rw [e3, e4]; exact PairedRes_none
    rw [e3, e4]
    exact PairedRes_some _ _ h3
  rw [if_neg c1, if_neg c1]
  by_cases c2 : tok.type = '-'
  · rw [if_pos c2, if_pos c2]
    rcases hexpr buf p2 u u' h2 with ⟨e3, e4⟩ | ⟨rhs, p3, w, w', e3, e4, h3⟩
    · rw [e3, e4]; exact PairedRes_none
    rw [e3, e4]
    exact PairedRes_some _ _ h3
  rw [if_neg c2, if_neg c2]
  by_cases c3 : tok.type = ')'
  · rw [if_pos c3, if_pos c3]
    exact PairedRes_some _ _ (push_paired h2 tok)
  rw [if_neg c3, if_neg c3]
  by_cases c4 : tok.type = ','
  · rw [if_pos c4, if_pos c4]
    exact PairedRes_some _ _ (push_paired h2 tok)
  · rw [if_neg c4, if_neg c4]
    exact PairedRes_some _ _ (h2.set_error _)

theorem PairedArgs_none {T : Option (hashtable (List Char) (VarFn V))} :
    PairedArgs T (none : Option (ArgsResult V)) none := Or.inl ⟨rfl, rfl⟩

theorem PairedArgs_some {T : Option (hashtable (List Char) (VarFn V))} {t t' : State V}
    (rc : Int) (p : Nat) (n : Int) (a : List (Option V)) (l : Nat) (h : Paired T t t') :
    PairedArgs T (some ⟨rc, p, n, a, l, t⟩) (some ⟨rc, p, n, a, l, t'⟩) :=
  Or.inr ⟨rc, p, n, a, l, t, t', rfl, rfl, h⟩

/-- One level of `eval_args` on paired states, given the levels below. -/
theorem args_paired_step (E : Env V) {T : Option (hashtable (List Char) (VarFn V))}
    (hm : ∀ i, E.malloc i = true) (f : Nat)
    (hexpr : ∀ buf pos (s s' : State V), Paired T s s' →
      PairedRes T (eval_expr E f buf pos s) (eval_expr E f buf pos s'))
    (hargs : ∀ buf pos args arg arglen argpos (s s' : State V), Paired T s s' →
      PairedArgs T (eval_args E f buf pos args arg arglen argpos s)
        (eval_args E f buf pos args arg arglen argpos s')) :
    ∀ buf pos args arg arglen argpos (s s' : State V), Paired T s s' →
      PairedArgs T (eval_args E (f + 1) buf pos args arg arglen argpos s)
        (eval_args E (f + 1) buf pos args arg arglen argpos s') := by
  intro buf pos args arg arglen argpos s s' h
  simp only [eval_args]
  obtain ⟨tok, p1, t, t', q1, q2, h1⟩ := pull_paired E buf pos h
  rw [q1, q2]
  dsimp only
  by_cases c0 : tok.type = ')'
  · rw [if_pos c0, if_pos c0]
    exact PairedArgs_some _ _ _ _ _ (push_paired (push_paired h1 tok) tok)
  rw [if_neg c0, if_neg c0]
  -- the state after the array was regrown, or not
  have hx : ∃ x x', Paired T x x' ∧
      (if argpos ≥ arglen then lalloc E (8 * (arglen + 8)) (push_token tok t).2
        else (true, (push_token tok t).2)) = (true, x) ∧
      (if argpos ≥ arglen then lalloc E (8 * (arglen + 8)) (push_token tok t').2
        else (true, (push_token tok t').2)) = (true, x') := by
    by_cases hg : argpos ≥ arglen
    · refine ⟨_, _, lalloc_paired E (push_paired h1 tok) (8 * (arglen + 8)) (8 * (arglen + 8)),
        ?_, ?_⟩
      · rw [if_pos hg]; exact Prod.ext (lalloc_ok E hm _ _) rfl
      · rw [if_pos hg]; exact Prod.ext (lalloc_ok E hm _ _) rfl
    · refine ⟨(push_token tok t).2, (push_token tok t').2, push_paired h1 tok, ?_, ?_⟩ <;>
        rw [if_neg hg]
  obtain ⟨x, x', hxx, a1, a2⟩ := hx
  rw [a1, a2]
  dsimp only
  have tf : ¬ (true = false) := by decide
  rw [if_neg tf, if_neg tf]
  rcases hexpr buf p1 x x' hxx with ⟨e1, e2⟩ | ⟨v, p2, u, u', e1, e2, h2⟩
  · rw [e1, e2]; exact PairedArgs_none
  rw [e1, e2]
  dsimp only
  have g2 : u'.G_eval_error = u.G_eval_error := h2.1
  rw [g2]
  by_cases he2 : u.G_eval_error = 0
  swap
  · rw [if_pos he2, if_pos he2]
    exact PairedArgs_some _ _ _ _ _ h2
  rw [if_neg (not_not.mpr he2), if_neg (not_not.mpr he2)]
  obtain ⟨tok2, p3, w, w', q3, q4, h3⟩ := pull_paired E buf p2 h2
  rw [q3, q4]
  dsimp only
  by_cases c1 : tok2.type = ','
  · rw [if_pos c1, if_pos c1]
    rcases hargs buf p3 (argpos + 1 : Int)
        ((if argpos ≥ arglen then copy_args arg arglen else arg).set argpos (some v))
        (if argpos ≥ arglen then arglen + 8 else arglen) (argpos + 1) w w' h3 with
      ⟨e3, e4⟩ | ⟨rc, p4, n, a, l, y, y', e3, e4, h4⟩
    · rw [e3, e4]; exact PairedArgs_none
    rw [e3, e4]
    dsimp only
    by_cases hrc : rc = 0
    · rw [if_neg (not_not.mpr hrc), if_neg (not_not.mpr hrc)]
      exact PairedArgs_some _ _ _ _ _ h4
    · rw [if_pos hrc, if_pos hrc]
      exact PairedArgs_some _ _ _ _ _ h4
  rw [if_neg c1, if_neg c1]
  by_cases c2 : tok2.type = ')'
  · rw [if_pos c2, if_pos c2]
    exact PairedArgs_some _ _ _ _ _ (push_paired h3 tok2)
  · rw [if_neg c2, if_neg c2]
    exact PairedArgs_some _ _ _ _ _ (h3.set_error _)

theorem PairedEval_none {T : Option (hashtable (List Char) (VarFn V))} :
    PairedEval T (none : Option (Int × Option V × State V)) none := Or.inl ⟨rfl, rfl⟩

theorem PairedEval_some {T : Option (hashtable (List Char) (VarFn V))} {t t' : State V}
    (c : Int) (o : Option V) (h : Paired T t t') :
    PairedEval T (some (c, o, t)) (some (c, o, t')) :=
  Or.inr ⟨c, o, t, t', rfl, rfl, h⟩

/-- One level of `eval_item` on paired states, given the levels below. -/
theorem item_paired_step (E : Env V) {T : Option (hashtable (List Char) (VarFn V))}
    (hm : ∀ i, E.malloc i = true) (f : Nat)
    (hexpr : ∀ buf pos (s s' : State V), Paired T s s' →
      PairedRes T (eval_expr E f buf pos s) (eval_expr E f buf pos s'))
    (hfact : ∀ buf pos (s s' : State V), Paired T s s' →
      PairedRes T (eval_fact E f buf pos s) (eval_fact E f buf pos s'))
    (hargs : ∀ buf pos args arg arglen argpos (s s' : State V), Paired T s s' →
      PairedArgs T (eval_args E f buf pos args arg arglen argpos s)
        (eval_args E f buf pos args arg arglen argpos s'))
    (heval : ∀ text result (s s' : State V), Paired T s s' →
      PairedEval T (eval E f text result s) (eval E f text result s')) :
    ∀ buf pos (s s' : State V), Paired T s s' →
      PairedRes T (eval_item E (f + 1) buf pos s) (eval_item E (f + 1) buf pos s') := by
  intro buf pos s s' h
  simp only [eval_item]
  obtain ⟨tok, p1, t, t', q1, q2, h1⟩ := pull_paired E buf pos h
  rw [q1, q2]
  dsimp only
  by_cases he : t.G_eval_error = 0
  swap
  · rw [if_pos he, if_pos (show t'.G_eval_error ≠ 0 by rw [h1.1]; exact he)]
    exact PairedRes_some _ _ h1
  rw [if_neg (not_not.mpr he),
    if_neg (show ¬ t'.G_eval_error ≠ 0 by rw [h1.1]; exact not_not.mpr he)]
  by_cases c1 : tok.type = '+'
  · rw [if_pos c1, if_pos c1]
    rcases hfact buf p1 t t' h1 with ⟨e3, e4⟩ | ⟨v, p3, w, w', e3, e4, h3⟩
    · rw [e3, e4]; exact PairedRes_none
    rw [e3, e4]
    exact tail_paired E f buf p3 v h3
  rw [if_neg c1, if_neg c1]
  by_cases c2 : tok.type = '-'
  · rw [if_pos c2, if_pos c2]
    rcases hfact buf p1 t t' h1 with ⟨e3, e4⟩ | ⟨v, p3, w, w', e3, e4, h3⟩
    · rw [e3, e4]; exact PairedRes_none
    rw [e3, e4]
    exact tail_paired E f buf p3 _ h3
  rw [if_neg c2, if_neg c2]
  by_cases c3 : tok.type = 'v'
  · rw [if_pos c3, if_pos c3]
    exact tail_paired E f buf p1 _ h1
  rw [if_neg c3, if_neg c3]
  by_cases c4 : tok.type = 'f'
  · rw [if_pos c4, if_pos c4]
    obtain ⟨tok2, p2, u, u', q3, q4, h2⟩ := pull_paired E buf p1 h1
    rw [q3, q4]
    dsimp only
    by_cases he2 : u.G_eval_error = 0
    swap
    · rw [if_pos he2, if_pos (show u'.G_eval_error ≠ 0 by rw [h2.1]; exact he2)]
      exact tail_paired E f buf p2 _ h2
    rw [if_neg (not_not.mpr he2),
      if_neg (show ¬ u'.G_eval_error ≠ 0 by rw [h2.1]; exact not_not.mpr he2)]
    by_cases c5 : tok2.type = '('
    swap
    · rw [if_pos c5, if_pos c5]
      exact tail_paired E f buf p2 _ (h2.set_error _)
    rw [if_neg (not_not.mpr c5), if_neg (not_not.mpr c5)]
    -- the argument array
    have hx : ∃ x x', Paired T x x' ∧
        (if tok.args > 0 then lalloc E (8 * (if tok.args > 0 then tok.args.toNat else 0)) u
          else (true, u)) = (true, x) ∧
        (if tok.args > 0 then lalloc E (8 * (if tok.args > 0 then tok.args.toNat else 0)) u'
          else (true, u')) = (true, x') := by
      by_cases hg : tok.args > 0
      · refine ⟨_, _, lalloc_paired E h2 (8 * (if tok.args > 0 then tok.args.toNat else 0))
          (8 * (if tok.args > 0 then tok.args.toNat else 0)), ?_, ?_⟩
        · rw [if_pos hg]; exact Prod.ext (lalloc_ok E hm _ _) rfl
        · rw [if_pos hg]; exact Prod.ext (lalloc_ok E hm _ _) rfl
      · refine ⟨u, u', h2, ?_, ?_⟩ <;> rw [if_neg hg]
    obtain ⟨x, x', hxx, a1, a2⟩ := hx
    rw [a1, a2]
    dsimp only
    have tf : ¬ (true = false) := by decide
    rw [if_neg tf, if_neg tf]
    rcases hargs buf p2 tok.args
        (List.replicate (if tok.args > 0 then tok.args.toNat else 0) none)
        (if tok.args > 0 then tok.args.toNat else 0) 0 x x' hxx with
      ⟨e3, e4⟩ | ⟨rc, p4, n, a, l, y, y', e3, e4, h4⟩
    · rw [e3, e4]; exact PairedRes_none
    rw [e3, e4]
    dsimp only
    by_cases hrc : rc = 0
    swap
    · rw [if_pos hrc, if_pos hrc]
      exact tail_paired E f buf p4 _ h4
    rw [if_neg (not_not.mpr hrc), if_neg (not_not.mpr hrc)]
    by_cases har : (tok.args < 0 ∧ n < 1) ∨ (¬ tok.args < 0 ∧ n ≠ tok.args)
    · rw [if_pos har, if_pos har]
      exact tail_paired E f buf p4 _ (h4.set_error _)
    rw [if_neg har, if_neg har]
    obtain ⟨tok3, p5, z, z', q5, q6, h5⟩ := pull_paired E buf p4 h4
    rw [q5, q6]
    dsimp only
    by_cases c6 : tok3.type = ')'
    swap
    · rw [if_pos c6, if_pos c6]
      exact tail_paired E f buf p5 _ (h5.set_error _)
    rw [if_neg (not_not.mpr c6), if_neg (not_not.mpr c6)]
    by_cases he5 : z.G_eval_error = 0
    swap
    · rw [if_pos he5, if_pos (show z'.G_eval_error ≠ 0 by rw [h5.1]; exact he5)]
      exact tail_paired E f buf p5 _ h5
    rw [if_neg (not_not.mpr he5),
      if_neg (show ¬ z'.G_eval_error ≠ 0 by rw [h5.1]; exact not_not.mpr he5)]
    cases hfn : tok.fn with
    | none => exact PairedRes_none
    | some fp =>
      cases fp with
      | native g =>
        dsimp only
        by_cases ho : (g n a tok.data).1 = 0
        · rw [if_neg (not_not.mpr ho), if_neg (not_not.mpr ho)]
          exact tail_paired E f buf p5 _ (h5.log _ _)
        · rw [if_pos ho, if_pos ho]
          exact tail_paired E f buf p5 _ ((h5.log _ _).set_error _)
      | cust_func =>
        dsimp only
        rcases heval tok.data (some E.A.zero) _ _
            (h5.log (z.calls ++ [{ args := n, arg := a }]) (z'.calls ++ [{ args := n, arg := a }]))
          with ⟨e5, e6⟩ | ⟨code, out, k, k', e5, e6, h6⟩
        · rw [e5, e6]; exact PairedRes_none
        rw [e5, e6]
        dsimp only
        by_cases hc : code = 0
        · rw [if_neg (not_not.mpr hc), if_neg (not_not.mpr hc)]
          exact tail_paired E f buf p5 _ h6
        · rw [if_pos hc, if_pos hc]
          exact tail_paired E f buf p5 _ (h6.set_error _)
  rw [if_neg c4, if_neg c4]
  by_cases c7 : tok.type = 'n'
  · rw [if_pos c7, if_pos c7]
    exact tail_paired E f buf p1 _ h1
  rw [if_neg c7, if_neg c7]
  by_cases c8 : tok.type = '('
  · rw [if_pos c8, if_pos c8]
    rcases hexpr buf p1 t t' h1 with ⟨e3, e4⟩ | ⟨v, p3, w, w', e3, e4, h3⟩
    · rw [e3, e4]; exact PairedRes_none
    rw [e3, e4]
    dsimp only
    obtain ⟨tok2, p4, u, u', q3, q4, h4⟩ := pull_paired E buf p3 h3
    rw [q3, q4]
    dsimp only
    by_cases c9 : tok2.type = ')'
    · rw [if_neg (not_not.mpr c9), if_neg (not_not.mpr c9)]
      exact tail_paired E f buf p4 _ h4
    · rw [if_pos c9, if_pos c9]
      exact tail_paired E f buf p4 _ (h4.set_error _)
  · rw [if_neg c8, if_neg c8]
    exact tail_paired E f buf p1 _ (push_paired h1 tok)

/-- One level of `eval` on paired states, given `eval_expr` below it. -/
theorem eval_paired_step (E : Env V) {T : Option (hashtable (List Char) (VarFn V))} (f : Nat)
    (hexpr : ∀ buf pos (s s' : State V), Paired T s s' →
      PairedRes T (eval_expr E f buf pos s) (eval_expr E f buf pos s')) :
    ∀ text result (s s' : State V), Paired T s s' →
      PairedEval T (eval E (f + 1) text result s) (eval E (f + 1) text result s') := by
  intro text result s s' h
  have sf : set_funcs E { s with recurse := s.recurse + 1 } =
      (0, { s with recurse := s.recurse + 1 }) := by
    simp [set_funcs, h.2.2.2.2.1]
  have sf' : set_funcs E { s' with recurse := s'.recurse + 1 } =
      (0, { s' with recurse := s'.recurse + 1 }) := by
    simp [set_funcs, h.2.2.2.2.2]
  simp only [eval, sf, sf']
  cases text with
  | none =>
    exact PairedEval_some _ _ ⟨h.1, h.2.1, h.2.2.1, h.2.2.2.1, h.2.2.2.2.1, h.2.2.2.2.2⟩
  | some buf =>
    dsimp only
    rcases hexpr buf 0
        { s with recurse := s.recurse + 1, G_eval_error := 0, G_pb_token := null_token E }
        { s' with recurse := s'.recurse + 1, G_eval_error := 0, G_pb_token := null_token E }
        ⟨rfl, rfl, h.2.2.1, h.2.2.2.1, h.2.2.2.2.1, h.2.2.2.2.2⟩ with
      ⟨e1, e2⟩ | ⟨rv, p1, u, u', e1, e2, h2⟩
    · rw [e1, e2]; exact PairedEval_none
    rw [e1, e2]
    dsimp only
    have hT := h2.2.2.1
    have hd := h2.2.2.2.2.1
    obtain ⟨n, q, z, vc, rc, m, c, rfl⟩ := h2.exists_aux
    by_cases hr : u.recurse - 1 = 0 <;> by_cases hr' : rc - 1 = 0 <;>
      by_cases he : u.G_eval_error = 0 <;>
      simp only [hr, hr', he, lfreeall, if_true, if_false, ne_eq, not_true_eq_false,
        not_false_eq_true] <;>
      exact PairedEval_some _ _ ⟨rfl, rfl, hT, hT, hd, hd⟩

/-- The procedures of the evaluator cannot tell paired states apart, when
`malloc` does not fail: on paired states each returns the same result and
leaves paired states, whatever the fuel. -/
theorem paired_all (E : Env V) (T : Option (hashtable (List Char) (VarFn V)))
    (hm : ∀ i, E.malloc i = true) (fuel : Nat) :
    (∀ buf pos (s s' : State V), Paired T s s' →
      PairedRes T (eval_expr E fuel buf pos s) (eval_expr E fuel buf pos s')) ∧
    (∀ buf pos (s s' : State V), Paired T s s' →
      PairedRes T (eval_term E fuel buf pos s) (eval_term E fuel buf pos s')) ∧
    (∀ buf pos (s s' : State V), Paired T s s' →
      PairedRes T (eval_fact E fuel buf pos s) (eval_fact E fuel buf pos s')) ∧
    (∀ buf pos (s s' : State V), Paired T s s' →
      PairedRes T (eval_item E fuel buf pos s) (eval_item E fuel buf pos s')) ∧
    (∀ buf pos args arg arglen argpos (s s' : State V), Paired T s s' →
      PairedArgs T (eval_args E fuel buf pos args arg arglen argpos s)
        (eval_args E fuel buf pos args arg arglen argpos s')) ∧
    (∀ text result (s s' : State V), Paired T s s' →
      PairedEval T (eval E fuel text result s) (eval E fuel text result s')) := by
  induction fuel with
  | zero =>
    refine ⟨?_, ?_, ?_, ?_, ?_, ?_⟩
    · intro buf pos s s' _; exact Or.inl ⟨by simp [eval_expr], by simp [eval_expr]⟩
    · intro buf pos s s' _; exact Or.inl ⟨by simp [eval_term], by simp [eval_term]⟩
    · intro buf pos s s' _; exact Or.inl ⟨by simp [eval_fact], by simp [eval_fact]⟩
    · intro buf pos s s' _; exact Or.inl ⟨by simp [eval_item], by simp [eval_item]⟩
    · intro buf pos args arg arglen argpos s s' _
      exact Or.inl ⟨by simp [eval_args], by simp [eval_args]⟩
    · intro text result s s' _; exact Or.inl ⟨by simp [eval], by simp [eval]⟩
  | succ f ih =>
    obtain ⟨iexpr, iterm, ifact, iitem, iargs, ieval⟩ := ih
    exact ⟨expr_paired_step E f iterm iexpr, term_paired_step E f ifact iterm,
      fact_paired_step E f iitem ifact, item_paired_step E hm f iexpr ifact iargs ieval,
      args_paired_step E hm f iexpr iargs, eval_paired_step E f iexpr⟩

/-! ## Determinism: installing the built-ins -/

theorem ensure_table_tab (E : Env V) (hm : ∀ i, E.malloc i = true) {s s' : State V}
    (ht : s'.G_varfn_table = s.G_varfn_table) :
    (ensure_table E s').1 = true ∧ (ensure_table E s).1 = true ∧
    (ensure_table E s').2.G_varfn_table = (ensure_table E s).2.G_varfn_table := by
  unfold ensure_table
  rw [ht]
  cases s.G_varfn_table with
  | none => simp [hm]
  | some tb => exact ⟨rfl, rfl, ht⟩

theorem table_store_tab {s s' : State V} (name : List Char) (vf : VarFn V)
    (ht : s'.G_varfn_table = s.G_varfn_table) :
    (table_store s' name vf).G_varfn_table = (table_store s name vf).G_varfn_table := by
  unfold table_store
  rw [ht]
  cases s.G_varfn_table with
  | none => exact ht
  | some tb =>
    dsimp only
    generalize lookup tb (some name) = lk
    obtain ⟨rc, slot, found, v⟩ := lk
    cases found with
    | none => exact ht
    | some i =>
      dsimp only
      cases (tb.table.getD slot []).get? i with
      | none => exact ht
      | some hb => rfl

/-- With a `malloc` that does not fail, the return code of the body of
`eval_def_fn` and the table it leaves depend on the state through the table
only. -/
theorem eval_def_fn_body_tab (E : Env V) (hm : ∀ i, E.malloc i = true) (name : List Char)
    (fn : Option (FunctionPtr V)) (data : Data) (args : Int) {s s' : State V}
    (ht : s'.G_varfn_table = s.G_varfn_table) :
    (eval_def_fn_body E name fn data args s').1 = (eval_def_fn_body E name fn data args s).1 ∧
    (eval_def_fn_body E name fn data args s').2.G_varfn_table =
      (eval_def_fn_body E name fn data args s).2.G_varfn_table := by
  unfold eval_def_fn_body
  obtain ⟨a1, a2, a3⟩ := ensure_table_tab E hm ht
  generalize ensure_table E s = r at a2 a3
  generalize ensure_table E s' = r' at a1 a3
  obtain ⟨b, x⟩ := r
  obtain ⟨b', x'⟩ := r'
  simp only at a1 a2 a3
  subst a1 a2
  dsimp only
  rw [a3]
  generalize ht_lookup x.G_varfn_table (some name) = lk
  obtain ⟨rc, v⟩ := lk
  by_cases hrc : rc = 0
  · subst hrc
    cases v with
    | none => exact ⟨rfl, a3⟩
    | some g =>
      simp only []
      by_cases hg : g.fn.isNone = true
      · rw [if_pos hg, if_pos hg]; exact ⟨rfl, a3⟩
      · rw [if_neg hg, if_neg hg]; exact ⟨rfl, table_store_tab name _ a3⟩
  · have key : ∀ (A : VarFn V → Int × State V) (B C : Int × State V)
        (A' : VarFn V → Int × State V) (B' C' : Int × State V),
        C.1 = C'.1 ∧ C.2.G_varfn_table = C'.2.G_varfn_table →
        (match (rc, v) with
          | (0, some f) => A f
          | (0, none) => B
          | _ => C).1 =
        (match (rc, v) with
          | (0, some f) => A' f
          | (0, none) => B'
          | _ => C').1 ∧
        (match (rc, v) with
          | (0, some f) => A f
          | (0, none) => B
          | _ => C).2.G_varfn_table =
        (match (rc, v) with
          | (0, some f) => A' f
          | (0, none) => B'
          | _ => C').2.G_varfn_table := by
      intro A B C A' B' C' hC
      have e1 : ∀ (A : VarFn V → Int × State V) (B C : Int × State V), (match (rc, v) with
          | (0, some f) => A f
          | (0, none) => B
          | _ => C) = C := by
        intro A B C
        split
        · rename_i heq; simp only [Prod.mk.injEq] at heq; exact absurd heq.1 hrc
        · rename_i heq; simp only [Prod.mk.injEq] at heq; exact absurd heq.1 hrc
        · rfl
      rw [e1 A B C, e1 A' B' C']
      exact hC
    apply key
    simp only [hm, if_true]
    split_ifs <;> exact ⟨rfl, rfl⟩

theorem set_funcs_loop_tab (E : Env V) (hm : ∀ i, E.malloc i = true) (l : List String)
    (i : Nat) {s s' : State V} (ht : s'.G_varfn_table = s.G_varfn_table) :
    (set_funcs_loop E l i s').2.G_varfn_table = (set_funcs_loop E l i s).2.G_varfn_table := by
  induction l generalizing i s s' with
  | nil => exact ht
  | cons nm rest ih =>
    unfold set_funcs_loop
    obtain ⟨a1, a2⟩ := eval_def_fn_body_tab E hm nm.toList
      (some (FunctionPtr.native (E.fn i))) none (fnargs.getD i 0) ht
    generalize eval_def_fn_body E nm.toList (some (FunctionPtr.native (E.fn i))) none
      (fnargs.getD i 0) s = r at a1 a2
    generalize eval_def_fn_body E nm.toList (some (FunctionPtr.native (E.fn i))) none
      (fnargs.getD i 0) s' = r' at a1 a2
    obtain ⟨rc, x⟩ := r
    obtain ⟨rc', x'⟩ := r'
    simp only at a1 a2
    subst a1
    dsimp only
    by_cases hrc : rc' = 0
    · rw [if_neg (not_not.mpr hrc), if_neg (not_not.mpr hrc)]
      exact ih (i + 1) a2
    · rw [if_pos hrc, if_pos hrc]
      exact a2

/-- With a `malloc` that does not fail, the symbol table `set_funcs` leaves
depends on the state through the table and the flag `done` only. -/
theorem set_funcs_tab (E : Env V) (hm : ∀ i, E.malloc i = true) {s s' : State V}
    (ht : s'.G_varfn_table = s.G_varfn_table) (hd : s'.done = s.done) :
    (set_funcs E s').2.G_varfn_table = (set_funcs E s).2.G_varfn_table := by
  unfold set_funcs
  rw [hd]
  by_cases h : s.done = true
  · rw [if_pos h, if_pos h]; exact ht
  · rw [if_neg h, if_neg h]
    exact set_funcs_loop_tab E hm fnname 0 ht

theorem eval_none_of_expr (E : Env V) (s : State V) (buf : List Char) (result : Option V)
    (f : Nat)
    (h : eval_expr E f buf 0
      { (set_funcs E { s with recurse := s.recurse + 1 }).2 with
          G_eval_error := 0, G_pb_token := null_token E } = none) :
    eval E (f + 1) (some buf) result s = none := by
  simp [eval, h]

/-! ## The hash table: one chain -/

theorem slot_index_lt (h size : Nat) (hs : 0 < size) : slot_index h size < size :=
  Nat.mod_lt _ hs

/-- On a chain of live buckets the search loop of `lookup` stops at the first
bucket whose key compares equal, or finds none. -/
theorem chain_find_live {K W : Type} (comp : Option K → Option K → Int) (k : Option K)
    (chain : List (hashbucket K W)) (hl : ∀ hb ∈ chain, hb.tag = HASHBUCKET_TAG) (n : Nat) :
    (chain_find comp k chain n = .ok none ∧ ∀ hb ∈ chain, comp k hb.key ≠ 0) ∨
    ∃ pre hb post, chain = pre ++ hb :: post ∧ (∀ x ∈ pre, comp k x.key ≠ 0) ∧
      comp k hb.key = 0 ∧ chain_find comp k chain n = .ok (some (n + pre.length)) := by
  induction chain generalizing n with
  | nil => exact Or.inl ⟨rfl, by simp⟩
  | cons a t ih =>
    have ht : a.tag = HASHBUCKET_TAG := hl a (List.mem_cons_self _ _)
    have hl1 : ∀ hb ∈ t, hb.tag = HASHBUCKET_TAG := fun hb h => hl hb (List.mem_cons_of_mem _ h)
    by_cases hc : comp k a.key = 0
    · refine Or.inr ⟨[], a, t, rfl, by simp, hc, ?_⟩
      simp [chain_find, ht, hc]
    · rcases ih hl1 (n + 1) with ⟨h1, h2⟩ | ⟨pre, hb, post, h1, h2, h3, h4⟩
      · refine Or.inl ⟨?_, ?_⟩
        · simp [chain_find, ht, hc, h1]
        · intro hb hm
          rcases List.mem_cons.mp hm with rfl | hm
          · exact hc
          · exact h2 hb hm
      · refine Or.inr ⟨a :: pre, hb, post, by rw [h1]; rfl, ?_, h3, ?_⟩
        · intro x hx
          rcases List.mem_cons.mp hx with rfl | hx
          · exact hc
          · exact h2 x hx
        · simp only [chain_find, ht, hc, h4, List.length_cons]
          simp; omega

theorem first_match_none {K W : Type} (comp : Option K → Option K → Int) (k : Option K)
    (chain : List (hashbucket K W)) (h : ∀ hb ∈ chain, comp k hb.key ≠ 0) :
    first_match comp k chain = none := by
  unfold first_match
  rw [List.find?_eq_none]
  intro x hx
  simpa using h x hx

theorem first_match_split {K W : Type} (comp : Option K → Option K → Int) (k : Option K)
    (pre : List (hashbucket K W)) (hb : hashbucket K W) (post : List (hashbucket K W))
    (h : ∀ x ∈ pre, comp k x.key ≠ 0) (hm : comp k hb.key = 0) :
    first_match comp k (pre ++ hb :: post) = some hb := by
  unfold first_match
  rw [List.find?_append, List.find?_eq_none.mpr (by intro x hx; simpa using h x hx)]
  simp [List.find?_cons, hm]

theorem first_match_skip {K W : Type} (comp : Option K → Option K → Int) (k : Option K)
    (pre : List (hashbucket K W)) (hb : hashbucket K W) (post : List (hashbucket K W))
    (hm : comp k hb.key ≠ 0) :
    first_match comp k (pre ++ hb :: post) = first_match comp k (pre ++ post) := by
  unfold first_match
  rw [List.find?_append, List.find?_append, List.find?_cons]
  simp [hm]

theorem getD_split_length {K W : Type} (pre : List (hashbucket K W)) (hb : hashbucket K W)
    (post : List (hashbucket K W)) : (pre ++ hb :: post).get? pre.length = some hb := by
  rw [List.get?_eq_getElem?, List.getElem?_append_right (le_refl _)]
  simp

/-! ## The hash table: what a call does to the table -/

theorem chain_of_live {K W : Type} {ht : hashtable K W} (hw : WellFormed ht) (k : Option K) :
    ∀ hb ∈ chain_of ht k, hb.tag = HASHBUCKET_TAG := by
  obtain ⟨_, hlen, hpos, hl, _⟩ := hw
  have hlt : slot_index (ht.hash k) ht.size < ht.table.length := by
    rw [hlen]; exact slot_index_lt _ _ hpos
  unfold chain_of
  rw [List.getD_eq_getElem _ _ hlt]
  exact hl _ (List.getElem_mem hlt)

/-- The internal `lookup` on a well-formed table. -/
theorem lookup_cases {K W : Type} {ht : hashtable K W} (hw : WellFormed ht) (k : Option K) :
    (lookup ht k = (-1, slot_index (ht.hash k) ht.size, none, none) ∧
      ∀ hb ∈ chain_of ht k, ht.comp k hb.key ≠ 0) ∨
    ∃ pre hb post, chain_of ht k = pre ++ hb :: post ∧ (∀ x ∈ pre, ht.comp k x.key ≠ 0) ∧
      ht.comp k hb.key = 0 ∧
      lookup ht k = (0, slot_index (ht.hash k) ht.size, some pre.length, hb.val) := by
  rcases chain_find_live ht.comp k (chain_of ht k) (chain_of_live hw k) 0 with
    ⟨h1, h2⟩ | ⟨pre, hb, post, h1, h2, h3, h4⟩
  · refine Or.inl ⟨?_, h2⟩
    unfold chain_of at h1
    simp only [lookup, h1]
  · refine Or.inr ⟨pre, hb, post, h1, h2, h3, ?_⟩
    unfold chain_of at h1 h4
    rw [Nat.zero_add] at h4
    simp only [lookup, h4]
    rw [h1, getD_split_length]

/-- `ht_lookup` on a well-formed table returns the value of the first bucket
of the chain whose key compares equal, and 2 when there is none. -/
theorem ht_lookup_eq {K W : Type} {ht : hashtable K W} (hw : WellFormed ht) (k : Option K) :
    ht_lookup (some ht) k =
      match first_match ht.comp k (chain_of ht k) with
      | some hb => (0, hb.val)
      | none => (2, none) := by
  have htag : ¬ (ht.tag ≠ HASHTABLE_TAG) := not_not.mpr hw.1
  rcases lookup_cases hw k with ⟨h1, h2⟩ | ⟨pre, hb, post, h1, h2, h3, h4⟩
  · rw [first_match_none _ _ _ h2]
    simp only [ht_lookup, if_neg htag, h1]
  · rw [h1, first_match_split _ _ _ _ _ h2 h3]
    simp only [ht_lookup, if_neg htag, h4]

theorem set_split {K W : Type} (pre : List (hashbucket K W)) (hb x : hashbucket K W)
    (post : List (hashbucket K W)) : (pre ++ hb :: post).set pre.length x = pre ++ x :: post := by
  rw [List.set_append]
  simp

theorem eraseIdx_split {K W : Type} (pre : List (hashbucket K W)) (hb : hashbucket K W)
    (post : List (hashbucket K W)) : (pre ++ hb :: post).eraseIdx pre.length = pre ++ post := by
  rw [List.eraseIdx_append_of_length_le (le_refl _)]
  simp

/-- The three outcomes of `ht_insert` on a well-formed table: the `malloc`
of a new block failed; key and value of the bucket found were replaced; a
bucket was taken from the pool and put at the head of the chain. -/
theorem ht_insert_cases {K W : Type} {ht : hashtable K W} (hw : WellFormed ht)
    (k : Option K) (v : Option W) (m : Bool) :
    (ht_insert (some ht) k v m = (4, some ht, true) ∧ ht.pool = [] ∧ m = false ∧
      ∀ hb ∈ chain_of ht k, ht.comp k hb.key ≠ 0) ∨
    (∃ pre hb post, chain_of ht k = pre ++ hb :: post ∧ (∀ x ∈ pre, ht.comp k x.key ≠ 0) ∧
      ht.comp k hb.key = 0 ∧
      ht_insert (some ht) k v m =
        (0, some { ht with
                    table := ht.table.set (slot_index (ht.hash k) ht.size)
                      (pre ++ { hb with key := k, val := v } :: post) }, false)) ∨
    ((∀ hb ∈ chain_of ht k, ht.comp k hb.key ≠ 0) ∧ (ht.pool = [] → m = true) ∧
      ht_insert (some ht) k v m =
        (0, some { ht with
                    pool := (if ht.pool.isEmpty then List.replicate BLOCK_SIZE free_bucket
                             else ht.pool).tail,
                    blocks := if ht.pool.isEmpty then ht.blocks + 1 else ht.blocks,
                    table := ht.table.set (slot_index (ht.hash k) ht.size)
                      ({ tag := HASHBUCKET_TAG, key := k, val := v } :: chain_of ht k),
                    item_count := ht.item_count + 1 }, ht.pool.isEmpty)) := by
  have htag : ¬ (ht.tag ≠ HASHTABLE_TAG) := not_not.mpr hw.1
  rcases lookup_cases hw k with ⟨h1, h2⟩ | ⟨pre, hb, post, h1, h2, h3, h4⟩
  · by_cases hp : ht.pool.isEmpty = true ∧ m = false
    · refine Or.inl ⟨?_, List.isEmpty_iff.mp hp.1, hp.2, h2⟩
      simp only [ht_insert, if_neg htag, h1]
      simp [hp.1, hp.2]
    · refine Or.inr (Or.inr ⟨h2, ?_, ?_⟩)
      · intro he
        by_contra hm
        exact hp ⟨List.isEmpty_iff.mpr he, by simpa using hm⟩
      · simp only [ht_insert, if_neg htag, h1]
        have hq : ¬ ((ht.pool.isEmpty && !m) = true) := by
          intro hx
          simp only [Bool.and_eq_true, Bool.not_eq_true', ] at hx
          exact hp hx
        have hneg : ¬ ((-1 : Int) > 0) := by decide
        rw [if_neg hneg]
        rw [if_neg hq]
        rfl
  · refine Or.inr (Or.inl ⟨pre, hb, post, h1, h2, h3, ?_⟩)
    have hpos : ¬ ((0 : Int) > 0) := by decide
    have h1' : ht.table.getD (slot_index (ht.hash k) ht.size) [] = pre ++ hb :: post := h1
    simp only [ht_insert, if_neg htag, h4, if_neg hpos, h1', getD_split_length, set_split]

/-- The two outcomes of `ht_remove` on a well-formed table: no key of the
chain compares equal and nothing is changed; the bucket found was unlinked and
pushed on the pool. -/
theorem ht_remove_cases {K W : Type} {ht : hashtable K W} (hw : WellFormed ht)
    (k : Option K) :
    (ht_remove (some ht) k = (2, some ht, none) ∧
      ∀ hb ∈ chain_of ht k, ht.comp k hb.key ≠ 0) ∨
    (∃ pre hb post, chain_of ht k = pre ++ hb :: post ∧ (∀ x ∈ pre, ht.comp k x.key ≠ 0) ∧
      ht.comp k hb.key = 0 ∧
      ht_remove (some ht) k =
        (0, some { ht with
                    table := ht.table.set (slot_index (ht.hash k) ht.size) (pre ++ post),
                    pool := free_bucket :: ht.pool,
                    item_count := if ht.item_count = 0 then 2 ^ 64 - 1
                                  else ht.item_count - 1 }, hb.val)) := by
  have htag : ¬ (ht.tag ≠ HASHTABLE_TAG) := not_not.mpr hw.1
  rcases lookup_cases hw k with ⟨h1, h2⟩ | ⟨pre, hb, post, h1, h2, h3, h4⟩
  · refine Or.inl ⟨?_, h2⟩
    simp only [ht_remove, if_neg htag, h1]
  · refine Or.inr ⟨pre, hb, post, h1, h2, h3, ?_⟩
    have h1' : ht.table.getD (slot_index (ht.hash k) ht.size) [] = pre ++ hb :: post := h1
    simp only [ht_remove, if_neg htag, h4, h1', eraseIdx_split]

/-! ## The hash table: steps of the table -/

theorem flatten_set_length {α : Type} (l : List (List α)) (i : Nat) (c : List α)
    (h : i < l.length) :
    (l.set i c).flatten.length + (l.getD i []).length = l.flatten.length + c.length := by
  induction l generalizing i with
  | nil => simp at h
  | cons a t ih =>
    cases i with
    | zero => simp; omega
    | succ j =>
      have := ih j (by simpa using h)
      simp only [List.set_cons_succ, List.flatten_cons, List.length_append, List.getD_cons_succ]
      omega

theorem slot_lt {K W : Type} {ht : hashtable K W} (hw : WellFormed ht) (k : Option K) :
    slot_index (ht.hash k) ht.size < ht.table.length := by
  rw [hw.2.1]; exact slot_index_lt _ _ hw.2.2.1

/-- A step of a chain keeps its buckets live. -/
theorem ChainStep_live {K W : Type} {comp : Option K → Option K → Int} {k : Option K}
    {c c1 : List (hashbucket K W)} (hs : ChainStep comp k c c1)
    (hl : ∀ hb ∈ c, hb.tag = HASHBUCKET_TAG) : ∀ hb ∈ c1, hb.tag = HASHBUCKET_TAG := by
  cases hs with
  | fresh v chain h =>
    intro hb hm
    rcases List.mem_cons.mp hm with rfl | hm
    · rfl
    · exact hl hb hm
  | update v pre hb0 post h hm0 =>
    intro hb hm
    rcases List.mem_append.mp hm with hm | hm
    · exact hl hb (List.mem_append_left _ hm)
    · rcases List.mem_cons.mp hm with rfl | hm
      · exact hl hb0 (by simp)
      · exact hl hb (by simp [hm])
  | store v pre hb0 post h hm0 =>
    intro hb hm
    rcases List.mem_append.mp hm with hm | hm
    · exact hl hb (List.mem_append_left _ hm)
    · rcases List.mem_cons.mp hm with rfl | hm
      · exact hl hb0 (by simp)
      · exact hl hb (by simp [hm])
  | unlink pre hb0 post h hm0 =>
    intro hb hm
    rcases List.mem_append.mp hm with hm | hm
    · exact hl hb (List.mem_append_left _ hm)
    · exact hl hb (by simp [hm])

/-- A step of the table keeps it well-formed, when the pool holds cleared
buckets afterwards. -/
theorem TableStep_wf {K W : Type} {k : Option K} {ht ht1 : hashtable K W}
    (hw : WellFormed ht) (hs : TableStep k ht ht1)
    (hp : ∀ hb ∈ ht1.pool, hb.tag = 0 ∧ hb.key = none ∧ hb.val = none) : WellFormed ht1 := by
  obtain ⟨h1, h2, h3, h4, c1, hc, htab⟩ := hs
  refine ⟨h1.trans hw.1, ?_, by rw [h2]; exact hw.2.2.1, ?_, hp⟩
  · rw [htab, List.length_set, h2]; exact hw.2.1
  · intro chain hm
    rw [htab] at hm
    rcases List.mem_or_eq_of_mem_set hm with hm | rfl
    · exact hw.2.2.2.1 chain hm
    · exact ChainStep_live hc (chain_of_live hw k)

/-- After a step on the key `k`, the chain of a key of another slot is what
it was, and the chain of a key of the same slot is the chain of `k`. -/
theorem TableStep_chain_of {K W : Type} {k : Option K} {ht ht1 : hashtable K W}
    (hw : WellFormed ht) (hs : TableStep k ht ht1) (k1 : Option K) :
    (slot_index (ht.hash k1) ht.size ≠ slot_index (ht.hash k) ht.size ∧
      chain_of ht1 k1 = chain_of ht k1) ∨
    (chain_of ht k1 = chain_of ht k ∧
      ChainStep ht.comp k (chain_of ht k1) (chain_of ht1 k1)) := by
  obtain ⟨h1, h2, h3, h4, c1, hc, htab⟩ := hs
  by_cases he : slot_index (ht.hash k1) ht.size = slot_index (ht.hash k) ht.size
  · right
    have e1 : chain_of ht k1 = chain_of ht k := by
      unfold chain_of; rw [he]
    have e2 : chain_of ht1 k1 = c1 := by
      unfold chain_of
      rw [h2, h3, htab, he, List.getD_eq_getElem _ _ (by rw [List.length_set]; exact slot_lt hw k)]
      simp
    rw [e2, e1]
    exact ⟨rfl, hc⟩
  · left
    refine ⟨he, ?_⟩
    unfold chain_of
    rw [h2, h3, htab, List.getD_eq_getElem?_getD, List.getD_eq_getElem?_getD,
      List.getElem?_set_ne (fun h => he h.symm)]

/-- A step of a chain on the key `k` does not change what a key that compares
unequal to `k` finds. -/
theorem ChainStep_frame {K W : Type} {comp : Option K → Option K → Int} (he : EquivComp comp)
    {k k1 : Option K} {c c1 : List (hashbucket K W)} (hs : ChainStep comp k c c1)
    (hne : comp k1 k ≠ 0) : first_match comp k1 c1 = first_match comp k1 c := by
  obtain ⟨hr, hsym, htr⟩ := he
  have key : ∀ hb : hashbucket K W, comp k hb.key = 0 → comp k1 hb.key ≠ 0 :=
    fun hb hm h => hne (htr _ _ _ h (hsym _ _ hm))
  cases hs with
  | fresh v chain h =>
    unfold first_match
    rw [List.find?_cons]
    simp [hne]
  | update v pre hb0 post h hm0 =>
    rw [first_match_skip _ _ _ _ _ (key hb0 hm0), first_match_skip _ _ _ _ _ (by exact hne)]
  | store v pre hb0 post h hm0 =>
    rw [first_match_skip _ _ _ _ _ (key hb0 hm0),
      first_match_skip _ _ _ _ _ (by exact key hb0 hm0)]
  | unlink pre hb0 post h hm0 =>
    rw [first_match_skip _ _ _ _ _ (key hb0 hm0)]

/-- A step of the table on the key `k` does not change the result of
`ht_lookup` for a key that compares unequal to `k`. -/
theorem TableStep_frame {K W : Type} {k : Option K} {ht ht1 : hashtable K W}
    (hw : WellFormed ht) (hw1 : WellFormed ht1) (he : EquivComp ht.comp)
    (hs : TableStep k ht ht1) {k1 : Option K} (hne : ht.comp k1 k ≠ 0) :
    ht_lookup (some ht1) k1 = ht_lookup (some ht) k1 := by
  rw [ht_lookup_eq hw1, ht_lookup_eq hw, hs.2.2.2.1]
  rcases TableStep_chain_of hw hs k1 with ⟨_, h⟩ | ⟨_, h⟩
  · rw [h]
  · rw [ChainStep_frame he h hne]

/-! ## The hash table: one call -/

theorem cleared_tail_pool {K W : Type} {ht : hashtable K W} (hw : WellFormed ht) :
    ∀ hb ∈ (if ht.pool.isEmpty then List.replicate BLOCK_SIZE free_bucket else ht.pool).tail,
      hb.tag = 0 ∧ hb.key = none ∧ hb.val = none := by
  intro hb hm
  have hm1 := List.mem_of_mem_tail hm
  split_ifs at hm1
  · rw [(List.mem_replicate.mp hm1).2]; exact ⟨rfl, rfl, rfl⟩
  · exact hw.2.2.2.2 hb hm1

theorem cleared_cons_pool {K W : Type} {ht : hashtable K W} (hw : WellFormed ht) :
    ∀ hb ∈ (free_bucket :: ht.pool : List (hashbucket K W)),
      hb.tag = 0 ∧ hb.key = none ∧ hb.val = none := by
  intro hb hm
  rcases List.mem_cons.mp hm with rfl | hm
  · exact ⟨rfl, rfl, rfl⟩
  · exact hw.2.2.2.2 hb hm

/-- `ht_insert` on a well-formed table: it returns 4 and changes nothing, or
it returns 0 and the table took a step on the key. -/
theorem ht_insert_step {K W : Type} {ht : hashtable K W} (hw : WellFormed ht)
    (k : Option K) (v : Option W) (m : Bool) :
    ht_insert (some ht) k v m = (4, some ht, true) ∨
    ∃ ht1 called, ht_insert (some ht) k v m = (0, some ht1, called) ∧ TableStep k ht ht1 ∧
      WellFormed ht1 := by
  rcases ht_insert_cases hw k v m with ⟨h, _⟩ | ⟨pre, hb, post, h1, h2, h3, h4⟩ | ⟨h1, h2, h3⟩
  · exact Or.inl h
  · right
    have hs : TableStep k ht { ht with
        table := ht.table.set (slot_index (ht.hash k) ht.size)
          (pre ++ { hb with key := k, val := v } :: post) } :=
      ⟨rfl, rfl, rfl, rfl, _, by rw [h1]; exact ChainStep.update v pre hb post h2 h3, rfl⟩
    exact ⟨_, _, h4, hs, TableStep_wf hw hs hw.2.2.2.2⟩
  · right
    have hs : TableStep k ht { ht with
        pool := (if ht.pool.isEmpty then List.replicate BLOCK_SIZE free_bucket
                 else ht.pool).tail,
        blocks := if ht.pool.isEmpty then ht.blocks + 1 else ht.blocks,
        table := ht.table.set (slot_index (ht.hash k) ht.size)
          ({ tag := HASHBUCKET_TAG, key := k, val := v } :: chain_of ht k),
        item_count := ht.item_count + 1 } :=
      ⟨rfl, rfl, rfl, rfl, _, ChainStep.fresh v _ h1, rfl⟩
    exact ⟨_, _, h3, hs, TableStep_wf hw hs (cleared_tail_pool hw)⟩

/-- `ht_remove` on a well-formed table: it returns 2 and changes nothing, or
it returns 0 and the table took a step on the key. -/
theorem ht_remove_step {K W : Type} {ht : hashtable K W} (hw : WellFormed ht)
    (k : Option K) :
    ht_remove (some ht) k = (2, some ht, none) ∨
    ∃ ht1 v, ht_remove (some ht) k = (0, some ht1, v) ∧ TableStep k ht ht1 ∧
      WellFormed ht1 := by
  rcases ht_remove_cases hw k with ⟨h, _⟩ | ⟨pre, hb, post, h1, h2, h3, h4⟩
  · exact Or.inl h
  · right
    have hs : TableStep k ht { ht with
        table := ht.table.set (slot_index (ht.hash k) ht.size) (pre ++ post),
        pool := free_bucket :: ht.pool,
        item_count := if ht.item_count = 0 then 2 ^ 64 - 1 else ht.item_count - 1 } :=
      ⟨rfl, rfl, rfl, rfl, _, by rw [h1]; exact ChainStep.unlink pre hb post h2 h3, rfl⟩
    exact ⟨_, _, h4, hs, TableStep_wf hw hs (cleared_cons_pool hw)⟩

/-- One call leaves a well-formed table as it was or makes it take a step on
the key of the call. -/
theorem apply_op_step {K W : Type} {ht : hashtable K W} (hw : WellFormed ht)
    (op : TableOp K W) :
    apply_op ht op = ht ∨ (TableStep op.key ht (apply_op ht op) ∧ WellFormed (apply_op ht op)) := by
  cases op with
  | insert k v m =>
    rcases ht_insert_step hw k v m with h | ⟨ht1, c, h, hs, hw1⟩
    · left; simp [apply_op, h]
    · right; simp only [apply_op, h, Option.getD_some, TableOp.key]; exact ⟨hs, hw1⟩
  | remove k =>
    rcases ht_remove_step hw k with h | ⟨ht1, v, h, hs, hw1⟩
    · left; simp [apply_op, h]
    · right; simp only [apply_op, h, Option.getD_some, TableOp.key]; exact ⟨hs, hw1⟩

theorem apply_op_wf {K W : Type} {ht : hashtable K W} (hw : WellFormed ht)
    (op : TableOp K W) : WellFormed (apply_op ht op) := by
  rcases apply_op_step hw op with h | h
  · rw [h]; exact hw
  · exact h.2

theorem apply_op_config {K W : Type} {ht : hashtable K W} (hw : WellFormed ht)
    (op : TableOp K W) :
    (apply_op ht op).hash = ht.hash ∧ (apply_op ht op).comp = ht.comp ∧
    (apply_op ht op).size = ht.size := by
  rcases apply_op_step hw op with h | h
  · rw [h]; exact ⟨rfl, rfl, rfl⟩
  · exact ⟨h.1.2.2.1, h.1.2.2.2.1, h.1.2.1⟩

/-- One call does not change the result of `ht_lookup` for a key that
compares unequal to the key of the call. -/
theorem apply_op_frame {K W : Type} {ht : hashtable K W} (hw : WellFormed ht)
    (he : EquivComp ht.comp) (op : TableOp K W) {k1 : Option K}
    (hne : ht.comp k1 op.key ≠ 0) :
    ht_lookup (some (apply_op ht op)) k1 = ht_lookup (some ht) k1 := by
  rcases apply_op_step hw op with h | h
  · rw [h]
  · exact TableStep_frame hw h.2 he h.1 hne

theorem live_step_length {K W : Type} {ht : hashtable K W} (hw : WellFormed ht)
    (k : Option K) (c1 : List (hashbucket K W)) :
    (ht.table.set (slot_index (ht.hash k) ht.size) c1).flatten.length +
      (chain_of ht k).length = ht.table.flatten.length + c1.length :=
  flatten_set_length _ _ _ (slot_lt hw k)

/-- One call keeps the bucket accounting. -/
theorem apply_op_accounted {K W : Type} {ht : hashtable K W} (hw : WellFormed ht)
    (ha : Accounted ht) (op : TableOp K W) : Accounted (apply_op ht op) := by
  obtain ⟨ha1, ha2⟩ := ha
  unfold live at ha1 ha2
  cases op with
  | insert k v m =>
    rcases ht_insert_cases hw k v m with ⟨h, _⟩ | ⟨pre, hb, post, h1, h2, h3, h4⟩ | ⟨h1, h2, h3⟩
    · simp only [apply_op, h, Option.getD_some]; exact ⟨ha1, ha2⟩
    · simp only [apply_op, h4, Option.getD_some]
      have hl := live_step_length hw k (pre ++ { hb with key := k, val := v } :: post)
      rw [h1] at hl
      simp only [List.length_append, List.length_cons] at hl
      unfold Accounted live
      dsimp only
      constructor <;> omega
    · simp only [apply_op, h3, Option.getD_some]
      have hl := live_step_length hw k ({ tag := HASHBUCKET_TAG, key := k, val := v } :: chain_of ht k)
      simp only [List.length_cons] at hl
      unfold Accounted live
      dsimp only
      by_cases hp : ht.pool.isEmpty = true
      · have h0 : ht.pool.length = 0 := by rw [List.isEmpty_iff.mp hp]; rfl
        simp only [hp, if_true, List.length_tail, List.length_replicate, BLOCK_SIZE] at *
        constructor <;> omega
      · have h0 : ht.pool.length ≠ 0 := fun h => hp (List.isEmpty_iff.mpr (List.length_eq_zero.mp h))
        simp only [hp, List.length_tail, BLOCK_SIZE] at *
        constructor
        · simp only [Bool.false_eq_true, if_false, List.length_tail]; omega
        · omega
  | remove k =>
    rcases ht_remove_cases hw k with ⟨h, _⟩ | ⟨pre, hb, post, h1, h2, h3, h4⟩
    · simp only [apply_op, h, Option.getD_some]; exact ⟨ha1, ha2⟩
    · simp only [apply_op, h4, Option.getD_some]
      have hl := live_step_length hw k (pre ++ post)
      rw [h1] at hl
      simp only [List.length_append, List.length_cons] at hl
      unfold Accounted live
      dsimp only
      have hz : ht.item_count ≠ 0 := by omega
      rw [if_neg hz]
      simp only [List.length_cons]
      constructor <;> omega

/-! ## The hash table: keys -/

/-- After a step of a chain on the key `k`, every key of the chain is `k` or
was in the chain before. -/
theorem ChainStep_keys {K W : Type} {comp : Option K → Option K → Int} {k : Option K}
    {c c1 : List (hashbucket K W)} (hs : ChainStep comp k c c1) :
    ∀ x ∈ c1, x.key = k ∨ ∃ y ∈ c, y.key = x.key := by
  cases hs with
  | fresh v chain h =>
    intro x hx
    rcases List.mem_cons.mp hx with rfl | hx
    · exact Or.inl rfl
    · exact Or.inr ⟨x, hx, rfl⟩
  | update v pre hb0 post h hm0 =>
    intro x hx
    rcases List.mem_append.mp hx with hx | hx
    · exact Or.inr ⟨x, List.mem_append_left _ hx, rfl⟩
    · rcases List.mem_cons.mp hx with rfl | hx
      · exact Or.inl rfl
      · exact Or.inr ⟨x, by simp [hx], rfl⟩
  | store v pre hb0 post h hm0 =>
    intro x hx
    rcases List.mem_append.mp hx with hx | hx
    · exact Or.inr ⟨x, List.mem_append_left _ hx, rfl⟩
    · rcases List.mem_cons.mp hx with rfl | hx
      · exact Or.inr ⟨hb0, by simp, rfl⟩
      · exact Or.inr ⟨x, by simp [hx], rfl⟩
  | unlink pre hb0 post h hm0 =>
    intro x hx
    rcases List.mem_append.mp hx with hx | hx
    · exact Or.inr ⟨x, List.mem_append_left _ hx, rfl⟩
    · exact Or.inr ⟨x, by simp [hx], rfl⟩

/-- A step of a chain keeps its keys pairwise unequal. -/
theorem ChainStep_unique {K W : Type} {comp : Option K → Option K → Int} (he : EquivComp comp)
    {k : Option K} {c c1 : List (hashbucket K W)} (hs : ChainStep comp k c c1)
    (hu : UniqueKeys comp c) : UniqueKeys comp c1 := by
  obtain ⟨hr, hsym, htr⟩ := he
  unfold UniqueKeys at *
  cases hs with
  | fresh v chain h => exact List.pairwise_cons.mpr ⟨h, hu⟩
  | update v pre hb0 post h hm0 =>
    obtain ⟨h1, h2, h3⟩ := List.pairwise_append.mp hu
    obtain ⟨h4, h5⟩ := List.pairwise_cons.mp h2
    refine List.pairwise_append.mpr ⟨h1, List.pairwise_cons.mpr ⟨?_, h5⟩, ?_⟩
    · intro y hy hc
      exact h4 y hy (htr _ _ _ (hsym _ _ hm0) hc)
    · intro a ha b hb
      rcases List.mem_cons.mp hb with rfl | hb
      · intro hc; exact h a ha (hsym _ _ hc)
      · exact h3 a ha b (List.mem_cons_of_mem _ hb)
  | store v pre hb0 post h hm0 =>
    obtain ⟨h1, h2, h3⟩ := List.pairwise_append.mp hu
    obtain ⟨h4, h5⟩ := List.pairwise_cons.mp h2
    refine List.pairwise_append.mpr ⟨h1, List.pairwise_cons.mpr ⟨h4, h5⟩, ?_⟩
    intro a ha b hb
    rcases List.mem_cons.mp hb with rfl | hb
    · exact h3 a ha hb0 (List.mem_cons_self _ _)
    · exact h3 a ha b (List.mem_cons_of_mem _ hb)
  | unlink pre hb0 post h hm0 =>
    exact hu.sublist (by simp)

theorem chain_of_mem {K W : Type} {ht : hashtable K W} (hw : WellFormed ht) (k : Option K) :
    chain_of ht k ∈ ht.table := by
  unfold chain_of
  rw [List.getD_eq_getElem _ _ (slot_lt hw k)]
  exact List.getElem_mem _

/-- A step of the table keeps the keys of every chain pairwise unequal. -/
theorem TableStep_unique {K W : Type} {k : Option K} {ht ht1 : hashtable K W}
    (hw : WellFormed ht) (he : EquivComp ht.comp) (hs : TableStep k ht ht1)
    (hu : ∀ chain ∈ ht.table, UniqueKeys ht.comp chain) :
    ∀ chain ∈ ht1.table, UniqueKeys ht1.comp chain := by
  obtain ⟨h1, h2, h3, h4, c1, hc, htab⟩ := hs
  intro chain hm
  rw [h4]
  rw [htab] at hm
  rcases List.mem_or_eq_of_mem_set hm with hm | rfl
  · exact hu chain hm
  · exact ChainStep_unique he hc (hu _ (chain_of_mem hw k))

/-- A step of the table keeps every bucket in the slot of its key. -/
theorem TableStep_inslot {K W : Type} {k : Option K} {ht ht1 : hashtable K W}
    (hs : TableStep k ht ht1) (hi : InSlot ht) : InSlot ht1 := by
  obtain ⟨h1, h2, h3, h4, c1, hc, htab⟩ := hs
  intro i hlt hb hm
  rw [h2, h3]
  rw [htab, List.length_set] at hlt
  by_cases hx : slot_index (ht.hash k) ht.size = i
  · rw [htab, hx, List.getD_eq_getElem _ _ (by rw [List.length_set]; exact hlt)] at hm
    simp only [List.getElem_set_self] at hm
    rcases ChainStep_keys hc hb hm with hk | ⟨y, hy, hk⟩
    · rw [hk]; exact hx
    · rw [← hk]
      unfold chain_of at hy
      rw [hx] at hy
      exact hi i hlt y hy
  · rw [htab, List.getD_eq_getElem?_getD, List.getElem?_set_ne hx,
      ← List.getD_eq_getElem?_getD] at hm
    exact hi i hlt hb hm

/-- After a step of the table on the key `k`, every key of a live bucket is
`k` or was the key of a live bucket before. -/
theorem TableStep_keys {K W : Type} {k : Option K} {ht ht1 : hashtable K W}
    (hw : WellFormed ht) (hs : TableStep k ht ht1) :
    ∀ x ∈ live ht1, x.key = k ∨ ∃ y ∈ live ht, y.key = x.key := by
  obtain ⟨h1, h2, h3, h4, c1, hc, htab⟩ := hs
  intro x hx
  unfold live at hx
  rw [htab] at hx
  obtain ⟨chain, hm, hxc⟩ := List.mem_flatten.mp hx
  rcases List.mem_or_eq_of_mem_set hm with hm | rfl
  · exact Or.inr ⟨x, List.mem_flatten.mpr ⟨chain, hm, hxc⟩, rfl⟩
  · rcases ChainStep_keys hc x hxc with hk | ⟨y, hy, hk⟩
    · exact Or.inl hk
    · exact Or.inr ⟨y, List.mem_flatten.mpr ⟨_, chain_of_mem hw k, hy⟩, hk⟩

/-! ## The hash table: a new table -/

theorem flatten_replicate_nil {α : Type} (n : Nat) :
    (List.replicate n ([] : List α)).flatten = [] := by
  induction n with
  | zero => rfl
  | succ m ih => rw [List.replicate_succ, List.flatten_cons, ih]; rfl

theorem create_wf {K W : Type} (size : Nat) (hash : Option K → Nat)
    (comp : Option K → Option K → Int) (kdel vdel : Bool) (hs : 0 < size) :
    WellFormed (ht_create size hash comp kdel vdel : hashtable K W) := by
  refine ⟨rfl, by simp [ht_create], hs, ?_, ?_⟩
  · intro chain hm hb hh
    rw [(List.mem_replicate.mp hm).2] at hh
    simp at hh
  · intro hb hm
    rw [(List.mem_replicate.mp hm).2]
    exact ⟨rfl, rfl, rfl⟩

theorem create_live {K W : Type} (size : Nat) (hash : Option K → Nat)
    (comp : Option K → Option K → Int) (kdel vdel : Bool) :
    live (ht_create size hash comp kdel vdel : hashtable K W) = [] :=
  flatten_replicate_nil size

theorem create_accounted {K W : Type} (size : Nat) (hash : Option K → Nat)
    (comp : Option K → Option K → Int) (kdel vdel : Bool) :
    Accounted (ht_create size hash comp kdel vdel : hashtable K W) := by
  unfold Accounted
  rw [create_live]
  simp [ht_create]

theorem create_unique {K W : Type} (size : Nat) (hash : Option K → Nat)
    (comp : Option K → Option K → Int) (kdel vdel : Bool) :
    ∀ chain ∈ (ht_create size hash comp kdel vdel : hashtable K W).table,
      UniqueKeys comp chain := by
  intro chain hm
  rw [(List.mem_replicate.mp hm).2]
  exact List.Pairwise.nil

theorem create_inslot {K W : Type} (size : Nat) (hash : Option K → Nat)
    (comp : Option K → Option K → Int) (kdel vdel : Bool) :
    InSlot (ht_create size hash comp kdel vdel : hashtable K W) := by
  intro i hlt hb hm
  have : (ht_create size hash comp kdel vdel : hashtable K W).table.getD i [] = [] := by
    rw [List.getD_eq_getElem _ _ hlt]
    simp [ht_create]
  rw [this] at hm
  simp at hm

/-! ## The hash table: sequences of calls -/

theorem run_ops_cons {K W : Type} (ht : hashtable K W) (op : TableOp K W)
    (ops : List (TableOp K W)) : run_ops ht (op :: ops) = run_ops (apply_op ht op) ops := rfl

theorem run_ops_append {K W : Type} (ht : hashtable K W) (ops ops1 : List (TableOp K W)) :
    run_ops ht (ops ++ ops1) = run_ops (run_ops ht ops) ops1 := by
  unfold run_ops; rw [List.foldl_append]

/-- What holds of a table and is kept by every call on a well-formed table
holds after every sequence of calls. -/
theorem run_ops_keeps {K W : Type} (P : hashtable K W → Prop)
    (hstep : ∀ ht op, WellFormed ht → P ht → P (apply_op ht op))
    (ops : List (TableOp K W)) :
    ∀ ht, WellFormed ht → P ht → WellFormed (run_ops ht ops) ∧ P (run_ops ht ops) := by
  induction ops with
  | nil => exact fun ht hw hp => ⟨hw, hp⟩
  | cons op rest ih =>
    intro ht hw hp
    rw [run_ops_cons]
    exact ih _ (apply_op_wf hw op) (hstep ht op hw hp)

theorem run_ops_wf {K W : Type} {ht : hashtable K W} (hw : WellFormed ht)
    (ops : List (TableOp K W)) : WellFormed (run_ops ht ops) :=
  (run_ops_keeps (fun _ => True) (fun _ _ _ _ => trivial) ops ht hw trivial).1

theorem run_ops_config {K W : Type} {ht : hashtable K W} (hw : WellFormed ht)
    (ops : List (TableOp K W)) :
    (run_ops ht ops).hash = ht.hash ∧ (run_ops ht ops).comp = ht.comp ∧
    (run_ops ht ops).size = ht.size :=
  (run_ops_keeps (fun t => t.hash = ht.hash ∧ t.comp = ht.comp ∧ t.size = ht.size)
    (fun t op hwt hp => by
      obtain ⟨a, b, c⟩ := apply_op_config hwt op
      exact ⟨a.trans hp.1, b.trans hp.2.1, c.trans hp.2.2⟩) ops ht hw ⟨rfl, rfl, rfl⟩).2

theorem run_ops_accounted {K W : Type} {ht : hashtable K W} (hw : WellFormed ht)
    (ha : Accounted ht) (ops : List (TableOp K W)) : Accounted (run_ops ht ops) :=
  (run_ops_keeps Accounted (fun _ op hwt hp => apply_op_accounted hwt hp op) ops ht hw ha).2

theorem apply_op_inslot {K W : Type} {ht : hashtable K W} (hw : WellFormed ht)
    (hi : InSlot ht) (op : TableOp K W) : InSlot (apply_op ht op) := by
  rcases apply_op_step hw op with h | h
  · rw [h]; exact hi
  · exact TableStep_inslot h.1 hi

theorem apply_op_unique {K W : Type} {ht : hashtable K W} (hw : WellFormed ht)
    (he : EquivComp ht.comp) (hu : ∀ chain ∈ ht.table, UniqueKeys ht.comp chain)
    (op : TableOp K W) :
    ∀ chain ∈ (apply_op ht op).table, UniqueKeys (apply_op ht op).comp chain := by
  rcases apply_op_step hw op with h | h
  · rw [h]; exact hu
  · exact TableStep_unique hw he h.1 hu

/-- After every sequence of calls on a new table every bucket stands in the
slot of its key and the keys of every chain are pairwise unequal. -/
theorem run_ops_sound {K W : Type} (size : Nat) (hash : Option K → Nat)
    (comp : Option K → Option K → Int) (kdel vdel : Bool) (hs : 0 < size)
    (he : EquivComp comp) (ops : List (TableOp K W)) :
    InSlot (run_ops (ht_create size hash comp kdel vdel) ops) ∧
    ∀ chain ∈ (run_ops (ht_create size hash comp kdel vdel) ops).table,
      UniqueKeys comp chain := by
  have h := (run_ops_keeps
    (fun t : hashtable K W => t.comp = comp ∧ InSlot t ∧ ∀ chain ∈ t.table, UniqueKeys comp chain)
    (fun t op hwt hp => by
      have hc : (apply_op t op).comp = comp := (apply_op_config hwt op).2.1.trans hp.1
      refine ⟨hc, apply_op_inslot hwt hp.2.1 op, ?_⟩
      have := apply_op_unique hwt (by rw [hp.1]; exact he) (by rw [hp.1]; exact hp.2.2) op
      rw [hc] at this
      exact this) ops _ (create_wf size hash comp kdel vdel hs)
    ⟨rfl, create_inslot size hash comp kdel vdel, create_unique size hash comp kdel vdel⟩).2
  exact ⟨h.2.1, h.2.2⟩

/-! ## The hash table: lookups after a call -/

theorem chain_of_set {K W : Type} {ht : hashtable K W} (hw : WellFormed ht) (k : Option K)
    (c1 : List (hashbucket K W)) (ht1 : hashtable K W) (h2 : ht1.size = ht.size)
    (h3 : ht1.hash = ht.hash)
    (htab : ht1.table = ht.table.set (slot_index (ht.hash k) ht.size) c1) (k2 : Option K)
    (hk : ht.hash k2 = ht.hash k) : chain_of ht1 k2 = c1 := by
  unfold chain_of
  rw [h2, h3, htab, hk, List.getD_eq_getElem _ _ (by rw [List.length_set]; exact slot_lt hw k)]
  simp

theorem no_match_of_equal {K W : Type} {comp : Option K → Option K → Int} (he : EquivComp comp)
    {k k2 : Option K} (hk : comp k2 k = 0) {l : List (hashbucket K W)}
    (h : ∀ x ∈ l, comp k x.key ≠ 0) : ∀ x ∈ l, comp k2 x.key ≠ 0 :=
  fun x hx hc => h x hx (he.2.2 _ _ _ (he.2.1 _ _ hk) hc)

/-- After `ht_insert(k, v)` returned 0, `ht_lookup` of a key that compares
equal to `k` returns 0 and `v`. -/
theorem insert_then_lookup {K W : Type} {ht ht1 : hashtable K W} (hw : WellFormed ht)
    (he : EquivComp ht.comp) (hh : HashRespects ht.hash ht.comp) {k : Option K}
    {v : Option W} {m called : Bool}
    (h : ht_insert (some ht) k v m = (0, some ht1, called)) {k2 : Option K}
    (hk : ht.comp k2 k = 0) : ht_lookup (some ht1) k2 = (0, v) := by
  have hw1 : WellFormed ht1 := by
    rcases ht_insert_step hw k v m with h0 | ⟨t, c, h0, _, hwt⟩
    · rw [h0] at h; simp at h
    · rw [h0] at h
      simp only [Prod.mk.injEq, Option.some.injEq, true_and] at h
      rw [← h.1]; exact hwt
  have hhash := hh _ _ hk
  rw [ht_lookup_eq hw1]
  rcases ht_insert_cases hw k v m with ⟨h0, _⟩ | ⟨pre, hb, post, h1, h2, h3, h4⟩ | ⟨h1, h2, h3⟩
  · rw [h0] at h; simp at h
  · rw [h4] at h
    simp only [Prod.mk.injEq, Option.some.injEq, true_and] at h
    have hc := chain_of_set hw k (pre ++ { hb with key := k, val := v } :: post) ht1
      (by rw [← h.1]) (by rw [← h.1]) (by rw [← h.1]) k2 hhash
    have hcomp : ht1.comp = ht.comp := by rw [← h.1]
    rw [hc, hcomp, first_match_split _ _ _ _ _ (no_match_of_equal he hk h2) (by exact hk)]
  · rw [h3] at h
    simp only [Prod.mk.injEq, Option.some.injEq, true_and] at h
    have hc := chain_of_set hw k ({ tag := HASHBUCKET_TAG, key := k, val := v } :: chain_of ht k)
      ht1 (by rw [← h.1]) (by rw [← h.1]) (by rw [← h.1]) k2 hhash
    have hcomp : ht1.comp = ht.comp := by rw [← h.1]
    rw [hc, hcomp]
    have := first_match_split ht.comp k2 [] { tag := HASHBUCKET_TAG, key := k, val := v }
      (chain_of ht k) (by simp) (by exact hk)
    rw [List.nil_append] at this
    rw [this]

/-- After `ht_remove(k)` returned 0 on a table whose chains hold pairwise
unequal keys, `ht_lookup` of a key that compares equal to `k` returns 2. -/
theorem remove_then_lookup {K W : Type} {ht ht1 : hashtable K W} (hw : WellFormed ht)
    (he : EquivComp ht.comp) (hh : HashRespects ht.hash ht.comp)
    (hu : ∀ chain ∈ ht.table, UniqueKeys ht.comp chain) {k : Option K} {v : Option W}
    (h : ht_remove (some ht) k = (0, some ht1, v)) {k2 : Option K}
    (hk : ht.comp k2 k = 0) : ht_lookup (some ht1) k2 = (2, none) := by
  have hw1 : WellFormed ht1 := by
    rcases ht_remove_step hw k with h0 | ⟨t, c, h0, _, hwt⟩
    · rw [h0] at h; simp at h
    · rw [h0] at h
      simp only [Prod.mk.injEq, Option.some.injEq, true_and] at h
      rw [← h.1]; exact hwt
  have hhash := hh _ _ hk
  rw [ht_lookup_eq hw1]
  rcases ht_remove_cases hw k with ⟨h0, _⟩ | ⟨pre, hb, post, h1, h2, h3, h4⟩
  · rw [h0] at h; simp at h
  · rw [h4] at h
    simp only [Prod.mk.injEq, Option.some.injEq, true_and] at h
    have hc := chain_of_set hw k (pre ++ post) ht1
      (by rw [← h.1]) (by rw [← h.1]) (by rw [← h.1]) k2 hhash
    have hcomp : ht1.comp = ht.comp := by rw [← h.1]
    have hu1 := hu _ (chain_of_mem hw k)
    rw [h1] at hu1
    obtain ⟨_, hu2, _⟩ := List.pairwise_append.mp hu1
    obtain ⟨hu3, _⟩ := List.pairwise_cons.mp hu2
    have hpost : ∀ x ∈ post, ht.comp k x.key ≠ 0 :=
      fun x hx hc => hu3 x hx (he.2.2 _ _ _ (he.2.1 _ _ h3) hc)
    rw [hc, hcomp, first_match_none]
    intro x hx
    rcases List.mem_append.mp hx with hx | hx
    · exact no_match_of_equal he hk h2 x hx
    · exact no_match_of_equal he hk hpost x hx

/-- A key that compares unequal to the key of every live bucket is not
found. -/
theorem lookup_of_no_key {K W : Type} {ht : hashtable K W} (hw : WellFormed ht)
    (k : Option K) (h : ∀ x ∈ live ht, ht.comp k x.key ≠ 0) :
    ht_lookup (some ht) k = (2, none) := by
  rw [ht_lookup_eq hw, first_match_none]
  intro x hx
  exact h x (List.mem_flatten.mpr ⟨_, chain_of_mem hw k, hx⟩)

/-- After one call every key of a live bucket was the key of a live bucket
before, or the call is an `ht_insert` of that key. -/
theorem apply_op_keys {K W : Type} {ht : hashtable K W} (hw : WellFormed ht)
    (op : TableOp K W) : ∀ x ∈ live (apply_op ht op),
      (∃ y ∈ live ht, y.key = x.key) ∨ ∃ v m, op = TableOp.insert x.key v m := by
  intro x hx
  cases op with
  | insert k v m =>
    rcases ht_insert_step hw k v m with h | ⟨ht1, c, h, hs, _⟩
    · simp only [apply_op, h, Option.getD_some] at hx
      exact Or.inl ⟨x, hx, rfl⟩
    · simp only [apply_op, h, Option.getD_some] at hx
      rcases TableStep_keys hw hs x hx with hk | hk
      · right; exact ⟨v, m, by rw [hk]⟩
      · exact Or.inl hk
  | remove k =>
    left
    rcases ht_remove_cases hw k with ⟨h, _⟩ | ⟨pre, hb, post, h1, h2, h3, h4⟩
    · simp only [apply_op, h, Option.getD_some] at hx
      exact ⟨x, hx, rfl⟩
    · simp only [apply_op, h4, Option.getD_some] at hx
      unfold live at hx
      dsimp only at hx
      obtain ⟨chain, hm, hxc⟩ := List.mem_flatten.mp hx
      rcases List.mem_or_eq_of_mem_set hm with hm | rfl
      · exact ⟨x, List.mem_flatten.mpr ⟨chain, hm, hxc⟩, rfl⟩
      · refine ⟨x, List.mem_flatten.mpr ⟨_, chain_of_mem hw k, ?_⟩, rfl⟩
        rw [h1]
        rcases List.mem_append.mp hxc with hx1 | hx1
        · exact List.mem_append_left _ hx1
        · exact List.mem_append_right _ (List.mem_cons_of_mem _ hx1)

/-- Every key of a live bucket was the key of a call of `ht_insert`. -/
theorem run_ops_keys {K W : Type} (ops : List (TableOp K W)) :
    ∀ ht : hashtable K W, WellFormed ht → ∀ x ∈ live (run_ops ht ops),
      (∃ y ∈ live ht, y.key = x.key) ∨ ∃ v m, TableOp.insert x.key v m ∈ ops := by
  induction ops with
  | nil => exact fun ht _ x hx => Or.inl ⟨x, hx, rfl⟩
  | cons op rest ih =>
    intro ht hw x hx
    rw [run_ops_cons] at hx
    rcases ih _ (apply_op_wf hw op) x hx with ⟨y, hy, hk⟩ | ⟨v, m, hm⟩
    · rcases apply_op_keys hw op y hy with ⟨z, hz, hk1⟩ | ⟨v, m, hop⟩
      · exact Or.inl ⟨z, hz, hk1.trans hk⟩
      · right
        refine ⟨v, m, ?_⟩
        rw [← hk, ← hop]
        exact List.mem_cons_self _ _
    · exact Or.inr ⟨v, m, List.mem_cons_of_mem _ hm⟩

/-- A sequence of calls on keys that compare unequal to `k` does not change
the result of `ht_lookup` for `k`. -/
theorem run_ops_frame {K W : Type} (ops : List (TableOp K W)) :
    ∀ ht : hashtable K W, WellFormed ht → EquivComp ht.comp → ∀ k : Option K,
      (∀ op ∈ ops, ht.comp k op.key ≠ 0) →
      ht_lookup (some (run_ops ht ops)) k = ht_lookup (some ht) k := by
  induction ops with
  | nil => exact fun ht _ _ k _ => rfl
  | cons op rest ih =>
    intro ht hw he k hk
    rw [run_ops_cons]
    have hc := (apply_op_config hw op).2.1
    rw [ih _ (apply_op_wf hw op) (by rw [hc]; exact he) k
      (fun o ho => by rw [hc]; exact hk o (List.mem_cons_of_mem _ ho))]
    exact apply_op_frame hw he op (hk op (List.mem_cons_self _ _))

/-- The keys of the live buckets of a table are pairwise unequal when those
of every chain are, every bucket stands in the slot of its key, and the hash
function gives equal codes to keys that compare equal. -/
theorem live_unique {K W : Type} (ht : hashtable K W)
    (hh : HashRespects ht.hash ht.comp) (hi : InSlot ht)
    (hu : ∀ chain ∈ ht.table, UniqueKeys ht.comp chain) :
    (live ht).Pairwise (fun a b => ht.comp a.key b.key ≠ 0) := by
  unfold live
  rw [List.pairwise_flatten]
  refine ⟨hu, ?_⟩
  rw [List.pairwise_iff_getElem]
  intro i j hi1 hj1 hij x hx y hy hc
  have h1 := hi i hi1 x (by rw [List.getD_eq_getElem _ _ hi1]; exact hx)
  have h2 := hi j hj1 y (by rw [List.getD_eq_getElem _ _ hj1]; exact hy)
  rw [hh _ _ hc] at h1
  omega

/-! ## The hash table: iteration -/

/-- Along a chain of live buckets the inner loop of `ht_iterate` calls the
visitor on the entries of the chain in turn. -/
theorem iterate_chain_eq {K W S : Type} (f : Nat → Option K → Option W → S → Int × S)
    (i : Nat) (chain : List (hashbucket K W)) (hl : ∀ hb ∈ chain, hb.tag = HASHBUCKET_TAG)
    (p_rv : Option Int) (st : S) (seen : List (Visit K W)) :
    iterate_chain f i chain p_rv st seen =
      visit_list f (chain.map (fun hb => (i, hb.key, hb.val))) p_rv st seen := by
  induction chain generalizing st seen with
  | nil => rfl
  | cons hb rest ih =>
    have h1 : ¬ (hb.tag ≠ HASHBUCKET_TAG) := not_not.mpr (hl hb (List.mem_cons_self _ _))
    have ih1 := ih (fun x hx => hl x (List.mem_cons_of_mem _ hx))
    simp only [iterate_chain, if_neg h1, List.map_cons, visit_list]
    split_ifs
    · rfl
    · exact ih1 _ _

theorem visit_list_append {K W S : Type} (f : Nat → Option K → Option W → S → Int × S)
    (l1 l2 : List (Nat × Option K × Option W)) (p_rv : Option Int) (st : S)
    (seen : List (Visit K W)) :
    visit_list f (l1 ++ l2) p_rv st seen =
      if (visit_list f l1 p_rv st seen).rc ≠ 0 then visit_list f l1 p_rv st seen
      else visit_list f l2 (visit_list f l1 p_rv st seen).p_rv (visit_list f l1 p_rv st seen).st
        (visit_list f l1 p_rv st seen).seen := by
  induction l1 generalizing st seen with
  | nil => simp [visit_list]
  | cons e rest ih =>
    simp only [List.cons_append, visit_list]
    split_ifs with h1 h2 h3
    · rfl
    · exact absurd (by decide : (5 : Int) ≠ 0) h2
    · exact (ih _ _).trans (if_pos h3)
    · exact (ih _ _).trans (if_neg h3)

/-- On a well-formed table the outer loop of `ht_iterate` calls the visitor
on the entries of the slots it runs over. -/
theorem iterate_slots_eq {K W S : Type} (f : Nat → Option K → Option W → S → Int × S)
    (ht : hashtable K W) (hl : ∀ chain ∈ ht.table, ∀ hb ∈ chain, hb.tag = HASHBUCKET_TAG)
    (n : Nat) : ∀ (i : Nat), i + n = ht.table.length → ∀ (p_rv : Option Int) (st : S)
      (seen : List (Visit K W)),
      iterate_slots f ht n i p_rv st seen =
        visit_list f (entries_from (ht.table.drop i) i) p_rv st seen := by
  induction n with
  | zero =>
    intro i hi p_rv st seen
    rw [List.drop_of_length_le (by omega)]
    rfl
  | succ m ih =>
    intro i hi p_rv st seen
    have hlt : i < ht.table.length := by omega
    rw [List.drop_eq_getElem_cons hlt]
    simp only [iterate_slots, entries_from]
    rw [visit_list_append, List.getD_eq_getElem _ _ hlt,
      iterate_chain_eq f i _ (hl _ (List.getElem_mem hlt))]
    split_ifs
    · rfl
    · exact ih (i + 1) (by omega) _ _ _

/-- `ht_iterate` with a visitor on a well-formed table calls the visitor on
the live entries in turn. -/
theorem ht_iterate_eq {K W S : Type} {ht : hashtable K W} (hw : WellFormed ht)
    (f : Nat → Option K → Option W → S → Int × S) (p_rv : Option Int) (st : S) :
    ht_iterate (some ht) (some f) p_rv st = visit_list f (entries ht) p_rv st [] := by
  have htag : ¬ (ht.tag ≠ HASHTABLE_TAG) := not_not.mpr hw.1
  simp only [ht_iterate, if_neg htag]
  have := iterate_slots_eq f ht hw.2.2.2.1 ht.size 0 (by rw [hw.2.1]; omega) p_rv st []
  rw [this]
  rfl

/-- What a run of the visitor over a list of entries looks like. -/
theorem visit_list_spec {K W S : Type} (f : Nat → Option K → Option W → S → Int × S)
    (l : List (Nat × Option K × Option W)) :
    ∀ (p_rv : Option Int) (st : S) (seen : List (Visit K W)),
      ∃ new, (visit_list f l p_rv st seen).seen = seen ++ new ∧
        new.map Visit.entry <+: l ∧ (∀ x ∈ new.dropLast, x.ret = 0) ∧
        (((visit_list f l p_rv st seen).rc = 0 ∧ new.map Visit.entry = l ∧
            (∀ x ∈ new, x.ret = 0) ∧ (visit_list f l p_rv st seen).p_rv = p_rv) ∨
         ((visit_list f l p_rv st seen).rc = 5 ∧ ∃ x, new.getLast? = some x ∧ x.ret ≠ 0 ∧
            (visit_list f l p_rv st seen).p_rv = p_rv.map (fun _ => x.ret))) := by
  induction l with
  | nil =>
    intro p_rv st seen
    exact ⟨[], by simp [visit_list], by simp, by simp, Or.inl ⟨rfl, rfl, by simp, rfl⟩⟩
  | cons e rest ih =>
    intro p_rv st seen
    simp only [visit_list]
    split_ifs with h
    · refine ⟨[⟨e.1, e.2.1, e.2.2, (f e.1 e.2.1 e.2.2 st).1⟩], rfl, ?_, by simp, Or.inr ⟨rfl, _, rfl, h, rfl⟩⟩
      simp [Visit.entry]
    · have h0 : (f e.1 e.2.1 e.2.2 st).1 = 0 := not_not.mp h
      obtain ⟨new, h1, h2, h3, h4⟩ := ih p_rv (f e.1 e.2.1 e.2.2 st).2
        (seen ++ [⟨e.1, e.2.1, e.2.2, (f e.1 e.2.1 e.2.2 st).1⟩])
      refine ⟨⟨e.1, e.2.1, e.2.2, (f e.1 e.2.1 e.2.2 st).1⟩ :: new, ?_, ?_, ?_, ?_⟩
      · rw [h1]; simp
      · simp only [List.map_cons, Visit.entry]
        exact (List.prefix_cons_inj e).mpr h2
      · intro x hx
        cases new with
        | nil => simp at hx
        | cons a t =>
          rw [List.dropLast_cons₂] at hx
          rcases List.mem_cons.mp hx with rfl | hx
          · exact h0
          · exact h3 x hx
      · rcases h4 with ⟨a, b, c, d⟩ | ⟨a, x, b, c, d⟩
        · refine Or.inl ⟨a, ?_, ?_, d⟩
          · simp only [List.map_cons, Visit.entry, b]
          · intro x hx
            rcases List.mem_cons.mp hx with rfl | hx
            · exact h0
            · exact c x hx
        · refine Or.inr ⟨a, x, ?_, c, d⟩
          cases new with
          | nil => simp at b
          | cons y t => rw [List.getLast?_cons_cons]; exact b

/-- A visitor that always returns 0 is run over the whole list. -/
theorem visit_list_zero {K W S : Type} (f : Nat → Option K → Option W → S → Int × S)
    (hf : ∀ i k v st, (f i k v st).1 = 0) (l : List (Nat × Option K × Option W)) :
    ∀ (p_rv : Option Int) (st : S) (seen : List (Visit K W)),
      (visit_list f l p_rv st seen).rc = 0 := by
  induction l with
  | nil => exact fun _ _ _ => rfl
  | cons e rest ih =>
    intro p_rv st seen
    simp only [visit_list]
    rw [if_neg (not_not.mpr (hf _ _ _ _))]
    exact ih _ _ _

theorem entries_from_mem {K W : Type} (l : List (List (hashbucket K W))) :
    ∀ (i : Nat) (e : Nat × Option K × Option W), e ∈ entries_from l i →
      ∃ j, j < l.length ∧ ∃ hb ∈ l.getD j [], e = (i + j, hb.key, hb.val) := by
  induction l with
  | nil => intro i e he; simp [entries_from] at he
  | cons c cs ih =>
    intro i e he
    simp only [entries_from] at he
    rcases List.mem_append.mp he with he | he
    · obtain ⟨hb, hm, rfl⟩ := List.mem_map.mp he
      exact ⟨0, by simp, hb, by simpa using hm, rfl⟩
    · obtain ⟨j, hj, hb, hm, rfl⟩ := ih (i + 1) e he
      exact ⟨j + 1, by simpa using hj, hb, by simpa using hm, by
        rw [show i + (j + 1) = i + 1 + j by omega]⟩

/-- Every live entry is what `ht_lookup` of its key returns, and its slot is
that of its key. -/
theorem entries_lookup {K W : Type} {ht : hashtable K W} (hw : WellFormed ht)
    (he : EquivComp ht.comp) (hi : InSlot ht)
    (hu : ∀ chain ∈ ht.table, UniqueKeys ht.comp chain) :
    ∀ e ∈ entries ht, ht_lookup (some ht) e.2.1 = (0, e.2.2) ∧
      e.1 = slot_index (ht.hash e.2.1) ht.size := by
  intro e hm
  obtain ⟨j, hj, hb, hbm, rfl⟩ := entries_from_mem _ 0 e hm
  rw [Nat.zero_add]
  have hs := hi j hj hb hbm
  refine ⟨?_, hs.symm⟩
  dsimp only
  rw [ht_lookup_eq hw]
  have hc : chain_of ht hb.key = ht.table.getD j [] := by unfold chain_of; rw [hs]
  rcases chain_find_live ht.comp hb.key (chain_of ht hb.key) (chain_of_live hw hb.key) 0 with
    ⟨_, h2⟩ | ⟨pre, hb1, post, h1, h2, h3, _⟩
  · exact absurd (he.1 _) (h2 hb (by rw [hc]; exact hbm))
  · rw [h1, first_match_split _ _ _ _ _ h2 h3]
    have hu1 := hu _ (chain_of_mem hw hb.key)
    rw [h1] at hu1
    obtain ⟨_, hu2, _⟩ := List.pairwise_append.mp hu1
    obtain ⟨hu3, _⟩ := List.pairwise_cons.mp hu2
    rw [← hc, h1] at hbm
    rcases List.mem_append.mp hbm with hx | hx
    · exact absurd (he.1 _) (h2 hb hx)
    · rcases List.mem_cons.mp hx with rfl | hx
      · rfl
      · exact absurd (he.2.1 _ _ h3) (hu3 hb hx)

/-! ## The hash table: more on lookups -/

theorem key_comp_zero (a b : Option Nat) : key_comp a b = 0 ↔ a = b := by
  cases a with
  | none => cases b <;> simp [key_comp]
  | some x =>
    cases b with
    | none => simp [key_comp]
    | some y =>
      simp only [key_comp, Option.some.injEq]
      split_ifs with h1 h2
      · simp; omega
      · simp [h2]
      · simp [h2]

theorem key_comp_equiv : EquivComp key_comp := by
  refine ⟨fun a => (key_comp_zero a a).mpr rfl, fun a b h => ?_, fun a b c h1 h2 => ?_⟩
  · rw [key_comp_zero] at h ⊢; exact h.symm
  · rw [key_comp_zero] at h1 h2 ⊢; exact h1.trans h2

theorem key_hash_respects : HashRespects key_hash key_comp := by
  intro a b h
  rw [key_comp_zero] at h
  rw [h]

theorem not_found_of_lookup {K W : Type} {ht : hashtable K W} (hw : WellFormed ht)
    {k : Option K} (h : (ht_lookup (some ht) k).1 ≠ 0) :
    ∀ hb ∈ chain_of ht k, ht.comp k hb.key ≠ 0 := by
  rcases chain_find_live ht.comp k (chain_of ht k) (chain_of_live hw k) 0 with
    ⟨_, h2⟩ | ⟨pre, hb1, post, h1, h2, h3, _⟩
  · exact h2
  · rw [ht_lookup_eq hw, h1, first_match_split _ _ _ _ _ h2 h3] at h
    exact absurd rfl h

theorem found_of_lookup {K W : Type} {ht : hashtable K W} (hw : WellFormed ht)
    {k : Option K} (h : (ht_lookup (some ht) k).1 = 0) :
    ∃ pre hb post, chain_of ht k = pre ++ hb :: post ∧ (∀ x ∈ pre, ht.comp k x.key ≠ 0) ∧
      ht.comp k hb.key = 0 := by
  rcases chain_find_live ht.comp k (chain_of ht k) (chain_of_live hw k) 0 with
    ⟨_, h2⟩ | ⟨pre, hb1, post, h1, h2, h3, _⟩
  · rw [ht_lookup_eq hw, first_match_none _ _ _ h2] at h
    simp at h
  · exact ⟨pre, hb1, post, h1, h2, h3⟩

/-- Inserting a key that `ht_lookup` finds replaces key and value of its
bucket: no `malloc`, the same number of entries. -/
theorem insert_found {K W : Type} {ht : hashtable K W} (hw : WellFormed ht)
    {k : Option K} (h : (ht_lookup (some ht) k).1 = 0) (v : Option W) (m : Bool) :
    ∃ ht1, ht_insert (some ht) k v m = (0, some ht1, false) ∧
      ht1.item_count = ht.item_count ∧ (live ht1).length = (live ht).length ∧
      ht1.pool = ht.pool ∧ ht1.blocks = ht.blocks := by
  obtain ⟨pre0, hb0, post0, e1, e2, e3⟩ := found_of_lookup hw h
  rcases ht_insert_cases hw k v m with ⟨_, _, _, h0⟩ | ⟨pre, hb, post, h1, h2, h3, h4⟩ | ⟨h1, _, _⟩
  · exact absurd e3 (h0 hb0 (by rw [e1]; simp))
  · refine ⟨_, h4, rfl, ?_, rfl, rfl⟩
    have hl := live_step_length hw k (pre ++ { hb with key := k, val := v } :: post)
    rw [h1] at hl
    simp only [List.length_append, List.length_cons] at hl
    unfold live
    dsimp only
    omega
  · exact absurd e3 (h1 hb0 (by rw [e1]; simp))

theorem absent_of_no_match {K W : Type} {ht : hashtable K W} (hw : WellFormed ht)
    {k : Option K} (h : ∀ hb ∈ chain_of ht k, ht.comp k hb.key ≠ 0) :
    ht_lookup (some ht) k = (2, none) := by
  rw [ht_lookup_eq hw, first_match_none _ _ _ h]

/-- A removal that changes the table shortens one chain and leaves the
others alone. -/
theorem remove_chain_sublist {K W : Type} {ht : hashtable K W} (hw : WellFormed ht)
    (kk k : Option K) :
    (chain_of (apply_op ht (.remove kk)) k).Sublist (chain_of ht k) := by
  rcases ht_remove_cases hw kk with ⟨h, _⟩ | ⟨pre, hb, post, h1, h2, h3, h4⟩
  · simp only [apply_op, h, Option.getD_some]
    exact List.Sublist.refl _
  · simp only [apply_op, h4, Option.getD_some]
    by_cases hx : slot_index (ht.hash k) ht.size = slot_index (ht.hash kk) ht.size
    · have e1 : chain_of ht k = pre ++ hb :: post := by
        rw [← h1]; unfold chain_of; rw [hx]
      unfold chain_of at e1 ⊢
      dsimp only
      rw [hx] at e1 ⊢
      rw [e1, List.getD_eq_getElem _ _ (by rw [List.length_set]; exact slot_lt hw kk)]
      simp
    · unfold chain_of
      dsimp only
      rw [List.getD_eq_getElem?_getD, List.getElem?_set_ne (fun h => hx h.symm),
        ← List.getD_eq_getElem?_getD]

theorem absent_after_remove {K W : Type} {ht : hashtable K W} (hw : WellFormed ht)
    (kk : Option K) {k : Option K} (h : ht_lookup (some ht) k = (2, none)) :
    ht_lookup (some (apply_op ht (.remove kk))) k = (2, none) := by
  have h0 := not_found_of_lookup hw (k := k) (by rw [h]; simp)
  refine absent_of_no_match (apply_op_wf hw _) ?_
  rw [(apply_op_config hw _).2.1]
  exact fun hb hm => h0 hb ((remove_chain_sublist hw kk k).subset hm)

/-- A key that is not found stays so through removals and through insertions
of keys that compare unequal to it. -/
theorem run_ops_absent {K W : Type} (ops : List (TableOp K W)) :
    ∀ ht : hashtable K W, WellFormed ht → EquivComp ht.comp → ∀ k : Option K,
      ht_lookup (some ht) k = (2, none) →
      (∀ kk v m, TableOp.insert kk v m ∈ ops → ht.comp kk k ≠ 0) →
      ht_lookup (some (run_ops ht ops)) k = (2, none) := by
  induction ops with
  | nil => exact fun ht _ _ k h _ => h
  | cons op rest ih =>
    intro ht hw he k h hk
    rw [run_ops_cons]
    have hc := (apply_op_config hw op).2.1
    refine ih _ (apply_op_wf hw op) (by rw [hc]; exact he) k ?_
      (fun kk v m hm => by rw [hc]; exact hk kk v m (List.mem_cons_of_mem _ hm))
    cases op with
    | insert kk v m =>
      rw [apply_op_frame hw he _ ?_]
      · exact h
      · intro hx
        exact hk kk v m (List.mem_cons_self _ _) (he.2.1 _ _ hx)
    | remove kk => exact absent_after_remove hw kk h

theorem entries_from_keys {K W : Type} (l : List (List (hashbucket K W))) (i : Nat) :
    (entries_from l i).map (fun e => e.2.1) = l.flatten.map (fun hb => hb.key) := by
  induction l generalizing i with
  | nil => rfl
  | cons c cs ih =>
    simp only [entries_from, List.map_append, List.map_map, List.flatten_cons, ih]
    rfl

/-- The live entries of a table whose live buckets hold pairwise unequal keys
are pairwise different. -/
theorem entries_nodup {K W : Type} {ht : hashtable K W} (he : EquivComp ht.comp)
    (hu : (live ht).Pairwise (fun a b => ht.comp a.key b.key ≠ 0)) : (entries ht).Nodup := by
  apply List.Nodup.of_map (fun e => e.2.1)
  unfold entries
  rw [entries_from_keys]
  unfold List.Nodup
  rw [List.pairwise_map]
  exact hu.imp (fun hab heq => hab (by rw [heq]; exact he.1 _))

/-! ## The symbol table: keys -/

theorem c_string_nil : c_string [] = [] := rfl

theorem c_string_nul (t : List Char) : c_string (NUL :: t) = [] := by
  simp [c_string, List.takeWhile]

theorem c_string_cons {c : Char} (hc : c ≠ NUL) (t : List Char) :
    c_string (c :: t) = c :: c_string t := by
  have h : (c != NUL) = true := by simpa using hc
  simp only [c_string, List.takeWhile, h]

/-- Two lists compare equal under `strcmp` exactly when they hold the same C
string. -/
theorem strcmp_zero_iff (a b : List Char) : strcmp a b = 0 ↔ c_string a = c_string b := by
  induction a generalizing b with
  | nil =>
    cases b with
    | nil => simp [strcmp]
    | cons c t =>
      by_cases hc : c = NUL
      · subst hc; simp [strcmp, c_string_nul, c_string_nil]
      · simp [strcmp, c_string_cons hc, c_string_nil, hc]
  | cons a as ih =>
    cases b with
    | nil =>
      by_cases hc : a = NUL
      · subst hc; simp [strcmp, c_string_nul, c_string_nil]
      · simp [strcmp, c_string_cons hc, c_string_nil, hc]
    | cons b bs =>
      by_cases hab : a = b
      · subst hab
        by_cases hc : a = NUL
        · subst hc; simp [strcmp, c_string_nul]
        · simp [strcmp, c_string_cons hc, hc, ih bs]
      · have hne : ¬ strcmp (a :: as) (b :: bs) = 0 := by
          simp only [strcmp, if_neg hab]
          split_ifs <;> decide
        refine ⟨fun h => absurd h hne, fun h => ?_⟩
        exfalso
        by_cases ha : a = NUL
        · by_cases hb : b = NUL
          · exact hab (ha.trans hb.symm)
          · subst ha
            rw [c_string_nul, c_string_cons hb] at h
            simp at h
        · by_cases hb : b = NUL
          · subst hb
            rw [c_string_nul, c_string_cons ha] at h
            simp at h
          · rw [c_string_cons ha, c_string_cons hb] at h
            exact hab (List.cons.inj h).1

theorem vcomp_zero_iff (a b : Option (List Char)) :
    vcomp a b = 0 ↔ a.map c_string = b.map c_string := by
  cases a with
  | none => cases b <;> simp [vcomp]
  | some x =>
    cases b with
    | none => simp [vcomp]
    | some y => simp [vcomp, strcmp_zero_iff]

/-- For `vcomp`, comparing equal is an equivalence. -/
theorem vcomp_equiv : EquivComp vcomp := by
  refine ⟨fun a => (vcomp_zero_iff a a).mpr rfl, fun a b h => ?_, fun a b c h1 h2 => ?_⟩
  · rw [vcomp_zero_iff] at h ⊢; exact h.symm
  · rw [vcomp_zero_iff] at h1 h2 ⊢; exact h1.trans h2

theorem vhash_loop_c_string (w : List Char) :
    ∀ i h, vhash_loop w i h = vhash_loop (c_string w) i h := by
  induction w with
  | nil => intro i h; rfl
  | cons c t ih =>
    intro i h
    by_cases hc : c = NUL
    · subst hc; simp [vhash_loop, c_string_nul]
    · rw [c_string_cons hc]
      simp only [vhash_loop]
      split_ifs
      · rfl
      · exact ih _ _

/-- The function `vhash` gives equal codes to keys that `vcomp` compares equal. -/
theorem vhash_respects : HashRespects vhash vcomp := by
  intro a b h
  rw [vcomp_zero_iff] at h
  cases a with
  | none => cases b with
    | none => rfl
    | some y => simp at h
  | some x => cases b with
    | none => simp at h
    | some y =>
      simp only [Option.map_some', Option.some.injEq] at h
      simp only [vhash]
      rw [vhash_loop_c_string x, vhash_loop_c_string y, h]

/-! ## The symbol table: putting a record under a name -/

theorem symok_create : SymOk (ht_create 500 vhash vcomp false true : hashtable (List Char) (VarFn V)) := by
  refine ⟨create_wf 500 vhash vcomp false true (by decide), rfl, rfl, ?_⟩
  rw [create_live]
  intro hb hm
  simp at hm

/-- Putting a record under a name is a step of the table on that name. -/
theorem SymPut_step {name : List Char} {vf : VarFn V}
    {ht ht1 : hashtable (List Char) (VarFn V)} (h : SymPut name vf ht ht1) :
    TableStep (some name) ht ht1 := by
  rcases h with ⟨pre, hb, post, h1, h2, h3, rfl⟩ | ⟨h1, rfl⟩
  · exact ⟨rfl, rfl, rfl, rfl, _, by rw [h1]; exact ChainStep.store _ pre hb post h2 h3, rfl⟩
  · exact ⟨rfl, rfl, rfl, rfl, _, ChainStep.fresh _ _ h1, rfl⟩

theorem SymPut_wf {name : List Char} {vf : VarFn V}
    {ht ht1 : hashtable (List Char) (VarFn V)} (hw : WellFormed ht)
    (h : SymPut name vf ht ht1) : WellFormed ht1 := by
  refine TableStep_wf hw (SymPut_step h) ?_
  rcases h with ⟨pre, hb, post, h1, h2, h3, rfl⟩ | ⟨h1, rfl⟩
  · exact hw.2.2.2.2
  · exact cleared_tail_pool hw

/-- Putting a record under a name keeps the table as `SymOk` says. -/
theorem SymPut_ok {name : List Char} {vf : VarFn V}
    {ht ht1 : hashtable (List Char) (VarFn V)} (hok : SymOk ht)
    (h : SymPut name vf ht ht1) : SymOk ht1 := by
  obtain ⟨hw, c1, c2, hv⟩ := hok
  have hs := SymPut_step h
  refine ⟨SymPut_wf hw h, hs.2.2.1.trans c1, hs.2.2.2.1.trans c2, ?_⟩
  intro x hx
  rcases h with ⟨pre, hb, post, h1, h2, h3, rfl⟩ | ⟨h1, rfl⟩
  · unfold live at hx
    dsimp only at hx
    obtain ⟨chain, hm, hxc⟩ := List.mem_flatten.mp hx
    rcases List.mem_or_eq_of_mem_set hm with hm | rfl
    · exact hv x (List.mem_flatten.mpr ⟨chain, hm, hxc⟩)
    · rcases List.mem_append.mp hxc with hx1 | hx1
      · exact hv x (List.mem_flatten.mpr ⟨_, chain_of_mem hw (some name), by rw [h1]; simp [hx1]⟩)
      · rcases List.mem_cons.mp hx1 with rfl | hx1
        · simp
        · exact hv x (List.mem_flatten.mpr ⟨_, chain_of_mem hw (some name), by rw [h1]; simp [hx1]⟩)
  · unfold live at hx
    dsimp only at hx
    obtain ⟨chain, hm, hxc⟩ := List.mem_flatten.mp hx
    rcases List.mem_or_eq_of_mem_set hm with hm | rfl
    · exact hv x (List.mem_flatten.mpr ⟨chain, hm, hxc⟩)
    · rcases List.mem_cons.mp hxc with rfl | hx1
      · simp
      · exact hv x (List.mem_flatten.mpr ⟨_, chain_of_mem hw (some name), hx1⟩)

/-- After a record was put under a name, `ht_lookup` of the name (or of a
name that compares equal) returns it. -/
theorem SymPut_lookup {name : List Char} {vf : VarFn V}
    {ht ht1 : hashtable (List Char) (VarFn V)} (hok : SymOk ht)
    (h : SymPut name vf ht ht1) {name2 : List Char} (hn : strcmp name2 name = 0) :
    ht_lookup (some ht1) (some name2) = (0, some vf) := by
  have hw1 := SymPut_wf hok.1 h
  obtain ⟨hw, c1, c2, hv⟩ := hok
  have he : EquivComp ht.comp := by rw [c2]; exact vcomp_equiv
  have hk : ht.comp (some name2) (some name) = 0 := by rw [c2]; exact hn
  have hhash : ht.hash (some name2) = ht.hash (some name) := by
    rw [c1]; exact vhash_respects _ _ (by exact hn)
  rw [ht_lookup_eq hw1]
  rcases h with ⟨pre, hb, post, h1, h2, h3, rfl⟩ | ⟨h1, rfl⟩
  · have hc := chain_of_set hw (some name) (pre ++ { hb with val := some vf } :: post)
      { ht with table := ht.table.set (slot_index (ht.hash (some name)) ht.size)
                  (pre ++ { hb with val := some vf } :: post) } rfl rfl rfl (some name2) hhash
    rw [hc]
    dsimp only
    rw [first_match_split _ _ _ _ _ (no_match_of_equal he hk h2)
      (by exact he.2.2 _ _ _ hk h3)]
  · have hc := chain_of_set hw (some name)
      ({ tag := HASHBUCKET_TAG, key := some name, val := some vf } :: chain_of ht (some name))
      { ht with
          pool := (if ht.pool.isEmpty then List.replicate BLOCK_SIZE free_bucket
                   else ht.pool).tail,
          blocks := if ht.pool.isEmpty then ht.blocks + 1 else ht.blocks,
          table := ht.table.set (slot_index (ht.hash (some name)) ht.size)
            ({ tag := HASHBUCKET_TAG, key := some name, val := some vf } ::
              chain_of ht (some name)),
          item_count := ht.item_count + 1 } rfl rfl rfl (some name2) hhash
    rw [hc]
    dsimp only
    have := first_match_split ht.comp (some name2) []
      { tag := HASHBUCKET_TAG, key := some name, val := some vf }
      (chain_of ht (some name)) (by simp) (by exact hk)
    rw [List.nil_append] at this
    rw [this]

/-- Putting a record under a name does not change what `ht_lookup` returns
for a name that compares unequal. -/
theorem SymPut_frame {name : List Char} {vf : VarFn V}
    {ht ht1 : hashtable (List Char) (VarFn V)} (hok : SymOk ht)
    (h : SymPut name vf ht ht1) {name1 : List Char} (hn : strcmp name1 name ≠ 0) :
    ht_lookup (some ht1) (some name1) = ht_lookup (some ht) (some name1) :=
  TableStep_frame hok.1 (SymPut_wf hok.1 h) (by rw [hok.2.2.1]; exact vcomp_equiv)
    (SymPut_step h) (by rw [hok.2.2.1]; exact hn)

/-- Every key of the table after a put is the name put or was a key before. -/
theorem SymPut_keys {name : List Char} {vf : VarFn V}
    {ht ht1 : hashtable (List Char) (VarFn V)} (hok : SymOk ht)
    (h : SymPut name vf ht ht1) :
    ∀ x ∈ live ht1, x.key = some name ∨ ∃ y ∈ live ht, y.key = x.key :=
  TableStep_keys hok.1 (SymPut_step h)

/-! ## The symbol table: the calls that change it -/

theorem ensure_table_some (E : Env V) {s : State V} {T : hashtable (List Char) (VarFn V)}
    (h : s.G_varfn_table = some T) : ensure_table E s = (true, s) := by
  simp [ensure_table, h]

/-- With a `malloc` that does not fail, the allocation that opens the three
calls leaves a table as `SymOk` says: the one there was, or a new one. -/
theorem ensure_table_ok (E : Env V) (hm : ∀ i, E.malloc i = true) (s : State V)
    (hs : TableOk s) :
    ∃ T, ensure_table E s = (true, (ensure_table E s).2) ∧
      (ensure_table E s).2.G_varfn_table = some T ∧ SymOk T ∧
      (s.G_varfn_table = none → T = ht_create 500 vhash vcomp false true) ∧
      (∀ T0, s.G_varfn_table = some T0 → T = T0) := by
  cases h : s.G_varfn_table with
  | none =>
    refine ⟨ht_create 500 vhash vcomp false true, ?_, ?_, symok_create, fun _ => rfl, ?_⟩
    · simp [ensure_table, h, hm]
    · simp [ensure_table, h, hm]
    · intro T0 h0; simp at h0
  | some T =>
    rw [ensure_table_some E h]
    exact ⟨T, rfl, h, hs T h, fun h0 => by simp at h0, fun T0 h0 => by
      simp only [Option.some.injEq] at h0; exact h0⟩

/-- Writing through the pointer a successful lookup returned puts the record
under the name. -/
theorem table_store_put {s : State V} {T : hashtable (List Char) (VarFn V)}
    (hs : s.G_varfn_table = some T) (hok : SymOk T) (name : List Char)
    (hl : (ht_lookup (some T) (some name)).1 = 0) (vf : VarFn V) :
    ∃ T1, SymPut name vf T T1 ∧ table_store s name vf = { s with G_varfn_table := some T1 } := by
  rcases lookup_cases hok.1 (some name) with ⟨h1, h2⟩ | ⟨pre, hb, post, h1, h2, h3, h4⟩
  · exact absurd hl (by rw [absent_of_no_match hok.1 h2]; simp)
  · refine ⟨_, Or.inl ⟨pre, hb, post, h1, h2, h3, rfl⟩, ?_⟩
    have h1a : T.table.getD (slot_index (T.hash (some name)) T.size) [] = pre ++ hb :: post := h1
    simp only [table_store, hs, h4, h1a, getD_split_length, set_split]

/-- In a table as `SymOk` says a lookup finds a record or returns 2. -/
theorem sym_lookup_cases {T : hashtable (List Char) (VarFn V)} (hok : SymOk T)
    (name : List Char) :
    (∃ f, ht_lookup (some T) (some name) = (0, some f)) ∨
    ht_lookup (some T) (some name) = (2, none) := by
  rcases lookup_cases hok.1 (some name) with ⟨h1, h2⟩ | ⟨pre, hb, post, h1, h2, h3, h4⟩
  · exact Or.inr (absent_of_no_match hok.1 h2)
  · left
    have hm : hb ∈ live T :=
      List.mem_flatten.mpr ⟨_, chain_of_mem hok.1 (some name), by rw [h1]; simp⟩
    obtain ⟨f, hf⟩ := Option.ne_none_iff_exists'.mp (hok.2.2.2 hb hm)
    refine ⟨f, ?_⟩
    rw [ht_lookup_eq hok.1, h1, first_match_split _ _ _ _ _ h2 h3]
    dsimp only
    rw [hf]

/-- An `ht_insert` of a name that a lookup does not find, with a `malloc`
that does not fail, puts the record under the name. -/
theorem insert_put {T : hashtable (List Char) (VarFn V)} (hok : SymOk T) {name : List Char}
    (hl : ht_lookup (some T) (some name) = (2, none)) (vf : VarFn V) :
    ∃ T1, SymPut name vf T T1 ∧
      ht_insert (some T) (some name) (some vf) true = (0, some T1, T.pool.isEmpty) := by
  have hnf := not_found_of_lookup hok.1 (k := some name) (by rw [hl]; simp)
  rcases ht_insert_cases hok.1 (some name) (some vf) true with
    ⟨_, _, h, _⟩ | ⟨pre, hb, post, h1, h2, h3, _⟩ | ⟨h1, _, h3⟩
  · exact absurd h (by decide)
  · exact absurd h3 (hnf hb (by rw [h1]; simp))
  · exact ⟨_, Or.inr ⟨h1, rfl⟩, h3⟩

/-- The body of `eval_def_fn` with a `malloc` that does not fail: it returns
4 and changes nothing when the name is bound as a variable, and else returns
0 and puts a record under the name, the one found with callable, context and
arity replaced, or a new one. -/
theorem def_fn_body_cases (E : Env V) (hm : ∀ i, E.malloc i = true) (name : List Char)
    (fn : Option (FunctionPtr V)) (data : Data) (args : Int) (s : State V) (hs : TableOk s) :
    ∃ T, (ensure_table E s).2.G_varfn_table = some T ∧ SymOk T ∧
      (s.G_varfn_table = none → T = ht_create 500 vhash vcomp false true) ∧
      (∀ T0, s.G_varfn_table = some T0 → T = T0) ∧
      ((∃ f, ht_lookup (some T) (some name) = (0, some f) ∧ f.fn = none ∧
          eval_def_fn_body E name fn data args s = (4, (ensure_table E s).2)) ∨
       (∃ f T1, ht_lookup (some T) (some name) = (0, some f) ∧ f.fn ≠ none ∧
          SymPut name { f with fn := fn, data := data, nargs := args } T T1 ∧
          (eval_def_fn_body E name fn data args s).1 = 0 ∧
          (eval_def_fn_body E name fn data args s).2.G_varfn_table = some T1) ∨
       (∃ T1, ht_lookup (some T) (some name) = (2, none) ∧
          SymPut name (create_fn E name fn args data) T T1 ∧
          (eval_def_fn_body E name fn data args s).1 = 0 ∧
          (eval_def_fn_body E name fn data args s).2.G_varfn_table = some T1)) := by
  obtain ⟨T, h1, h2, h3, h4, h5⟩ := ensure_table_ok E hm s hs
  refine ⟨T, h2, h3, h4, h5, ?_⟩
  generalize (ensure_table E s).2 = s1 at h1 h2
  rcases sym_lookup_cases h3 name with ⟨f, hf⟩ | hnf
  · by_cases hv : f.fn = none
    · left
      refine ⟨f, hf, hv, ?_⟩
      simp only [eval_def_fn_body, h1, h2, hf, hv, Option.isNone_none, if_true]
    · right; left
      obtain ⟨T1, hp, hst⟩ := table_store_put h2 h3 name (by rw [hf])
        { f with fn := fn, data := data, nargs := args }
      have hv1 : ¬ (f.fn.isNone = true) := by
        rw [Option.isNone_iff_eq_none]; exact hv
      refine ⟨f, T1, hf, hv, hp, ?_, ?_⟩
      · simp only [eval_def_fn_body, h1, h2, hf, if_neg hv1]
      · simp only [eval_def_fn_body, h1, h2, hf, if_neg hv1, hst]
  · right; right
    obtain ⟨T1, hp, hins⟩ := insert_put h3 hnf (create_fn E name fn args data)
    have hn : (create_fn E name fn args data).name = name := rfl
    refine ⟨T1, hnf, hp, ?_, ?_⟩
    · simp only [eval_def_fn_body, h1, h2, hnf, hm, if_true, hn, hins]
      simp
    · simp only [eval_def_fn_body, h1, h2, hnf, hm, if_true, hn, hins]
      simp

/-! ## The symbol table: installing the built-ins -/

theorem def_fn_body_ok (E : Env V) (hm : ∀ i, E.malloc i = true) (name : List Char)
    (fn : Option (FunctionPtr V)) (data : Data) (args : Int) (s : State V) (hs : TableOk s) :
    TableOk (eval_def_fn_body E name fn data args s).2 := by
  obtain ⟨T, h1, h2, _, _, h⟩ := def_fn_body_cases E hm name fn data args s hs
  intro ht hht
  rcases h with ⟨f, _, _, h3⟩ | ⟨f, T1, _, _, hp, _, h3⟩ | ⟨T1, _, hp, _, h3⟩
  · rw [h3] at hht
    have : ht = T := by
      dsimp only at hht; rw [h1] at hht; exact (Option.some.inj hht).symm
    rw [this]; exact h2
  · rw [h3] at hht
    rw [← Option.some.inj hht]; exact SymPut_ok h2 hp
  · rw [h3] at hht
    rw [← Option.some.inj hht]; exact SymPut_ok h2 hp

theorem set_funcs_loop_ok (E : Env V) (hm : ∀ i, E.malloc i = true) (l : List String) :
    ∀ (i : Nat) (s : State V), TableOk s → TableOk (set_funcs_loop E l i s).2 := by
  induction l with
  | nil => exact fun _ _ hs => hs
  | cons nm rest ih =>
    intro i s hs
    simp only [set_funcs_loop]
    split_ifs
    · exact def_fn_body_ok E hm _ _ _ _ s hs
    · exact ih _ _ (def_fn_body_ok E hm _ _ _ _ s hs)

/-- With a `malloc` that does not fail, `set_funcs` keeps the symbol table as
`SymOk` says. -/
theorem set_funcs_ok (E : Env V) (hm : ∀ i, E.malloc i = true) (s : State V)
    (hs : TableOk s) : TableOk (set_funcs E s).2 := by
  unfold set_funcs
  split_ifs
  · exact hs
  · exact set_funcs_loop_ok E hm _ _ _ (fun ht h => hs ht h)

theorem set_funcs_of_done (E : Env V) {s : State V} (hd : s.done = true) :
    set_funcs E s = (0, s) := by
  simp [set_funcs, hd]

/-- In a state with the built-ins installed and a table, `sym_table` is the
table of the state. -/
theorem sym_table_of_done (E : Env V) {s : State V} (hd : s.done = true)
    {T : hashtable (List Char) (VarFn V)} (hT : s.G_varfn_table = some T) :
    sym_table E s = some T := by
  unfold sym_table
  rw [set_funcs_of_done E hd, ensure_table_some E hT]
  exact hT

theorem sym_table_ok (E : Env V) (hm : ∀ i, E.malloc i = true) (s : State V)
    (hs : TableOk s) : ∃ T, sym_table E s = some T ∧ SymOk T ∧
      ensure_table E (set_funcs E s).2 = (true, (ensure_table E (set_funcs E s).2).2) := by
  obtain ⟨T, h1, h2, h3, _⟩ := ensure_table_ok E hm _ (set_funcs_ok E hm s hs)
  exact ⟨T, h2, h3, h1⟩

/-- `eval_get_var` returns what `get_result` makes of the lookup in
`sym_table`. -/
theorem get_var_eq (E : Env V) (hm : ∀ i, E.malloc i = true) (s : State V) (hs : TableOk s)
    (name : List Char) (value : Option V) :
    ((eval_get_var E name value s).1, (eval_get_var E name value s).2.1) =
      get_result (ht_lookup (sym_table E s) (some name)) value := by
  obtain ⟨T, h1, h2, h3⟩ := sym_table_ok E hm s hs
  unfold sym_table at h1
  unfold sym_table
  generalize (ensure_table E (set_funcs E s).2).2 = s1 at h1 h3
  rcases sym_lookup_cases h2 name with ⟨f, hf⟩ | hnf
  · rw [h1, hf]
    simp only [eval_get_var, h3, h1, hf, get_result]
    split_ifs <;> rfl
  · rw [h1, hnf]
    simp only [eval_get_var, h3, h1, hnf, get_result]

/-- `eval_set_var` with a `malloc` that does not fail: it returns 4 and leaves
the table alone when the name is bound as a function, and else returns 0 and
puts a record under the name, the one found with the value replaced, or a new
one. -/
theorem set_var_cases (E : Env V) (hm : ∀ i, E.malloc i = true) (name : List Char) (v : V)
    (s : State V) (hs : TableOk s) :
    ∃ T, sym_table E s = some T ∧ SymOk T ∧ (eval_set_var E name v s).2.done = true ∧
      ((∃ f, ht_lookup (some T) (some name) = (0, some f) ∧ f.fn ≠ none ∧
          (eval_set_var E name v s).1 = 4 ∧
          (eval_set_var E name v s).2.G_varfn_table = some T) ∨
       (∃ f T1, ht_lookup (some T) (some name) = (0, some f) ∧ f.fn = none ∧
          SymPut name { f with value := v } T T1 ∧
          (eval_set_var E name v s).1 = 0 ∧
          (eval_set_var E name v s).2.G_varfn_table = some T1) ∨
       (∃ T1, ht_lookup (some T) (some name) = (2, none) ∧
          SymPut name (create_var name v) T T1 ∧
          (eval_set_var E name v s).1 = 0 ∧
          (eval_set_var E name v s).2.G_varfn_table = some T1)) := by
  obtain ⟨T, h1, h2, h3⟩ := sym_table_ok E hm s hs
  have hd : (ensure_table E (set_funcs E s).2).2.done = true :=
    (ensure_table_done E _).trans (set_funcs_done E s)
  refine ⟨T, h1, h2, ?_⟩
  unfold sym_table at h1
  generalize (ensure_table E (set_funcs E s).2).2 = s1 at h1 h3 hd
  rcases sym_lookup_cases h2 name with ⟨f, hf⟩ | hnf
  · by_cases hv : f.fn = none
    · obtain ⟨T1, hp, hst⟩ := table_store_put h1 h2 name (by rw [hf])
        { f with value := v }
      have hv1 : ¬ (f.fn.isSome = true) := by rw [hv]; simp
      refine ⟨?_, Or.inr (Or.inl ⟨f, T1, hf, hv, hp, ?_, ?_⟩)⟩
      · simp only [eval_set_var, h3, h1, hf, if_neg hv1, hst]; exact hd
      · simp only [eval_set_var, h3, h1, hf, if_neg hv1]
      · simp only [eval_set_var, h3, h1, hf, if_neg hv1, hst]
    · have hv1 : f.fn.isSome = true := Option.isSome_iff_ne_none.mpr hv
      refine ⟨?_, Or.inl ⟨f, hf, hv, ?_, ?_⟩⟩
      · simp only [eval_set_var, h3, h1, hf, hv1, if_true]; exact hd
      · simp only [eval_set_var, h3, h1, hf, hv1, if_true]
      · simp only [eval_set_var, h3, h1, hf, hv1, if_true]
  · obtain ⟨T1, hp, hins⟩ := insert_put h2 hnf (create_var name v)
    have hn : (create_var name v).name = name := rfl
    refine ⟨?_, Or.inr (Or.inr ⟨T1, hnf, hp, ?_, ?_⟩)⟩
    · simp only [eval_set_var, h3, h1, hnf, hm, if_true, hn, hins]
      simpa using hd
    · simp only [eval_set_var, h3, h1, hnf, hm, if_true, hn, hins]
      simp
    · simp only [eval_set_var, h3, h1, hnf, hm, if_true, hn, hins]
      simp

/-! ## The symbol table: what the built-ins leave -/

/-- What a successful lookup returns is the value of a live bucket whose key
compares equal. -/
theorem lookup_mem {K W : Type} {ht : hashtable K W} (hw : WellFormed ht) {k : Option K}
    {v : Option W} (h : ht_lookup (some ht) k = (0, v)) :
    ∃ hb ∈ live ht, hb.val = v ∧ ht.comp k hb.key = 0 := by
  obtain ⟨pre, hb, post, h1, h2, h3⟩ := found_of_lookup hw (by rw [h])
  rw [ht_lookup_eq hw, h1, first_match_split _ _ _ _ _ h2 h3] at h
  refine ⟨hb, List.mem_flatten.mpr ⟨_, chain_of_mem hw k, by rw [h1]; simp⟩, ?_, h3⟩
  simpa using h

/-- After a put, every value of the table is the record put or was a value
before. -/
theorem SymPut_vals {name : List Char} {vf : VarFn V}
    {ht ht1 : hashtable (List Char) (VarFn V)} (hw : WellFormed ht)
    (h : SymPut name vf ht ht1) :
    ∀ x ∈ live ht1, x.val = some vf ∨ ∃ y ∈ live ht, y.val = x.val := by
  intro x hx
  rcases h with ⟨pre, hb, post, h1, h2, h3, rfl⟩ | ⟨h1, rfl⟩
  · unfold live at hx
    dsimp only at hx
    obtain ⟨chain, hm, hxc⟩ := List.mem_flatten.mp hx
    rcases List.mem_or_eq_of_mem_set hm with hm | rfl
    · exact Or.inr ⟨x, List.mem_flatten.mpr ⟨chain, hm, hxc⟩, rfl⟩
    · rcases List.mem_append.mp hxc with hx1 | hx1
      · exact Or.inr ⟨x, List.mem_flatten.mpr
          ⟨_, chain_of_mem hw (some name), by rw [h1]; simp [hx1]⟩, rfl⟩
      · rcases List.mem_cons.mp hx1 with rfl | hx1
        · exact Or.inl rfl
        · exact Or.inr ⟨x, List.mem_flatten.mpr
            ⟨_, chain_of_mem hw (some name), by rw [h1]; simp [hx1]⟩, rfl⟩
  · unfold live at hx
    dsimp only at hx
    obtain ⟨chain, hm, hxc⟩ := List.mem_flatten.mp hx
    rcases List.mem_or_eq_of_mem_set hm with hm | rfl
    · exact Or.inr ⟨x, List.mem_flatten.mpr ⟨chain, hm, hxc⟩, rfl⟩
    · rcases List.mem_cons.mp hxc with rfl | hx1
      · exact Or.inl rfl
      · exact Or.inr ⟨x, List.mem_flatten.mpr ⟨_, chain_of_mem hw (some name), hx1⟩, rfl⟩

/-- A name that is found stays found through a put. -/
theorem SymPut_found {name : List Char} {vf : VarFn V}
    {ht ht1 : hashtable (List Char) (VarFn V)} (hok : SymOk ht)
    (h : SymPut name vf ht ht1) {name1 : List Char}
    (hf : (ht_lookup (some ht) (some name1)).1 = 0) :
    (ht_lookup (some ht1) (some name1)).1 = 0 := by
  by_cases hn : strcmp name1 name = 0
  · rw [SymPut_lookup hok h hn]
  · rw [SymPut_frame hok h hn]; exact hf

/-- The body of `eval_def_fn` with a callable, run where every record is a
function and `malloc` does not fail: it returns 0, every record is still a
function, the name is bound afterwards, and every name bound before still
is. -/
theorem def_fn_body_builtin (E : Env V) (hm : ∀ i, E.malloc i = true) (name : List Char)
    (fp : FunctionPtr V) (data : Data) (args : Int) (s : State V) (hs : TableOk s)
    (ha : AllFunctions s) :
    (eval_def_fn_body E name (some fp) data args s).1 = 0 ∧
    AllFunctions (eval_def_fn_body E name (some fp) data args s).2 ∧
    Bound (eval_def_fn_body E name (some fp) data args s).2 name ∧
    (∀ name1, Bound s name1 → Bound (eval_def_fn_body E name (some fp) data args s).2 name1) ∧
    (∀ T1, (eval_def_fn_body E name (some fp) data args s).2.G_varfn_table = some T1 →
      ∀ x ∈ live T1, x.key = some name ∨
        ∃ T0, s.G_varfn_table = some T0 ∧ ∃ y ∈ live T0, y.key = x.key) := by
  obtain ⟨T, h1, h2, h3, h4, h⟩ := def_fn_body_cases E hm name (some fp) data args s hs
  have haT : ∀ hb ∈ live T, ∀ f, hb.val = some f → f.fn ≠ none := by
    cases hT : s.G_varfn_table with
    | none =>
      rw [h3 hT, create_live]
      intro hb hm0; simp at hm0
    | some T0 => rw [h4 T0 hT]; exact ha T0 hT
  have hbT : ∀ name1, Bound s name1 → (ht_lookup (some T) (some name1)).1 = 0 := by
    intro name1 hb
    unfold Bound at hb
    cases hT : s.G_varfn_table with
    | none => rw [hT] at hb; simp [ht_lookup] at hb
    | some T0 => rw [h4 T0 hT]; rw [hT] at hb; exact hb
  have hkT : ∀ y ∈ live T, ∃ T0, s.G_varfn_table = some T0 ∧ ∃ z ∈ live T0, z.key = y.key := by
    intro y hy
    cases hT : s.G_varfn_table with
    | none => rw [h3 hT, create_live] at hy; simp at hy
    | some T0 => rw [h4 T0 hT] at hy; exact ⟨T0, rfl, y, hy, rfl⟩
  have key : ∀ vf T1, vf.fn ≠ none → SymPut name vf T T1 →
      (eval_def_fn_body E name (some fp) data args s).2.G_varfn_table = some T1 →
      AllFunctions (eval_def_fn_body E name (some fp) data args s).2 ∧
      Bound (eval_def_fn_body E name (some fp) data args s).2 name ∧
      (∀ name1, Bound s name1 →
        Bound (eval_def_fn_body E name (some fp) data args s).2 name1) ∧
      (∀ T2, (eval_def_fn_body E name (some fp) data args s).2.G_varfn_table = some T2 →
        ∀ x ∈ live T2, x.key = some name ∨
          ∃ T0, s.G_varfn_table = some T0 ∧ ∃ y ∈ live T0, y.key = x.key) := by
    intro vf T1 hvf hp ht1
    refine ⟨?_, ?_, ?_, ?_⟩
    · intro T2 hT2 hb hbm f hf
      rw [ht1] at hT2
      rw [← Option.some.inj hT2] at hbm
      rcases SymPut_vals h2.1 hp hb hbm with hv | ⟨y, hy, hv⟩
      · rw [hv] at hf; rw [← Option.some.inj hf]; exact hvf
      · exact haT y hy f (hv.trans hf)
    · unfold Bound
      rw [ht1, SymPut_lookup h2 hp ((strcmp_zero_iff _ _).mpr rfl)]
    · intro name1 hb
      unfold Bound
      rw [ht1]
      exact SymPut_found h2 hp (hbT name1 hb)
    · intro T2 hT2 x hx
      rw [ht1] at hT2
      rw [← Option.some.inj hT2] at hx
      rcases SymPut_keys h2 hp x hx with hk | ⟨y, hy, hk⟩
      · exact Or.inl hk
      · obtain ⟨T0, e0, z, hz, hk2⟩ := hkT y hy
        exact Or.inr ⟨T0, e0, z, hz, hk2.trans hk⟩
  rcases h with ⟨f, hf, hv, _⟩ | ⟨f, T1, hf, hv, hp, h5, h6⟩ | ⟨T1, hnf, hp, h5, h6⟩
  · exfalso
    obtain ⟨hb, hbm, hbv, _⟩ := lookup_mem h2.1 hf
    exact haT hb hbm f hbv hv
  · exact ⟨h5, key _ T1 (by simp) hp h6⟩
  · exact ⟨h5, key _ T1 (by simp [create_fn]) hp h6⟩

/-- The loop of `set_funcs`, run where every record is a function and `malloc`
does not fail: it returns 0, every record is still a function, every name of
the list is bound afterwards, every name bound before still is, and every key
of the table is a name of the list or was a key before. -/
theorem set_funcs_loop_builtin (E : Env V) (hm : ∀ i, E.malloc i = true) (l : List String) :
    ∀ (i : Nat) (s : State V), TableOk s → AllFunctions s →
      (set_funcs_loop E l i s).1 = 0 ∧ TableOk (set_funcs_loop E l i s).2 ∧
      AllFunctions (set_funcs_loop E l i s).2 ∧
      (∀ nm ∈ l, Bound (set_funcs_loop E l i s).2 nm.toList) ∧
      (∀ name1, Bound s name1 → Bound (set_funcs_loop E l i s).2 name1) ∧
      (∀ T1, (set_funcs_loop E l i s).2.G_varfn_table = some T1 →
        ∀ x ∈ live T1, (∃ nm ∈ l, x.key = some nm.toList) ∨
          ∃ T0, s.G_varfn_table = some T0 ∧ ∃ y ∈ live T0, y.key = x.key) := by
  induction l with
  | nil =>
    intro i s hs ha
    refine ⟨rfl, hs, ha, fun _ h => by simp at h, fun _ h => h, ?_⟩
    intro T1 hT1 x hx
    exact Or.inr ⟨T1, hT1, x, hx, rfl⟩
  | cons nm rest ih =>
    intro i s hs ha
    obtain ⟨h1, h2, h3, h4, h5⟩ := def_fn_body_builtin E hm nm.toList
      (FunctionPtr.native (E.fn i)) none (fnargs.getD i 0) s hs ha
    have hok := def_fn_body_ok E hm nm.toList (some (FunctionPtr.native (E.fn i))) none
      (fnargs.getD i 0) s hs
    obtain ⟨g1, g2, g3, g4, g5, g6⟩ := ih (i + 1) _ hok h2
    have hn : ¬ ((eval_def_fn_body E nm.toList (some (FunctionPtr.native (E.fn i))) none
        (fnargs.getD i 0) s).1 ≠ 0) := not_not.mpr h1
    simp only [set_funcs_loop, if_neg hn]
    refine ⟨g1, g2, g3, ?_, fun name1 hb => g5 name1 (h4 name1 hb), ?_⟩
    · intro nm1 hm1
      rcases List.mem_cons.mp hm1 with rfl | hm1
      · exact g5 _ h3
      · exact g4 nm1 hm1
    · intro T1 hT1 x hx
      rcases g6 T1 hT1 x hx with ⟨nm1, hm1, hk⟩ | ⟨T0, hT0, y, hy, hk⟩
      · exact Or.inl ⟨nm1, List.mem_cons_of_mem _ hm1, hk⟩
      · rcases h5 T0 hT0 y hy with hk1 | ⟨T00, e0, z, hz, hk1⟩
        · exact Or.inl ⟨nm, List.mem_cons_self _ _, hk.symm.trans hk1⟩
        · exact Or.inr ⟨T00, e0, z, hz, hk1.trans hk⟩

/-- In a freshly loaded program with a `malloc` that does not fail,
`set_funcs` binds every built-in name as a function and binds nothing else. -/
theorem set_funcs_initial (E : Env V) (hm : ∀ i, E.malloc i = true) :
    TableOk (set_funcs E (initial_state E)).2 ∧ AllFunctions (set_funcs E (initial_state E)).2 ∧
    (∀ nm ∈ fnname, Bound (set_funcs E (initial_state E)).2 nm.toList) ∧
    (∀ T1, (set_funcs E (initial_state E)).2.G_varfn_table = some T1 →
      ∀ x ∈ live T1, ∃ nm ∈ fnname, x.key = some nm.toList) := by
  have hs : TableOk ({ initial_state E with done := true } : State V) := by
    intro ht h; simp [initial_state] at h
  have ha : AllFunctions ({ initial_state E with done := true } : State V) := by
    intro ht h; simp [initial_state] at h
  obtain ⟨_, g2, g3, g4, _, g6⟩ := set_funcs_loop_builtin E hm fnname 0 _ hs ha
  have e : set_funcs E (initial_state E) =
      set_funcs_loop E fnname 0 { initial_state E with done := true } := by
    simp [set_funcs, initial_state]
  rw [e]
  refine ⟨g2, g3, g4, ?_⟩
  intro T1 hT1 x hx
  rcases g6 T1 hT1 x hx with h | ⟨T0, hT0, _⟩
  · exact h
  · simp [initial_state] at hT0

/-! ## The symbol table: reading a variable -/

theorem get_result_var {f : VarFn V} (hf : f.fn = none) (value : Option V) :
    get_result (0, some f) value = (0, value.map (fun _ => f.value)) := by
  simp [get_result, hf]

theorem get_result_absent (value : Option V) :
    get_result ((2, none) : Int × Option (VarFn V)) value = (2, value) := rfl

/-- The state `eval_set_var` leaves has a table as `SymOk` says. -/
theorem set_var_ok (E : Env V) (hm : ∀ i, E.malloc i = true) (name : List Char) (v : V)
    (s : State V) (hs : TableOk s) : TableOk (eval_set_var E name v s).2 := by
  obtain ⟨T, _, h2, _, h⟩ := set_var_cases E hm name v s hs
  intro ht hht
  rcases h with ⟨f, _, _, _, h3⟩ | ⟨f, T1, _, _, hp, _, h3⟩ | ⟨T1, _, hp, _, h3⟩
  · rw [h3] at hht; rw [← Option.some.inj hht]; exact h2
  · rw [h3] at hht; rw [← Option.some.inj hht]; exact SymPut_ok h2 hp
  · rw [h3] at hht; rw [← Option.some.inj hht]; exact SymPut_ok h2 hp

/-- In a freshly loaded program with a `malloc` that does not fail, a name
that is no built-in name is not found. -/
theorem initial_unbound (E : Env V) (hm : ∀ i, E.malloc i = true) (name : List Char)
    (h : ∀ nm ∈ fnname, strcmp name nm.toList ≠ 0) :
    ht_lookup (sym_table E (initial_state E)) (some name) = (2, none) := by
  obtain ⟨g1, _, _, g4⟩ := set_funcs_initial E hm
  obtain ⟨T, _, h2, h3, h4, h5⟩ := ensure_table_ok E hm _ g1
  unfold sym_table
  rw [h2]
  refine lookup_of_no_key h3.1 _ (fun x hx => ?_)
  rw [h3.2.2.1]
  cases hT : (set_funcs E (initial_state E)).2.G_varfn_table with
  | none => rw [h4 hT, create_live] at hx; simp at hx
  | some T0 =>
    rw [h5 T0 hT] at hx
    obtain ⟨nm, hnm, hk⟩ := g4 T0 hT x hx
    rw [hk]
    exact h nm hnm

/-- After a successful `eval_set_var(name, v)` the name is bound as a
variable with the value `v`, in a state with the built-ins installed. -/
theorem set_var_lookup (E : Env V) (hm : ∀ i, E.malloc i = true) (name : List Char) (v : V)
    (s : State V) (hs : TableOk s)
    (hfree : ∀ f, ht_lookup (sym_table E s) (some name) = (0, some f) → f.fn = none) :
    (eval_set_var E name v s).2.done = true ∧
    ∃ f, ht_lookup (eval_set_var E name v s).2.G_varfn_table (some name) = (0, some f) ∧
      f.fn = none ∧ f.value = v := by
  obtain ⟨T, h1, h2, hd, h⟩ := set_var_cases E hm name v s hs
  refine ⟨hd, ?_⟩
  rcases h with ⟨f, hf, hv, _, _⟩ | ⟨f, T1, hf, hv, hp, h5, h6⟩ | ⟨T1, hnf, hp, h5, h6⟩
  · exact absurd (hfree f (by rw [h1]; exact hf)) hv
  · exact ⟨{ f with value := v },
      by rw [h6]; exact SymPut_lookup h2 hp ((strcmp_zero_iff _ _).mpr rfl), hv, rfl⟩
  · exact ⟨create_var name v,
      by rw [h6]; exact SymPut_lookup h2 hp ((strcmp_zero_iff _ _).mpr rfl), rfl, rfl⟩

/-- When a lookup in `sym_table` succeeds there was a table already, and the
allocation that opens the three calls does nothing. -/
theorem sym_table_found (E : Env V) {s : State V} {name : List Char} {x : Option (VarFn V)}
    (h : ht_lookup (sym_table E s) (some name) = (0, x)) :
    ensure_table E (set_funcs E s).2 = (true, (set_funcs E s).2) ∧
    (set_funcs E s).2.G_varfn_table = sym_table E s := by
  unfold sym_table at h ⊢
  cases hT : (set_funcs E s).2.G_varfn_table with
  | some T => rw [ensure_table_some E hT]; exact ⟨rfl, hT.symm⟩
  | none =>
    exfalso
    by_cases hmal : E.malloc (set_funcs E s).2.mallocs = true
    · have e : (ensure_table E (set_funcs E s).2).2.G_varfn_table =
          some (ht_create 500 vhash vcomp false true) := by
        simp [ensure_table, hT, hmal]
      rw [e, lookup_of_no_key (create_wf 500 vhash vcomp false true (by decide)) _
        (by rw [create_live]; intro y hy; simp at hy)] at h
      simp at h
    · have e : (ensure_table E (set_funcs E s).2).2.G_varfn_table = none := by
        simp [ensure_table, hT, hmal]
      rw [e] at h
      simp [ht_lookup] at h

/-! ## Calls of a redefined function, and variables -/

/-- A call of a function of fixed arity with a non-empty list of error-free
argument expressions whose number is not the arity: `eval_item` raises the
Argument-count error. -/
theorem item_call_arity (E : Env V) {T : Option (hashtable (List Char) (VarFn V))}
    (hm : ∀ i, E.malloc i = true) {name : List Char} (hname : is_name name = true)
    (hnl : name.length ≤ 100) {vf : VarFn V} (hlook : ht_lookup T (some name) = (0, some vf))
    {fp : FunctionPtr V} (hfn : vf.fn = some fp) {es : List (List Char)} {vs : List V}
    (hes : es ≠ []) (hargs : List.Forall₂ (ArgExpr E T) es vs)
    (hfix : 0 ≤ vf.nargs) (hne : vf.nargs ≠ (es.length : Int)) :
    ∃ n, ∀ fuel, n ≤ fuel → ∀ buf pos (s : State V) rest,
      TextAt E buf pos s (call_text name es ++ rest) →
      s.G_eval_error = 0 → s.G_varfn_table = T → s.done = true →
      ∃ pos1 s1, eval_item E fuel buf pos s = some (E.A.zero, pos1, s1) ∧
        s1.G_eval_error = EVAL_ARGS_ERROR := by
  obtain ⟨N, hN⟩ := args_uniform E hargs
  refine ⟨N + es.length + 2, fun fuel hf buf pos s rest hT he hTab hd => ?_⟩
  obtain ⟨f, rfl⟩ : ∃ f, fuel = f + 1 := ⟨fuel - 1, by omega⟩
  have hT0 : TextAt E buf pos s (name ++ '(' :: (join_args es ++ ')' :: rest)) := by
    simpa [call_text] using hT
  obtain ⟨p1, s1, r1, hpb1, hdr1, hk1, _⟩ :=
    pull_name_at E hT0 hname hnl paren_not_ident (by rw [hTab]; exact hlook)
  obtain ⟨e1, t1, d1⟩ := good_of_keeps hk1 he hTab hd
  obtain ⟨p2, s2, r2, hT2, e2, t2, d2⟩ :=
    take_op E (Or.inl ⟨hpb1, hdr1⟩ : TextAt E buf p1 s1 _) (by decide) e1 t1 d1
  have hok : (if vf.nargs > 0 then
      lalloc E (8 * (if vf.nargs > 0 then vf.nargs.toNat else 0)) s2 else (true, s2)).1
        = true := by
    split_ifs
    · exact lalloc_ok E hm _ s2
    · rfl
  have hka : Keeps s2 (if vf.nargs > 0 then
      lalloc E (8 * (if vf.nargs > 0 then vf.nargs.toNat else 0)) s2 else (true, s2)).2 := by
    split_ifs
    · exact lalloc_keeps E _ s2
    · exact Keeps.refl s2
  have hTa : TextAt E buf p2 (if vf.nargs > 0 then
      lalloc E (8 * (if vf.nargs > 0 then vf.nargs.toNat else 0)) s2 else (true, s2)).2
      (join_args es ++ ')' :: rest) := by
    split_ifs
    · exact textAt_lalloc E _ hT2
    · exact hT2
  obtain ⟨ea, ta, da⟩ := good_of_keeps hka e2 t2 d2
  obtain ⟨r, hr, hrc, hra, htake, hTr, her, hTabr, hdr⟩ :=
    eval_args_ok E hm N es vs hes hN f (by omega) buf p2 _ rest vf.nargs
      (List.replicate (if vf.nargs > 0 then vf.nargs.toNat else 0) none) 0 hTa ea ta da
      (Nat.zero_le _)
  rw [List.length_replicate] at hr
  obtain ⟨rc, rpos, rargs, rarg, rarglen, rst⟩ := r
  simp only at hrc hra htake hTr her hTabr hdr
  have hra1 : rargs = (es.length : Int) := by rw [hra]; simp
  subst hra1
  subst hrc
  have harity1 : (vf.nargs < 0 ∧ (es.length : Int) < 1) ∨
      (¬ vf.nargs < 0 ∧ (es.length : Int) ≠ vf.nargs) :=
    Or.inr ⟨by omega, fun h => hne h.symm⟩
  have hT4 : TextAt E buf rpos { rst with G_eval_error := EVAL_ARGS_ERROR } (')' :: rest) :=
    textAt_congr E hTr rfl rfl
  obtain ⟨p5, s5, r5, _, hk5⟩ := tail_stop E E.A.zero hT4
    (Or.inr ⟨')', rest, rfl, by decide, by decide⟩) f (by omega)
  refine ⟨p5, s5, ?_, hk5.1⟩
  have ty := name_token_type_f E hfn
  have na : (name_token E vf).args = vf.nargs := rfl
  simp only [eval_item, r1, e1, ty, r2, e2, op_token_type, na, hok, hr, harity1, r5]
  simp

/-- A whole text that is one such call: `eval` returns `EVAL_ARGS_ERROR` (10)
and leaves the output slot alone. -/
theorem eval_call_arity (E : Env V) (s : State V) (result : Option V)
    (hm : ∀ i, E.malloc i = true) {name : List Char} (hname : is_name name = true)
    (hnl : name.length ≤ 100) (hd : s.done = true) {vf : VarFn V}
    (hlook : ht_lookup s.G_varfn_table (some name) = (0, some vf))
    {fp : FunctionPtr V} (hfn : vf.fn = some fp) {es : List (List Char)} {vs : List V}
    (hes : es ≠ []) (hargs : List.Forall₂ (ArgExpr E s.G_varfn_table) es vs)
    (hfix : 0 ≤ vf.nargs) (hne : vf.nargs ≠ (es.length : Int)) :
    ∃ n, ∀ fuel, n ≤ fuel →
      outcome (eval E fuel (some (call_text name es)) result s) = some (10, result) := by
  obtain ⟨n, hn⟩ := item_call_arity E hm hname hnl hlook hfn hes hargs hfix hne
  refine ⟨n + 4, fun fuel hf => ?_⟩
  obtain ⟨f, rfl⟩ : ∃ f, fuel = f + 4 := ⟨fuel - 4, by omega⟩
  obtain ⟨p1, s1, h1, herr⟩ := hn f (by omega) (call_text name es) 0
    { s with recurse := s.recurse + 1, G_eval_error := 0, G_pb_token := null_token E } []
    (Or.inl ⟨rfl, by simp⟩) rfl rfl hd
  have he2 : s1.G_eval_error ≠ 0 := by rw [herr]; decide
  obtain ⟨s2, _, h4⟩ := eval_done_unfold E s hd _ result (f + 3) (expr_of_item_err E h1 he2)
  rw [h4, herr]
  simp [outcome, EVAL_ARGS_ERROR]

/-- A whole text that is one call `f(args)` of a native function, with
error-free argument expressions whose number satisfies the arity: what `eval`
returns is decided by the status the callable returns, and its value is what
the callable stored. -/
theorem call_outcome (E : Env V) (s : State V) (result : Option V)
    (name : List Char) (vf : VarFn V) (g : Int → List (Option V) → Data → Int × Option V)
    (es : List (List Char)) (vs : List V)
    (hm : ∀ i, E.malloc i = true) (hname : is_name name = true) (hnl : name.length ≤ 100)
    (hd : s.done = true) (hlook : ht_lookup s.G_varfn_table (some name) = (0, some vf))
    (hfn : vf.fn = some (FunctionPtr.native g))
    (hargs : List.Forall₂ (ArgExpr E s.G_varfn_table) es vs)
    (harity : (vf.nargs < 0 ∧ es ≠ []) ∨ vf.nargs = (es.length : Int)) :
    ∃ n, ∀ fuel, n ≤ fuel → ∃ arr, arr.take es.length = vs.map some ∧ (es = [] → arr = []) ∧
      ((g (es.length : Int) arr vf.data).1 ≠ 0 →
        outcome (eval E fuel (some (call_text name es)) result s) = some (9, result)) ∧
      ((g (es.length : Int) arr vf.data).1 = 0 →
        outcome (eval E fuel (some (call_text name es)) result s) =
          some (0, result.map (fun _ => (g (es.length : Int) arr vf.data).2.getD E.A.zero))) := by
  by_cases hes : es = []
  · subst hes
    have hz : vf.nargs = 0 := by
      rcases harity with h | h
      · exact absurd rfl h.2
      · simpa using h
    cases hargs
    refine ⟨6, fun fuel hf => ⟨[], rfl, fun _ => rfl, ?_⟩⟩
    obtain ⟨f, rfl⟩ : ∃ f, fuel = (f + 2 + 3) + 1 := ⟨fuel - 6, by omega⟩
    obtain ⟨p1, s1, h1, hT1, herr, _⟩ := item_call_nil E hname hnl hlook hfn hz (f + 2)
      (by omega) (call_text name []) 0
      { s with recurse := s.recurse + 1, G_eval_error := 0, G_pb_token := null_token E } []
      (Or.inl ⟨rfl, by simp⟩) (Or.inl rfl) rfl rfl hd
    constructor
    · intro hne
      have he1 : s1.G_eval_error = EVAL_FUNCTION_ERROR := by
        rw [herr]; simp only [List.length_nil, Nat.cast_zero] at hne; simp [hne]
      have he2 : s1.G_eval_error ≠ 0 := by rw [he1]; decide
      obtain ⟨s2, _, h4⟩ := eval_done_unfold E s hd _ result _ (expr_of_item_err E h1 he2)
      rw [h4, he1]; simp [outcome, EVAL_FUNCTION_ERROR]
    · intro hz0
      have he1 : s1.G_eval_error = 0 := by
        rw [herr]; simp only [List.length_nil, Nat.cast_zero] at hz0; simp [hz0]
      obtain ⟨s2, _, h4⟩ := eval_done_unfold E s hd _ result _ (expr_of_item_end E h1 he1 hT1)
      rw [h4, he1]; simp [outcome]
  · have harity1 : vf.nargs < 0 ∨ vf.nargs = (es.length : Int) := by
      rcases harity with h | h
      · exact Or.inl h.1
      · exact Or.inr h
    obtain ⟨n, hn⟩ := eval_call E s result hm hname hnl hd hlook hfn hes hargs harity1
    refine ⟨n, fun fuel hf => ?_⟩
    obtain ⟨s1, arr, h1, h2, _⟩ := hn fuel hf
    refine ⟨arr, h2, fun h => absurd h hes, fun hne => ?_, fun hz0 => ?_⟩
    · rw [h1]; simp [outcome, hne, EVAL_FUNCTION_ERROR]
    · rw [h1]; simp [outcome, hz0]

/-- `eval_def_fn` on a name bound as a function, with a `malloc` that does not
fail: it returns 0, the built-ins are installed afterwards, and a lookup of
the name returns the record found before with callable, context and arity
replaced. -/
theorem def_fn_replace (E : Env V) (hm : ∀ i, E.malloc i = true) (s : State V)
    (hs : TableOk s) (name : List Char) (f : VarFn V)
    (hl : ht_lookup (sym_table E s) (some name) = (0, some f)) (hfn : f.fn ≠ none)
    (fn : Option (FunctionPtr V)) (data : Data) (args : Int) :
    (eval_def_fn E name fn data args s).1 = 0 ∧
    (eval_def_fn E name fn data args s).2.done = true ∧
    ht_lookup (eval_def_fn E name fn data args s).2.G_varfn_table (some name) =
      (0, some { f with fn := fn, data := data, nargs := args }) := by
  have hd : (eval_def_fn E name fn data args s).2.done = true :=
    (eval_def_fn_body_done E name fn data args _).trans (set_funcs_done E s)
  obtain ⟨T, h1, h2, _, _, h⟩ :=
    def_fn_body_cases E hm name fn data args _ (set_funcs_ok E hm s hs)
  have hl1 : ht_lookup (some T) (some name) = (0, some f) := by
    rw [← h1]; exact hl
  rcases h with ⟨f1, hf1, hv, _⟩ | ⟨f1, T1, hf1, hv, hp, h5, h6⟩ | ⟨T1, hnf, _, _, _⟩
  · rw [hl1] at hf1
    simp only [Prod.mk.injEq, Option.some.injEq, true_and] at hf1
    rw [← hf1] at hv
    exact absurd hv hfn
  · rw [hl1] at hf1
    simp only [Prod.mk.injEq, Option.some.injEq, true_and] at hf1
    subst hf1
    refine ⟨h5, hd, ?_⟩
    unfold eval_def_fn
    rw [h6]
    exact SymPut_lookup h2 hp ((strcmp_zero_iff _ _).mpr rfl)
  · rw [hl1] at hnf
    simp at hnf

theorem delim_not_ident {stop : Char → Bool} {rest : List Char} (h : Delim stop rest) :
    ∀ c ∈ rest.head?, isident c = false := by
  intro c hc
  rcases h with h | ⟨a, r, h, ha, _⟩
  · rw [h] at hc; simp at hc
  · rw [h] at hc; simp at hc; subst hc
    rcases op_cases ha with h | h | h | h | h | h | h | h | h | h <;> subst h <;> decide

/-- An identifier of at most 100 characters that is bound as a variable is an
item, with the value of the variable. -/
theorem item_var (E : Env V) (T : Option (hashtable (List Char) (VarFn V)))
    {name : List Char} (hname : is_name name = true) (hnl : name.length ≤ 100)
    {vf : VarFn V} (hlook : ht_lookup T (some name) = (0, some vf)) (hv : vf.fn = none) :
    Yields E (eval_item E) stopI T name vf.value := by
  refine ⟨2, fun fuel hf buf pos s rest hT hD he hTab hdone => ?_⟩
  obtain ⟨f, rfl⟩ : ∃ f, fuel = f + 1 := ⟨fuel - 1, by omega⟩
  obtain ⟨pos1, s1, h1, h2, h3, h4, _⟩ :=
    pull_name_at E hT hname hnl (delim_not_ident hD) (by rw [hTab]; exact hlook)
  obtain ⟨pos2, s2, h5, h6, h7⟩ := tail_stop E vf.value (Or.inl ⟨h2, h3⟩) hD f (by omega)
  have e1 : s1.G_eval_error = 0 := h4.1.trans he
  refine ⟨pos2, s2, ?_, h6, h7.1.trans e1, (h7.2.1.trans h4.2.1).trans hTab,
    (h7.2.2.1.trans h4.2.2.1).trans hdone⟩
  have ty : (name_token E vf).type = 'v' := by simp [name_token, hv]
  have tv : (name_token E vf).value = vf.value := rfl
  simp [eval_item, h1, e1, ty, tv, h5]

/-- Such an identifier is an expression. -/
theorem expr_var (E : Env V) (T : Option (hashtable (List Char) (VarFn V)))
    {name : List Char} (hname : is_name name = true) (hnl : name.length ≤ 100)
    {vf : VarFn V} (hlook : ht_lookup T (some name) = (0, some vf)) (hv : vf.fn = none) :
    Yields E (eval_expr E) stopE T name vf.value :=
  expr_of_term E (Yields_mono E (fun _ h => stopT_of_stopE h)
    (term_of_fact E (Yields_mono E (fun _ h => stopF_of_stopT h)
      (fact_of_item E (Yields_mono E (fun _ h => stopI_of_stopF h)
        (item_var E T hname hnl hlook hv))))))

theorem eval_table_of_done (E : Env V) {s : State V} (hd : s.done = true) :
    eval_table E s = s.G_varfn_table := by
  unfold eval_table
  rw [set_funcs_of_done E (by exact hd)]

theorem eval_table_eq (E : Env V) (hm : ∀ i, E.malloc i = true) (s : State V) :
    eval_table E s = (set_funcs E s).2.G_varfn_table :=
  set_funcs_tab E hm rfl rfl

/-- A lookup that succeeds in the table `eval` tokenizes against succeeds in
the table the three calls work on, which is the same. -/
theorem sym_table_of_eval (E : Env V) (hm : ∀ i, E.malloc i = true) {s : State V}
    {name : List Char} {x : Option (VarFn V)}
    (h : ht_lookup (eval_table E s) (some name) = (0, x)) :
    sym_table E s = eval_table E s := by
  rw [eval_table_eq E hm] at h ⊢
  unfold sym_table
  cases hT : (set_funcs E s).2.G_varfn_table with
  | none => rw [hT] at h; simp [ht_lookup] at h
  | some T => rw [ensure_table_some E hT]; exact hT

/-! ## Termination: the tokenizer -/

theorem skip_space_ge (l : List Char) : ∀ i, i ≤ skip_space l i := by
  induction l with
  | nil => intro i; exact Nat.le_refl _
  | cons c t ih =>
    intro i
    simp only [skip_space]
    split_ifs
    · exact Nat.le_trans (Nat.le_succ i) (ih (i + 1))
    · exact Nat.le_refl i

theorem scan_ge (p : Char → Bool) (l : List Char) : ∀ tbuf i, i ≤ (scan p l tbuf i).2 := by
  induction l with
  | nil => intro tbuf i; exact Nat.le_refl _
  | cons c t ih =>
    intro tbuf i
    simp only [scan]
    by_cases hp : p c = true
    · rw [if_pos hp]
      exact Nat.le_trans (Nat.le_succ i) (ih _ (i + 1))
    · rw [if_neg hp]

theorem scan_gt (p : Char → Bool) {c : Char} (hc : p c = true) (l tbuf : List Char) (i : Nat) :
    i + 1 ≤ (scan p (c :: l) tbuf i).2 := by
  simp only [scan, hc, if_true]
  exact scan_ge p l _ (i + 1)

theorem charAt_lt {buf : List Char} {i : Nat} (h : charAt buf i ≠ NUL) : i < buf.length := by
  by_contra hge
  apply h
  unfold charAt
  rw [List.getD_eq_getElem?_getD, List.getElem?_eq_none (by omega)]
  rfl

theorem drop_eq_charAt {buf : List Char} {i : Nat} (h : i < buf.length) :
    buf.drop i = charAt buf i :: buf.drop (i + 1) := by
  rw [List.drop_eq_getElem_cons h]
  congr 1
  unfold charAt
  rw [List.getD_eq_getElem _ _ h]

theorem op_ne_f {c : Char} (h : is_op_char c = true) : c ≠ 'f' := by
  intro hc; subst hc; simp [is_op_char, BSLASH] at h

theorem unread_pull_text {buf : List Char} {pos p1 : Nat} {s s1 : State V}
    (hpb : s.G_pb_token.type = NUL) (hpb1 : s1.G_pb_token = s.G_pb_token) (hp : pos ≤ p1) :
    unread buf p1 s1 ≤ unread buf pos s := by
  unfold unread
  rw [hpb1, hpb]
  simp only [if_true]
  omega

theorem unread_pull_more {buf : List Char} {pos p1 : Nat} {s s1 : State V}
    (hpb : s.G_pb_token.type = NUL) (hpb1 : s1.G_pb_token = s.G_pb_token) (hp : pos + 1 ≤ p1)
    (hl : pos < buf.length) :
    unread buf p1 s1 + 1 ≤ unread buf pos s := by
  unfold unread
  rw [hpb1, hpb]
  simp only [if_true]
  omega

theorem num_end_gt {buf : List Char} {i : Nat}
    (h : (isdigit (charAt buf i) || decide (charAt buf i = '.')) = true) (tb : List Char) :
    i + 1 ≤ (if charAt buf (scan isdigit (buf.drop i) [] i).2 = '.' then
        scan isdigit (buf.drop ((scan isdigit (buf.drop i) [] i).2 + 1)) tb
          ((scan isdigit (buf.drop i) [] i).2 + 1)
      else scan isdigit (buf.drop i) [] i).2 := by
  have hne : charAt buf i ≠ NUL := by
    intro hc; rw [hc] at h; simp [isdigit, NUL] at h
  have hlt := charAt_lt hne
  by_cases hd : isdigit (charAt buf i) = true
  · have h1 : i + 1 ≤ (scan isdigit (buf.drop i) [] i).2 := by
      rw [drop_eq_charAt hlt]; exact scan_gt isdigit hd _ _ _
    split_ifs
    · exact Nat.le_trans h1 (Nat.le_trans (Nat.le_succ _) (scan_ge _ _ _ _))
    · exact h1
  · have hdot : charAt buf i = '.' := by simpa [hd] using h
    have h1 : scan isdigit (buf.drop i) [] i = ([], i) := by
      rw [drop_eq_charAt hlt]; simp only [scan, hd]; simp
    rw [h1]
    simp only [hdot, if_true]
    exact scan_ge _ _ _ _

theorem name_end_gt {buf : List Char} {i : Nat}
    (h : (isalpha (charAt buf i) || decide (charAt buf i = '_')) = true) :
    i + 1 ≤ (scan isident (buf.drop i) [] i).2 := by
  have hne : charAt buf i ≠ NUL := by
    intro hc; rw [hc] at h; simp [isalpha, NUL] at h
  have hlt := charAt_lt hne
  have hid : isident (charAt buf i) = true := by
    simp only [isident, Bool.or_eq_true, decide_eq_true_eq] at h ⊢
    rcases h with h | h
    · exact Or.inl (Or.inl h)
    · exact Or.inr h
  rw [drop_eq_charAt hlt]
  exact scan_gt isident hid _ _ _

theorem copy_str_pb_eq (E : Env V) (w : List Char) (l : Int) (s : State V) :
    (copy_str E w l s).2.G_pb_token = s.G_pb_token := by
  unfold copy_str lalloc
  dsimp only
  split_ifs <;> rfl

theorem copy_str_fixed (E : Env V) (w : List Char) (l : Int) (s : State V) :
    fixed_part (copy_str E w l s).2 = fixed_part s := by
  unfold copy_str lalloc fixed_part
  dsimp only
  split_ifs <;> rfl

theorem lalloc_fixed (E : Env V) (k : Nat) (s : State V) :
    fixed_part (lalloc E k s).2 = fixed_part s := by
  unfold lalloc fixed_part
  dsimp only
  split_ifs <;> rfl

/-- What a pull does to what is left to read: the pushback slot is empty
afterwards, nothing is added, and a token that is not the empty one takes at
least one unit away.  The token and the state are as `TokOk` and `Ready`
say. -/
theorem pull_spec (E : Env V) {T : Option (hashtable (List Char) (VarFn V))}
    (buf : List Char) (pos : Nat) (s : State V) (hs : Ready T s) :
    Ready T (pull_token E buf pos s).2.2 ∧ TokOk T (pull_token E buf pos s).1 ∧
    (pull_token E buf pos s).2.2.G_pb_token.type = NUL ∧
    unread buf (pull_token E buf pos s).2.1 (pull_token E buf pos s).2.2 ≤ unread buf pos s ∧
    ((pull_token E buf pos s).1.type ≠ NUL →
      unread buf (pull_token E buf pos s).2.1 (pull_token E buf pos s).2.2 + 1
        ≤ unread buf pos s) := by
  obtain ⟨hTab, hpbok⟩ := hs
  by_cases hpb : s.G_pb_token.type ≠ NUL
  · have e : pull_token E buf pos s = (s.G_pb_token, pos, { s with G_pb_token := null_token E }) := by
      simp only [pull_token, if_pos hpb]
    rw [e]
    refine ⟨⟨hTab, fun h => by simp [null_token, NUL] at h⟩, hpbok, rfl, ?_, fun _ => ?_⟩
    · unfold unread; simp only [null_type, if_true, if_neg hpb]; omega
    · unfold unread; simp only [null_type, if_true, if_neg hpb]; omega
  · have hpb0 : s.G_pb_token.type = NUL := not_not.mp hpb
    have hnull : TokOk T (null_token E) := fun h => by simp [null_token, NUL] at h
    have hge := skip_space_ge (buf.drop pos) pos
    generalize hi : skip_space (buf.drop pos) pos = i at hge
    by_cases hop : is_op_char (charAt buf i) = true
    · have e : pull_token E buf pos s =
          ({ null_token E with type := charAt buf i }, i + 1, s) := by
        simp only [pull_token, if_neg hpb, hi, if_pos hop]
      rw [e]
      dsimp only
      have hlt : i < buf.length := charAt_lt (op_ne_NUL hop)
      exact ⟨⟨hTab, hpbok⟩, fun h => absurd h (op_ne_f hop), hpb0,
        unread_pull_text hpb0 rfl (by omega), fun _ => unread_pull_more hpb0 rfl (by omega)
          (by omega)⟩
    · by_cases hnum : (isdigit (charAt buf i) || decide (charAt buf i = '.')) = true
      · have hne : charAt buf i ≠ NUL := by
          intro hc; rw [hc] at hnum; simp [isdigit, NUL] at hnum
        have hlt := charAt_lt hne
        have hgt := num_end_gt hnum
          (if (scan isdigit (buf.drop i) [] i).1.length < 100 then
            (scan isdigit (buf.drop i) [] i).1 ++ ['.'] else (scan isdigit (buf.drop i) [] i).1)
        simp only [pull_token, if_neg hpb, hi, if_neg hop, if_pos hnum]
        generalize (if charAt buf (scan isdigit (buf.drop i) [] i).2 = '.' then
            scan isdigit (buf.drop ((scan isdigit (buf.drop i) [] i).2 + 1))
              (if (scan isdigit (buf.drop i) [] i).1.length < 100 then
                (scan isdigit (buf.drop i) [] i).1 ++ ['.']
               else (scan isdigit (buf.drop i) [] i).1)
              ((scan isdigit (buf.drop i) [] i).2 + 1)
          else scan isdigit (buf.drop i) [] i) = r2 at hgt ⊢
        split_ifs
        · dsimp only
          exact ⟨⟨hTab, hpbok⟩, hnull, hpb0, unread_pull_text hpb0 rfl (by omega),
            fun _ => unread_pull_more hpb0 rfl (by omega) (by omega)⟩
        · dsimp only
          exact ⟨⟨(copy_str_fixed E _ _ s).trans hTab, by rw [copy_str_pb_eq]; exact hpbok⟩,
            fun h => by simp at h, by rw [copy_str_pb_eq]; exact hpb0,
            unread_pull_text hpb0 (copy_str_pb_eq E _ _ s) (by omega),
            fun _ => unread_pull_more hpb0 (copy_str_pb_eq E _ _ s) (by omega) (by omega)⟩
      · by_cases hal : (isalpha (charAt buf i) || decide (charAt buf i = '_')) = true
        · have hne : charAt buf i ≠ NUL := by
            intro hc; rw [hc] at hal; simp [isalpha, NUL] at hal
          have hlt := charAt_lt hne
          have hgt := name_end_gt hal
          simp only [pull_token, if_neg hpb, hi, if_neg hop, if_neg hnum, if_pos hal]
          generalize scan isident (buf.drop i) [] i = r at hgt ⊢
          split
          · rename_i vf hlook
            dsimp only
            refine ⟨⟨(copy_str_fixed E _ _ s).trans hTab, by rw [copy_str_pb_eq]; exact hpbok⟩,
              ?_, by rw [copy_str_pb_eq]; exact hpb0,
              unread_pull_text hpb0 (copy_str_pb_eq E _ _ s) (by omega),
              fun _ => unread_pull_more hpb0 (copy_str_pb_eq E _ _ s) (by omega) (by omega)⟩
            intro hty
            dsimp only at hty
            have hsome : vf.fn ≠ none := by
              intro hn; rw [hn] at hty; simp at hty
            have hTab1 : s.G_varfn_table = T := congrArg Prod.fst hTab
            exact ⟨r.1, vf, by rw [← hTab1]; exact hlook, hsome, rfl, rfl⟩
          · dsimp only
            exact ⟨⟨hTab, hpbok⟩, hnull, hpb0, unread_pull_text hpb0 rfl (by omega),
              fun h => absurd rfl h⟩
          · dsimp only
            exact ⟨⟨hTab, hpbok⟩, hnull, hpb0, unread_pull_text hpb0 rfl (by omega),
              fun h => absurd rfl h⟩
        · by_cases hnul : charAt buf i = NUL
          · have e : pull_token E buf pos s = (null_token E, i, s) := by
              simp only [pull_token, if_neg hpb, hi, if_neg hop, if_neg hnum, if_neg hal,
                if_pos hnul]
            rw [e]
            dsimp only
            exact ⟨⟨hTab, hpbok⟩, hnull, hpb0, unread_pull_text hpb0 rfl hge,
              fun h => absurd rfl h⟩
          · have e : pull_token E buf pos s =
                (null_token E, i, { s with G_eval_error := EVAL_SYNTAX_ERROR }) := by
              simp only [pull_token, if_neg hpb, hi, if_neg hop, if_neg hnum, if_neg hal,
                if_neg hnul]
            rw [e]
            dsimp only
            exact ⟨⟨hTab, hpbok⟩, hnull, hpb0, unread_pull_text hpb0 rfl hge,
              fun h => absurd rfl h⟩

/-! ## Termination: the grammar procedures -/

theorem ready_of_eq {T : Option (hashtable (List Char) (VarFn V))} {s t : State V}
    (h1 : fixed_part t = fixed_part s) (h2 : t.G_pb_token = s.G_pb_token)
    (hs : Ready T s) : Ready T t := by
  unfold Ready at hs ⊢
  rw [h1, h2]; exact hs

theorem unread_of_eq (buf : List Char) (pos : Nat) {s t : State V}
    (h2 : t.G_pb_token = s.G_pb_token) : unread buf pos t = unread buf pos s := by
  unfold unread
  rw [h2]

theorem halts_of_eq {T : Option (hashtable (List Char) (VarFn V))} {buf : List Char}
    {m : Nat} {v : V} {pos : Nat} {s t : State V}
    (h1 : fixed_part t = fixed_part s) (h2 : t.G_pb_token = s.G_pb_token)
    (hs : Ready T s) (hm : unread buf pos s ≤ m) : Halts T buf m (some (v, pos, t)) :=
  ⟨v, pos, t, rfl, ready_of_eq h1 h2 hs, by rw [unread_of_eq buf pos h2]; exact hm⟩

theorem halts_le {T : Option (hashtable (List Char) (VarFn V))} {buf : List Char}
    {m m1 : Nat} {r : Option (V × Nat × State V)} (h : Halts T buf m r) (hm : m ≤ m1) :
    Halts T buf m1 r := by
  obtain ⟨v, p, t, e, h1, h2⟩ := h
  exact ⟨v, p, t, e, h1, le_trans h2 hm⟩

theorem ready_lalloc (E : Env V) {T : Option (hashtable (List Char) (VarFn V))}
    (buf : List Char) (pos : Nat) (c : Prop) [Decidable c] (k : Nat) (s : State V)
    (hs : Ready T s) :
    Ready T (if c then lalloc E k s else (true, s)).2 ∧
    unread buf pos (if c then lalloc E k s else (true, s)).2 = unread buf pos s := by
  by_cases h : c
  · rw [if_pos h]
    exact ⟨ready_of_eq (lalloc_fixed E k s) (lalloc_pb E k s) hs,
      unread_of_eq buf pos (lalloc_pb E k s)⟩
  · rw [if_neg h]
    exact ⟨hs, rfl⟩

/-- Pushing a token back leaves at most one more unit to read, and does
nothing when the slot is taken. -/
theorem push_spec {T : Option (hashtable (List Char) (VarFn V))} (buf : List Char) (pos : Nat)
    (tok : Token V) (s : State V) (hs : Ready T s) (htok : TokOk T tok) :
    Ready T (push_token tok s).2 ∧
    unread buf pos (push_token tok s).2 ≤
      unread buf pos s + (if tok.type = NUL then 0 else 1) ∧
    (s.G_pb_token.type ≠ NUL → (push_token tok s).2 = s) ∧
    (s.G_pb_token.type = NUL → (push_token tok s).2.G_pb_token = tok) := by
  unfold push_token
  by_cases hpb : s.G_pb_token.type ≠ NUL
  · rw [if_pos hpb]
    exact ⟨hs, Nat.le_add_right _ _, fun _ => rfl, fun h => absurd h hpb⟩
  · rw [if_neg hpb]
    refine ⟨⟨hs.1, htok⟩, ?_, fun h => absurd h hpb, fun _ => rfl⟩
    unfold unread
    dsimp only
    split_ifs <;> omega

/-! ## Termination: what a procedure leaves of the state -/

/-- The percent loop leaves a state and hands on a token as `Ready` and
`TokOk` say. -/
theorem percent_ready (E : Env V) {T : Option (hashtable (List Char) (VarFn V))}
    (buf : List Char) :
    ∀ (n pos : Nat) (rv : V) (tok : Token V) (s : State V), Ready T s → TokOk T tok →
      ∀ x, percent_loop E n buf pos rv tok s = some x → Ready T x.2.2.2 ∧ TokOk T x.2.1 := by
  intro n
  induction n with
  | zero => intro pos rv tok s _ _ x h; simp [percent_loop] at h
  | succ k ih =>
    intro pos rv tok s hs htok x h
    by_cases hp : tok.type = '%'
    · simp only [percent_loop, if_pos hp] at h
      obtain ⟨p1, p2, _, _, _⟩ := pull_spec E buf pos s hs
      generalize pull_token E buf pos s = pr at p1 p2 h
      obtain ⟨tok1, pos1, s1⟩ := pr
      exact ih pos1 _ tok1 s1 p1 p2 x h
    · simp only [percent_loop, if_neg hp] at h
      rw [← Option.some.inj h]
      exact ⟨hs, htok⟩

/-- The statements that end `eval_item` leave a state as `Ready` says. -/
theorem tail_ready (E : Env V) {T : Option (hashtable (List Char) (VarFn V))}
    (buf : List Char) (n pos : Nat) (rv : V) (s : State V) (hs : Ready T s) :
    ∀ x, eval_item_tail E n buf pos rv s = some x → Ready T x.2.2 := by
  intro x h
  unfold eval_item_tail at h
  obtain ⟨p1, p2, _, _, _⟩ := pull_spec E buf pos s hs
  generalize pull_token E buf pos s = pr at p1 p2 h
  obtain ⟨tok, pos1, s1⟩ := pr
  dsimp only at p1 p2 h
  cases e : percent_loop E n buf pos1 rv tok s1 with
  | none => rw [e] at h; simp at h
  | some y =>
    obtain ⟨q1, q2⟩ := percent_ready E buf n pos1 rv tok s1 p1 p2 y e
    obtain ⟨rv1, tok1, pos2, s2⟩ := y
    rw [e] at h
    dsimp only at h q1 q2
    by_cases h0 : tok1.type ≠ NUL
    · rw [if_pos h0] at h
      rw [← Option.some.inj h]
      exact (push_spec buf pos2 tok1 s2 q1 q2).1
    · rw [if_neg h0] at h
      rw [← Option.some.inj h]
      exact q1

/-- `eval_expr` with one more unit of fuel leaves a state as `Ready` says. -/
theorem expr_ready_step (E : Env V) {T : Option (hashtable (List Char) (VarFn V))} (n : Nat)
    (hterm : ∀ buf pos (s : State V), Ready T s →
      ∀ x, eval_term E n buf pos s = some x → Ready T x.2.2)
    (hexpr : ∀ buf pos (s : State V), Ready T s →
      ∀ x, eval_expr E n buf pos s = some x → Ready T x.2.2) :
    ∀ buf pos (s : State V), Ready T s →
      ∀ x, eval_expr E (n + 1) buf pos s = some x → Ready T x.2.2 := by
  intro buf pos s hs x h
  simp only [eval_expr] at h
  cases e1 : eval_term E n buf pos s with
  | none => rw [e1] at h; simp at h
  | some y =>
    have r1 := hterm buf pos s hs y e1
    obtain ⟨lhs, pos1, s1⟩ := y
    rw [e1] at h
    dsimp only at h r1
    by_cases he1 : s1.G_eval_error ≠ 0
    · rw [if_pos he1] at h; rw [← Option.some.inj h]; exact r1
    rw [if_neg he1] at h
    obtain ⟨p1, p2, _, _, _⟩ := pull_spec E buf pos1 s1 r1
    generalize pull_token E buf pos1 s1 = pr at p1 p2 h
    obtain ⟨tok, pos2, s2⟩ := pr
    dsimp only at p1 p2 h
    have q1 := (push_spec buf pos2 tok s2 p1 p2).1
    have hsub : ∀ f : V → V → V,
        (match eval_expr E n buf pos2 s2 with
         | none => none
         | some (rhs, pos3, s3) => some (f lhs rhs, pos3, s3)) = some x → Ready T x.2.2 := by
      intro f h3
      cases e3 : eval_expr E n buf pos2 s2 with
      | none => rw [e3] at h3; simp at h3
      | some z =>
        have r3 := hexpr buf pos2 s2 p1 z e3
        rw [e3] at h3
        rw [← Option.some.inj h3]
        exact r3
    by_cases he2 : s2.G_eval_error ≠ 0
    · rw [if_pos he2] at h; rw [← Option.some.inj h]; exact p1
    rw [if_neg he2] at h
    by_cases h0 : tok.type = NUL
    · rw [if_pos h0] at h; rw [← Option.some.inj h]; exact p1
    rw [if_neg h0] at h
    by_cases h1 : tok.type = '+'
    · rw [if_pos h1] at h; exact hsub E.A.add h
    rw [if_neg h1] at h
    by_cases h2 : tok.type = '-'
    · rw [if_pos h2] at h; exact hsub E.A.sub h
    rw [if_neg h2] at h
    by_cases h3 : tok.type = ')'
    · rw [if_pos h3] at h; rw [← Option.some.inj h]; exact q1
    rw [if_neg h3] at h
    by_cases h4 : tok.type = ','
    · rw [if_pos h4] at h; rw [← Option.some.inj h]; exact q1
    rw [if_neg h4] at h
    rw [← Option.some.inj h]
    exact ready_of_eq (s := s2) rfl rfl p1

/-- `eval_term` with one more unit of fuel leaves a state as `Ready` says. -/
theorem term_ready_step (E : Env V) {T : Option (hashtable (List Char) (VarFn V))} (n : Nat)
    (hfact : ∀ buf pos (s : State V), Ready T s →
      ∀ x, eval_fact E n buf pos s = some x → Ready T x.2.2)
    (hterm : ∀ buf pos (s : State V), Ready T s →
      ∀ x, eval_term E n buf pos s = some x → Ready T x.2.2) :
    ∀ buf pos (s : State V), Ready T s →
      ∀ x, eval_term E (n + 1) buf pos s = some x → Ready T x.2.2 := by
  intro buf pos s hs x h
  simp only [eval_term] at h
  cases e1 : eval_fact E n buf pos s with
  | none => rw [e1] at h; simp at h
  | some y =>
    have r1 := hfact buf pos s hs y e1
    obtain ⟨lhs, pos1, s1⟩ := y
    rw [e1] at h
    dsimp only at h r1
    by_cases he1 : s1.G_eval_error ≠ 0
    · rw [if_pos he1] at h; rw [← Option.some.inj h]; exact r1
    rw [if_neg he1] at h
    obtain ⟨p1, p2, _, _, _⟩ := pull_spec E buf pos1 s1 r1
    generalize pull_token E buf pos1 s1 = pr at p1 p2 h
    obtain ⟨tok, pos2, s2⟩ := pr
    dsimp only at p1 p2 h
    have q1 := (push_spec buf pos2 tok s2 p1 p2).1
    have hdiv : ∀ (f : V → V → V) (z : V) (c : V → Prop) [DecidablePred c],
        (match eval_term E n buf pos2 s2 with
         | none => none
         | some (rhs, pos3, s3) =>
           if c rhs then some (z, pos3, { s3 with G_eval_error := EVAL_DIVIDE_BY_ZERO })
           else some (f lhs rhs, pos3, s3)) = some x → Ready T x.2.2 := by
      intro f z c _ h3
      cases e3 : eval_term E n buf pos2 s2 with
      | none => rw [e3] at h3; simp at h3
      | some w =>
        have r3 := hterm buf pos2 s2 p1 w e3
        obtain ⟨rhs, pos3, s3⟩ := w
        rw [e3] at h3
        dsimp only at h3 r3
        by_cases hz : c rhs
        · rw [if_pos hz] at h3
          rw [← Option.some.inj h3]
          exact ready_of_eq (s := s3) rfl rfl r3
        · rw [if_neg hz] at h3
          rw [← Option.some.inj h3]
          exact r3
    by_cases he2 : s2.G_eval_error ≠ 0
    · rw [if_pos he2] at h; rw [← Option.some.inj h]; exact p1
    rw [if_neg he2] at h
    by_cases h0 : tok.type = NUL
    · rw [if_pos h0] at h; rw [← Option.some.inj h]; exact p1
    rw [if_neg h0] at h
    by_cases h1 : tok.type = '*'
    · rw [if_pos h1] at h
      cases e3 : eval_term E n buf pos2 s2 with
      | none => rw [e3] at h; simp at h
      | some w =>
        have r3 := hterm buf pos2 s2 p1 w e3
        rw [e3] at h
        rw [← Option.some.inj h]
        exact r3
    rw [if_neg h1] at h
    by_cases h2 : tok.type = '/'
    · rw [if_pos h2] at h
      exact hdiv E.A.div E.A.zero (fun rhs => E.A.isZero rhs = true) h
    rw [if_neg h2] at h
    by_cases h3 : tok.type = BSLASH
    · rw [if_pos h3] at h
      exact hdiv E.A.fmod E.A.zero (fun rhs => E.A.isZero rhs = true) h
    rw [if_neg h3] at h
    rw [← Option.some.inj h]
    exact q1

/-- `eval_fact` with one more unit of fuel leaves a state as `Ready` says. -/
theorem fact_ready_step (E : Env V) {T : Option (hashtable (List Char) (VarFn V))} (n : Nat)
    (hitem : ∀ buf pos (s : State V), Ready T s →
      ∀ x, eval_item E n buf pos s = some x → Ready T x.2.2)
    (hfact : ∀ buf pos (s : State V), Ready T s →
      ∀ x, eval_fact E n buf pos s = some x → Ready T x.2.2) :
    ∀ buf pos (s : State V), Ready T s →
      ∀ x, eval_fact E (n + 1) buf pos s = some x → Ready T x.2.2 := by
  intro buf pos s hs x h
  simp only [eval_fact] at h
  cases e1 : eval_item E n buf pos s with
  | none => rw [e1] at h; simp at h
  | some y =>
    have r1 := hitem buf pos s hs y e1
    obtain ⟨lhs, pos1, s1⟩ := y
    rw [e1] at h
    dsimp only at h r1
    by_cases he1 : s1.G_eval_error ≠ 0
    · rw [if_pos he1] at h; rw [← Option.some.inj h]; exact r1
    rw [if_neg he1] at h
    obtain ⟨p1, p2, _, _, _⟩ := pull_spec E buf pos1 s1 r1
    generalize pull_token E buf pos1 s1 = pr at p1 p2 h
    obtain ⟨tok, pos2, s2⟩ := pr
    dsimp only at p1 p2 h
    have q1 := (push_spec buf pos2 tok s2 p1 p2).1
    by_cases he2 : s2.G_eval_error ≠ 0
    · rw [if_pos he2] at h; rw [← Option.some.inj h]; exact p1
    rw [if_neg he2] at h
    by_cases h0 : tok.type = NUL
    · rw [if_pos h0] at h; rw [← Option.some.inj h]; exact p1
    rw [if_neg h0] at h
    by_cases h1 : tok.type = '^'
    · rw [if_pos h1] at h
      cases e3 : eval_fact E n buf pos2 s2 with
      | none => rw [e3] at h; simp at h
      | some w =>
        have r3 := hfact buf pos2 s2 p1 w e3
        obtain ⟨rhs, pos3, s3⟩ := w
        rw [e3] at h
        dsimp only at h r3
        by_cases he3 : s3.G_eval_error ≠ 0
        · rw [if_pos he3] at h; rw [← Option.some.inj h]; exact r3
        · rw [if_neg he3] at h; rw [← Option.some.inj h]; exact r3
    rw [if_neg h1] at h
    rw [← Option.some.inj h]
    exact q1

/-- `eval_args` with one more unit of fuel leaves a state as `Ready` says. -/
theorem args_ready_step (E : Env V) {T : Option (hashtable (List Char) (VarFn V))} (n : Nat)
    (hexpr : ∀ buf pos (s : State V), Ready T s →
      ∀ x, eval_expr E n buf pos s = some x → Ready T x.2.2)
    (hargs : ∀ buf pos args arg arglen argpos (s : State V), Ready T s →
      ∀ a, eval_args E n buf pos args arg arglen argpos s = some a → Ready T a.st) :
    ∀ buf pos args arg arglen argpos (s : State V), Ready T s →
      ∀ a, eval_args E (n + 1) buf pos args arg arglen argpos s = some a → Ready T a.st := by
  intro buf pos args arg arglen argpos s hs x h
  simp only [eval_args] at h
  obtain ⟨p1, p2, _, _, _⟩ := pull_spec E buf pos s hs
  generalize pull_token E buf pos s = pr at p1 p2 h
  obtain ⟨tok, pos1, s1⟩ := pr
  dsimp only at p1 p2 h
  have q1 := (push_spec buf pos1 tok s1 p1 p2).1
  by_cases hc : tok.type = ')'
  · rw [if_pos hc] at h
    rw [← Option.some.inj h]
    exact (push_spec buf pos1 tok (push_token tok s1).2 q1 p2).1
  rw [if_neg hc] at h
  have a1 := (ready_lalloc E buf pos1 (argpos ≥ arglen) (8 * (arglen + 8))
    (push_token tok s1).2 q1).1
  generalize (if argpos ≥ arglen then lalloc E (8 * (arglen + 8)) (push_token tok s1).2
    else (true, (push_token tok s1).2)) = a at a1 h
  by_cases ha : a.1 = false
  · rw [if_pos ha] at h
    rw [← Option.some.inj h]
    exact ready_of_eq (s := a.2) rfl rfl a1
  rw [if_neg ha] at h
  cases e3 : eval_expr E n buf pos1 a.2 with
  | none => rw [e3] at h; simp at h
  | some w =>
    have r3 := hexpr buf pos1 a.2 a1 w e3
    obtain ⟨v, pos2, s3⟩ := w
    rw [e3] at h
    dsimp only at h r3
    by_cases he3 : s3.G_eval_error ≠ 0
    · rw [if_pos he3] at h; rw [← Option.some.inj h]; exact r3
    rw [if_neg he3] at h
    obtain ⟨g1, g2, _, _, _⟩ := pull_spec E buf pos2 s3 r3
    generalize pull_token E buf pos2 s3 = pr at g1 g2 h
    obtain ⟨tok2, pos3, s4⟩ := pr
    dsimp only at g1 g2 h
    by_cases hcomma : tok2.type = ','
    · rw [if_pos hcomma] at h
      cases er : eval_args E n buf pos3 (↑argpos + 1)
          ((if argpos ≥ arglen then copy_args arg arglen else arg).set argpos (some v))
          (if argpos ≥ arglen then arglen + 8 else arglen) (argpos + 1) s4 with
      | none => rw [er] at h; simp at h
      | some r =>
        have rr := hargs buf pos3 _ _ _ _ s4 g1 r er
        rw [er] at h
        dsimp only at h
        by_cases hrc : r.rc ≠ 0
        · rw [if_pos hrc] at h; rw [← Option.some.inj h]; exact rr
        · rw [if_neg hrc] at h; rw [← Option.some.inj h]; exact rr
    rw [if_neg hcomma] at h
    by_cases hc2 : tok2.type = ')'
    · rw [if_pos hc2] at h
      rw [← Option.some.inj h]
      exact (push_spec buf pos3 tok2 s4 g1 g2).1
    rw [if_neg hc2] at h
    rw [← Option.some.inj h]
    exact ready_of_eq (s := s4) rfl rfl g1

/-- `eval_item` with one more unit of fuel leaves a state as `Ready` says,
also after a call of `cust_func`, whose evaluation does. -/
theorem item_ready_step (E : Env V) {T : Option (hashtable (List Char) (VarFn V))} (n : Nat)
    (hfact : ∀ buf pos (s : State V), Ready T s →
      ∀ x, eval_fact E n buf pos s = some x → Ready T x.2.2)
    (hexpr : ∀ buf pos (s : State V), Ready T s →
      ∀ x, eval_expr E n buf pos s = some x → Ready T x.2.2)
    (hargs : ∀ buf pos args arg arglen argpos (s : State V), Ready T s →
      ∀ a, eval_args E n buf pos args arg arglen argpos s = some a → Ready T a.st)
    (heval : ∀ d result (s : State V), Ready T s →
      ∀ x, eval E n d result s = some x → Ready T x.2.2) :
    ∀ buf pos (s : State V), Ready T s →
      ∀ x, eval_item E (n + 1) buf pos s = some x → Ready T x.2.2 := by
  intro buf pos s hs x h
  simp only [eval_item] at h
  obtain ⟨p1, p2, _, _, _⟩ := pull_spec E buf pos s hs
  generalize pull_token E buf pos s = pr at p1 p2 h
  obtain ⟨tok, pos1, s1⟩ := pr
  dsimp only at p1 p2 h
  by_cases he1 : s1.G_eval_error ≠ 0
  · rw [if_pos he1] at h; rw [← Option.some.inj h]; exact p1
  rw [if_neg he1] at h
  have hsign : ∀ f : V → V,
      (match eval_fact E n buf pos1 s1 with
       | none => none
       | some (v, pos2, s2) => eval_item_tail E n buf pos2 (f v) s2) = some x →
      Ready T x.2.2 := by
    intro f h2
    cases e2 : eval_fact E n buf pos1 s1 with
    | none => rw [e2] at h2; simp at h2
    | some w =>
      have r2 := hfact buf pos1 s1 p1 w e2
      obtain ⟨v, pos2, s2⟩ := w
      rw [e2] at h2
      exact tail_ready E buf n pos2 (f v) s2 r2 x h2
  by_cases h1 : tok.type = '+'
  · rw [if_pos h1] at h; exact hsign (fun v => v) h
  rw [if_neg h1] at h
  by_cases h2 : tok.type = '-'
  · rw [if_pos h2] at h; exact hsign E.A.neg h
  rw [if_neg h2] at h
  by_cases h3 : tok.type = 'v'
  · rw [if_pos h3] at h; exact tail_ready E buf n pos1 _ s1 p1 x h
  rw [if_neg h3] at h
  by_cases h4 : tok.type = 'f'
  · rw [if_pos h4] at h
    obtain ⟨q1, _, _, _, _⟩ := pull_spec E buf pos1 s1 p1
    generalize pull_token E buf pos1 s1 = pr at q1 h
    obtain ⟨tok2, pos2, s2⟩ := pr
    dsimp only at q1 h
    by_cases he2 : s2.G_eval_error ≠ 0
    · rw [if_pos he2] at h; exact tail_ready E buf n pos2 _ s2 q1 x h
    rw [if_neg he2] at h
    by_cases hp : tok2.type ≠ '('
    · rw [if_pos hp] at h
      refine tail_ready E buf n pos2 _ _ ?_ x h
      exact ready_of_eq (s := s2) rfl rfl q1
    rw [if_neg hp] at h
    have a1 := (ready_lalloc E buf pos2 (tok.args > 0)
      (8 * if tok.args > 0 then tok.args.toNat else 0) s2 q1).1
    generalize (if tok.args > 0 then lalloc E (8 * if tok.args > 0 then tok.args.toNat else 0) s2
      else (true, s2)) = a at a1 h
    by_cases ha : a.1 = false
    · rw [if_pos ha] at h
      refine tail_ready E buf n pos2 _ _ ?_ x h
      exact ready_of_eq (s := a.2) rfl rfl a1
    rw [if_neg ha] at h
    cases er : eval_args E n buf pos2 tok.args
        (List.replicate (if tok.args > 0 then tok.args.toNat else 0) none)
        (if tok.args > 0 then tok.args.toNat else 0) 0 a.2 with
    | none => rw [er] at h; simp at h
    | some r =>
      have rr := hargs buf pos2 _ _ _ _ a.2 a1 r er
      rw [er] at h
      dsimp only at h
      by_cases hrc : r.rc ≠ 0
      · rw [if_pos hrc] at h; exact tail_ready E buf n r.pos _ r.st rr x h
      rw [if_neg hrc] at h
      by_cases hcount : (tok.args < 0 ∧ r.args < 1) ∨ (¬ tok.args < 0 ∧ r.args ≠ tok.args)
      · rw [if_pos hcount] at h
        refine tail_ready E buf n r.pos _ _ ?_ x h
        exact ready_of_eq (s := r.st) rfl rfl rr
      rw [if_neg hcount] at h
      obtain ⟨k1, _, _, _, _⟩ := pull_spec E buf r.pos r.st rr
      generalize pull_token E buf r.pos r.st = pr at k1 h
      obtain ⟨tok3, pos3, s3⟩ := pr
      dsimp only at k1 h
      by_cases hclose : tok3.type ≠ ')'
      · rw [if_pos hclose] at h
        refine tail_ready E buf n pos3 _ _ ?_ x h
        exact ready_of_eq (s := s3) rfl rfl k1
      rw [if_neg hclose] at h
      by_cases he3 : s3.G_eval_error ≠ 0
      · rw [if_pos he3] at h; exact tail_ready E buf n pos3 _ s3 k1 x h
      rw [if_neg he3] at h
      cases hfn : tok.fn with
      | none => rw [hfn] at h; simp at h
      | some fp =>
        rw [hfn] at h
        cases fp with
        | native g =>
          dsimp only at h
          refine tail_ready E buf n pos3 _ _ ?_ x h
          refine ready_of_eq (s := s3) ?_ ?_ k1
          · split_ifs <;> rfl
          · split_ifs <;> rfl
        | cust_func =>
          dsimp only at h
          cases ev : eval E n tok.data (some E.A.zero)
              { s3 with calls := s3.calls ++ [{ args := r.args, arg := r.arg }] } with
          | none => rw [ev] at h; simp at h
          | some w =>
            have r4 : Ready T ({ s3 with calls := s3.calls ++ [{ args := r.args, arg := r.arg }] } :
                State V) := ready_of_eq (s := s3) rfl rfl k1
            have r5 := heval tok.data (some E.A.zero) _ r4 w ev
            obtain ⟨code, out, s5⟩ := w
            rw [ev] at h
            dsimp only at h r5
            refine tail_ready E buf n pos3 _ _ ?_ x h
            refine ready_of_eq (s := s5) ?_ ?_ r5
            · split_ifs <;> rfl
            · split_ifs <;> rfl
  rw [if_neg h4] at h
  by_cases h5 : tok.type = 'n'
  · rw [if_pos h5] at h; exact tail_ready E buf n pos1 _ s1 p1 x h
  rw [if_neg h5] at h
  by_cases h6 : tok.type = '('
  · rw [if_pos h6] at h
    cases e2 : eval_expr E n buf pos1 s1 with
    | none => rw [e2] at h; simp at h
    | some w =>
      have r2 := hexpr buf pos1 s1 p1 w e2
      obtain ⟨v, pos2, s2⟩ := w
      rw [e2] at h
      dsimp only at h r2
      obtain ⟨q1, _, _, _, _⟩ := pull_spec E buf pos2 s2 r2
      generalize pull_token E buf pos2 s2 = pr at q1 h
      obtain ⟨tok2, pos3, s3⟩ := pr
      dsimp only at q1 h
      refine tail_ready E buf n pos3 _ _ ?_ x h
      refine ready_of_eq (s := s3) ?_ ?_ q1
      · split_ifs <;> rfl
      · split_ifs <;> rfl
  rw [if_neg h6] at h
  exact tail_ready E buf n pos1 _ _ (push_spec buf pos1 tok s1 p1 p2).1 x h

/-- `eval` with one more unit of fuel leaves a state as `Ready` says: the
built-ins being installed, its call of `set_funcs` does nothing. -/
theorem eval_ready_step (E : Env V) {T : Option (hashtable (List Char) (VarFn V))} (n : Nat)
    (hexpr : ∀ buf pos (s : State V), Ready T s →
      ∀ x, eval_expr E n buf pos s = some x → Ready T x.2.2) :
    ∀ d result (s : State V), Ready T s →
      ∀ x, eval E (n + 1) d result s = some x → Ready T x.2.2 := by
  intro d result s hs x h
  have hd : s.done = true := congrArg Prod.snd hs.1
  have e0 : (set_funcs E { s with recurse := s.recurse + 1 }).2 =
      { s with recurse := s.recurse + 1 } := by
    simp [set_funcs, hd]
  cases d with
  | none =>
    simp only [eval, e0] at h
    rw [← Option.some.inj h]
    exact ready_of_eq (s := s) rfl rfl hs
  | some buf =>
    simp only [eval, e0] at h
    have h0 : Ready T ({ s with
        recurse := s.recurse + 1, G_eval_error := 0, G_pb_token := null_token E } : State V) :=
      ⟨hs.1, fun hty => absurd (show NUL = 'f' from hty) (by decide)⟩
    rcases e1 : eval_expr E n buf 0 ({ s with
        recurse := s.recurse + 1, G_eval_error := 0, G_pb_token := null_token E } : State V)
      with _ | w
    · rw [e1] at h; simp at h
    · have r2 := hexpr buf 0 _ h0 w e1
      obtain ⟨rv, p, s2⟩ := w
      rw [e1] at h
      dsimp only at h r2
      split_ifs at h <;> rw [← Option.some.inj h] <;> exact ready_of_eq (s := s2) rfl rfl r2

/-- Every procedure of the evaluator, entered in a state as `Ready` says,
leaves such a state when it returns: no procedure changes the symbol table
or the flag of `set_funcs`, and a function token in the pushback slot was
looked up in the table. -/
theorem procs_ready (E : Env V) {T : Option (hashtable (List Char) (VarFn V))} (n : Nat) :
    (∀ buf pos (s : State V), Ready T s →
      ∀ x, eval_expr E n buf pos s = some x → Ready T x.2.2) ∧
    (∀ buf pos (s : State V), Ready T s →
      ∀ x, eval_term E n buf pos s = some x → Ready T x.2.2) ∧
    (∀ buf pos (s : State V), Ready T s →
      ∀ x, eval_fact E n buf pos s = some x → Ready T x.2.2) ∧
    (∀ buf pos (s : State V), Ready T s →
      ∀ x, eval_item E n buf pos s = some x → Ready T x.2.2) ∧
    (∀ buf pos args arg arglen argpos (s : State V), Ready T s →
      ∀ a, eval_args E n buf pos args arg arglen argpos s = some a → Ready T a.st) ∧
    (∀ d result (s : State V), Ready T s →
      ∀ x, eval E n d result s = some x → Ready T x.2.2) := by
  induction n with
  | zero =>
    refine ⟨?_, ?_, ?_, ?_, ?_, ?_⟩
    · intro buf pos s _ x h; simp [eval_expr] at h
    · intro buf pos s _ x h; simp [eval_term] at h
    · intro buf pos s _ x h; simp [eval_fact] at h
    · intro buf pos s _ x h; simp [eval_item] at h
    · intro buf pos args arg arglen argpos s _ x h; simp [eval_args] at h
    · intro d result s _ x h; simp [eval] at h
  | succ k ih =>
    obtain ⟨h1, h2, h3, h4, h5, h6⟩ := ih
    exact ⟨expr_ready_step E k h2 h1, term_ready_step E k h3 h2, fact_ready_step E k h4 h3,
      item_ready_step E k h3 h1 h5 h6, args_ready_step E k h1 h5, eval_ready_step E k h1⟩

theorem unread_le_succ (buf : List Char) (pos : Nat) {s : State V} (t : State V)
    (h : s.G_pb_token.type = NUL) : unread buf pos t ≤ unread buf pos s + 1 := by
  unfold unread
  rw [h]
  split_ifs <;> omega

/-- The percent loop returns when the fuel covers what is left to read. -/
theorem percent_halts (E : Env V) {T : Option (hashtable (List Char) (VarFn V))}
    (buf : List Char) (M : Nat) :
    ∀ (n pos : Nat) (rv : V) (tok : Token V) (s : State V), Ready T s →
      s.G_pb_token.type = NUL → TokOk T tok → unread buf pos s ≤ M →
      (tok.type ≠ NUL → unread buf pos s + 1 ≤ M) →
      (tok.type = '%' → unread buf pos s + 2 ≤ n) → 1 ≤ n →
      ∃ rv1 tok1 pos2 s2, percent_loop E n buf pos rv tok s = some (rv1, tok1, pos2, s2) ∧
        Ready T s2 ∧ s2.G_pb_token.type = NUL ∧ TokOk T tok1 ∧ unread buf pos2 s2 ≤ M ∧
        (tok1.type ≠ NUL → unread buf pos2 s2 + 1 ≤ M) := by
  intro n
  induction n with
  | zero => intro pos rv tok s _ _ _ _ _ _ h1; omega
  | succ k ih =>
    intro pos rv tok s hs hpb htok hM hM1 hf _
    by_cases hp : tok.type = '%'
    · obtain ⟨p1, p2, p3, p4, p5⟩ := pull_spec E buf pos s hs
      have hfk := hf hp
      simp only [percent_loop, if_pos hp]
      generalize pull_token E buf pos s = pr at p1 p2 p3 p4 p5
      obtain ⟨tok1, pos1, s1⟩ := pr
      dsimp only at p1 p2 p3 p4 p5 ⊢
      exact ih pos1 _ tok1 s1 p1 p3 p2 (by omega)
        (fun h => by have := p5 h; omega)
        (fun h => by
          have : tok1.type ≠ NUL := by rw [h]; decide
          have := p5 this
          omega) (by omega)
    · simp only [percent_loop, if_neg hp]
      exact ⟨rv, tok, pos, s, rfl, hs, hpb, htok, hM, hM1⟩

/-- The statements that end `eval_item` return when the fuel covers what is
left to read, and leave no more to read. -/
theorem tail_halts (E : Env V) {T : Option (hashtable (List Char) (VarFn V))}
    (buf : List Char) (n pos : Nat) (rv : V) {s t : State V} {m : Nat}
    (h1 : fixed_part t = fixed_part s) (h2 : t.G_pb_token = s.G_pb_token)
    (hs0 : Ready T s) (hm : unread buf pos s ≤ m) (hf : m + 1 ≤ n) :
    Halts T buf m (eval_item_tail E n buf pos rv t) := by
  have hs : Ready T t := ready_of_eq h1 h2 hs0
  rw [← unread_of_eq buf pos h2] at hm
  obtain ⟨p1, p2, p3, p4, p5⟩ := pull_spec E buf pos t hs
  unfold eval_item_tail
  generalize pull_token E buf pos t = pr at p1 p2 p3 p4 p5
  obtain ⟨tok, pos1, s1⟩ := pr
  dsimp only at p1 p2 p3 p4 p5 ⊢
  obtain ⟨rv1, tok1, pos2, s2, e, q1, q2, q3, q4, q5⟩ :=
    percent_halts E buf m n pos1 rv tok s1 p1 p3 p2 (by omega)
      (fun h => by have := p5 h; omega)
      (fun h => by
        have : tok.type ≠ NUL := by rw [h]; decide
        have := p5 this
        omega) (by omega)
  rw [e]
  dsimp only
  by_cases h0 : tok1.type ≠ NUL
  · rw [if_pos h0]
    obtain ⟨r1, r2, _, _⟩ := push_spec buf pos2 tok1 s2 q1 q3
    rw [if_neg h0] at r2
    exact ⟨_, _, _, rfl, r1, by have := q5 h0; omega⟩
  · rw [if_neg h0]
    exact ⟨_, _, _, rfl, q1, q4⟩

/-- `eval_expr` with one more unit of fuel, from `eval_term` and `eval_expr`. -/
theorem expr_halts_step (E : Env V) {T : Option (hashtable (List Char) (VarFn V))}
    (buf : List Char) (N n : Nat)
    (hterm : ∀ pos (s : State V), Ready T s → 4 * unread buf pos s + 4 + N ≤ n →
      Halts T buf (unread buf pos s) (eval_term E n buf pos s))
    (hexpr : ∀ pos (s : State V), Ready T s → 4 * unread buf pos s + 5 + N ≤ n →
      Halts T buf (unread buf pos s) (eval_expr E n buf pos s)) :
    ∀ pos (s : State V), Ready T s → 4 * unread buf pos s + 5 + N ≤ n + 1 →
      Halts T buf (unread buf pos s) (eval_expr E (n + 1) buf pos s) := by
  intro pos s hs hf
  obtain ⟨lhs, pos1, s1, e1, r1, m1⟩ := hterm pos s hs (by omega)
  simp only [eval_expr, e1]
  by_cases he1 : s1.G_eval_error ≠ 0
  · rw [if_pos he1]; exact ⟨_, _, _, rfl, r1, m1⟩
  · rw [if_neg he1]
    obtain ⟨p1, p2, p3, p4, p5⟩ := pull_spec E buf pos1 s1 r1
    generalize pull_token E buf pos1 s1 = pr at p1 p2 p3 p4 p5
    obtain ⟨tok, pos2, s2⟩ := pr
    dsimp only at p1 p2 p3 p4 p5 ⊢
    by_cases he2 : s2.G_eval_error ≠ 0
    · rw [if_pos he2]; exact ⟨_, _, _, rfl, p1, by omega⟩
    · rw [if_neg he2]
      by_cases h0 : tok.type = NUL
      · rw [if_pos h0]; exact ⟨_, _, _, rfl, p1, by omega⟩
      · rw [if_neg h0]
        have hm := p5 h0
        obtain ⟨q1, q2, _, _⟩ := push_spec buf pos2 tok s2 p1 p2
        rw [if_neg h0] at q2
        by_cases h1 : tok.type = '+'
        · rw [if_pos h1]
          obtain ⟨rhs, pos3, s3, e3, r3, m3⟩ := hexpr pos2 s2 p1 (by omega)
          rw [e3]; exact ⟨_, _, _, rfl, r3, by omega⟩
        · rw [if_neg h1]
          by_cases h2 : tok.type = '-'
          · rw [if_pos h2]
            obtain ⟨rhs, pos3, s3, e3, r3, m3⟩ := hexpr pos2 s2 p1 (by omega)
            rw [e3]; exact ⟨_, _, _, rfl, r3, by omega⟩
          · rw [if_neg h2]
            by_cases h3 : tok.type = ')'
            · rw [if_pos h3]; exact ⟨_, _, _, rfl, q1, by omega⟩
            · rw [if_neg h3]
              by_cases h4 : tok.type = ','
              · rw [if_pos h4]; exact ⟨_, _, _, rfl, q1, by omega⟩
              · rw [if_neg h4]; exact halts_of_eq (s := s2) rfl rfl p1 (by omega)

/-- `eval_term` with one more unit of fuel, from `eval_fact` and `eval_term`. -/
theorem term_halts_step (E : Env V) {T : Option (hashtable (List Char) (VarFn V))}
    (buf : List Char) (N n : Nat)
    (hfact : ∀ pos (s : State V), Ready T s → 4 * unread buf pos s + 3 + N ≤ n →
      Halts T buf (unread buf pos s) (eval_fact E n buf pos s))
    (hterm : ∀ pos (s : State V), Ready T s → 4 * unread buf pos s + 4 + N ≤ n →
      Halts T buf (unread buf pos s) (eval_term E n buf pos s)) :
    ∀ pos (s : State V), Ready T s → 4 * unread buf pos s + 4 + N ≤ n + 1 →
      Halts T buf (unread buf pos s) (eval_term E (n + 1) buf pos s) := by
  intro pos s hs hf
  obtain ⟨lhs, pos1, s1, e1, r1, m1⟩ := hfact pos s hs (by omega)
  simp only [eval_term, e1]
  by_cases he1 : s1.G_eval_error ≠ 0
  · rw [if_pos he1]; exact ⟨_, _, _, rfl, r1, m1⟩
  · rw [if_neg he1]
    obtain ⟨p1, p2, p3, p4, p5⟩ := pull_spec E buf pos1 s1 r1
    generalize pull_token E buf pos1 s1 = pr at p1 p2 p3 p4 p5
    obtain ⟨tok, pos2, s2⟩ := pr
    dsimp only at p1 p2 p3 p4 p5 ⊢
    by_cases he2 : s2.G_eval_error ≠ 0
    · rw [if_pos he2]; exact ⟨_, _, _, rfl, p1, by omega⟩
    · rw [if_neg he2]
      by_cases h0 : tok.type = NUL
      · rw [if_pos h0]; exact ⟨_, _, _, rfl, p1, by omega⟩
      · rw [if_neg h0]
        have hm := p5 h0
        obtain ⟨q1, q2, _, _⟩ := push_spec buf pos2 tok s2 p1 p2
        rw [if_neg h0] at q2
        have hrec : ∀ (f : V → V → V) (z : V) (c : V → Prop) [DecidablePred c],
            Halts T buf (unread buf pos s)
              (match eval_term E n buf pos2 s2 with
               | none => none
               | some (rhs, pos3, s3) =>
                 if c rhs then
                   some (z, pos3, { s3 with G_eval_error := EVAL_DIVIDE_BY_ZERO })
                 else some (f lhs rhs, pos3, s3)) := by
          intro f z c _
          obtain ⟨rhs, pos3, s3, e3, r3, m3⟩ := hterm pos2 s2 p1 (by omega)
          rw [e3]
          dsimp only
          by_cases hz : c rhs
          · rw [if_pos hz]; exact halts_of_eq (s := s3) rfl rfl r3 (by omega)
          · rw [if_neg hz]; exact ⟨_, _, _, rfl, r3, by omega⟩
        by_cases h1 : tok.type = '*'
        · rw [if_pos h1]
          obtain ⟨rhs, pos3, s3, e3, r3, m3⟩ := hterm pos2 s2 p1 (by omega)
          rw [e3]; exact ⟨_, _, _, rfl, r3, by omega⟩
        · rw [if_neg h1]
          by_cases h2 : tok.type = '/'
          · rw [if_pos h2]
            exact hrec E.A.div E.A.zero (fun rhs => E.A.isZero rhs = true)
          · rw [if_neg h2]
            by_cases h3 : tok.type = BSLASH
            · rw [if_pos h3]
              exact hrec E.A.fmod E.A.zero (fun rhs => E.A.isZero rhs = true)
            · rw [if_neg h3]; exact ⟨_, _, _, rfl, q1, by omega⟩

/-- `eval_fact` with one more unit of fuel, from `eval_item` and `eval_fact`. -/
theorem fact_halts_step (E : Env V) {T : Option (hashtable (List Char) (VarFn V))}
    (buf : List Char) (N n : Nat)
    (hitem : ∀ pos (s : State V), Ready T s → 4 * unread buf pos s + 2 + N ≤ n →
      Halts T buf (unread buf pos s) (eval_item E n buf pos s))
    (hfact : ∀ pos (s : State V), Ready T s → 4 * unread buf pos s + 3 + N ≤ n →
      Halts T buf (unread buf pos s) (eval_fact E n buf pos s)) :
    ∀ pos (s : State V), Ready T s → 4 * unread buf pos s + 3 + N ≤ n + 1 →
      Halts T buf (unread buf pos s) (eval_fact E (n + 1) buf pos s) := by
  intro pos s hs hf
  obtain ⟨lhs, pos1, s1, e1, r1, m1⟩ := hitem pos s hs (by omega)
  simp only [eval_fact, e1]
  by_cases he1 : s1.G_eval_error ≠ 0
  · rw [if_pos he1]; exact ⟨_, _, _, rfl, r1, m1⟩
  · rw [if_neg he1]
    obtain ⟨p1, p2, p3, p4, p5⟩ := pull_spec E buf pos1 s1 r1
    generalize pull_token E buf pos1 s1 = pr at p1 p2 p3 p4 p5
    obtain ⟨tok, pos2, s2⟩ := pr
    dsimp only at p1 p2 p3 p4 p5 ⊢
    by_cases he2 : s2.G_eval_error ≠ 0
    · rw [if_pos he2]; exact ⟨_, _, _, rfl, p1, by omega⟩
    · rw [if_neg he2]
      by_cases h0 : tok.type = NUL
      · rw [if_pos h0]; exact ⟨_, _, _, rfl, p1, by omega⟩
      · rw [if_neg h0]
        have hm := p5 h0
        obtain ⟨q1, q2, _, _⟩ := push_spec buf pos2 tok s2 p1 p2
        rw [if_neg h0] at q2
        by_cases h1 : tok.type = '^'
        · rw [if_pos h1]
          obtain ⟨rhs, pos3, s3, e3, r3, m3⟩ := hfact pos2 s2 p1 (by omega)
          rw [e3]
          dsimp only
          by_cases he3 : s3.G_eval_error ≠ 0
          · rw [if_pos he3]; exact ⟨_, _, _, rfl, r3, by omega⟩
          · rw [if_neg he3]; exact ⟨_, _, _, rfl, r3, by omega⟩
        · rw [if_neg h1]; exact ⟨_, _, _, rfl, q1, by omega⟩

/-- `eval_args` with one more unit of fuel, from `eval_expr` and `eval_args`. -/
theorem args_halts_step (E : Env V) {T : Option (hashtable (List Char) (VarFn V))}
    (buf : List Char) (N n : Nat)
    (hexpr : ∀ pos (s : State V), Ready T s → 4 * unread buf pos s + 5 + N ≤ n →
      Halts T buf (unread buf pos s) (eval_expr E n buf pos s))
    (hargs : ∀ pos args arg arglen argpos (s : State V), Ready T s →
      4 * unread buf pos s + 6 + N ≤ n →
      HaltsArgs T buf (unread buf pos s) (eval_args E n buf pos args arg arglen argpos s)) :
    ∀ pos args arg arglen argpos (s : State V), Ready T s →
      4 * unread buf pos s + 6 + N ≤ n + 1 →
      HaltsArgs T buf (unread buf pos s)
        (eval_args E (n + 1) buf pos args arg arglen argpos s) := by
  intro pos args arg arglen argpos s hs hf
  obtain ⟨p1, p2, p3, p4, p5⟩ := pull_spec E buf pos s hs
  simp only [eval_args]
  generalize pull_token E buf pos s = pr at p1 p2 p3 p4 p5
  obtain ⟨tok, pos1, s1⟩ := pr
  dsimp only at p1 p2 p3 p4 p5 ⊢
  obtain ⟨q1, q2, _, q4⟩ := push_spec buf pos1 tok s1 p1 p2
  have q5 := q4 p3
  have hm2 : unread buf pos1 (push_token tok s1).2 ≤ unread buf pos s := by
    by_cases h0 : tok.type = NUL
    · rw [if_pos h0] at q2; omega
    · rw [if_neg h0] at q2; have := p5 h0; omega
  by_cases hc : tok.type = ')'
  · rw [if_pos hc]
    obtain ⟨_, _, k3, _⟩ := push_spec buf pos1 tok (push_token tok s1).2 q1 p2
    have hne : (push_token tok s1).2.G_pb_token.type ≠ NUL := by rw [q5, hc]; decide
    rw [k3 hne]
    exact ⟨_, rfl, q1, hm2⟩
  · rw [if_neg hc]
    obtain ⟨a1, a2⟩ := ready_lalloc E buf pos1 (argpos ≥ arglen) (8 * (arglen + 8))
      (push_token tok s1).2 q1
    generalize (if argpos ≥ arglen then lalloc E (8 * (arglen + 8)) (push_token tok s1).2
      else (true, (push_token tok s1).2)) = a at a1 a2 ⊢
    by_cases ha : a.1 = false
    · rw [if_pos ha]
      exact ⟨_, rfl, a1, by show unread buf pos1 a.2 ≤ _; omega⟩
    · rw [if_neg ha]
      obtain ⟨v, pos2, s3, e3, r3, m3⟩ := hexpr pos1 a.2 a1 (by omega)
      rw [e3]
      dsimp only
      by_cases he3 : s3.G_eval_error ≠ 0
      · rw [if_pos he3]; exact ⟨_, rfl, r3, by dsimp only; omega⟩
      · rw [if_neg he3]
        obtain ⟨g1, g2, g3, g4, g5⟩ := pull_spec E buf pos2 s3 r3
        generalize pull_token E buf pos2 s3 = pr at g1 g2 g3 g4 g5
        obtain ⟨tok2, pos3, s4⟩ := pr
        dsimp only at g1 g2 g3 g4 g5 ⊢
        by_cases hcomma : tok2.type = ','
        · rw [if_pos hcomma]
          have h0 : tok2.type ≠ NUL := by rw [hcomma]; decide
          have := g5 h0
          obtain ⟨r, er, rr, mr⟩ := hargs pos3 (↑argpos + 1)
            ((if argpos ≥ arglen then copy_args arg arglen else arg).set argpos (some v))
            (if argpos ≥ arglen then arglen + 8 else arglen) (argpos + 1) s4 g1 (by omega)
          rw [er]
          dsimp only
          by_cases hrc : r.rc ≠ 0
          · rw [if_pos hrc]; exact ⟨_, rfl, rr, by dsimp only; omega⟩
          · rw [if_neg hrc]; exact ⟨_, rfl, rr, by omega⟩
        · rw [if_neg hcomma]
          by_cases hc2 : tok2.type = ')'
          · rw [if_pos hc2]
            have h0 : tok2.type ≠ NUL := by rw [hc2]; decide
            have := g5 h0
            obtain ⟨k1, k2, _, _⟩ := push_spec buf pos3 tok2 s4 g1 g2
            rw [if_neg h0] at k2
            exact ⟨_, rfl, k1, by dsimp only; omega⟩
          · rw [if_neg hc2]
            exact ⟨_, rfl, g1, by show unread buf pos3 s4 ≤ _; omega⟩

/-- `eval_item` with one more unit of fuel, from `eval_fact`, `eval_expr` and
`eval_args`.  The callable of a function token is native, so that the call
returns without entering the evaluator, or it is `cust_func`, whose
evaluation returns by `CallablesHalt`, in a state as `Ready` says, with at
most one token in the pushback slot. -/
theorem item_halts_step (E : Env V) {T : Option (hashtable (List Char) (VarFn V))}
    {N : Nat} (hC : CallablesHalt E N T) (buf : List Char) (n : Nat)
    (hfact : ∀ pos (s : State V), Ready T s → 4 * unread buf pos s + 3 + N ≤ n →
      Halts T buf (unread buf pos s) (eval_fact E n buf pos s))
    (hexpr : ∀ pos (s : State V), Ready T s → 4 * unread buf pos s + 5 + N ≤ n →
      Halts T buf (unread buf pos s) (eval_expr E n buf pos s))
    (hargs : ∀ pos args arg arglen argpos (s : State V), Ready T s →
      4 * unread buf pos s + 6 + N ≤ n →
      HaltsArgs T buf (unread buf pos s) (eval_args E n buf pos args arg arglen argpos s)) :
    ∀ pos (s : State V), Ready T s → 4 * unread buf pos s + 2 + N ≤ n + 1 →
      Halts T buf (unread buf pos s) (eval_item E (n + 1) buf pos s) := by
  intro pos s hs hf
  obtain ⟨p1, p2, p3, p4, p5⟩ := pull_spec E buf pos s hs
  simp only [eval_item]
  generalize pull_token E buf pos s = pr at p1 p2 p3 p4 p5
  obtain ⟨tok, pos1, s1⟩ := pr
  dsimp only at p1 p2 p3 p4 p5 ⊢
  by_cases he1 : s1.G_eval_error ≠ 0
  · rw [if_pos he1]; exact ⟨_, _, _, rfl, p1, p4⟩
  rw [if_neg he1]
  have hsign : ∀ f : V → V, tok.type ≠ NUL → Halts T buf (unread buf pos s)
      (match eval_fact E n buf pos1 s1 with
       | none => none
       | some (v, pos2, s2) => eval_item_tail E n buf pos2 (f v) s2) := by
    intro f h0
    have := p5 h0
    obtain ⟨v, pos2, s2, e2, r2, m2⟩ := hfact pos1 s1 p1 (by omega)
    rw [e2]
    exact tail_halts E buf n pos2 (f v) (s := s2) rfl rfl r2 (by omega) (by omega)
  by_cases h1 : tok.type = '+'
  · rw [if_pos h1]
    exact hsign (fun v => v) (by rw [h1]; decide)
  rw [if_neg h1]
  by_cases h2 : tok.type = '-'
  · rw [if_pos h2]
    exact hsign E.A.neg (by rw [h2]; decide)
  rw [if_neg h2]
  by_cases h3 : tok.type = 'v'
  · rw [if_pos h3]
    have := p5 (by rw [h3]; decide)
    exact tail_halts E buf n pos1 tok.value (s := s1) rfl rfl p1 (by omega) (by omega)
  rw [if_neg h3]
  by_cases h4 : tok.type = 'f'
  · rw [if_pos h4]
    have hm1 := p5 (by rw [h4]; decide)
    obtain ⟨name, vf, hlk, hvf, hfn, hdata⟩ := p2 h4
    obtain ⟨q1, q2, q3, q4, q5⟩ := pull_spec E buf pos1 s1 p1
    generalize pull_token E buf pos1 s1 = pr at q1 q2 q3 q4 q5
    obtain ⟨tok2, pos2, s2⟩ := pr
    dsimp only at q1 q2 q3 q4 q5 ⊢
    by_cases he2 : s2.G_eval_error ≠ 0
    · rw [if_pos he2]
      exact tail_halts E buf n pos2 _ (s := s2) rfl rfl q1 (by omega) (by omega)
    rw [if_neg he2]
    by_cases hp : tok2.type ≠ '('
    · rw [if_pos hp]
      exact tail_halts E buf n pos2 _ (s := s2) rfl rfl q1 (by omega) (by omega)
    rw [if_neg hp]
    have hm2 := q5 (by rw [not_not.mp hp]; decide)
    obtain ⟨a1, a2⟩ := ready_lalloc E buf pos2 (tok.args > 0)
      (8 * if tok.args > 0 then tok.args.toNat else 0) s2 q1
    generalize (if tok.args > 0 then lalloc E (8 * if tok.args > 0 then tok.args.toNat else 0) s2
      else (true, s2)) = a at a1 a2 ⊢
    by_cases ha : a.1 = false
    · rw [if_pos ha]
      exact tail_halts E buf n pos2 _ (s := a.2) rfl rfl a1 (by omega) (by omega)
    rw [if_neg ha]
    obtain ⟨r, er, rr, mr⟩ := hargs pos2 tok.args
      (List.replicate (if tok.args > 0 then tok.args.toNat else 0) none)
      (if tok.args > 0 then tok.args.toNat else 0) 0 a.2 a1 (by omega)
    rw [er]
    dsimp only
    by_cases hrc : r.rc ≠ 0
    · rw [if_pos hrc]
      exact tail_halts E buf n r.pos _ (s := r.st) rfl rfl rr (by omega) (by omega)
    rw [if_neg hrc]
    by_cases hcount : (tok.args < 0 ∧ r.args < 1) ∨ (¬ tok.args < 0 ∧ r.args ≠ tok.args)
    · rw [if_pos hcount]
      exact tail_halts E buf n r.pos _ (s := r.st) rfl rfl rr (by omega) (by omega)
    rw [if_neg hcount]
    obtain ⟨k1, k2, k3, k4, k5⟩ := pull_spec E buf r.pos r.st rr
    generalize pull_token E buf r.pos r.st = pr at k1 k2 k3 k4 k5
    obtain ⟨tok3, pos3, s3⟩ := pr
    dsimp only at k1 k2 k3 k4 k5 ⊢
    by_cases hclose : tok3.type ≠ ')'
    · rw [if_pos hclose]
      exact tail_halts E buf n pos3 _ (s := s3) rfl rfl k1 (by omega) (by omega)
    rw [if_neg hclose]
    by_cases he3 : s3.G_eval_error ≠ 0
    · rw [if_pos he3]
      exact tail_halts E buf n pos3 _ (s := s3) rfl rfl k1 (by omega) (by omega)
    rw [if_neg he3]
    have hm3 := k5 (by rw [not_not.mp hclose]; decide)
    cases hfp : tok.fn with
    | none => rw [hfn] at hfp; exact absurd hfp hvf
    | some fp =>
      cases fp with
      | native g =>
        dsimp only
        exact tail_halts E buf n pos3 _ (s := s3) (by split_ifs <;> rfl) (by split_ifs <;> rfl)
          k1 (by omega) (by omega)
      | cust_func =>
        dsimp only
        have r4 : Ready T ({ s3 with calls := s3.calls ++ [{ args := r.args, arg := r.arg }] } :
            State V) := ready_of_eq (s := s3) rfl rfl k1
        obtain ⟨w, ev⟩ := hC name vf hlk (hfn.symm.trans hfp) _ r4 n (by omega)
        rw [← hdata] at ev
        have r5 := (procs_ready E n).2.2.2.2.2 tok.data (some E.A.zero) _ r4 w ev
        obtain ⟨code, out, s5⟩ := w
        rw [ev]
        dsimp only at r5 ⊢
        have hu := unread_le_succ buf pos3 s5 k3
        exact tail_halts E buf n pos3 _ (s := s5) (by split_ifs <;> rfl)
          (by split_ifs <;> rfl) r5 (by omega) (by omega)
  rw [if_neg h4]
  by_cases h5 : tok.type = 'n'
  · rw [if_pos h5]
    have := p5 (by rw [h5]; decide)
    exact tail_halts E buf n pos1 tok.value (s := s1) rfl rfl p1 (by omega) (by omega)
  rw [if_neg h5]
  by_cases h6 : tok.type = '('
  · rw [if_pos h6]
    have := p5 (by rw [h6]; decide)
    obtain ⟨v, pos2, s2, e2, r2, m2⟩ := hexpr pos1 s1 p1 (by omega)
    rw [e2]
    dsimp only
    obtain ⟨q1, q2, q3, q4, q5⟩ := pull_spec E buf pos2 s2 r2
    generalize pull_token E buf pos2 s2 = pr at q1 q2 q3 q4 q5
    obtain ⟨tok2, pos3, s3⟩ := pr
    dsimp only at q1 q2 q3 q4 q5 ⊢
    exact tail_halts E buf n pos3 _ (s := s3) (by split_ifs <;> rfl) (by split_ifs <;> rfl)
      q1 (by omega) (by omega)
  rw [if_neg h6]
  obtain ⟨q1, q2, _, _⟩ := push_spec buf pos1 tok s1 p1 p2
  have hm2 : unread buf pos1 (push_token tok s1).2 ≤ unread buf pos s := by
    by_cases h0 : tok.type = NUL
    · rw [if_pos h0] at q2; omega
    · rw [if_neg h0] at q2; have := p5 h0; omega
  exact tail_halts E buf n pos1 _ (s := (push_token tok s1).2) rfl rfl q1 hm2 (by omega)

/-- Every grammar procedure returns when its fuel is at least four times what
is left to read plus a constant (5 for `eval_expr`, 4 for `eval_term`, 3 for
`eval_fact`, 2 for `eval_item` and 6 for `eval_args`) plus the fuel `N` that
suffices for the callables. -/
theorem procs_halt (E : Env V) {T : Option (hashtable (List Char) (VarFn V))}
    {N : Nat} (hC : CallablesHalt E N T) (buf : List Char) (n : Nat) :
    (∀ pos (s : State V), Ready T s → 4 * unread buf pos s + 5 + N ≤ n →
      Halts T buf (unread buf pos s) (eval_expr E n buf pos s)) ∧
    (∀ pos (s : State V), Ready T s → 4 * unread buf pos s + 4 + N ≤ n →
      Halts T buf (unread buf pos s) (eval_term E n buf pos s)) ∧
    (∀ pos (s : State V), Ready T s → 4 * unread buf pos s + 3 + N ≤ n →
      Halts T buf (unread buf pos s) (eval_fact E n buf pos s)) ∧
    (∀ pos (s : State V), Ready T s → 4 * unread buf pos s + 2 + N ≤ n →
      Halts T buf (unread buf pos s) (eval_item E n buf pos s)) ∧
    (∀ pos args arg arglen argpos (s : State V), Ready T s →
      4 * unread buf pos s + 6 + N ≤ n →
      HaltsArgs T buf (unread buf pos s) (eval_args E n buf pos args arg arglen argpos s)) := by
  induction n with
  | zero =>
    refine ⟨?_, ?_, ?_, ?_, ?_⟩
    · intro pos s _ h; omega
    · intro pos s _ h; omega
    · intro pos s _ h; omega
    · intro pos s _ h; omega
    · intro pos args arg arglen argpos s _ h; omega
  | succ k ih =>
    obtain ⟨h1, h2, h3, h4, h5⟩ := ih
    exact ⟨expr_halts_step E buf N k h2 h1, term_halts_step E buf N k h3 h2,
      fact_halts_step E buf N k h4 h3, item_halts_step E hC buf k h3 h1 h5,
      args_halts_step E buf N k h1 h5⟩

/-- A call of `eval` on a text returns when its fuel is at least eight times
the length of the text plus six plus the fuel `N` that suffices for the
callables of the table it tokenizes against. -/
theorem eval_halts (E : Env V) (buf : List Char) (result : Option V) (s : State V)
    {N : Nat} (hC : CallablesHalt E N (eval_table E s)) (fuel : Nat)
    (hf : 8 * buf.length + 6 + N ≤ fuel) :
    ∃ r, eval E fuel (some buf) result s = some r := by
  obtain ⟨k, rfl⟩ : ∃ k, fuel = k + 1 := ⟨fuel - 1, by omega⟩
  have hr : Ready (eval_table E s)
      { (set_funcs E { s with recurse := s.recurse + 1 }).2 with
        G_eval_error := 0, G_pb_token := null_token E } :=
    ⟨by
      show ((set_funcs E { s with recurse := s.recurse + 1 }).2.G_varfn_table,
        (set_funcs E { s with recurse := s.recurse + 1 }).2.done) = (eval_table E s, true)
      rw [set_funcs_done]; rfl,
     fun h => absurd (show NUL = 'f' from h) (by decide)⟩
  have hu : unread buf 0
      { (set_funcs E { s with recurse := s.recurse + 1 }).2 with
        G_eval_error := 0, G_pb_token := null_token E } = 2 * buf.length := by
    simp [unread, null_token]
  obtain ⟨rv, p, t, e, _, _⟩ := (procs_halt E hC buf k).1 0 _ hr (by rw [hu]; omega)
  simp only [eval, e]
  split_ifs <;> exact ⟨_, rfl⟩

/-- In a table that binds no name to `cust_func` the callables terminate,
with no fuel at all. -/
theorem native_callables_halt (E : Env V) {T : Option (hashtable (List Char) (VarFn V))}
    (hT : AllNative T) (N : Nat) : CallablesHalt E N T :=
  fun name vf hl hfn => absurd hfn (hT name vf hl)

/-- The evaluation of a text that `eval_expr` evaluates without error
returns, in every state as `Ready` says, with one unit of fuel more than
`eval_expr` needs. -/
theorem eval_returns_of_yields (E : Env V) {T : Option (hashtable (List Char) (VarFn V))}
    {e : List Char} {v : V} {n : Nat} (h : YieldsFrom n E (eval_expr E) stopE T e v)
    (s : State V) (hs : Ready T s) (result : Option V) (fuel : Nat) (hf : n + 1 ≤ fuel) :
    ∃ r, eval E fuel (some e) result s = some r := by
  obtain ⟨f, rfl⟩ : ∃ f, fuel = f + 1 := ⟨fuel - 1, by omega⟩
  have hd : s.done = true := congrArg Prod.snd hs.1
  have ht : s.G_varfn_table = T := congrArg Prod.fst hs.1
  have e0 : (set_funcs E { s with recurse := s.recurse + 1 }).2 =
      { s with recurse := s.recurse + 1 } := by
    simp [set_funcs, hd]
  obtain ⟨p1, s1, r1, _, _, _, _⟩ := h f (by omega) e 0
    ({ s with recurse := s.recurse + 1, G_eval_error := 0, G_pb_token := null_token E } : State V)
    [] (Or.inl ⟨rfl, by simp⟩) (Or.inl rfl) rfl ht hd
  simp only [eval, e0, r1]
  split_ifs <;> exact ⟨_, rfl⟩

/-- The callables of a table terminate when every record that holds
`cust_func` has for context one text that `eval_expr` evaluates without
error. -/
theorem callables_halt_of_text (E : Env V) {T0 : hashtable (List Char) (VarFn V)}
    (hw : WellFormed T0) {e : List Char} {v : V} {n : Nat}
    (hc : cust_contexts (some T0) (some e) = true)
    (h : YieldsFrom n E (eval_expr E) stopE (some T0) e v) :
    CallablesHalt E (n + 1) (some T0) := by
  intro name vf hl hfn s hs fuel hf
  obtain ⟨hb, hbm, hbv, _⟩ := lookup_mem hw hl
  have hd : vf.data = some e := by
    simp only [cust_contexts, List.all_eq_true] at hc
    have := hc hb hbm
    rw [hbv] at this
    dsimp only at this
    rw [hfn] at this
    simpa using this
  rw [hd]
  exact eval_returns_of_yields E h s hs _ fuel hf

/-! ## Termination: the built-ins are native -/

/-- Defining a native callable leaves no record that holds `cust_func`. -/
theorem def_fn_body_native (E : Env V) (hm : ∀ i, E.malloc i = true) (name : List Char)
    (g : Int → List (Option V) → Data → Int × Option V) (data : Data) (args : Int)
    (s : State V) (hs : TableOk s) (ha : NativeRecords s) :
    NativeRecords (eval_def_fn_body E name (some (FunctionPtr.native g)) data args s).2 := by
  obtain ⟨T, h1, h2, h3, h4, h⟩ :=
    def_fn_body_cases E hm name (some (FunctionPtr.native g)) data args s hs
  have haT : ∀ hb ∈ live T, ∀ f, hb.val = some f → f.fn ≠ some FunctionPtr.cust_func := by
    cases hT : s.G_varfn_table with
    | none =>
      rw [h3 hT, create_live]
      intro hb hm0; simp at hm0
    | some T0 => rw [h4 T0 hT]; exact ha T0 hT
  have key : ∀ vf T1, vf.fn = some (FunctionPtr.native g) → SymPut name vf T T1 →
      (eval_def_fn_body E name (some (FunctionPtr.native g)) data args s).2.G_varfn_table
        = some T1 →
      NativeRecords (eval_def_fn_body E name (some (FunctionPtr.native g)) data args s).2 := by
    intro vf T1 hvf hp ht1 T2 hT2 hb hbm f hf
    rw [ht1] at hT2
    rw [← Option.some.inj hT2] at hbm
    rcases SymPut_vals h2.1 hp hb hbm with hv | ⟨y, hy, hv⟩
    · rw [hv] at hf; rw [← Option.some.inj hf, hvf]; simp
    · exact haT y hy f (hv.trans hf)
  rcases h with ⟨f, _, _, h5⟩ | ⟨f, T1, _, _, hp, _, h6⟩ | ⟨T1, _, hp, _, h6⟩
  · rw [h5]
    intro T2 hT2
    have : T2 = T := by
      dsimp only at hT2; rw [h1] at hT2; exact (Option.some.inj hT2).symm
    rw [this]; exact haT
  · exact key _ T1 rfl hp h6
  · exact key _ T1 rfl hp h6

theorem set_funcs_loop_native (E : Env V) (hm : ∀ i, E.malloc i = true) (l : List String) :
    ∀ (i : Nat) (s : State V), TableOk s → NativeRecords s →
      NativeRecords (set_funcs_loop E l i s).2 := by
  induction l with
  | nil => exact fun _ _ _ ha => ha
  | cons nm rest ih =>
    intro i s hs ha
    have h1 := def_fn_body_native E hm nm.toList (E.fn i) none (fnargs.getD i 0) s hs ha
    have h2 := def_fn_body_ok E hm nm.toList (some (FunctionPtr.native (E.fn i))) none
      (fnargs.getD i 0) s hs
    simp only [set_funcs_loop]
    split_ifs
    · exact h1
    · exact ih _ _ h2 h1

/-- With a `malloc` that does not fail, the table `eval` tokenizes against
binds no name to `cust_func` if the table of the state holds no such
record: the built-ins that `set_funcs` installs are native. -/
theorem eval_table_native (E : Env V) (hm : ∀ i, E.malloc i = true) (s : State V)
    (hs : TableOk s) (ha : NativeRecords s) : AllNative (eval_table E s) := by
  have hs1 : TableOk ({ s with recurse := s.recurse + 1 } : State V) := fun ht h => hs ht h
  have ha1 : NativeRecords ({ s with recurse := s.recurse + 1 } : State V) :=
    fun T h => ha T h
  have hok := set_funcs_ok E hm _ hs1
  have hn : NativeRecords (set_funcs E { s with recurse := s.recurse + 1 }).2 := by
    unfold set_funcs
    split_ifs
    · exact ha1
    · exact set_funcs_loop_native E hm _ _ _ (fun ht h => hs ht h) (fun T h => ha T h)
  intro name vf hl
  unfold eval_table at hl
  cases hT : (set_funcs E { s with recurse := s.recurse + 1 }).2.G_varfn_table with
  | none => rw [hT] at hl; simp [ht_lookup] at hl
  | some T =>
    rw [hT] at hl
    obtain ⟨hb, hbm, hbv, _⟩ := lookup_mem (hok T hT).1 hl
    exact hn T hT hb hbm vf hbv

/-- A freshly loaded program has no symbol table yet. -/
theorem initial_native (E : Env V) (hm : ∀ i, E.malloc i = true) :
    AllNative (eval_table E (initial_state E)) :=
  eval_table_native E hm _ (fun ht h => by simp [initial_state] at h)
    (fun T h => by simp [initial_state] at h)

/-! ## The claims C1 to C10 -/

/-- The two-operator texts over literals that the claims C1, C2, C9 and C10
are about, as expressions for `eval_expr`. -/
theorem literal_term (E : Env V) (T : Option (hashtable (List Char) (VarFn V)))
    {w : List Char} (hw : is_literal w = true) (hlen : w.length < 100) :
    Yields E (eval_term E) stopT T w (E.A.strtod w) :=
  term_of_fact E (Yields_mono E (fun _ h => stopF_of_stopT h)
    (fact_of_item E (Yields_mono E (fun _ h => stopI_of_stopF h) (item_literal E T hw hlen))))

theorem literal_fact (E : Env V) (T : Option (hashtable (List Char) (VarFn V)))
    {w : List Char} (hw : is_literal w = true) (hlen : w.length < 100) :
    Yields E (eval_fact E) stopF T w (E.A.strtod w) :=
  fact_of_item E (Yields_mono E (fun _ h => stopI_of_stopF h) (item_literal E T hw hlen))

theorem expr_of_termT (E : Env V) {T : Option (hashtable (List Char) (VarFn V))}
    {e : List Char} {v : V} (h : Yields E (eval_term E) stopT T e v) :
    Yields E (eval_expr E) stopE T e v :=
  expr_of_term E (Yields_mono E (fun _ h => stopT_of_stopE h) h)

theorem term_of_factF (E : Env V) {T : Option (hashtable (List Char) (VarFn V))}
    {e : List Char} {v : V} (h : Yields E (eval_fact E) stopF T e v) :
    Yields E (eval_term E) stopT T e v :=
  term_of_fact E (Yields_mono E (fun _ h => stopF_of_stopT h) h)

/-- C1. Multiplication binds tighter than addition: for numeric literals `a`,
`b`, `c` of fewer than 100 characters, with enough fuel `eval` on `a+b*c`
returns 0 and stores `a+(b*c)`, and on `a*b+c` returns 0 and stores
`(a*b)+c`. -/
theorem C1_mul_binds_tighter (E : Env V) (s : State V) (result : Option V)
    (a b c : List Char) (ha : is_literal a = true) (hb : is_literal b = true)
    (hc : is_literal c = true) (hla : a.length < 100) (hlb : b.length < 100)
    (hlc : c.length < 100) :
    ∃ n, ∀ fuel, n ≤ fuel →
      outcome (eval E fuel (some (a ++ '+' :: (b ++ '*' :: c))) result s) =
        some (0, result.map (fun _ =>
          E.A.add (E.A.strtod a) (E.A.mul (E.A.strtod b) (E.A.strtod c)))) ∧
      outcome (eval E fuel (some (a ++ '*' :: (b ++ '+' :: c))) result s) =
        some (0, result.map (fun _ =>
          E.A.add (E.A.mul (E.A.strtod a) (E.A.strtod b)) (E.A.strtod c))) := by
  obtain ⟨n1, h1⟩ := eval_of_yields E s result
    (expr_add E (literal_term E _ ha hla)
      (expr_of_termT E (term_mul E (literal_fact E _ hb hlb) (literal_term E _ hc hlc))))
  have h2' := eval_of_yields E s result
    (expr_add E (term_mul E (literal_fact E _ ha hla) (literal_term E _ hb hlb))
      (expr_of_termT E (literal_term E _ hc hlc)))
  obtain ⟨n2, h2⟩ := h2'
  refine ⟨max n1 n2, fun fuel hf => ⟨h1 fuel (by omega), ?_⟩⟩
  have := h2 fuel (by omega)
  simpa using this

/-- C1 at `2+3*4` and `2*3+4` in exact arithmetic: the values are 14 and 10. -/
theorem C1_witness :
    ∃ n, ∀ fuel, n ≤ fuel →
      outcome (eval exactEnv fuel (some "2+3*4".toList) (some ⟨0, 1⟩)
        (initial_state exactEnv)) = some (0, some ⟨14, 1⟩) ∧
      outcome (eval exactEnv fuel (some "2*3+4".toList) (some ⟨0, 1⟩)
        (initial_state exactEnv)) = some (0, some ⟨10, 1⟩) :=
  C1_mul_binds_tighter exactEnv (initial_state exactEnv) (some ⟨0, 1⟩)
    "2".toList "3".toList "4".toList (by decide) (by decide) (by decide)
    (by decide) (by decide) (by decide)

/-- C3 (defect). The text `(1/0+2)` makes `eval` return the Syntax error (1),
not Divide by zero (2): after the failed `eval_expr` the group case of
`eval_item` takes the pending `+` for a missing `)`.  The same division at top
level and inside a function argument does return 2. -/
theorem C3_group_division_by_zero_reports_syntax_error :
    run "(1/0+2)" = some (1, some ⟨0, 1⟩) ∧ run "1/0+2" = some (2, some ⟨0, 1⟩) ∧
      run "sum(1/0+2)" = some (2, some ⟨0, 1⟩) := by
  decide!

/-- C4 (defect). With `foo` unbound, `1/foo` makes `eval` return Divide by
zero (2) although the first error raised is Unknown name (3), the code `foo`
alone returns: `eval_term` tests the zero returned by the failed operand
without looking at the error flag. -/
theorem C4_error_flag_overwritten :
    run "1/foo" = some (2, some ⟨0, 1⟩) ∧ run "foo" = some (3, some ⟨0, 1⟩) := by
  decide!

/-- C5 (defect). A call with an empty argument list passes the arity check of
a function of fixed arity 1: `abs()` and `f()` return 0 and the callable is
invoked with count 1 and an array whose only cell was never written. -/
theorem C5_empty_call_passes_fixed_arity :
    run_calls "abs()" = some (0, some ⟨0, 1⟩, [⟨1, [none]⟩]) ∧
      (eval exactEnv 64 (some "f()".toList) (some ⟨0, 1⟩) state_f1).map
        (fun r => (r.1, r.2.1, r.2.2.calls)) = some (0, some ⟨7, 1⟩, [⟨1, [none]⟩]) := by
  decide!

/-- C8 (defect). The callable of `g` evaluates `1)` by a nested `eval`, which
returns 0 with output 1 and leaves `)` in the pushback slot; the outer
evaluation of `g()+1` then returns 0 with value 1, while with a callable that
returns the same status and output without calling `eval` it returns 2. -/
theorem C8_nested_eval_leaks_pushback :
    outcome (eval exactEnv 64 (some "1)".toList) (some ⟨0, 1⟩) state_g_nested) =
        some (0, some ⟨1, 1⟩) ∧
      outcome (eval exactEnv 64 (some "g()+1".toList) (some ⟨0, 1⟩) state_g_nested) =
        some (0, some ⟨1, 1⟩) ∧
      outcome (eval exactEnv 64 (some "g()+1".toList) (some ⟨0, 1⟩) state_g_plain) =
        some (0, some ⟨2, 1⟩) := by
  decide!

theorem natural_is_literal {w : List Char} (h : is_natural w = true) : is_literal w = true := by
  unfold is_natural at h
  unfold is_literal
  simp only [Bool.and_eq_true, List.all_eq_true] at h
  have hd : w.dropWhile isdigit = [] := by
    rw [List.dropWhile_eq_nil_iff]
    exact h.2
  simp [h.1, hd]

theorem additive_pair (E : Env V) (T : Option (hashtable (List Char) (VarFn V)))
    {a b c : List Char} {o1 o2 : Char} (ha : is_literal a = true) (hb : is_literal b = true)
    (hc : is_literal c = true) (hla : a.length < 100) (hlb : b.length < 100)
    (hlc : c.length < 100) (h1 : o1 = '+' ∨ o1 = '-') (h2 : o2 = '+' ∨ o2 = '-') :
    Yields E (eval_expr E) stopE T (a ++ o1 :: (b ++ o2 :: c))
      (binop E.A o1 (E.A.strtod a) (binop E.A o2 (E.A.strtod b) (E.A.strtod c))) := by
  have ta := literal_term E T ha hla
  have tb := literal_term E T hb hlb
  have tc := literal_term E T hc hlc
  have inner : Yields E (eval_expr E) stopE T (b ++ o2 :: c)
      (binop E.A o2 (E.A.strtod b) (E.A.strtod c)) := by
    rcases h2 with h | h <;> subst h
    · exact expr_add E tb (expr_of_termT E tc)
    · exact expr_sub E tb (expr_of_termT E tc)
  rcases h1 with h | h <;> subst h
  · exact expr_add E ta inner
  · exact expr_sub E ta inner

theorem multiplicative_pair (E : Env V) (T : Option (hashtable (List Char) (VarFn V)))
    {a b c : List Char} {o1 o2 : Char} (ha : is_literal a = true) (hb : is_literal b = true)
    (hc : is_literal c = true) (hla : a.length < 100) (hlb : b.length < 100)
    (hlc : c.length < 100) (h1 : o1 = '*' ∨ o1 = '/') (h2 : o2 = '*' ∨ o2 = '/')
    (hz2 : o2 = '/' → E.A.isZero (E.A.strtod c) = false)
    (hz1 : o1 = '/' → E.A.isZero (binop E.A o2 (E.A.strtod b) (E.A.strtod c)) = false) :
    Yields E (eval_expr E) stopE T (a ++ o1 :: (b ++ o2 :: c))
      (binop E.A o1 (E.A.strtod a) (binop E.A o2 (E.A.strtod b) (E.A.strtod c))) := by
  have fa := literal_fact E T ha hla
  have fb := literal_fact E T hb hlb
  have tc := literal_term E T hc hlc
  have inner : Yields E (eval_term E) stopT T (b ++ o2 :: c)
      (binop E.A o2 (E.A.strtod b) (E.A.strtod c)) := by
    rcases h2 with h | h <;> subst h
    · exact term_mul E fb tc
    · exact term_div E fb tc (hz2 rfl)
  rcases h1 with h | h <;> subst h
  · exact expr_of_termT E (term_mul E fa inner)
  · exact expr_of_termT E (term_div E fa inner (hz1 rfl))

/-- C2 as stated fails: a literal of 100 characters is rejected, so
`a+1+1` with `a` one hundred nines returns Bad literal (4), not a value. -/
theorem C2_counterexample :
    is_literal hundred_nines = true ∧
      run_chars (hundred_nines ++ "+1+1".toList) = some (4, some ⟨0, 1⟩) := by
  decide!

/-- C2 (amended). Operators of the same level group to the right: for
numeric literals `a`, `b`, `c` of fewer than 100 characters, with enough fuel
`eval` on `a o1 b o2 c` returns 0 and stores `a o1 (b o2 c)` when `o1`, `o2`
are `+` or `-`, and also when they are `*` or `/` and neither divisor (`c`
for `o2`, `b o2 c` for `o1`) is zero. -/
theorem C2_same_level_groups_right (E : Env V) (s : State V) (result : Option V)
    (a b c : List Char) (o1 o2 : Char) (ha : is_literal a = true) (hb : is_literal b = true)
    (hc : is_literal c = true) (hla : a.length < 100) (hlb : b.length < 100)
    (hlc : c.length < 100) :
    ((o1 = '+' ∨ o1 = '-') → (o2 = '+' ∨ o2 = '-') →
      ∃ n, ∀ fuel, n ≤ fuel →
        outcome (eval E fuel (some (a ++ o1 :: (b ++ o2 :: c))) result s) =
          some (0, result.map (fun _ =>
            binop E.A o1 (E.A.strtod a) (binop E.A o2 (E.A.strtod b) (E.A.strtod c))))) ∧
    ((o1 = '*' ∨ o1 = '/') → (o2 = '*' ∨ o2 = '/') →
      (o2 = '/' → E.A.isZero (E.A.strtod c) = false) →
      (o1 = '/' → E.A.isZero (binop E.A o2 (E.A.strtod b) (E.A.strtod c)) = false) →
      ∃ n, ∀ fuel, n ≤ fuel →
        outcome (eval E fuel (some (a ++ o1 :: (b ++ o2 :: c))) result s) =
          some (0, result.map (fun _ =>
            binop E.A o1 (E.A.strtod a) (binop E.A o2 (E.A.strtod b) (E.A.strtod c))))) := by
  constructor
  · intro h1 h2
    exact eval_of_yields E s result (additive_pair E _ ha hb hc hla hlb hlc h1 h2)
  · intro h1 h2 hz2 hz1
    exact eval_of_yields E s result
      (multiplicative_pair E _ ha hb hc hla hlb hlc h1 h2 hz2 hz1)

/-- C2 at `2-3-4`, which gives 3, and at `8/4/2`, which gives 4. -/
theorem C2_witness :
    (∃ n, ∀ fuel, n ≤ fuel →
      outcome (eval exactEnv fuel (some "2-3-4".toList) (some ⟨0, 1⟩)
        (initial_state exactEnv)) = some (0, some ⟨3, 1⟩)) ∧
    (∃ n, ∀ fuel, n ≤ fuel →
      outcome (eval exactEnv fuel (some "8/4/2".toList) (some ⟨0, 1⟩)
        (initial_state exactEnv)) = some (0, some ⟨4, 1⟩)) :=
  ⟨(C2_same_level_groups_right exactEnv (initial_state exactEnv) (some ⟨0, 1⟩)
      "2".toList "3".toList "4".toList '-' '-' (by decide) (by decide) (by decide)
      (by decide) (by decide) (by decide)).1 (Or.inr rfl) (Or.inr rfl),
   (C2_same_level_groups_right exactEnv (initial_state exactEnv) (some ⟨0, 1⟩)
      "8".toList "4".toList "2".toList '/' '/' (by decide) (by decide) (by decide)
      (by decide) (by decide) (by decide)).2 (Or.inr rfl) (Or.inr rfl)
      (fun _ => by decide) (fun _ => by decide)⟩

/-- C9 as stated fails: `-2^2` evaluates to -4, while `(-2)^2` is 4. -/
theorem C9_counterexample :
    run "-2^2" = some (0, some ⟨-4, 1⟩) ∧
      exactArith.pow (exactArith.neg (exactArith.strtod "2".toList))
        (exactArith.strtod "2".toList) = ⟨4, 1⟩ := by
  decide!

/-- C9 (amended). In `-a^b` with numeric literals `a`, `b` of fewer than 100
characters the exponent is applied first and the sign to the power: with
enough fuel `eval` returns 0 and stores `-(a^b)`. -/
theorem C9_unary_minus_negates_the_power (E : Env V) (s : State V) (result : Option V)
    (a b : List Char) (ha : is_literal a = true) (hb : is_literal b = true)
    (hla : a.length < 100) (hlb : b.length < 100) :
    ∃ n, ∀ fuel, n ≤ fuel →
      outcome (eval E fuel (some ('-' :: (a ++ '^' :: b))) result s) =
        some (0, result.map (fun _ => E.A.neg (E.A.pow (E.A.strtod a) (E.A.strtod b)))) :=
  eval_of_yields E s result
    (expr_of_termT E (term_of_factF E (fact_of_item E
      (item_neg E (fact_pow E (item_literal E _ ha hla) (literal_fact E _ hb hlb))))))

/-- C9 (amended) at `-2^2`, which gives -4. -/
theorem C9_witness :
    ∃ n, ∀ fuel, n ≤ fuel →
      outcome (eval exactEnv fuel (some "-2^2".toList) (some ⟨0, 1⟩)
        (initial_state exactEnv)) = some (0, some ⟨-4, 1⟩) :=
  C9_unary_minus_negates_the_power exactEnv (initial_state exactEnv) (some ⟨0, 1⟩)
    "2".toList "2".toList (by decide) (by decide) (by decide) (by decide)

/-- C10 as stated fails: a natural-number literal of 100 digits is rejected,
so `a^1^1` with `a` one hundred nines returns Bad literal (4). -/
theorem C10_counterexample :
    is_natural hundred_nines = true ∧
      run_chars (hundred_nines ++ "^1^1".toList) = some (4, some ⟨0, 1⟩) := by
  decide!

/-- C10 (amended). Exponentiation is right-associative: for natural-number
literals `a`, `b`, `c` of fewer than 100 digits, with enough fuel `eval` on
`a^b^c` returns 0 and stores `a^(b^c)`. -/
theorem C10_power_groups_right (E : Env V) (s : State V) (result : Option V)
    (a b c : List Char) (ha : is_natural a = true) (hb : is_natural b = true)
    (hc : is_natural c = true) (hla : a.length < 100) (hlb : b.length < 100)
    (hlc : c.length < 100) :
    ∃ n, ∀ fuel, n ≤ fuel →
      outcome (eval E fuel (some (a ++ '^' :: (b ++ '^' :: c))) result s) =
        some (0, result.map (fun _ =>
          E.A.pow (E.A.strtod a) (E.A.pow (E.A.strtod b) (E.A.strtod c)))) :=
  eval_of_yields E s result
    (expr_of_termT E (term_of_factF E
      (fact_pow E (item_literal E _ (natural_is_literal ha) hla)
        (fact_pow E (item_literal E _ (natural_is_literal hb) hlb)
          (literal_fact E _ (natural_is_literal hc) hlc)))))

/-- C10 (amended) at `2^3^2`, which gives 512. -/
theorem C10_witness :
    ∃ n, ∀ fuel, n ≤ fuel →
      outcome (eval exactEnv fuel (some "2^3^2".toList) (some ⟨0, 1⟩)
        (initial_state exactEnv)) = some (0, some ⟨512, 1⟩) :=
  C10_power_groups_right exactEnv (initial_state exactEnv) (some ⟨0, 1⟩)
    "2".toList "3".toList "2".toList (by decide) (by decide) (by decide)
    (by decide) (by decide) (by decide)
/-- The sum of two literals is an error-free argument expression. -/
theorem arg_sum (E : Env V) (T : Option (hashtable (List Char) (VarFn V)))
    {a b : List Char} (ha : is_literal a = true) (hb : is_literal b = true)
    (hla : a.length < 100) (hlb : b.length < 100) :
    ArgExpr E T (a ++ '+' :: b) (E.A.add (E.A.strtod a) (E.A.strtod b)) := by
  refine ⟨fun buf pos s rest hpb _ hd _ => ?_, ?_⟩
  · have hd1 : buf.drop pos = a ++ ('+' :: (b ++ rest)) := by simpa using hd
    rw [pull_literal E s hpb hd1 ha hla (by intro c hc; simp at hc; subst hc; decide)]
    refine ⟨by simp [num_token, NUL], by simp [num_token], (copy_str_keeps E a 0 s).1⟩
  · exact expr_add E (literal_term E T ha hla) (expr_of_termT E (literal_term E T hb hlb))

theorem state_ready_done : state_ready.done = true := by
  unfold state_ready
  exact set_funcs_done exactEnv (initial_state exactEnv)

set_option maxRecDepth 100000 in
set_option maxHeartbeats 4000000 in
theorem sum_lookup :
    ht_lookup state_ready.G_varfn_table (some "sum".toList) = (0, some sum_entry) := by
  rfl

/-- C6. For a function of negative (variadic) arity with the built-ins
installed and a `malloc` that does not fail: with enough fuel, `eval` on the
call with an empty argument list returns the Argument-count error (10),
leaves the output slot alone and invokes no callable (the invocation log is
unchanged); on a call with `m >= 1` error-free argument expressions the last
entry of the invocation log is the call of the function's callable, with
argument count exactly `m`. -/
theorem C6_variadic_arity (E : Env V) (s : State V) (result : Option V)
    (name : List Char) (vf : VarFn V) (g : Int → List (Option V) → Data → Int × Option V)
    (es : List (List Char)) (vs : List V)
    (hm : ∀ i, E.malloc i = true) (hname : is_name name = true) (hnl : name.length ≤ 100)
    (hd : s.done = true) (hlook : ht_lookup s.G_varfn_table (some name) = (0, some vf))
    (hfn : vf.fn = some (FunctionPtr.native g)) (hvar : vf.nargs < 0)
    (hes : es ≠ []) (hargs : List.Forall₂ (ArgExpr E s.G_varfn_table) es vs) :
    (∃ n, ∀ fuel, n ≤ fuel → ∃ s1,
      eval E fuel (some (call_text name [])) result s = some (EVAL_ARGS_ERROR, result, s1) ∧
      s1.calls = s.calls) ∧
    (∃ n, ∀ fuel, n ≤ fuel → ∃ code out s1 arr,
      eval E fuel (some (call_text name es)) result s = some (code, out, s1) ∧
      s1.calls.getLast? = some ⟨(es.length : Int), arr⟩) := by
  constructor
  · refine ⟨6, fun fuel hf => ?_⟩
    obtain ⟨f, rfl⟩ : ∃ f, fuel = f + 4 := ⟨fuel - 4, by omega⟩
    obtain ⟨p1, s1, h1, he1, hc1⟩ := item_call_empty E hname hnl hlook hfn hvar f (by omega)
      (call_text name []) 0
      { s with recurse := s.recurse + 1, G_eval_error := 0, G_pb_token := null_token E } []
      (Or.inl ⟨rfl, by simp⟩) rfl rfl hd
    have he2 : s1.G_eval_error ≠ 0 := by rw [he1]; decide
    have h3 := expr_of_item_err E h1 he2
    obtain ⟨s2, hc, h4⟩ := eval_done_unfold E s hd _ result (f + 3) h3
    refine ⟨s2, ?_, by rw [hc]; simpa using hc1⟩
    rw [h4, he1]; simp [EVAL_ARGS_ERROR]
  · obtain ⟨n, hn⟩ := eval_call E s result hm hname hnl hd hlook hfn hes hargs (Or.inl hvar)
    refine ⟨n, fun fuel hf => ?_⟩
    obtain ⟨s1, arr, h1, _, h3⟩ := hn fuel hf
    exact ⟨_, _, s1, arr, h1, h3⟩

/-- C6 at the built-in `sum`: `sum()` returns the Argument-count error without
an invocation, and `sum(1,2+3,4)` invokes the callable with count 3. -/
theorem C6_witness :
    (∃ n, ∀ fuel, n ≤ fuel → ∃ s1,
      eval exactEnv fuel (some "sum()".toList) (some ⟨0, 1⟩) state_ready =
        some (10, some ⟨0, 1⟩, s1) ∧ s1.calls = state_ready.calls) ∧
    (∃ n, ∀ fuel, n ≤ fuel → ∃ code out s1 arr,
      eval exactEnv fuel (some "sum(1,2+3,4)".toList) (some ⟨0, 1⟩) state_ready =
        some (code, out, s1) ∧ s1.calls.getLast? = some ⟨3, arr⟩) :=
  C6_variadic_arity exactEnv state_ready (some ⟨0, 1⟩) "sum".toList sum_entry (exactEnv.fn 23)
    ["1".toList, "2+3".toList, "4".toList]
    [⟨1, 1⟩, ⟨5, 1⟩, ⟨4, 1⟩]
    (fun _ => rfl) (by decide) (by decide) state_ready_done sum_lookup rfl (by decide)
    (by simp)
    (List.Forall₂.cons (arg_literal exactEnv _ (by decide) (by decide))
      (List.Forall₂.cons
        (arg_sum exactEnv _ (a := "2".toList) (b := "3".toList) (by decide) (by decide)
          (by decide) (by decide))
        (List.Forall₂.cons (arg_literal exactEnv _ (by decide) (by decide)) List.Forall₂.nil)))

/-- C7. For a call of a native function with `m >= 1` error-free argument
expressions that satisfies the declared arity (negative, or equal to `m`),
with the built-ins installed and a `malloc` that does not fail: with enough
fuel, the last entry of the invocation log is the call of the callable with
count `m` and an array `arr` whose cell `i` holds the value of argument `i`
for every `i < m`, whatever `m` is; and the code and the value `eval` returns
are those the callable computes from `m` and `arr`. -/
theorem C7_arguments_in_order (E : Env V) (s : State V) (result : Option V)
    (name : List Char) (vf : VarFn V) (g : Int → List (Option V) → Data → Int × Option V)
    (es : List (List Char)) (vs : List V)
    (hm : ∀ i, E.malloc i = true) (hname : is_name name = true) (hnl : name.length ≤ 100)
    (hd : s.done = true) (hlook : ht_lookup s.G_varfn_table (some name) = (0, some vf))
    (hfn : vf.fn = some (FunctionPtr.native g)) (hes : es ≠ [])
    (hargs : List.Forall₂ (ArgExpr E s.G_varfn_table) es vs)
    (harity : vf.nargs < 0 ∨ vf.nargs = (es.length : Int)) :
    ∃ n, ∀ fuel, n ≤ fuel → ∃ s1 arr,
      eval E fuel (some (call_text name es)) result s =
        some (if (g (es.length : Int) arr vf.data).1 = 0 then 0 else EVAL_FUNCTION_ERROR,
              if (g (es.length : Int) arr vf.data).1 = 0 then
                result.map (fun _ => (g (es.length : Int) arr vf.data).2.getD E.A.zero)
              else result, s1) ∧
      s1.calls.getLast? = some ⟨(es.length : Int), arr⟩ ∧
      ∀ (i : Nat) (v : V), vs[i]? = some v → arr[i]? = some (some v) := by
  obtain ⟨n, hn⟩ := eval_call E s result hm hname hnl hd hlook hfn hes hargs harity
  refine ⟨n, fun fuel hf => ?_⟩
  obtain ⟨s1, arr, h1, h2, h3⟩ := hn fuel hf
  refine ⟨s1, arr, h1, h3, fun i v hv => ?_⟩
  have hlen : es.length = vs.length := hargs.length_eq
  have hi : i < vs.length := by
    rcases Nat.lt_or_ge i vs.length with h | h
    · exact h
    · rw [List.getElem?_eq_none h] at hv; cases hv
  have e1 : (arr.take es.length)[i]? = arr[i]? := by
    rw [List.getElem?_take, if_pos (by omega)]
  rw [← e1, h2, List.getElem?_map, hv]
  rfl

/-- C7 at `sum(1,2,3,4,5,6,7,8,9)`: nine arguments, so the array of eight
cells is regrown once, and the callable still gets all nine values. -/
theorem C7_witness :
    ∃ n, ∀ fuel, n ≤ fuel → ∃ s1 arr,
      eval exactEnv fuel (some "sum(1,2,3,4,5,6,7,8,9)".toList) (some ⟨0, 1⟩) state_ready =
        some (0, some ⟨1, 1⟩, s1) ∧
      s1.calls.getLast? = some ⟨9, arr⟩ ∧
      ∀ (i : Nat) (v : Exact), [(⟨1, 1⟩ : Exact), ⟨2, 1⟩, ⟨3, 1⟩, ⟨4, 1⟩, ⟨5, 1⟩, ⟨6, 1⟩, ⟨7, 1⟩, ⟨8, 1⟩,
          ⟨9, 1⟩][i]? = some v → arr[i]? = some (some v) := by
  obtain ⟨n, hn⟩ := C7_arguments_in_order exactEnv state_ready (some ⟨0, 1⟩) "sum".toList
    sum_entry (exactEnv.fn 23)
    ["1".toList, "2".toList, "3".toList, "4".toList, "5".toList, "6".toList, "7".toList,
      "8".toList, "9".toList]
    [⟨1, 1⟩, ⟨2, 1⟩, ⟨3, 1⟩, ⟨4, 1⟩, ⟨5, 1⟩, ⟨6, 1⟩, ⟨7, 1⟩, ⟨8, 1⟩, ⟨9, 1⟩]
    (fun _ => rfl) (by decide) (by decide) state_ready_done sum_lookup rfl (by simp)
    (List.Forall₂.cons (arg_literal exactEnv _ (by decide) (by decide))
      (List.Forall₂.cons (arg_literal exactEnv _ (by decide) (by decide))
        (List.Forall₂.cons (arg_literal exactEnv _ (by decide) (by decide))
          (List.Forall₂.cons (arg_literal exactEnv _ (by decide) (by decide))
            (List.Forall₂.cons (arg_literal exactEnv _ (by decide) (by decide))
              (List.Forall₂.cons (arg_literal exactEnv _ (by decide) (by decide))
                (List.Forall₂.cons (arg_literal exactEnv _ (by decide) (by decide))
                  (List.Forall₂.cons (arg_literal exactEnv _ (by decide) (by decide))
                    (List.Forall₂.cons (arg_literal exactEnv _ (by decide) (by decide))
                      List.Forall₂.nil)))))))))
    (Or.inl (by decide))
  refine ⟨n, fun fuel hf => ?_⟩
  obtain ⟨s1, arr, h1, h2, h3⟩ := hn fuel hf
  have h0 : arr[0]? = some (some ⟨1, 1⟩) := h3 0 ⟨1, 1⟩ rfl
  have hh : arr.headD none = some ⟨1, 1⟩ := by
    cases arr with
    | nil => simp at h0
    | cons a t => simpa using h0
  have hg : exactEnv.fn 23 (9 : Int) arr sum_entry.data = (0, some ⟨1, 1⟩) := by
    show ((0 : Int), arr.headD none) = (0, some ⟨1, 1⟩)
    rw [hh]
  refine ⟨s1, arr, h1.trans ?_, h2, h3⟩
  simp only [List.length_cons, List.length_nil, Nat.cast_ofNat, Nat.reduceAdd, hg, if_true,
    Option.map_some', Option.getD_some]

/-! ## The claims C11 to C20 -/

/-- C11, as stated, fails for a literal of one hundred digits: followed by one
percent sign it makes `eval` return the Bad-literal error (4). -/
theorem C11_counterexample :
    is_literal hundred_nines = true ∧
    run_chars (hundred_nines ++ ['%']) = some (4, some ⟨0, 1⟩) := by
  decide!

/-- C11, amended: a numeric literal `n` of fewer than 100 characters followed
by `k` percent signs, `k ≥ 0`: with enough fuel `eval` returns 0 and stores
the value of `n` divided by 100 `k` times. -/
theorem C11_percent_chain (E : Env V) (s : State V) (result : Option V) (n : List Char)
    (k : Nat) (hn : is_literal n = true) (hl : n.length < 100) :
    ∃ N, ∀ fuel, N ≤ fuel →
      outcome (eval E fuel (some (n ++ List.replicate k '%')) result s) =
        some (0, result.map (fun _ => percent E.A (E.A.strtod n) k)) :=
  eval_of_yields E s result
    (expr_of_termT E (term_of_factF E (fact_of_item E
      (Yields_mono E (fun _ h => stopI_of_stopF h) (item_literal_percent E _ hn hl k)))))

/-- C11 at `50%` and `50%%` in exact arithmetic: the values are 1/2 and
1/200. -/
theorem C11_witness :
    (∃ N, ∀ fuel, N ≤ fuel →
      outcome (eval exactEnv fuel (some "50%".toList) (some ⟨0, 1⟩) (initial_state exactEnv)) =
        some (0, some ⟨1, 2⟩)) ∧
    (∃ N, ∀ fuel, N ≤ fuel →
      outcome (eval exactEnv fuel (some "50%%".toList) (some ⟨0, 1⟩) (initial_state exactEnv)) =
        some (0, some ⟨1, 200⟩)) :=
  ⟨C11_percent_chain exactEnv (initial_state exactEnv) (some ⟨0, 1⟩) "50".toList 1
      (by decide) (by decide),
   C11_percent_chain exactEnv (initial_state exactEnv) (some ⟨0, 1⟩) "50".toList 2
      (by decide) (by decide)⟩

/-- C12: a text whose first token, after optional white space, is an
identifier of at most 100 characters that the symbol table does not bind
makes `eval` return `EVAL_UNKNOWN_NAME` (3) whatever follows the identifier,
and leaves the output slot alone. -/
theorem C12_unknown_name (E : Env V) (s : State V) (result : Option V)
    (ws name rest : List Char) (hws : ∀ c ∈ ws, isspace c = true)
    (hname : is_name name = true) (hlen : name.length ≤ 100)
    (hrest : ∀ c ∈ rest.head?, isident c = false)
    (hun : (ht_lookup (eval_table E s) (some name)).1 ≠ 0) :
    ∀ fuel, 5 ≤ fuel →
      outcome (eval E fuel (some (ws ++ (name ++ rest))) result s) = some (3, result) := by
  intro fuel hf
  obtain ⟨f, rfl⟩ : ∃ f, fuel = (f + 1 + 3) + 1 := ⟨fuel - 5, by omega⟩
  have hp := @pull_unknown V E (ws ++ (name ++ rest)) 0 ws name rest
    { (set_funcs E { s with recurse := s.recurse + 1 }).2 with
        G_eval_error := 0, G_pb_token := null_token E } rfl (by simp) hws hname hlen hrest hun
  have hi : eval_item E (f + 1) (ws ++ (name ++ rest)) 0
      { (set_funcs E { s with recurse := s.recurse + 1 }).2 with
          G_eval_error := 0, G_pb_token := null_token E } =
      some (E.A.zero, 0 + ws.length + name.length,
        { (set_funcs E { s with recurse := s.recurse + 1 }).2 with
          G_eval_error := EVAL_UNKNOWN_NAME, G_pb_token := null_token E }) := by
    simp [eval_item, hp, EVAL_UNKNOWN_NAME]
  have he := expr_of_item_err E hi (by simp [EVAL_UNKNOWN_NAME])
  rw [eval_unfold E s _ result _ he]
  simp [EVAL_UNKNOWN_NAME]

/-- C12 at `foo+1` and at `  foo $` on a freshly loaded program, where `foo`
is not bound. -/
theorem C12_witness :
    (∀ fuel, 5 ≤ fuel →
      outcome (eval exactEnv fuel (some "foo+1".toList) (some ⟨0, 1⟩) (initial_state exactEnv)) =
        some (3, some ⟨0, 1⟩)) ∧
    (∀ fuel, 5 ≤ fuel →
      outcome (eval exactEnv fuel (some "  foo $".toList) (some ⟨0, 1⟩)
        (initial_state exactEnv)) = some (3, some ⟨0, 1⟩)) :=
  ⟨C12_unknown_name exactEnv (initial_state exactEnv) (some ⟨0, 1⟩) [] "foo".toList
      "+1".toList (by decide) (by decide) (by decide) (by decide) (by decide!),
   C12_unknown_name exactEnv (initial_state exactEnv) (some ⟨0, 1⟩) "  ".toList "foo".toList
      " $".toList (by decide) (by decide) (by decide) (by decide) (by decide!)⟩

/-- C13: the code accepts texts in which an operand is missing.  The empty
text, `2+`, `*` and `()` all make `eval` return 0 (with the values 0, 2, 0
and 0), where C13 requires a non-zero code; a token that cannot continue an
expression (`2 3`) is rejected by `eval_expr` with the syntax error. -/
theorem C13_missing_operand_accepted :
    run "" = some (0, some ⟨0, 1⟩) ∧ run "2+" = some (0, some ⟨2, 1⟩) ∧
    run "*" = some (0, some ⟨0, 1⟩) ∧ run "()" = some (0, some ⟨0, 1⟩) ∧
    run "2 3" = some (1, some ⟨0, 1⟩) := by
  decide!

/-- C14: a group that is not closed makes `eval` return 1 (Syntax Error), not
7: on `(1+2` the return code is 1 and the output slot is untouched, and the
same holds for a call that is not closed, `abs(1`. -/
theorem C14_missing_close_reports_syntax_error :
    run "(1+2" = some (1, some ⟨0, 1⟩) ∧ run "abs(1" = some (1, some ⟨0, 1⟩) ∧
    run "(1+2)" = some (0, some ⟨3, 1⟩) := by
  decide!

/-- C15: a numeric literal of exactly 100 characters raises the Bad-literal
error: `pull_token` on one hundred nines returns the empty token with the
error flag set to 4 and `eval` returns 4, whereas ninety-nine nines evaluate
to their value and an identifier of exactly 100 characters is accepted. -/
theorem C15_literal_of_100_characters_rejected :
    hundred_nines.length = 100 ∧ is_literal hundred_nines = true ∧
    (pull_token exactEnv hundred_nines 0 (initial_state exactEnv)).1.type = NUL ∧
    (pull_token exactEnv hundred_nines 0 (initial_state exactEnv)).2.2.G_eval_error = 4 ∧
    run_chars hundred_nines = some (4, some ⟨0, 1⟩) ∧
    run_chars (List.replicate 99 '9') = some (0, some ⟨10 ^ 99 - 1, 1⟩) ∧
    outcome (eval exactEnv 64 (some (hundred_letters ++ ['(', ')'])) (some ⟨0, 1⟩)
      state_long_name) = some (0, some ⟨7, 1⟩) := by
  decide!

theorem state_bad_done : state_bad.done = true := by
  unfold state_bad eval_def_fn
  rw [eval_def_fn_body_done]
  exact set_funcs_done exactEnv (initial_state exactEnv)

set_option maxRecDepth 100000 in
set_option maxHeartbeats 4000000 in
theorem bad_lookup :
    ht_lookup state_bad.G_varfn_table (some "bad".toList) = (0, some bad_entry) := by
  rfl

set_option maxRecDepth 100000 in
set_option maxHeartbeats 4000000 in
theorem rand_lookup :
    ht_lookup state_ready.G_varfn_table (some "rand".toList) = (0, some rand_entry) := by
  rfl

/-- C16: for a text that is exactly one call `f(args)` of a native function,
with error-free argument expressions whose number satisfies the arity of `f`
(variadic with at least one argument, or fixed and equal to the number), with
the built-ins installed and a `malloc` that does not fail: with enough fuel the
callable is handed an array `arr` holding the argument values (no array when
there is no argument); if it returns a
non-zero status `eval` returns `EVAL_FUNCTION_ERROR` (9) and leaves the output
slot alone, and if it returns zero `eval` returns 0 and stores what the
callable wrote to its output slot (`0.0`, the initial content of that slot,
if it wrote nothing). -/
theorem C16_callable_status (E : Env V) (s : State V) (result : Option V)
    (name : List Char) (vf : VarFn V) (g : Int → List (Option V) → Data → Int × Option V)
    (es : List (List Char)) (vs : List V)
    (hm : ∀ i, E.malloc i = true) (hname : is_name name = true) (hnl : name.length ≤ 100)
    (hd : s.done = true) (hlook : ht_lookup s.G_varfn_table (some name) = (0, some vf))
    (hfn : vf.fn = some (FunctionPtr.native g))
    (hargs : List.Forall₂ (ArgExpr E s.G_varfn_table) es vs)
    (harity : (vf.nargs < 0 ∧ es ≠ []) ∨ vf.nargs = (es.length : Int)) :
    ∃ n, ∀ fuel, n ≤ fuel → ∃ arr, arr.take es.length = vs.map some ∧ (es = [] → arr = []) ∧
      ((g (es.length : Int) arr vf.data).1 ≠ 0 →
        outcome (eval E fuel (some (call_text name es)) result s) = some (9, result)) ∧
      ((g (es.length : Int) arr vf.data).1 = 0 →
        outcome (eval E fuel (some (call_text name es)) result s) =
          some (0, result.map (fun _ => (g (es.length : Int) arr vf.data).2.getD E.A.zero))) := by
  by_cases hes : es = []
  · subst hes
    have hz : vf.nargs = 0 := by
      rcases harity with h | h
      · exact absurd rfl h.2
      · simpa using h
    cases hargs
    refine ⟨6, fun fuel hf => ⟨[], rfl, fun _ => rfl, ?_⟩⟩
    obtain ⟨f, rfl⟩ : ∃ f, fuel = (f + 2 + 3) + 1 := ⟨fuel - 6, by omega⟩
    obtain ⟨p1, s1, h1, hT1, herr, _⟩ := item_call_nil E hname hnl hlook hfn hz (f + 2)
      (by omega) (call_text name []) 0
      { s with recurse := s.recurse + 1, G_eval_error := 0, G_pb_token := null_token E } []
      (Or.inl ⟨rfl, by simp⟩) (Or.inl rfl) rfl rfl hd
    constructor
    · intro hne
      have he1 : s1.G_eval_error = EVAL_FUNCTION_ERROR := by
        rw [herr]; simp only [List.length_nil, Nat.cast_zero] at hne; simp [hne]
      have he2 : s1.G_eval_error ≠ 0 := by rw [he1]; decide
      obtain ⟨s2, _, h4⟩ := eval_done_unfold E s hd _ result _ (expr_of_item_err E h1 he2)
      rw [h4, he1]; simp [outcome, EVAL_FUNCTION_ERROR]
    · intro hz0
      have he1 : s1.G_eval_error = 0 := by
        rw [herr]; simp only [List.length_nil, Nat.cast_zero] at hz0; simp [hz0]
      obtain ⟨s2, _, h4⟩ := eval_done_unfold E s hd _ result _ (expr_of_item_end E h1 he1 hT1)
      rw [h4, he1]; simp [outcome]
  · have harity1 : vf.nargs < 0 ∨ vf.nargs = (es.length : Int) := by
      rcases harity with h | h
      · exact Or.inl h.1
      · exact Or.inr h
    obtain ⟨n, hn⟩ := eval_call E s result hm hname hnl hd hlook hfn hes hargs harity1
    refine ⟨n, fun fuel hf => ?_⟩
    obtain ⟨s1, arr, h1, h2, _⟩ := hn fuel hf
    refine ⟨arr, h2, fun h => absurd h hes, fun hne => ?_, fun hz0 => ?_⟩
    · rw [h1]; simp [outcome, hne, EVAL_FUNCTION_ERROR]
    · rw [h1]; simp [outcome, hz0]

/-- C16 at three calls: `bad(1)`, whose callable stores 7 and returns 1, makes
`eval` return 9 with the output slot untouched; `sum(4)` returns 0 and stores
the 4 its callable wrote; `rand()`, of arity 0 and with a callable that
writes nothing here, returns 0 and stores `0.0`. -/
theorem C16_witness :
    (∃ n, ∀ fuel, n ≤ fuel →
      outcome (eval exactEnv fuel (some "bad(1)".toList) (some ⟨0, 1⟩) state_bad) =
        some (9, some ⟨0, 1⟩)) ∧
    (∃ n, ∀ fuel, n ≤ fuel →
      outcome (eval exactEnv fuel (some "sum(4)".toList) (some ⟨0, 1⟩) state_ready) =
        some (0, some ⟨4, 1⟩)) ∧
    (∃ n, ∀ fuel, n ≤ fuel →
      outcome (eval exactEnv fuel (some "rand()".toList) (some ⟨5, 1⟩) state_ready) =
        some (0, some ⟨0, 1⟩)) := by
  refine ⟨?_, ?_, ?_⟩
  · obtain ⟨n, hn⟩ := C16_callable_status exactEnv state_bad (some ⟨0, 1⟩) "bad".toList
      bad_entry failing_fn ["1".toList] [⟨1, 1⟩] (fun _ => rfl) (by decide) (by decide)
      state_bad_done bad_lookup rfl
      (List.Forall₂.cons (arg_literal exactEnv _ (by decide) (by decide)) List.Forall₂.nil)
      (Or.inr rfl)
    refine ⟨n, fun fuel hf => ?_⟩
    obtain ⟨arr, _, _, h1, _⟩ := hn fuel hf
    exact h1 (by simp [failing_fn])
  · obtain ⟨n, hn⟩ := C16_callable_status exactEnv state_ready (some ⟨0, 1⟩) "sum".toList
      sum_entry (exactEnv.fn 23) ["4".toList] [⟨4, 1⟩] (fun _ => rfl) (by decide) (by decide)
      state_ready_done sum_lookup rfl
      (List.Forall₂.cons (arg_literal exactEnv _ (by decide) (by decide)) List.Forall₂.nil)
      (Or.inl ⟨by decide, by simp⟩)
    refine ⟨n, fun fuel hf => ?_⟩
    obtain ⟨arr, h0, _, _, h2⟩ := hn fuel hf
    cases arr with
    | nil => simp at h0
    | cons a t =>
      have ha : a = some ⟨4, 1⟩ := by simpa using h0
      subst ha
      exact h2 rfl
  · obtain ⟨n, hn⟩ := C16_callable_status exactEnv state_ready (some ⟨5, 1⟩) "rand".toList
      rand_entry (exactEnv.fn 22) [] [] (fun _ => rfl) (by decide) (by decide)
      state_ready_done rand_lookup rfl List.Forall₂.nil (Or.inr rfl)
    refine ⟨n, fun fuel hf => ?_⟩
    obtain ⟨arr, _, ha, _, h2⟩ := hn fuel hf
    have ha1 : arr = [] := ha rfl
    subst ha1
    exact h2 rfl

/-- C17: `eval` called with a `NULL` text returns `EVAL_NULL_EXPRESSION`
(8), whatever the state; the output slot keeps its content, and nothing was
tokenized: the pushback slot, the error flag and the arena are as before
and no callable was invoked. -/
theorem C17_null_text_rejected (E : Env V) (fuel : Nat) (result : Option V) (s : State V) :
    ∃ s1, eval E (fuel + 1) none result s = some (8, result, s1) ∧
      s1.G_pb_token = s.G_pb_token ∧ s1.G_eval_error = s.G_eval_error ∧
      s1.G_cur_node = s.G_cur_node ∧ s1.G_cur_data_pos = s.G_cur_data_pos ∧
      s1.G_cur_data_size = s.G_cur_data_size ∧ s1.calls = s.calls := by
  have h := set_funcs_session E { s with recurse := s.recurse + 1 }
  refine ⟨(set_funcs E { s with recurse := s.recurse + 1 }).2, ?_, h.2.1, h.1, h.2.2.1,
    h.2.2.2.1, h.2.2.2.2.1, h.2.2.2.2.2.2⟩
  simp [eval, EVAL_NULL_EXPRESSION]

/-- C18: whatever the text (a `NULL` text included) and the state, when `eval`
returns a non-zero code the output slot holds what it held before the call,
and when `eval` returns 0 the text is not `NULL`, the top-level `eval_expr`
returned some value `rv`, and the output slot (if there is one) holds `rv`. -/
theorem C18_output_slot (E : Env V) (fuel : Nat) (text : Option (List Char))
    (result : Option V) (s : State V) (code : Int) (out : Option V)
    (h : outcome (eval E fuel text result s) = some (code, out)) :
    (code ≠ 0 → out = result) ∧
    (code = 0 → ∃ f buf rv pos s2, fuel = f + 1 ∧ text = some buf ∧
      eval_expr E f buf 0
        { (set_funcs E { s with recurse := s.recurse + 1 }).2 with
            G_eval_error := 0, G_pb_token := null_token E } = some (rv, pos, s2) ∧
      out = result.map (fun _ => rv)) := by
  cases fuel with
  | zero => simp [eval, outcome] at h
  | succ f =>
    cases text with
    | none =>
      simp only [eval, outcome, Option.map_some', Option.some.injEq, Prod.mk.injEq] at h
      obtain ⟨h1, h2⟩ := h
      refine ⟨fun _ => h2.symm, fun h0 => ?_⟩
      rw [h0] at h1
      exact absurd h1 (by decide)
    | some buf =>
      cases hx : eval_expr E f buf 0
        { (set_funcs E { s with recurse := s.recurse + 1 }).2 with
            G_eval_error := 0, G_pb_token := null_token E } with
      | none => simp [eval, outcome, hx] at h
      | some r =>
        obtain ⟨rv, pos, s2⟩ := r
        rw [eval_unfold E s buf result f hx] at h
        simp only [Option.some.injEq, Prod.mk.injEq] at h
        obtain ⟨h1, h2⟩ := h
        refine ⟨fun hne => ?_, fun h0 => ⟨f, buf, rv, pos, s2, rfl, rfl, hx, ?_⟩⟩
        · rw [← h2, if_neg (by rw [h1]; exact hne)]
        · rw [← h2, if_pos (by rw [h1]; exact h0)]

set_option maxRecDepth 100000 in
/-- C18 at `1/0`, which fails with code 2 and leaves the 5 of the output slot
in place, and at `2+3`, which returns 0 and stores over the 0 of the slot the
value 5 that the top-level `eval_expr` returned. -/
theorem C18_witness :
    (outcome (eval exactEnv 64 (some "1/0".toList) (some ⟨5, 1⟩) (initial_state exactEnv)) =
        some (2, some ⟨5, 1⟩) ∧ (some ⟨5, 1⟩ : Option Exact) = some ⟨5, 1⟩) ∧
    (outcome (eval exactEnv 64 (some "2+3".toList) (some ⟨0, 1⟩) (initial_state exactEnv)) =
        some (0, some ⟨5, 1⟩) ∧
      ∃ f pos s2, 64 = f + 1 ∧
        eval_expr exactEnv f "2+3".toList 0
          { (set_funcs exactEnv
              { initial_state exactEnv with recurse := (initial_state exactEnv).recurse + 1 }).2
            with G_eval_error := 0, G_pb_token := null_token exactEnv } =
          some (⟨5, 1⟩, pos, s2)) := by
  refine ⟨⟨by decide!, ?_⟩, ⟨by decide!, ?_⟩⟩
  · exact (C18_output_slot exactEnv 64 (some "1/0".toList) (some ⟨5, 1⟩)
      (initial_state exactEnv) 2 (some ⟨5, 1⟩) (by decide!)).1 (by decide)
  · obtain ⟨f, buf, rv, pos, s2, h1, h2, h3, h4⟩ :=
      (C18_output_slot exactEnv 64 (some "2+3".toList) (some ⟨0, 1⟩)
        (initial_state exactEnv) 0 (some ⟨5, 1⟩) (by decide!)).2 rfl
    have hb : buf = "2+3".toList := (Option.some.inj h2).symm
    have hv : rv = ⟨5, 1⟩ := by
      simp only [Option.map_some', Option.some.injEq] at h4
      exact h4.symm
    subst hb hv
    exact ⟨f, pos, s2, h1, h3⟩

/-- C19: a call of `eval` with a `NULL` text returns with the nesting depth
one higher than on entry, in every state.  On a freshly loaded program the
depth is then 1 for good: the next call, `eval("1")`, returns with depth 1 and
leaves its arena block allocated, where the same call on a fresh program
returns with depth 0 and an empty arena. -/
theorem C19_null_text_leaves_depth_raised (E : Env V) (fuel : Nat) (result : Option V)
    (s : State V) :
    (∃ s1, eval E (fuel + 1) none result s = some (8, result, s1) ∧
      s1.recurse = s.recurse + 1) ∧
    (initial_state exactEnv).recurse = 0 ∧ state_after_null.recurse = 1 ∧
    depth_and_arena (eval exactEnv 64 (some "1".toList) (some ⟨0, 1⟩) state_after_null) =
      some ⟨0, some ⟨1, 1⟩, 1, [5000], 2, 5000⟩ ∧
    depth_and_arena (eval exactEnv 64 (some "1".toList) (some ⟨0, 1⟩)
      (initial_state exactEnv)) = some ⟨0, some ⟨1, 1⟩, 0, [], 0, 0⟩ := by
  refine ⟨⟨(set_funcs E { s with recurse := s.recurse + 1 }).2, ?_, ?_⟩, ?_⟩
  · simp [eval, EVAL_NULL_EXPRESSION]
  · exact (set_funcs_session E { s with recurse := s.recurse + 1 }).2.2.2.2.2.1
  · decide!

set_option maxRecDepth 100000 in
/-- C20, the claim as worded: the outcome can depend on the arena the call
finds.  With a `malloc` that serves 36 allocations and then fails,
`state_freed` (after `eval("abs(1)")`) and `state_kept` (after `eval(NULL)`
and `eval("abs(1)")`) hold the same symbol table with the built-ins
installed, and 36 allocations were made in both; the arena is empty in the
first and holds a block with room in the second.  `eval("abs(1)")` returns
the Memory error (5) in the first, where the argument array needs a new
block, and 0 with the value 1 in the second.  The first state is the one the
first evaluation of `abs(1)` left, which had returned 0 with the value 1: the
same text evaluated twice in a row. -/
theorem C20_counterexample :
    state_kept.G_varfn_table = state_freed.G_varfn_table ∧
    (state_kept.done, state_kept.mallocs) = (state_freed.done, state_freed.mallocs) ∧
    arena_of state_freed = ([], 0, 0) ∧ arena_of state_kept = ([5000], 14, 5000) ∧
    outcome (eval (scarceEnv 36) 64 (some "abs(1)".toList) (some ⟨0, 1⟩)
      (initial_state exactEnv)) = some (0, some ⟨1, 1⟩) ∧
    outcome (eval (scarceEnv 36) 64 (some "abs(1)".toList) (some ⟨0, 1⟩) state_freed) =
      some (5, some ⟨0, 1⟩) ∧
    outcome (eval (scarceEnv 36) 64 (some "abs(1)".toList) (some ⟨0, 1⟩) state_kept) =
      some (0, some ⟨1, 1⟩) := by
  refine ⟨by rfl, by decide!, by decide!, by decide!, by decide!, by decide!, by decide!⟩

/-- C20 (amended): with a `malloc` that does not fail, the return code and the
output of `eval` on a text depend on the state only through the symbol table
and the flag that says whether the built-ins are installed: two states that
agree on these give the same outcome with the same fuel, whatever their error
flags, pushback slots, arenas and nesting depths.  Hence a second evaluation of the
same text, started in the state the first one left and writing to the same
output slot, returns the code and the output of the first. -/
theorem C20_determinism (E : Env V) (hm : ∀ i, E.malloc i = true) (fuel : Nat)
    (text : Option (List Char)) (result : Option V) (s s' : State V)
    (ht : s'.G_varfn_table = s.G_varfn_table) (hd : s'.done = s.done) :
    outcome (eval E fuel text result s') = outcome (eval E fuel text result s) ∧
    ∀ code out s1, eval E fuel text result s = some (code, out, s1) →
      outcome (eval E fuel text out s1) = some (code, out) := by
  cases fuel with
  | zero => exact ⟨by simp [eval], fun code out s1 h => by simp [eval] at h⟩
  | succ f =>
    -- the states the two calls tokenize in
    have hT : (set_funcs E { s' with recurse := s'.recurse + 1 }).2.G_varfn_table =
        (set_funcs E { s with recurse := s.recurse + 1 }).2.G_varfn_table :=
      set_funcs_tab E hm ht hd
    have hD := set_funcs_done E { s with recurse := s.recurse + 1 }
    have hD' := set_funcs_done E { s' with recurse := s'.recurse + 1 }
    cases text with
    | none =>
      refine ⟨by simp [eval, outcome], fun code out s1 h => ?_⟩
      simp only [eval, Option.some.injEq, Prod.mk.injEq] at h
      obtain ⟨h1, h2, _⟩ := h
      subst h1 h2
      simp [eval, outcome]
    | some buf =>
      have hp := (paired_all E (set_funcs E { s with recurse := s.recurse + 1 }).2.G_varfn_table
        hm f).1 buf 0
      constructor
      · rcases hp
          { (set_funcs E { s with recurse := s.recurse + 1 }).2 with
              G_eval_error := 0, G_pb_token := null_token E }
          { (set_funcs E { s' with recurse := s'.recurse + 1 }).2 with
              G_eval_error := 0, G_pb_token := null_token E }
          ⟨rfl, rfl, rfl, hT, hD, hD'⟩ with ⟨e1, e2⟩ | ⟨rv, p1, u, u', e1, e2, h2⟩
        · rw [eval_none_of_expr E s buf result f e1, eval_none_of_expr E s' buf result f e2]
        · rw [eval_unfold E s buf result f e1, eval_unfold E s' buf result f e2, h2.1]
      · intro code out s1 h
        rcases hx : eval_expr E f buf 0
          { (set_funcs E { s with recurse := s.recurse + 1 }).2 with
              G_eval_error := 0, G_pb_token := null_token E } with _ | ⟨rv, p1, u⟩
        · rw [eval_none_of_expr E s buf result f hx] at h; cases h
        -- the state the first call leaves
        obtain ⟨s1', hE, hT1, hd1⟩ := eval_state_of_expr E s buf result f hx
        rw [hE] at h
        simp only [Option.some.injEq, Prod.mk.injEq] at h
        obtain ⟨hc, hout, hs⟩ := h
        subst hs
        rcases hp
          { (set_funcs E { s with recurse := s.recurse + 1 }).2 with
              G_eval_error := 0, G_pb_token := null_token E }
          { (set_funcs E { s with recurse := s.recurse + 1 }).2 with
              G_eval_error := 0, G_pb_token := null_token E }
          ⟨rfl, rfl, rfl, rfl, hD, hD⟩ with ⟨e1, _⟩ | ⟨rv0, p0, u0, u0', e1, _, h2⟩
        · exact absurd (hx.symm.trans e1) (by simp)
        have e1' := hx.symm.trans e1
        simp only [Option.some.injEq, Prod.mk.injEq] at e1'
        obtain ⟨_, _, hu⟩ := e1'
        subst hu
        have hs1 : s1'.G_varfn_table =
            (set_funcs E { s with recurse := s.recurse + 1 }).2.G_varfn_table ∧
            s1'.done = true := ⟨hT1.trans h2.2.2.1, hd1.trans h2.2.2.2.2.1⟩
        have sf : (set_funcs E { s1' with recurse := s1'.recurse + 1 }).2 =
            { s1' with recurse := s1'.recurse + 1 } := by
          simp [set_funcs, hs1.2]
        rcases hp
          { (set_funcs E { s with recurse := s.recurse + 1 }).2 with
              G_eval_error := 0, G_pb_token := null_token E }
          { (set_funcs E { s1' with recurse := s1'.recurse + 1 }).2 with
              G_eval_error := 0, G_pb_token := null_token E }
          ⟨rfl, rfl, rfl, by rw [sf]; exact hs1.1, hD, by rw [sf]; exact hs1.2⟩ with
          ⟨e1, _⟩ | ⟨rv1, p1', w, w', e1, e2, h3⟩
        · exact absurd (hx.symm.trans e1) (by simp)
        have e1' := hx.symm.trans e1
        simp only [Option.some.injEq, Prod.mk.injEq] at e1'
        obtain ⟨hrv, _, hw⟩ := e1'
        subst hrv hw
        rw [eval_unfold E s1' buf out f e2, h3.1]
        subst hc
        by_cases he : u.G_eval_error = 0
        · rw [if_pos he] at hout
          rw [if_pos he, ← hout]
          cases result <;> rfl
        · rw [if_neg he]

set_option maxRecDepth 100000 in
/-- C20 at `2+3*4`, evaluated in `state_ready` and in `state_dirty`, which
holds the same table with the error flag set, a `)` in the pushback slot and a
used arena: both give 14.  And at `1)`, evaluated twice in a row on a freshly
loaded program: the first call returns 0 with value 1 and leaves the `)` in
the pushback slot, the second returns the same. -/
theorem C20_witness :
    (outcome (eval exactEnv 64 (some "2+3*4".toList) (some ⟨0, 1⟩) state_dirty) =
        outcome (eval exactEnv 64 (some "2+3*4".toList) (some ⟨0, 1⟩) state_ready) ∧
      outcome (eval exactEnv 64 (some "2+3*4".toList) (some ⟨0, 1⟩) state_ready) =
        some (0, some ⟨14, 1⟩)) ∧
    ∃ s1, eval exactEnv 64 (some "1)".toList) (some ⟨0, 1⟩) (initial_state exactEnv) =
        some (0, some ⟨1, 1⟩, s1) ∧ s1.G_pb_token.type = ')' ∧
      outcome (eval exactEnv 64 (some "1)".toList) (some ⟨1, 1⟩) s1) = some (0, some ⟨1, 1⟩) := by
  refine ⟨⟨(C20_determinism exactEnv (fun _ => rfl) 64 (some "2+3*4".toList) (some ⟨0, 1⟩)
    state_ready state_dirty rfl rfl).1, by decide!⟩, ?_⟩
  have h0 : (eval exactEnv 64 (some "1)".toList) (some ⟨0, 1⟩) (initial_state exactEnv)).map
      (fun r => (r.1, r.2.1, r.2.2.G_pb_token.type)) = some (0, some ⟨1, 1⟩, ')') := by
    decide!
  cases h : eval exactEnv 64 (some "1)".toList) (some ⟨0, 1⟩) (initial_state exactEnv) with
  | none => rw [h] at h0; cases h0
  | some r =>
    obtain ⟨code, out, s1⟩ := r
    rw [h] at h0
    simp only [Option.map_some', Option.some.injEq, Prod.mk.injEq] at h0
    obtain ⟨hc, ho, hp⟩ := h0
    subst hc ho
    exact ⟨s1, rfl, hp, (C20_determinism exactEnv (fun _ => rfl) 64 (some "1)".toList)
      (some ⟨0, 1⟩) (initial_state exactEnv) (initial_state exactEnv) rfl rfl).2 _ _ s1 h⟩

/-! ## The claims C21 to C30 -/

/-- C21, the bound as worded: the nesting of the procedures is not bounded by
the length of the text.  The text `1` has one character, and its evaluation
nests `eval`, `eval_expr`, `eval_term`, `eval_fact` and `eval_item`: with fuel
for five nested calls `eval` has no result, with fuel for six it returns 1.
The text `((1))` has five characters and needs fuel for fourteen. -/
theorem C21_counterexample :
    "1".toList.length = 1 ∧
    outcome (eval exactEnv 5 (some "1".toList) (some ⟨0, 1⟩) (initial_state exactEnv)) = none ∧
    outcome (eval exactEnv 6 (some "1".toList) (some ⟨0, 1⟩) (initial_state exactEnv)) =
      some (0, some ⟨1, 1⟩) ∧
    "((1))".toList.length = 5 ∧
    outcome (eval exactEnv 13 (some "((1))".toList) (some ⟨0, 1⟩) (initial_state exactEnv)) =
      none ∧
    outcome (eval exactEnv 14 (some "((1))".toList) (some ⟨0, 1⟩) (initial_state exactEnv)) =
      some (0, some ⟨1, 1⟩) := by
  decide!

/-- C21 (amended): `eval` terminates on every text when the callables do,
within a nesting depth that is linear in the length of the text.  The native
callables are total functions; `cust_func` returns when the evaluation of its
context does, which `CallablesHalt` assumes of every name bound to it, with
fuel `N`.  Then a call of `eval` on a text returns for every fuel (the depth
of nested calls of the procedures and rounds of the percent loop) of at least
eight times the length of the text plus six plus `N`, a call without a text
returns at once, and `eval_expr`, entered anywhere in the text, returns when
its fuel is at least four times what is left to read plus five plus `N`, and
leaves no more to read than it found: a procedure is entered again only after
a token was consumed.  When no name is bound to `cust_func`, eight times the
length plus six suffices. -/
theorem C21_termination (E : Env V) (s : State V) (N : Nat)
    (hC : CallablesHalt E N (eval_table E s)) (buf : List Char) (result : Option V) :
    (∀ fuel, 8 * buf.length + 6 + N ≤ fuel → ∃ r, eval E fuel (some buf) result s = some r) ∧
    (∀ fuel, 1 ≤ fuel → ∃ r, eval E fuel none result s = some r) ∧
    (∀ n pos (t : State V), Ready (eval_table E s) t → 4 * unread buf pos t + 5 + N ≤ n →
      Halts (eval_table E s) buf (unread buf pos t) (eval_expr E n buf pos t)) ∧
    (AllNative (eval_table E s) →
      ∀ fuel, 8 * buf.length + 6 ≤ fuel → ∃ r, eval E fuel (some buf) result s = some r) := by
  refine ⟨fun fuel hf => eval_halts E buf result s hC fuel hf, ?_,
    fun n => (procs_halt E hC buf n).1, fun hT fuel hf =>
      eval_halts E buf result s (native_callables_halt E hT 0) fuel hf⟩
  intro fuel hf
  obtain ⟨k, rfl⟩ : ∃ k, fuel = k + 1 := ⟨fuel - 1, by omega⟩
  exact ⟨_, rfl⟩

set_option maxRecDepth 100000 in
/-- C21 with a callable that enters the evaluator: in `state_g_one` the name
`g` is bound to `cust_func` with the text `1`, the callables terminate, and
`g()+1` is evaluated, to 2.  And in a freshly loaded program, where every
callable is native, on a text that breaks off inside a parenthesis. -/
theorem C21_witness :
    (∃ N, CallablesHalt exactEnv N (eval_table exactEnv state_g_one) ∧
      ∃ r, eval exactEnv (8 * 5 + 6 + N) (some "g()+1".toList) (some ⟨0, 1⟩) state_g_one
        = some r) ∧
    outcome (eval exactEnv 64 (some "g()+1".toList) (some ⟨0, 1⟩) state_g_one) =
      some (0, some ⟨2, 1⟩) ∧
    AllNative (eval_table exactEnv (initial_state exactEnv)) ∧
    ∃ r, eval exactEnv 46 (some "2*(3+".toList) none (initial_state exactEnv) = some r := by
  have hm : ∀ i, exactEnv.malloc i = true := fun _ => rfl
  have hok : TableOk (set_funcs exactEnv
      { state_g_one with recurse := state_g_one.recurse + 1 }).2 := by
    refine set_funcs_ok exactEnv hm _ ?_
    have h1 : TableOk state_g_one :=
      def_fn_body_ok exactEnv hm _ _ _ _ _
        (set_funcs_ok exactEnv hm _ (fun ht h => by simp [initial_state] at h))
    exact fun ht h => h1 ht h
  have hcc : cust_contexts (eval_table exactEnv state_g_one) (some "1".toList) = true := by
    decide!
  refine ⟨?_, by decide!, initial_native exactEnv hm, ?_⟩
  · obtain ⟨T0, hT⟩ : ∃ T0, eval_table exactEnv state_g_one = some T0 := by
      have hsome : (eval_table exactEnv state_g_one).isSome = true := by decide!
      exact Option.isSome_iff_exists.mp hsome
    obtain ⟨n, hn⟩ := expr_of_termT exactEnv
      (literal_term exactEnv (some T0) (w := "1".toList) (by decide) (by decide))
    have hC : CallablesHalt exactEnv (n + 1) (eval_table exactEnv state_g_one) := by
      rw [hT]
      exact callables_halt_of_text exactEnv (hok T0 hT).1 (by rw [← hT]; exact hcc) hn
    exact ⟨n + 1, hC, (C21_termination exactEnv state_g_one (n + 1) hC "g()+1".toList
      (some ⟨0, 1⟩)).1 _ (by simp)⟩
  · exact (C21_termination exactEnv (initial_state exactEnv) 0
      (native_callables_halt exactEnv (initial_native exactEnv hm) 0) "2*(3+".toList none).2.2.2
      (initial_native exactEnv hm) 46 (by decide)

/-- C22: with a `malloc` that does not fail, in a state whose symbol table is
as every call leaves it, for a name that is not bound as a function:
`eval_set_var(name, v)` returns 0; afterwards `eval_get_var(name)` returns 0
and stores `v` (when the pointer is not `NULL`); `eval_get_var` of every
name that `strcmp` tells from `name` returns the code and stores the value it
did before; `eval_get_var` of a name that a lookup does not find returns 2 and
stores nothing, and in a freshly loaded program that is so for every name
that is no built-in name. -/
theorem C22_variable_round_trip (E : Env V) (hm : ∀ i, E.malloc i = true) (s : State V)
    (hs : TableOk s) (name : List Char) (v : V)
    (hfree : ∀ f, ht_lookup (sym_table E s) (some name) = (0, some f) → f.fn = none) :
    (eval_set_var E name v s).1 = 0 ∧
    (∀ value, (eval_get_var E name value (eval_set_var E name v s).2).1 = 0 ∧
      (eval_get_var E name value (eval_set_var E name v s).2).2.1 = value.map (fun _ => v)) ∧
    (∀ name1 value, strcmp name1 name ≠ 0 →
      (eval_get_var E name1 value (eval_set_var E name v s).2).1 =
        (eval_get_var E name1 value s).1 ∧
      (eval_get_var E name1 value (eval_set_var E name v s).2).2.1 =
        (eval_get_var E name1 value s).2.1) ∧
    (∀ name2 value, (ht_lookup (sym_table E s) (some name2)).1 ≠ 0 →
      (eval_get_var E name2 value s).1 = 2 ∧ (eval_get_var E name2 value s).2.1 = value) ∧
    (∀ name2 value, (∀ nm ∈ fnname, strcmp name2 nm.toList ≠ 0) →
      (eval_get_var E name2 value (initial_state E)).1 = 2 ∧
      (eval_get_var E name2 value (initial_state E)).2.1 = value) := by
  have hok1 := set_var_ok E hm name v s hs
  obtain ⟨T, h1, h2, hd, h⟩ := set_var_cases E hm name v s hs
  have key : ∀ vf T1, vf.fn = none → vf.value = v → SymPut name vf T T1 →
      (eval_set_var E name v s).2.G_varfn_table = some T1 →
      (∀ value, (eval_get_var E name value (eval_set_var E name v s).2).1 = 0 ∧
        (eval_get_var E name value (eval_set_var E name v s).2).2.1 = value.map (fun _ => v)) ∧
      (∀ name1 value, strcmp name1 name ≠ 0 →
        (eval_get_var E name1 value (eval_set_var E name v s).2).1 =
          (eval_get_var E name1 value s).1 ∧
        (eval_get_var E name1 value (eval_set_var E name v s).2).2.1 =
          (eval_get_var E name1 value s).2.1) := by
    intro vf T1 hfn hval hp ht1
    have hst : sym_table E (eval_set_var E name v s).2 = some T1 := sym_table_of_done E hd ht1
    refine ⟨fun value => ?_, fun name1 value hne => ?_⟩
    · have := get_var_eq E hm _ hok1 name value
      rw [hst, SymPut_lookup h2 hp ((strcmp_zero_iff _ _).mpr rfl), get_result_var hfn,
        hval] at this
      exact ⟨congrArg Prod.fst this, congrArg Prod.snd this⟩
    · have e1 := get_var_eq E hm _ hok1 name1 value
      have e2 := get_var_eq E hm s hs name1 value
      rw [hst, SymPut_frame h2 hp hne, ← h1, ← e2] at e1
      exact ⟨(Prod.mk.inj e1).1, (Prod.mk.inj e1).2⟩
  have habs : ∀ (t : State V), TableOk t → ∀ name2 value,
      ht_lookup (sym_table E t) (some name2) = (2, none) →
      (eval_get_var E name2 value t).1 = 2 ∧ (eval_get_var E name2 value t).2.1 = value := by
    intro t ht name2 value hl
    have := get_var_eq E hm t ht name2 value
    rw [hl, get_result_absent] at this
    exact ⟨congrArg Prod.fst this, congrArg Prod.snd this⟩
  have hrest : (∀ name2 value, (ht_lookup (sym_table E s) (some name2)).1 ≠ 0 →
      (eval_get_var E name2 value s).1 = 2 ∧ (eval_get_var E name2 value s).2.1 = value) ∧
    (∀ name2 value, (∀ nm ∈ fnname, strcmp name2 nm.toList ≠ 0) →
      (eval_get_var E name2 value (initial_state E)).1 = 2 ∧
      (eval_get_var E name2 value (initial_state E)).2.1 = value) := by
    refine ⟨fun name2 value hl => ?_, fun name2 value hn => ?_⟩
    · refine habs s hs name2 value ?_
      rw [h1] at hl ⊢
      rcases sym_lookup_cases h2 name2 with ⟨f, hf⟩ | hnf
      · rw [hf] at hl; exact absurd rfl hl
      · exact hnf
    · exact habs _ (fun ht h0 => by simp [initial_state] at h0) name2 value
        (initial_unbound E hm name2 hn)
  rcases h with ⟨f, hf, hv, _, _⟩ | ⟨f, T1, hf, hv, hp, h5, h6⟩ | ⟨T1, hnf, hp, h5, h6⟩
  · exact absurd (hfree f (by rw [h1]; exact hf)) hv
  · obtain ⟨k1, k2⟩ := key _ T1 (by exact hv) rfl hp h6
    exact ⟨h5, k1, k2, hrest⟩
  · obtain ⟨k1, k2⟩ := key _ T1 rfl rfl hp h6
    exact ⟨h5, k1, k2, hrest⟩

/-- C22 in a freshly loaded program: `x` is set to 5 and read back, and `y`,
never bound, is not found. -/
theorem C22_witness :
    (eval_set_var exactEnv "x".toList ⟨5, 1⟩ (initial_state exactEnv)).1 = 0 ∧
    (eval_get_var exactEnv "x".toList (some ⟨0, 1⟩)
      (eval_set_var exactEnv "x".toList ⟨5, 1⟩ (initial_state exactEnv)).2).1 = 0 ∧
    (eval_get_var exactEnv "x".toList (some ⟨0, 1⟩)
      (eval_set_var exactEnv "x".toList ⟨5, 1⟩ (initial_state exactEnv)).2).2.1
        = some ⟨5, 1⟩ ∧
    (eval_get_var exactEnv "y".toList (some ⟨0, 1⟩) (initial_state exactEnv)).1 = 2 :=
  ⟨(C22_variable_round_trip exactEnv (fun _ => rfl) (initial_state exactEnv)
      (fun ht h0 => by simp [initial_state] at h0) "x".toList ⟨5, 1⟩
      (fun f h => by
        rw [initial_unbound exactEnv (fun _ => rfl) "x".toList (by decide)] at h
        simp at h)).1,
   ((C22_variable_round_trip exactEnv (fun _ => rfl) (initial_state exactEnv)
      (fun ht h0 => by simp [initial_state] at h0) "x".toList ⟨5, 1⟩
      (fun f h => by
        rw [initial_unbound exactEnv (fun _ => rfl) "x".toList (by decide)] at h
        simp at h)).2.1 (some ⟨0, 1⟩)).1,
   ((C22_variable_round_trip exactEnv (fun _ => rfl) (initial_state exactEnv)
      (fun ht h0 => by simp [initial_state] at h0) "x".toList ⟨5, 1⟩
      (fun f h => by
        rw [initial_unbound exactEnv (fun _ => rfl) "x".toList (by decide)] at h
        simp at h)).2.1 (some ⟨0, 1⟩)).2,
   ((C22_variable_round_trip exactEnv (fun _ => rfl) (initial_state exactEnv)
      (fun ht h0 => by simp [initial_state] at h0) "x".toList ⟨5, 1⟩
      (fun f h => by
        rw [initial_unbound exactEnv (fun _ => rfl) "x".toList (by decide)] at h
        simp at h)).2.2.2.2 "y".toList (some ⟨0, 1⟩) (by decide)).1⟩

/-- C23: when the name is bound as a function with a callable,
`eval_set_var(name, v)` returns 4 and leaves the state as `set_funcs` alone
would leave it, so the binding is what it was; when the name is bound as a
variable, `eval_def_fn(name, ...)` returns 4 and leaves the state in the same
way, so the variable keeps its value.  In a freshly loaded program with a
`malloc` that does not fail every built-in name is bound as a function with a
callable, and `eval_set_var` of it returns 4. -/
theorem C23_name_collision (E : Env V) (s : State V) (name : List Char) :
    (∀ f, ht_lookup (sym_table E s) (some name) = (0, some f) → f.fn ≠ none →
      ∀ v, eval_set_var E name v s = (4, (set_funcs E s).2) ∧
        ht_lookup (eval_set_var E name v s).2.G_varfn_table (some name) = (0, some f)) ∧
    (∀ f, ht_lookup (sym_table E s) (some name) = (0, some f) → f.fn = none →
      ∀ fn data args, eval_def_fn E name fn data args s = (4, (set_funcs E s).2) ∧
        ht_lookup (eval_def_fn E name fn data args s).2.G_varfn_table (some name)
          = (0, some f)) ∧
    ((∀ i, E.malloc i = true) → ∀ nm ∈ fnname,
      ∃ f, ht_lookup (sym_table E (initial_state E)) (some nm.toList) = (0, some f) ∧
        f.fn ≠ none ∧
        ∀ v, eval_set_var E nm.toList v (initial_state E) =
          (4, (set_funcs E (initial_state E)).2)) := by
  have part1 : ∀ (t : State V) (nm : List Char) f,
      ht_lookup (sym_table E t) (some nm) = (0, some f) → f.fn ≠ none →
      ∀ v, eval_set_var E nm v t = (4, (set_funcs E t).2) ∧
        ht_lookup (eval_set_var E nm v t).2.G_varfn_table (some nm) = (0, some f) := by
    intro t nm f hl hv v
    obtain ⟨h1, h2⟩ := sym_table_found E hl
    have hv1 : f.fn.isSome = true := Option.isSome_iff_ne_none.mpr hv
    have e : eval_set_var E nm v t = (4, (set_funcs E t).2) := by
      simp only [eval_set_var, h1, h2, hl, hv1, if_true]
    rw [e]
    exact ⟨rfl, by dsimp only; rw [h2]; exact hl⟩
  refine ⟨part1 s name, ?_, ?_⟩
  · intro f hl hv fn data args
    obtain ⟨h1, h2⟩ := sym_table_found E hl
    have e : eval_def_fn E name fn data args s = (4, (set_funcs E s).2) := by
      simp only [eval_def_fn, eval_def_fn_body, h1, h2, hl, hv, Option.isNone_none, if_true]
    rw [e]
    exact ⟨rfl, by dsimp only; rw [h2]; exact hl⟩
  · intro hm nm hnm
    obtain ⟨g1, g2, g3, _⟩ := set_funcs_initial E hm
    have hb := g3 nm hnm
    unfold Bound at hb
    cases hT : (set_funcs E (initial_state E)).2.G_varfn_table with
    | none => rw [hT] at hb; simp [ht_lookup] at hb
    | some T =>
      rw [hT] at hb
      have hst : sym_table E (initial_state E) = some T := by
        unfold sym_table; rw [ensure_table_some E hT]; exact hT
      rcases sym_lookup_cases (g1 T hT) nm.toList with ⟨f, hf⟩ | hnf
      · obtain ⟨hbk, hbm, hbv, _⟩ := lookup_mem (g1 T hT).1 hf
        have hfn : f.fn ≠ none := g2 T hT hbk hbm f hbv
        refine ⟨f, by rw [hst]; exact hf, hfn, fun v => ?_⟩
        exact (part1 (initial_state E) nm.toList f (by rw [hst]; exact hf) hfn v).1
      · rw [hnf] at hb; simp at hb

/-- C23 in a freshly loaded program: setting `sin` as a variable returns 4,
and once `x` is a variable, defining a function `x` returns 4 and `x` keeps
its value 5. -/
theorem C23_witness :
    (eval_set_var exactEnv "sin".toList ⟨5, 1⟩ (initial_state exactEnv)).1 = 4 ∧
    (eval_def_fn exactEnv "x".toList (some (FunctionPtr.native failing_fn)) none 1
      (eval_set_var exactEnv "x".toList ⟨5, 1⟩ (initial_state exactEnv)).2).1 = 4 ∧
    ∃ f, ht_lookup (eval_def_fn exactEnv "x".toList (some (FunctionPtr.native failing_fn))
        none 1 (eval_set_var exactEnv "x".toList ⟨5, 1⟩
          (initial_state exactEnv)).2).2.G_varfn_table (some "x".toList) = (0, some f) ∧
      f.value = ⟨5, 1⟩ := by
  obtain ⟨f0, _, _, h0⟩ := (C23_name_collision exactEnv (initial_state exactEnv)
    "sin".toList).2.2 (fun _ => rfl) "sin" (by decide)
  obtain ⟨hd, f, hf, hfn, hval⟩ := set_var_lookup exactEnv (fun _ => rfl) "x".toList ⟨5, 1⟩
    (initial_state exactEnv) (fun ht h0 => by simp [initial_state] at h0)
    (fun f h => by
      rw [initial_unbound exactEnv (fun _ => rfl) "x".toList (by decide)] at h
      simp at h)
  have hst : ht_lookup (sym_table exactEnv
      (eval_set_var exactEnv "x".toList ⟨5, 1⟩ (initial_state exactEnv)).2) (some "x".toList)
      = (0, some f) := by
    cases hT : (eval_set_var exactEnv "x".toList ⟨5, 1⟩
        (initial_state exactEnv)).2.G_varfn_table with
    | none => rw [hT] at hf; simp [ht_lookup] at hf
    | some T => rw [sym_table_of_done exactEnv hd hT, ← hT]; exact hf
  have h1 := (C23_name_collision exactEnv
    (eval_set_var exactEnv "x".toList ⟨5, 1⟩ (initial_state exactEnv)).2 "x".toList).2.1
    f hst hfn (some (FunctionPtr.native failing_fn)) none 1
  exact ⟨by rw [h0], by rw [h1.1], f, h1.2, hval⟩

/-- Redefining a function.  With a `malloc` that does not fail, in a state
whose symbol table is as every call leaves it, for a name bound as a function
with a callable: `eval_def_fn(name, fn, data, args)` returns 0 and a lookup
of the name then returns the record with callable, context and arity
replaced.  When the name is an identifier of at most 100 characters and the
new callable is native, a later `eval` of a call `name(e1,...,ek)` with
error-free arguments that satisfies the new arity (variadic with at least one
argument, or `k` equal to it) invokes the new callable with the argument
values and the new context: `eval` returns 9 when the callable returns
non-zero, and else 0 with what the callable stored; a call with at least one
argument whose number is not the new fixed arity makes `eval` return 10, the
Argument-count error. -/
theorem redefine_function_calls (E : Env V) (hm : ∀ i, E.malloc i = true) (s : State V)
    (hs : TableOk s) (name : List Char) (f : VarFn V)
    (hl : ht_lookup (sym_table E s) (some name) = (0, some f)) (hfn : f.fn ≠ none)
    (fn : Option (FunctionPtr V)) (data : Data) (args : Int) :
    (eval_def_fn E name fn data args s).1 = 0 ∧
    ht_lookup (eval_def_fn E name fn data args s).2.G_varfn_table (some name) =
      (0, some { f with fn := fn, data := data, nargs := args }) ∧
    (∀ g, fn = some (FunctionPtr.native g) → is_name name = true → name.length ≤ 100 →
      ∀ (es : List (List Char)) (vs : List V) (result : Option V),
      List.Forall₂ (ArgExpr E (eval_def_fn E name fn data args s).2.G_varfn_table) es vs →
      ((((args < 0 ∧ es ≠ []) ∨ args = (es.length : Int)) →
        ∃ n, ∀ fuel, n ≤ fuel → ∃ arr, arr.take es.length = vs.map some ∧
          (es = [] → arr = []) ∧
          ((g (es.length : Int) arr data).1 ≠ 0 →
            outcome (eval E fuel (some (call_text name es)) result
              (eval_def_fn E name fn data args s).2) = some (9, result)) ∧
          ((g (es.length : Int) arr data).1 = 0 →
            outcome (eval E fuel (some (call_text name es)) result
              (eval_def_fn E name fn data args s).2) =
              some (0, result.map (fun _ => (g (es.length : Int) arr data).2.getD E.A.zero)))) ∧
       (es ≠ [] → 0 ≤ args → args ≠ (es.length : Int) →
        ∃ n, ∀ fuel, n ≤ fuel →
          outcome (eval E fuel (some (call_text name es)) result
            (eval_def_fn E name fn data args s).2) = some (10, result)))) := by
  obtain ⟨h1, h2, h3⟩ := def_fn_replace E hm s hs name f hl hfn fn data args
  refine ⟨h1, h3, fun g hg hname hnl es vs result hargs => ⟨fun harity => ?_, fun hes h0 hne => ?_⟩⟩
  · exact call_outcome E _ result name { f with fn := fn, data := data, nargs := args } g es vs
      hm hname hnl h2 h3 hg hargs harity
  · exact eval_call_arity E _ result hm hname hnl h2 h3 hg hes hargs h0 hne

set_option maxRecDepth 100000 in
/-- In a freshly loaded program the built-in `sin`, of arity 1, is redefined
with arity 2, a context of three characters and a callable that stores the
number of arguments plus the length of the context; `sin(1,2)` then evaluates
to 5 and `sin(1)` is rejected with the Argument-count error. -/
theorem redefine_sin_calls :
    (eval_def_fn exactEnv "sin".toList (some (FunctionPtr.native context_fn))
      (some "abc".toList) 2 (initial_state exactEnv)).1 = 0 ∧
    (∃ n, ∀ fuel, n ≤ fuel →
      outcome (eval exactEnv fuel (some "sin(1,2)".toList) (some ⟨0, 1⟩)
        (eval_def_fn exactEnv "sin".toList (some (FunctionPtr.native context_fn))
          (some "abc".toList) 2 (initial_state exactEnv)).2) = some (0, some ⟨5, 1⟩)) ∧
    (∃ n, ∀ fuel, n ≤ fuel →
      outcome (eval exactEnv fuel (some "sin(1)".toList) (some ⟨0, 1⟩)
        (eval_def_fn exactEnv "sin".toList (some (FunctionPtr.native context_fn))
          (some "abc".toList) 2 (initial_state exactEnv)).2) = some (10, some ⟨0, 1⟩)) := by
  obtain ⟨g1, g2, g3, _⟩ := set_funcs_initial exactEnv (fun _ => rfl)
  have hb := g3 "sin" (by decide)
  unfold Bound at hb
  obtain ⟨T, hT⟩ : ∃ T, (set_funcs exactEnv (initial_state exactEnv)).2.G_varfn_table = some T := by
    cases hT : (set_funcs exactEnv (initial_state exactEnv)).2.G_varfn_table with
    | none => rw [hT] at hb; simp [ht_lookup] at hb
    | some T => exact ⟨T, rfl⟩
  have hst : sym_table exactEnv (initial_state exactEnv) = some T := by
    unfold sym_table; rw [ensure_table_some exactEnv hT]; exact hT
  rw [hT] at hb
  rcases sym_lookup_cases (g1 T hT) "sin".toList with ⟨f, hf⟩ | hnf
  · obtain ⟨hbk, hbm, hbv, _⟩ := lookup_mem (g1 T hT).1 hf
    have hfn : f.fn ≠ none := g2 T hT hbk hbm f hbv
    obtain ⟨c1, _, c3⟩ := redefine_function_calls exactEnv (fun _ => rfl) (initial_state exactEnv)
      (fun ht h0 => by simp [initial_state] at h0) "sin".toList f (by rw [hst]; exact hf) hfn
      (some (FunctionPtr.native context_fn)) (some "abc".toList) 2
    refine ⟨c1, ?_, ?_⟩
    · obtain ⟨n, hn⟩ := (c3 context_fn rfl (by decide) (by decide) ["1".toList, "2".toList]
        [⟨1, 1⟩, ⟨2, 1⟩] (some ⟨0, 1⟩)
        (List.Forall₂.cons (arg_literal exactEnv _ (by decide) (by decide))
          (List.Forall₂.cons (arg_literal exactEnv _ (by decide) (by decide))
            List.Forall₂.nil))).1 (Or.inr rfl)
      refine ⟨n, fun fuel hf => ?_⟩
      obtain ⟨arr, _, _, _, h2⟩ := hn fuel hf
      exact h2 rfl
    · exact (c3 context_fn rfl (by decide) (by decide) ["1".toList] [⟨1, 1⟩] (some ⟨0, 1⟩)
        (List.Forall₂.cons (arg_literal exactEnv _ (by decide) (by decide))
          List.Forall₂.nil)).2 (by simp) (by decide) (by decide)
  · rw [hnf] at hb; simp at hb

/-- C24 (defect). A call with an empty argument list is not checked against
the arity of a redefined function.  `eval_def_fn("sin", context_fn, "abc", 2)`
returns 0 and gives the built-in `sin` the arity 2; afterwards `sin(1)` is
rejected with the Argument-count error (10) and `sin(1,2)` evaluates to 5,
but `sin()` returns 0 with the value 5: the new callable is invoked with
count 2 and an array whose two cells were never written.  `eval_args` returns
at the closing parenthesis before it stores a count, so the test of the count
against the arity compares the arity with itself. -/
theorem C24_empty_call_skips_new_arity :
    (eval_def_fn exactEnv "sin".toList (some (FunctionPtr.native context_fn))
      (some "abc".toList) 2 (initial_state exactEnv)).1 = 0 ∧
    (eval exactEnv 64 (some "sin()".toList) (some ⟨0, 1⟩) state_sin2).map
      (fun r => (r.1, r.2.1, r.2.2.calls)) = some (0, some ⟨5, 1⟩, [⟨2, [none, none]⟩]) ∧
    (eval exactEnv 64 (some "sin(1)".toList) (some ⟨0, 1⟩) state_sin2).map
      (fun r => (r.1, r.2.1, r.2.2.calls)) = some (10, some ⟨0, 1⟩, []) ∧
    (eval exactEnv 64 (some "sin(1,2)".toList) (some ⟨0, 1⟩) state_sin2).map
      (fun r => (r.1, r.2.1, r.2.2.calls)) =
        some (0, some ⟨5, 1⟩, [⟨2, [some ⟨1, 1⟩, some ⟨2, 1⟩]⟩]) := by
  decide!

/-- C25: with a `malloc` that does not fail, in a state whose symbol table is
as every call leaves it, for an identifier of at most 100 characters that is
bound as a variable: with enough fuel, `eval` of the identifier returns 0 and
stores the value of the variable; `eval_set_var(name, w)` returns 0 and
afterwards `eval` of the same text returns 0 and stores `w`. -/
theorem C25_variable_evaluates (E : Env V) (hm : ∀ i, E.malloc i = true) (s : State V)
    (hs : TableOk s) (result : Option V) (name : List Char) (hname : is_name name = true)
    (hnl : name.length ≤ 100) (vf : VarFn V)
    (hlook : ht_lookup (eval_table E s) (some name) = (0, some vf)) (hv : vf.fn = none)
    (w : V) :
    (∃ n, ∀ fuel, n ≤ fuel →
      outcome (eval E fuel (some name) result s) = some (0, result.map (fun _ => vf.value))) ∧
    (eval_set_var E name w s).1 = 0 ∧
    (∃ n, ∀ fuel, n ≤ fuel →
      outcome (eval E fuel (some name) result (eval_set_var E name w s).2) =
        some (0, result.map (fun _ => w))) := by
  have hst := sym_table_of_eval E hm hlook
  have hfree : ∀ f, ht_lookup (sym_table E s) (some name) = (0, some f) → f.fn = none := by
    intro f hf
    rw [hst, hlook] at hf
    simp only [Prod.mk.injEq, Option.some.injEq, true_and] at hf
    rw [← hf]; exact hv
  obtain ⟨T, hT, _, _, h⟩ := set_var_cases E hm name w s hs
  obtain ⟨hd, f1, hf1, hfn1, hval1⟩ := set_var_lookup E hm name w s hs hfree
  refine ⟨eval_of_yields E s result (expr_var E _ hname hnl hlook hv), ?_, ?_⟩
  · rcases h with ⟨f, hf, hvf, _, _⟩ | ⟨f, T1, _, _, _, h5, _⟩ | ⟨T1, _, _, h5, _⟩
    · exact absurd (hfree f (by rw [hT]; exact hf)) hvf
    · exact h5
    · exact h5
  · have := eval_of_yields E (eval_set_var E name w s).2 result
      (expr_var E _ hname hnl
        (by
          have e := eval_table_of_done E hd
          unfold eval_table at e
          rw [e]; exact hf1) hfn1)
    rw [hval1] at this
    exact this

/-- C25 in a freshly loaded program where `x1` was set to 5: `x1` evaluates
to 5 and, once set to 6, to 6. -/
theorem C25_witness :
    (∃ n, ∀ fuel, n ≤ fuel →
      outcome (eval exactEnv fuel (some "x1".toList) (some ⟨0, 1⟩)
        (eval_set_var exactEnv "x1".toList ⟨5, 1⟩ (initial_state exactEnv)).2)
        = some (0, some ⟨5, 1⟩)) ∧
    (∃ n, ∀ fuel, n ≤ fuel →
      outcome (eval exactEnv fuel (some "x1".toList) (some ⟨0, 1⟩)
        (eval_set_var exactEnv "x1".toList ⟨6, 1⟩
          (eval_set_var exactEnv "x1".toList ⟨5, 1⟩ (initial_state exactEnv)).2).2)
        = some (0, some ⟨6, 1⟩)) := by
  have hinit : TableOk (initial_state exactEnv) := fun ht h0 => by simp [initial_state] at h0
  have hfree : ∀ f, ht_lookup (sym_table exactEnv (initial_state exactEnv))
      (some "x1".toList) = (0, some f) → f.fn = none := fun f h => by
    rw [initial_unbound exactEnv (fun _ => rfl) "x1".toList (by decide)] at h
    simp at h
  obtain ⟨hd, f, hf, hfn, hval⟩ := set_var_lookup exactEnv (fun _ => rfl) "x1".toList ⟨5, 1⟩
    (initial_state exactEnv) hinit hfree
  obtain ⟨c1, _, c3⟩ := C25_variable_evaluates exactEnv (fun _ => rfl)
    (eval_set_var exactEnv "x1".toList ⟨5, 1⟩ (initial_state exactEnv)).2
    (set_var_ok exactEnv (fun _ => rfl) _ _ _ hinit) (some ⟨0, 1⟩) "x1".toList (by decide)
    (by decide) f (by rw [eval_table_of_done exactEnv hd]; exact hf) hfn ⟨6, 1⟩
  rw [hval] at c1
  exact ⟨c1, c3⟩

/-- C26: in a table built by `ht_create` with at least one slot and worked on
by any sequence of calls, with a comparison function for which comparing
equal is an equivalence and a hash function that gives equal codes to keys
that compare equal: once `ht_insert(k, v)` has returned 0, `ht_lookup` of `k`
(or of a key `k2` that compares equal to `k`) returns 0 and `v`, also after
any further sequence of insertions and removals of keys that compare unequal
to `k`; inserting the key again with a value `v1` returns 0 without a call of
`malloc`, makes `ht_lookup` return `v1`, and leaves `item_count` and the number
of live buckets as they were. -/
theorem C26_lookup_returns_last_inserted {K W : Type} (size : Nat) (hash : Option K → Nat)
    (comp : Option K → Option K → Int) (kdel vdel : Bool) (hs : 0 < size)
    (he : EquivComp comp) (hh : HashRespects hash comp)
    (before : List (TableOp K W)) (k : Option K) (v : Option W) (m : Bool)
    (hins : (ht_insert (some (run_ops (ht_create size hash comp kdel vdel) before)) k v m).1 = 0)
    (later : List (TableOp K W)) (hlater : ∀ op ∈ later, comp op.key k ≠ 0)
    (k2 : Option K) (hk2 : comp k2 k = 0) :
    ht_lookup (some (run_ops (apply_op (run_ops (ht_create size hash comp kdel vdel) before)
      (.insert k v m)) later)) k2 = (0, v) ∧
    ∀ (v1 : Option W) (m1 : Bool), ∃ t3,
      ht_insert (some (run_ops (apply_op (run_ops (ht_create size hash comp kdel vdel) before)
        (.insert k v m)) later)) k2 v1 m1 = (0, some t3, false) ∧
      ht_lookup (some t3) k = (0, v1) ∧
      t3.item_count = (run_ops (apply_op (run_ops (ht_create size hash comp kdel vdel) before)
        (.insert k v m)) later).item_count ∧
      (live t3).length = (live (run_ops (apply_op (run_ops (ht_create size hash comp kdel vdel)
        before) (.insert k v m)) later)).length := by
  have hw0 := run_ops_wf (create_wf size hash comp kdel vdel hs) before
  obtain ⟨c1, c2, _⟩ := run_ops_config (create_wf size hash comp kdel vdel hs) before
  generalize run_ops (ht_create size hash comp kdel vdel) before = t0 at *
  have c1 : t0.hash = hash := c1
  have c2 : t0.comp = comp := c2
  have hw1 := apply_op_wf hw0 (.insert k v m)
  obtain ⟨d1, d2, _⟩ := apply_op_config hw0 (.insert k v m)
  have hl1 : ht_lookup (some (apply_op t0 (.insert k v m))) k2 = (0, v) := by
    rcases ht_insert_step hw0 k v m with h | ⟨t1, c, h, _, _⟩
    · rw [h] at hins; simp at hins
    · have : apply_op t0 (.insert k v m) = t1 := by simp [apply_op, h]
      rw [this]
      exact insert_then_lookup hw0 (by rw [c2]; exact he) (by rw [c1, c2]; exact hh) h
        (by rw [c2]; exact hk2)
  have hw2 := run_ops_wf hw1 later
  obtain ⟨f1, f2, _⟩ := run_ops_config hw1 later
  have hcomp1 : (apply_op t0 (.insert k v m)).comp = comp := d2.trans c2
  have hl2 : ht_lookup (some (run_ops (apply_op t0 (.insert k v m)) later)) k2 = (0, v) := by
    rw [run_ops_frame later _ hw1 (by rw [hcomp1]; exact he) k2 ?_]
    · exact hl1
    · intro op hop hc
      rw [hcomp1] at hc
      exact hlater op hop (he.2.2 _ _ _ (he.2.1 _ _ hc) hk2)
  generalize run_ops (apply_op t0 (.insert k v m)) later = t2 at *
  have g1 : t2.comp = comp := f2.trans hcomp1
  have g2 : t2.hash = hash := f1.trans (d1.trans c1)
  refine ⟨hl2, fun v1 m1 => ?_⟩
  obtain ⟨t3, h3, h4, h5, _⟩ := insert_found hw2 (by rw [hl2]) v1 m1
  refine ⟨t3, h3, ?_, h4, h5⟩
  exact insert_then_lookup hw2 (by rw [g1]; exact he) (by rw [g1, g2]; exact hh) h3
    (by rw [g1]; exact he.2.1 _ _ hk2)

/-- C26 on a table of three slots: 4 is inserted with the value 41, then 1 is
removed and 10 inserted; looking up 4 gives 41, inserting 4 again with 42
makes it 42 and leaves five entries. -/
theorem C26_witness :
    ht_lookup (some (run_ops (apply_op (run_ops (ht_create 3 key_hash key_comp false false)
      [.insert (some 1) (some 10) true, .insert (some 4) (some 40) true])
      (.insert (some 4) (some 41) true))
      [.remove (some 1), .insert (some 10) (some 100) true])) (some 4) = (0, some 41) ∧
    ∀ (v1 : Option Nat) (m1 : Bool), ∃ t3,
      ht_insert (some (run_ops (apply_op (run_ops (ht_create 3 key_hash key_comp false false)
        [.insert (some 1) (some 10) true, .insert (some 4) (some 40) true])
        (.insert (some 4) (some 41) true))
        [.remove (some 1), .insert (some 10) (some 100) true])) (some 4) v1 m1
          = (0, some t3, false) ∧
      ht_lookup (some t3) (some 4) = (0, v1) ∧
      t3.item_count = (run_ops (apply_op (run_ops (ht_create 3 key_hash key_comp false false)
        [.insert (some 1) (some 10) true, .insert (some 4) (some 40) true])
        (.insert (some 4) (some 41) true))
        [.remove (some 1), .insert (some 10) (some 100) true]).item_count ∧
      (live t3).length = (live (run_ops (apply_op (run_ops
        (ht_create 3 key_hash key_comp false false)
        [.insert (some 1) (some 10) true, .insert (some 4) (some 40) true])
        (.insert (some 4) (some 41) true))
        [.remove (some 1), .insert (some 10) (some 100) true])).length :=
  C26_lookup_returns_last_inserted 3 key_hash key_comp false false (by decide) key_comp_equiv
    key_hash_respects [.insert (some 1) (some 10) true, .insert (some 4) (some 40) true]
    (some 4) (some 41) true (by decide)
    [.remove (some 1), .insert (some 10) (some 100) true]
    (by intro op hop; simp at hop; rcases hop with rfl | rfl <;> decide) (some 4) (by decide)

/-- C27: in a table built by `ht_create` with at least one slot and worked on
by any sequence of calls, with a comparison function for which comparing
equal is an equivalence and a hash function that gives equal codes to keys
that compare equal.  When `ht_remove(k)` returns 0, `ht_lookup` of `k` (or of
a key that compares equal to `k`) returns 2, not found, also after any
further calls that insert no key comparing equal to `k`; and `ht_lookup` of
every key that compares unequal to `k` returns what it returned before the
removal.  `ht_remove` of a key that `ht_lookup` does not find returns 2 and
leaves the whole table as it was.  `ht_lookup` of a key that compares unequal
to the key of every insertion made returns 2. -/
theorem C27_removal {K W : Type} (size : Nat) (hash : Option K → Nat)
    (comp : Option K → Option K → Int) (kdel vdel : Bool) (hs : 0 < size)
    (he : EquivComp comp) (hh : HashRespects hash comp)
    (before : List (TableOp K W)) (k : Option K) :
    ((ht_remove (some (run_ops (ht_create size hash comp kdel vdel) before)) k).1 = 0 →
      (∀ (later : List (TableOp K W)) (k2 : Option K), comp k2 k = 0 →
        (∀ kk v m, TableOp.insert kk v m ∈ later → comp kk k ≠ 0) →
        ht_lookup (some (run_ops (apply_op (run_ops (ht_create size hash comp kdel vdel) before)
          (.remove k)) later)) k2 = (2, none)) ∧
      (∀ k1, comp k1 k ≠ 0 →
        ht_lookup (some (apply_op (run_ops (ht_create size hash comp kdel vdel) before)
          (.remove k))) k1 =
        ht_lookup (some (run_ops (ht_create size hash comp kdel vdel) before)) k1)) ∧
    ((ht_lookup (some (run_ops (ht_create size hash comp kdel vdel) before)) k).1 ≠ 0 →
      ht_remove (some (run_ops (ht_create size hash comp kdel vdel) before)) k =
        (2, some (run_ops (ht_create size hash comp kdel vdel) before), none)) ∧
    ((∀ kk v m, TableOp.insert kk v m ∈ before → comp k kk ≠ 0) →
      ht_lookup (some (run_ops (ht_create size hash comp kdel vdel) before)) k = (2, none)) := by
  have hwc := create_wf (W := W) size hash comp kdel vdel hs
  have hw0 := run_ops_wf hwc before
  obtain ⟨c1, c2, _⟩ := run_ops_config hwc before
  obtain ⟨_, hu⟩ := run_ops_sound size hash comp kdel vdel hs he before
  have hkeys := run_ops_keys before _ hwc
  rw [create_live] at hkeys
  generalize run_ops (ht_create size hash comp kdel vdel) before = t0 at *
  have c1 : t0.hash = hash := c1
  have c2 : t0.comp = comp := c2
  refine ⟨fun hrem => ⟨fun later k2 hk2 hlater => ?_, fun k1 hk1 => ?_⟩, fun hl => ?_, fun hn => ?_⟩
  · have hw1 := apply_op_wf hw0 (.remove k)
    have hcomp1 : (apply_op t0 (.remove k)).comp = comp := (apply_op_config hw0 _).2.1.trans c2
    refine run_ops_absent later _ hw1 (by rw [hcomp1]; exact he) k2 ?_ ?_
    · rcases ht_remove_step hw0 k with h | ⟨t1, v, h, _, _⟩
      · rw [h] at hrem; simp at hrem
      · have : apply_op t0 (.remove k) = t1 := by simp [apply_op, h]
        rw [this]
        exact remove_then_lookup hw0 (by rw [c2]; exact he) (by rw [c1, c2]; exact hh)
          (by rw [c2]; exact hu) h (by rw [c2]; exact hk2)
    · intro kk v m hm hc
      rw [hcomp1] at hc
      exact hlater kk v m hm (he.2.2 _ _ _ hc hk2)
  · exact apply_op_frame hw0 (by rw [c2]; exact he) (.remove k) (by rw [c2]; exact hk1)
  · rcases ht_remove_cases hw0 k with ⟨h, _⟩ | ⟨pre, hb, post, h1, h2, h3, _⟩
    · exact h
    · exact absurd h3 (not_found_of_lookup hw0 hl hb (by rw [h1]; simp))
  · refine lookup_of_no_key hw0 k (fun x hx => ?_)
    rw [c2]
    rcases hkeys x hx with ⟨y, hy, _⟩ | ⟨v, m, hm⟩
    · simp at hy
    · exact hn _ v m hm

/-- C27 on the table holding 1, 4, 7 and 2: removing 4 succeeds, 4 is then
not found, also after removing 2 and inserting 5, and the lookup of every
other key is what it was; 9 was never inserted, it is not found and removing
it returns 2 and changes nothing. -/
theorem C27_witness :
    (ht_remove (some small_table) (some 4)).1 = 0 ∧
    ht_lookup (some (run_ops (apply_op small_table (.remove (some 4)))
      [.remove (some 2), .insert (some 5) (some 50) true])) (some 4) = (2, none) ∧
    (∀ k1, key_comp k1 (some 4) ≠ 0 →
      ht_lookup (some (apply_op small_table (.remove (some 4)))) k1 =
      ht_lookup (some small_table) k1) ∧
    (ht_lookup (some small_table) (some 9)).1 ≠ 0 ∧
    ht_remove (some small_table) (some 9) = (2, some small_table, none) ∧
    ht_lookup (some small_table) (some 9) = (2, none) :=
  ⟨by decide,
   ((C27_removal 3 key_hash key_comp false false (by decide) key_comp_equiv key_hash_respects
      [.insert (some 1) (some 10) true, .insert (some 4) (some 40) true,
       .insert (some 2) (some 20) true, .insert (some 7) (some 70) true] (some 4)).1
      (by decide)).1 [.remove (some 2), .insert (some 5) (some 50) true] (some 4) (by decide)
      (by intro kk v m hm; simp at hm; rw [hm.1]; decide),
   ((C27_removal 3 key_hash key_comp false false (by decide) key_comp_equiv key_hash_respects
      [.insert (some 1) (some 10) true, .insert (some 4) (some 40) true,
       .insert (some 2) (some 20) true, .insert (some 7) (some 70) true] (some 4)).1
      (by decide)).2,
   by decide,
   (C27_removal 3 key_hash key_comp false false (by decide) key_comp_equiv key_hash_respects
      [.insert (some 1) (some 10) true, .insert (some 4) (some 40) true,
       .insert (some 2) (some 20) true, .insert (some 7) (some 70) true] (some 9)).2.1
      (by decide),
   (C27_removal 3 key_hash key_comp false false (by decide) key_comp_equiv key_hash_respects
      [.insert (some 1) (some 10) true, .insert (some 4) (some 40) true,
       .insert (some 2) (some 20) true, .insert (some 7) (some 70) true] (some 9)).2.2
      (by intro kk v m hm; simp at hm; rcases hm with h | h | h | h <;> rw [h.1] <;> decide)⟩

/-- C28: in every table reached from `ht_create` (with at least one slot) by
a sequence of calls of `ht_insert` and `ht_remove`, with a comparison function
for which comparing equal is an equivalence and a hash function that gives
equal codes to keys that compare equal, no two live buckets hold keys that
compare equal. -/
theorem C28_key_uniqueness {K W : Type} (size : Nat) (hash : Option K → Nat)
    (comp : Option K → Option K → Int) (kdel vdel : Bool) (hs : 0 < size)
    (he : EquivComp comp) (hh : HashRespects hash comp) (ops : List (TableOp K W)) :
    (live (run_ops (ht_create size hash comp kdel vdel) ops)).Pairwise
      (fun a b => comp a.key b.key ≠ 0 ∧ comp b.key a.key ≠ 0) := by
  have hwc := create_wf (W := W) size hash comp kdel vdel hs
  obtain ⟨c1, c2, _⟩ := run_ops_config hwc ops
  obtain ⟨hi, hu⟩ := run_ops_sound size hash comp kdel vdel hs he ops
  have h := live_unique (run_ops (ht_create size hash comp kdel vdel) ops)
    (by rw [c1, c2]; exact hh) hi (by rw [c2]; exact hu)
  rw [c2] at h
  exact h.imp (fun hab => ⟨hab, fun hba => hab (he.2.1 _ _ hba)⟩)

/-- C28 on a table of three slots after insertions, a repeated insertion and
a removal. -/
theorem C28_witness :
    (live (run_ops (ht_create 3 key_hash key_comp false false)
      [TableOp.insert (some 1) (some 10) true, .insert (some 4) (some 40) true,
       .insert (some 1) (some 11) true, .remove (some 4),
       .insert (some 7) (some 70) true])).Pairwise
      (fun a b => key_comp a.key b.key ≠ 0 ∧ key_comp b.key a.key ≠ 0) :=
  C28_key_uniqueness 3 key_hash key_comp false false (by decide) key_comp_equiv
    key_hash_respects _

/-- C29: in every table reached from `ht_create` (with at least one slot) by
a sequence of calls of `ht_insert` and `ht_remove`: the buckets of the pool
are cleared and those of the chains carry the live tag, so none is in both;
the length of the pool and the number of live buckets add up to `BLOCK_SIZE`
(100) times one plus the number of blocks allocated later; `item_count` is the
number of live buckets.  `ht_insert` calls `malloc` only when the pool is
empty.  A successful `ht_remove` pushes the cleared bucket on the pool and
takes one bucket out of the chains, and an insertion of a new key right after
it succeeds without `malloc`, whatever `malloc` would answer, and leaves the
pool and the number of blocks as they were before the removal. -/
theorem C29_bucket_accounting {K W : Type} (size : Nat) (hash : Option K → Nat)
    (comp : Option K → Option K → Int) (kdel vdel : Bool) (hs : 0 < size)
    (ops : List (TableOp K W)) :
    (∀ hb ∈ (run_ops (ht_create size hash comp kdel vdel) ops).pool,
      hb = free_bucket ∧ hb ∉ live (run_ops (ht_create size hash comp kdel vdel) ops)) ∧
    (∀ hb ∈ live (run_ops (ht_create size hash comp kdel vdel) ops),
      hb.tag = HASHBUCKET_TAG) ∧
    (run_ops (ht_create size hash comp kdel vdel) ops).pool.length +
      (live (run_ops (ht_create size hash comp kdel vdel) ops)).length =
      100 * (1 + (run_ops (ht_create size hash comp kdel vdel) ops).blocks) ∧
    (run_ops (ht_create size hash comp kdel vdel) ops).item_count =
      (live (run_ops (ht_create size hash comp kdel vdel) ops)).length ∧
    (∀ k v m, (ht_insert (some (run_ops (ht_create size hash comp kdel vdel) ops)) k v m).2.2
        = true → (run_ops (ht_create size hash comp kdel vdel) ops).pool = []) ∧
    (∀ k, (ht_remove (some (run_ops (ht_create size hash comp kdel vdel) ops)) k).1 = 0 →
      (apply_op (run_ops (ht_create size hash comp kdel vdel) ops) (.remove k)).pool =
        free_bucket :: (run_ops (ht_create size hash comp kdel vdel) ops).pool ∧
      (live (apply_op (run_ops (ht_create size hash comp kdel vdel) ops) (.remove k))).length + 1
        = (live (run_ops (ht_create size hash comp kdel vdel) ops)).length ∧
      ∀ k2 v2 m2,
        (ht_lookup (some (apply_op (run_ops (ht_create size hash comp kdel vdel) ops)
          (.remove k))) k2).1 ≠ 0 →
        (ht_insert (some (apply_op (run_ops (ht_create size hash comp kdel vdel) ops)
          (.remove k))) k2 v2 m2).1 = 0 ∧
        (ht_insert (some (apply_op (run_ops (ht_create size hash comp kdel vdel) ops)
          (.remove k))) k2 v2 m2).2.2 = false ∧
        (apply_op (apply_op (run_ops (ht_create size hash comp kdel vdel) ops) (.remove k))
          (.insert k2 v2 m2)).pool = (run_ops (ht_create size hash comp kdel vdel) ops).pool ∧
        (apply_op (apply_op (run_ops (ht_create size hash comp kdel vdel) ops) (.remove k))
          (.insert k2 v2 m2)).blocks =
          (run_ops (ht_create size hash comp kdel vdel) ops).blocks ∧
        (live (apply_op (apply_op (run_ops (ht_create size hash comp kdel vdel) ops)
          (.remove k)) (.insert k2 v2 m2))).length =
          (live (run_ops (ht_create size hash comp kdel vdel) ops)).length) := by
  have hwc := create_wf (W := W) size hash comp kdel vdel hs
  have hw0 := run_ops_wf hwc ops
  have ha := run_ops_accounted hwc (create_accounted size hash comp kdel vdel) ops
  generalize run_ops (ht_create size hash comp kdel vdel) ops = t0 at *
  have hlive : ∀ hb ∈ live t0, hb.tag = HASHBUCKET_TAG := by
    intro hb hm
    obtain ⟨chain, hc, hx⟩ := List.mem_flatten.mp hm
    exact hw0.2.2.2.1 chain hc hb hx
  refine ⟨fun hb hm => ?_, hlive, ha.1, ha.2, fun k v m hc => ?_, fun k hrem => ?_⟩
  · obtain ⟨h1, h2, h3⟩ := hw0.2.2.2.2 hb hm
    refine ⟨?_, fun hl => ?_⟩
    · cases hb; simp only [free_bucket] at *; simp [h1, h2, h3]
    · have := hlive hb hl
      rw [h1] at this
      exact absurd this (by decide)
  · rcases ht_insert_cases hw0 k v m with ⟨_, h, _⟩ | ⟨pre, hb, post, _, _, _, h4⟩ | ⟨_, _, h3⟩
    · exact h
    · rw [h4] at hc; simp at hc
    · rw [h3] at hc; exact List.isEmpty_iff.mp hc
  · have hw1 := apply_op_wf hw0 (.remove k)
    rcases ht_remove_cases hw0 k with ⟨h, _⟩ | ⟨pre, hb, post, h1, h2, h3, h4⟩
    · rw [h] at hrem; simp at hrem
    · have hl := live_step_length hw0 k (pre ++ post)
      rw [h1] at hl
      simp only [List.length_append, List.length_cons] at hl
      have hp1 : (apply_op t0 (.remove k)).pool = free_bucket :: t0.pool := by
        simp only [apply_op, h4, Option.getD_some]
      have hb1 : (apply_op t0 (.remove k)).blocks = t0.blocks := by
        simp only [apply_op, h4, Option.getD_some]
      have hlen1 : (live (apply_op t0 (.remove k))).length + 1 = (live t0).length := by
        simp only [apply_op, h4, Option.getD_some]; unfold live; dsimp only; omega
      generalize apply_op t0 (.remove k) = t1 at *
      refine ⟨hp1, hlen1, fun k2 v2 m2 hl2 => ?_⟩
      rcases ht_insert_cases hw1 k2 v2 m2 with
        ⟨_, h, _⟩ | ⟨pre2, hb2, post2, g1, g2, g3, _⟩ | ⟨g1, _, g3⟩
      · rw [hp1] at h; simp at h
      · exact absurd g3 (not_found_of_lookup hw1 hl2 hb2 (by rw [g1]; simp))
      · have hne : t1.pool.isEmpty = false := by rw [hp1]; rfl
        rw [hne] at g3
        simp only [apply_op, g3, Option.getD_some]
        refine ⟨trivial, trivial, ?_, ?_, ?_⟩
        · simp [hp1]
        · simpa using hb1
        · have hl3 := live_step_length hw1 k2
            ({ tag := HASHBUCKET_TAG, key := k2, val := v2 } :: chain_of t1 k2)
          simp only [List.length_cons] at hl3
          unfold live at hlen1 ⊢
          dsimp only
          omega

/-- C29 on the table holding 1, 4, 7 and 2, at the removal of 4 followed by
the insertion of 5 with a `malloc` that would fail. -/
theorem C29_witness :
    small_table.pool.length + (live small_table).length = 100 * (1 + small_table.blocks) ∧
    small_table.item_count = (live small_table).length ∧
    (ht_remove (some small_table) (some 4)).1 = 0 ∧
    (apply_op small_table (.remove (some 4))).pool = free_bucket :: small_table.pool ∧
    (ht_lookup (some (apply_op small_table (.remove (some 4)))) (some 5)).1 ≠ 0 ∧
    (ht_insert (some (apply_op small_table (.remove (some 4)))) (some 5) (some 50) false).1
      = 0 ∧
    (ht_insert (some (apply_op small_table (.remove (some 4)))) (some 5) (some 50) false).2.2
      = false ∧
    (apply_op (apply_op small_table (.remove (some 4)))
      (.insert (some 5) (some 50) false)).pool = small_table.pool :=
  ⟨(C29_bucket_accounting 3 key_hash key_comp false false (by decide)
      [.insert (some 1) (some 10) true, .insert (some 4) (some 40) true,
       .insert (some 2) (some 20) true, .insert (some 7) (some 70) true]).2.2.1,
   (C29_bucket_accounting 3 key_hash key_comp false false (by decide)
      [.insert (some 1) (some 10) true, .insert (some 4) (some 40) true,
       .insert (some 2) (some 20) true, .insert (some 7) (some 70) true]).2.2.2.1,
   by decide,
   ((C29_bucket_accounting 3 key_hash key_comp false false (by decide)
      [.insert (some 1) (some 10) true, .insert (some 4) (some 40) true,
       .insert (some 2) (some 20) true, .insert (some 7) (some 70) true]).2.2.2.2.2
      (some 4) (by decide)).1,
   by decide,
   (((C29_bucket_accounting 3 key_hash key_comp false false (by decide)
      [.insert (some 1) (some 10) true, .insert (some 4) (some 40) true,
       .insert (some 2) (some 20) true, .insert (some 7) (some 70) true]).2.2.2.2.2
      (some 4) (by decide)).2.2 (some 5) (some 50) false (by decide)).1,
   (((C29_bucket_accounting 3 key_hash key_comp false false (by decide)
      [.insert (some 1) (some 10) true, .insert (some 4) (some 40) true,
       .insert (some 2) (some 20) true, .insert (some 7) (some 70) true]).2.2.2.2.2
      (some 4) (by decide)).2.2 (some 5) (some 50) false (by decide)).2.1,
   (((C29_bucket_accounting 3 key_hash key_comp false false (by decide)
      [.insert (some 1) (some 10) true, .insert (some 4) (some 40) true,
       .insert (some 2) (some 20) true, .insert (some 7) (some 70) true]).2.2.2.2.2
      (some 4) (by decide)).2.2 (some 5) (some 50) false (by decide)).2.2.1⟩

/-- C30: in a table reached from `ht_create` (with at least one slot) by a
sequence of calls of `ht_insert` and `ht_remove`, with a comparison function
for which comparing equal is an equivalence and a hash function that gives
equal codes to keys that compare equal.  The live entries are pairwise
different and each is what `ht_lookup` of its key finds, in the slot of its
key.  `ht_iterate` with a visitor that does not touch the table calls it on an
initial part of the list of live entries, in order, each entry at most once
and with its slot, key and value; every call but the last returned 0; either
all calls returned 0, every live entry was visited, `ht_iterate` returns 0 and
`*p_rv` is untouched, or the last call returned a non-zero `r`, `ht_iterate`
returns 5 and `r` is stored in `*p_rv` when `p_rv` is not `NULL`.  A visitor
that always returns 0 is called on every live entry. -/
theorem C30_iterate {K W S : Type} (size : Nat) (hash : Option K → Nat)
    (comp : Option K → Option K → Int) (kdel vdel : Bool) (hs : 0 < size)
    (he : EquivComp comp) (hh : HashRespects hash comp) (ops : List (TableOp K W))
    (f : Nat → Option K → Option W → S → Int × S) (p_rv : Option Int) (st : S) :
    (entries (run_ops (ht_create size hash comp kdel vdel) ops)).Nodup ∧
    (∀ e ∈ entries (run_ops (ht_create size hash comp kdel vdel) ops),
      ht_lookup (some (run_ops (ht_create size hash comp kdel vdel) ops)) e.2.1 = (0, e.2.2) ∧
      e.1 = slot_index (hash e.2.1) size) ∧
    (ht_iterate (some (run_ops (ht_create size hash comp kdel vdel) ops)) (some f) p_rv
      st).seen.map Visit.entry <+: entries (run_ops (ht_create size hash comp kdel vdel) ops) ∧
    (∀ x ∈ (ht_iterate (some (run_ops (ht_create size hash comp kdel vdel) ops)) (some f) p_rv
      st).seen.dropLast, x.ret = 0) ∧
    (((ht_iterate (some (run_ops (ht_create size hash comp kdel vdel) ops)) (some f) p_rv
          st).rc = 0 ∧
        (ht_iterate (some (run_ops (ht_create size hash comp kdel vdel) ops)) (some f) p_rv
          st).seen.map Visit.entry = entries (run_ops (ht_create size hash comp kdel vdel) ops) ∧
        (∀ x ∈ (ht_iterate (some (run_ops (ht_create size hash comp kdel vdel) ops)) (some f)
          p_rv st).seen, x.ret = 0) ∧
        (ht_iterate (some (run_ops (ht_create size hash comp kdel vdel) ops)) (some f) p_rv
          st).p_rv = p_rv) ∨
      ((ht_iterate (some (run_ops (ht_create size hash comp kdel vdel) ops)) (some f) p_rv
          st).rc = 5 ∧
        ∃ x, (ht_iterate (some (run_ops (ht_create size hash comp kdel vdel) ops)) (some f) p_rv
          st).seen.getLast? = some x ∧ x.ret ≠ 0 ∧
          (ht_iterate (some (run_ops (ht_create size hash comp kdel vdel) ops)) (some f) p_rv
            st).p_rv = p_rv.map (fun _ => x.ret))) ∧
    ((∀ i k v s, (f i k v s).1 = 0) →
      (ht_iterate (some (run_ops (ht_create size hash comp kdel vdel) ops)) (some f) p_rv
        st).rc = 0 ∧
      (ht_iterate (some (run_ops (ht_create size hash comp kdel vdel) ops)) (some f) p_rv
        st).seen.map Visit.entry = entries (run_ops (ht_create size hash comp kdel vdel) ops)) := by
  have hwc := create_wf (W := W) size hash comp kdel vdel hs
  have hw0 := run_ops_wf hwc ops
  obtain ⟨c1, c2, c3⟩ := run_ops_config hwc ops
  obtain ⟨hi, hu⟩ := run_ops_sound size hash comp kdel vdel hs he ops
  generalize run_ops (ht_create size hash comp kdel vdel) ops = t0 at *
  have c1 : t0.hash = hash := c1
  have c2 : t0.comp = comp := c2
  have c3 : t0.size = size := c3
  have he0 : EquivComp t0.comp := by rw [c2]; exact he
  have hu0 : ∀ chain ∈ t0.table, UniqueKeys t0.comp chain := by rw [c2]; exact hu
  rw [ht_iterate_eq hw0]
  obtain ⟨new, h1, h2, h3, h4⟩ := visit_list_spec f (entries t0) p_rv st []
  rw [List.nil_append] at h1
  rw [h1]
  refine ⟨entries_nodup he0 (live_unique _ (by rw [c1, c2]; exact hh) hi hu0), ?_, h2, h3, ?_, ?_⟩
  · intro e hm
    have := entries_lookup hw0 he0 hi hu0 e hm
    rw [c1, c3] at this
    exact this
  · rcases h4 with ⟨a, b, c, d⟩ | h
    · exact Or.inl ⟨a, b, c, d⟩
    · exact Or.inr h
  · intro hf
    have hz := visit_list_zero f hf (entries t0) p_rv st []
    refine ⟨hz, ?_⟩
    rcases h4 with ⟨_, b, _, _⟩ | ⟨a, _⟩
    · exact b
    · rw [hz] at a; exact absurd a (by decide)

/-- C30 on the table holding 1, 4, 7 and 2: a visitor that always returns 0
is called once on each of the four entries, in the order of the slots, and
`ht_iterate` returns 0; a visitor that returns 7 at the key 4 is called on the
first two entries only, `ht_iterate` returns 5 and stores 7. -/
theorem C30_witness :
    (ht_iterate (some small_table) (some visit_count) (some 0) 0).rc = 0 ∧
    (ht_iterate (some small_table) (some visit_count) (some 0) 0).seen.map Visit.entry =
      entries small_table ∧
    entries small_table =
      [(1, some 7, some 70), (1, some 4, some 40), (1, some 1, some 10),
       (2, some 2, some 20)] ∧
    (ht_iterate (some small_table) (some (visit_stop_at 4)) (some 0) 0).seen.map Visit.entry
      <+: entries small_table ∧
    (ht_iterate (some small_table) (some (visit_stop_at 4)) (some 0) 0).seen.map Visit.entry =
      [(1, some 7, some 70), (1, some 4, some 40)] ∧
    (ht_iterate (some small_table) (some (visit_stop_at 4)) (some 0) 0).rc = 5 ∧
    (ht_iterate (some small_table) (some (visit_stop_at 4)) (some 0) 0).p_rv = some 7 :=
  ⟨((C30_iterate 3 key_hash key_comp false false (by decide) key_comp_equiv key_hash_respects
      [.insert (some 1) (some 10) true, .insert (some 4) (some 40) true,
       .insert (some 2) (some 20) true, .insert (some 7) (some 70) true]
      visit_count (some 0) 0).2.2.2.2.2 (fun _ _ _ _ => rfl)).1,
   ((C30_iterate 3 key_hash key_comp false false (by decide) key_comp_equiv key_hash_respects
      [.insert (some 1) (some 10) true, .insert (some 4) (some 40) true,
       .insert (some 2) (some 20) true, .insert (some 7) (some 70) true]
      visit_count (some 0) 0).2.2.2.2.2 (fun _ _ _ _ => rfl)).2,
   by decide,
   (C30_iterate 3 key_hash key_comp false false (by decide) key_comp_equiv key_hash_respects
      [.insert (some 1) (some 10) true, .insert (some 4) (some 40) true,
       .insert (some 2) (some 20) true, .insert (some 7) (some 70) true]
      (visit_stop_at 4) (some 0) 0).2.2.1,
   by decide, by decide, by decide⟩

/-! ## The hash of the symbol table as a sum -/

theorem block_capacity_head (s : State V) (h : 1 ≤ s.G_cur_node.length) :
    block_capacity s s.G_cur_node.length = s.G_cur_node.headD 0 := by
  unfold block_capacity
  cases hn : s.G_cur_node with
  | nil => rw [hn] at h; simp at h
  | cons c t => simp [List.getD]

theorem block_capacity_push (s t : State V) (cap : Nat)
    (ht : t.G_cur_node = cap :: s.G_cur_node) (b : Nat) (h1 : 1 ≤ b)
    (h2 : b ≤ s.G_cur_node.length) : block_capacity t b = block_capacity s b := by
  unfold block_capacity
  rw [ht, List.reverse_cons]
  have hlt : b - 1 < s.G_cur_node.reverse.length := by
    rw [List.length_reverse]; omega
  simp [List.getD, List.getElem?_append_left hlt]

theorem block_capacity_new (s t : State V) (cap : Nat)
    (ht : t.G_cur_node = cap :: s.G_cur_node) :
    block_capacity t (s.G_cur_node.length + 1) = cap := by
  unfold block_capacity
  rw [ht, List.reverse_cons]
  simp [List.getD]

/-- What `lalloc` does, by cases: the request fits the free tail of the head
block; it does not and `malloc` returns a block; it does not and `malloc`
fails. -/
theorem lalloc_cases (E : Env V) (n : Nat) (s : State V) :
    (n ≤ s.G_cur_data_size - s.G_cur_data_pos ∧
      lalloc E n s = (true, { s with G_cur_data_pos := s.G_cur_data_pos + n }) ∧
      lalloc_ptr E n s = some (s.G_cur_node.length, s.G_cur_data_pos)) ∨
    (s.G_cur_data_size - s.G_cur_data_pos < n ∧ E.malloc s.mallocs = true ∧
      lalloc E n s =
        (true, { s with mallocs := s.mallocs + 1,
                        G_cur_node := (if n < MIN_ALLOC_SIZE then MIN_ALLOC_SIZE
                                       else n + MIN_ALLOC_SIZE) :: s.G_cur_node,
                        G_cur_data_pos := n,
                        G_cur_data_size := if n < MIN_ALLOC_SIZE then MIN_ALLOC_SIZE
                                           else n + MIN_ALLOC_SIZE }) ∧
      lalloc_ptr E n s = some (s.G_cur_node.length + 1, 0)) ∨
    (s.G_cur_data_size - s.G_cur_data_pos < n ∧ E.malloc s.mallocs = false ∧
      lalloc E n s = (false, { s with mallocs := s.mallocs + 1 }) ∧
      lalloc_ptr E n s = none) := by
  by_cases h : n > s.G_cur_data_size - s.G_cur_data_pos
  · cases hm : E.malloc s.mallocs with
    | true =>
      refine Or.inr (Or.inl ⟨h, rfl, ?_, ?_⟩)
      · simp only [lalloc, if_pos h, hm, if_true]
      · simp only [lalloc_ptr, if_pos h, hm, if_true]
    | false =>
      refine Or.inr (Or.inr ⟨h, rfl, ?_, ?_⟩)
      · simp only [lalloc, if_pos h, hm, Bool.false_eq_true, if_false]
      · simp only [lalloc_ptr, if_pos h, hm, Bool.false_eq_true, if_false]
  · refine Or.inl ⟨not_lt.mp h, ?_, ?_⟩
    · simp only [lalloc, if_neg h]
    · simp only [lalloc_ptr, if_neg h]

/-- A request of at least one byte keeps the arena variables and the spans
handed out in order. -/
theorem lalloc_spans (E : Env V) (n : Nat) (hn : 1 ≤ n) (s : State V) (log : List Span)
    (ha : ArenaOk s) (hl : SpansOk s log) :
    ArenaOk (lalloc E n s).2 ∧
    SpansOk (lalloc E n s).2
      (match lalloc_ptr E n s with
       | some p => ⟨p.1, p.2, n⟩ :: log
       | none => log) := by
  obtain ⟨a1, a2⟩ := ha
  obtain ⟨l1, l2, l3⟩ := hl
  rcases lalloc_cases E n s with ⟨h, e, ep⟩ | ⟨h, hm, e, ep⟩ | ⟨h, hm, e, ep⟩
  · rw [e, ep]
    have hlen : 1 ≤ s.G_cur_node.length := by
      cases hN : s.G_cur_node with
      | nil => rw [hN] at a2; simp at a2; omega
      | cons c t => simp
    have hcap := block_capacity_head s hlen
    refine ⟨⟨by dsimp only; omega, a2⟩, ?_, ?_, ?_⟩
    · intro x hx
      rcases List.mem_cons.mp hx with rfl | hx
      · exact ⟨hlen, le_refl _, by
          show s.G_cur_data_pos + n ≤ block_capacity s s.G_cur_node.length
          rw [hcap, ← a2]; omega⟩
      · exact l1 x hx
    · intro x hx hb
      rcases List.mem_cons.mp hx with rfl | hx
      · exact le_refl _
      · have := l2 x hx hb
        show x.off + x.len ≤ s.G_cur_data_pos + n
        omega
    · refine List.pairwise_cons.mpr ⟨fun x hx hb => ?_, l3⟩
      exact Or.inr (l2 x hx hb.symm)
  · rw [e, ep]
    have hcap : n ≤ (if n < MIN_ALLOC_SIZE then MIN_ALLOC_SIZE else n + MIN_ALLOC_SIZE) := by
      unfold MIN_ALLOC_SIZE; split_ifs <;> omega
    refine ⟨⟨hcap, rfl⟩, ?_, ?_, ?_⟩
    · intro x hx
      rcases List.mem_cons.mp hx with rfl | hx
      · refine ⟨by dsimp only; omega, by simp, ?_⟩
        rw [block_capacity_new s _ _ rfl]
        simpa using hcap
      · obtain ⟨b1, b2, b3⟩ := l1 x hx
        refine ⟨b1, by simp; omega, ?_⟩
        rw [block_capacity_push s _ _ rfl x.block b1 b2]
        exact b3
    · intro x hx hb
      rcases List.mem_cons.mp hx with rfl | hx
      · simp
      · have := (l1 x hx).2.1
        simp at hb
        omega
    · refine List.pairwise_cons.mpr ⟨fun x hx hb => ?_, l3⟩
      have := (l1 x hx).2.1
      simp at hb
      omega
  · rw [e, ep]
    exact ⟨⟨a1, a2⟩, l1, l2, l3⟩

theorem lfreeall_spans (s : State V) : ArenaOk (lfreeall s) ∧ SpansOk (lfreeall s) [] := by
  refine ⟨⟨le_refl _, rfl⟩, ?_, ?_, List.Pairwise.nil⟩
  · intro x hx; simp at hx
  · intro x hx; simp at hx

/-- Every sequence of calls of `lalloc`, each for at least one byte, and of
`lfreeall` keeps the arena variables and the spans handed out in order. -/
theorem arena_run_ok (E : Env V) (ops : List ArenaOp) :
    ∀ (s : State V) (log : List Span), PositiveRequests ops → ArenaOk s → SpansOk s log →
      ArenaOk (arena_run E ops s log).1 ∧
      SpansOk (arena_run E ops s log).1 (arena_run E ops s log).2 := by
  induction ops with
  | nil => intro s log _ ha hl; exact ⟨ha, hl⟩
  | cons op rest ih =>
    intro s log hp ha hl
    have hrest : PositiveRequests rest := fun n hn => hp n (List.mem_cons_of_mem _ hn)
    cases op with
    | alloc n =>
      obtain ⟨b1, b2⟩ := lalloc_spans E n (hp n (List.mem_cons_self _ _)) s log ha hl
      simp only [arena_run]
      exact ih _ _ hrest b1 b2
    | free_all =>
      obtain ⟨b1, b2⟩ := lfreeall_spans s
      simp only [arena_run]
      exact ih _ _ hrest b1 b2

/-! ## The bounds of the tokenizer -/

theorem skip_space_le (l : List Char) : ∀ i, skip_space l i ≤ i + l.length := by
  induction l with
  | nil => intro i; exact Nat.le_refl _
  | cons c t ih =>
    intro i
    simp only [skip_space, List.length_cons]
    split_ifs
    · have := ih (i + 1); omega
    · omega

theorem scan_le (p : Char → Bool) (l : List Char) :
    ∀ tbuf i, (scan p l tbuf i).2 ≤ i + l.length := by
  induction l with
  | nil => intro tbuf i; exact Nat.le_refl _
  | cons c t ih =>
    intro tbuf i
    simp only [scan, List.length_cons]
    by_cases hp : p c = true
    · rw [if_pos hp]
      have := ih (if tbuf.length < 100 then tbuf ++ [c] else tbuf) (i + 1)
      omega
    · rw [if_neg hp]
      dsimp only
      omega

/-- The scanning loops never store past index 99 of the buffer. -/
theorem scan_len (p : Char → Bool) (l : List Char) :
    ∀ tbuf i, tbuf.length ≤ 100 → (scan p l tbuf i).1.length ≤ 100 := by
  induction l with
  | nil => intro tbuf i h; exact h
  | cons c t ih =>
    intro tbuf i h
    simp only [scan]
    by_cases hp : p c = true
    · rw [if_pos hp]
      refine ih _ _ ?_
      split_ifs with hl
      · rw [List.length_append]; simp; omega
      · exact h
    · rw [if_neg hp]
      exact h

theorem skip_space_junk (l junk : List Char) :
    ∀ i, skip_space (l ++ NUL :: junk) i = skip_space l i := by
  induction l with
  | nil =>
    intro i
    have h : isspace NUL = false := by decide
    simp [skip_space, h]
  | cons c t ih =>
    intro i
    simp only [List.cons_append, skip_space]
    split_ifs
    · exact ih _
    · rfl

theorem scan_junk (p : Char → Bool) (hp : p NUL = false) (l junk : List Char) :
    ∀ tbuf i, scan p (l ++ NUL :: junk) tbuf i = scan p l tbuf i := by
  induction l with
  | nil =>
    intro tbuf i
    simp [scan, hp]
  | cons c t ih =>
    intro tbuf i
    simp only [List.cons_append, scan]
    by_cases hc : p c = true
    · rw [if_pos hc, if_pos hc]
      exact ih _ _
    · rw [if_neg hc, if_neg hc]

theorem drop_junk (buf junk : List Char) (j : Nat) (h : j ≤ buf.length) :
    (buf ++ NUL :: junk).drop j = buf.drop j ++ NUL :: junk := by
  rw [List.drop_append_eq_append_drop]
  have : j - buf.length = 0 := by omega
  rw [this, List.drop_zero]

theorem charAt_junk (buf junk : List Char) (j : Nat) (h : j ≤ buf.length) :
    charAt (buf ++ NUL :: junk) j = charAt buf j := by
  unfold charAt
  rcases Nat.lt_or_ge j buf.length with hlt | hge
  · rw [List.getD_eq_getElem?_getD, List.getD_eq_getElem?_getD, List.getElem?_append_left hlt]
  · have e : j = buf.length := by omega
    subst e
    rw [List.getD_eq_getElem?_getD, List.getD_eq_getElem?_getD,
      List.getElem?_append_right (le_refl _), List.getElem?_eq_none (le_refl _)]
    simp

theorem isdigit_nul : isdigit NUL = false := by decide

theorem isident_nul : isident NUL = false := by decide

/-- Where the number scan of `pull_token` stops, and what it stored. -/
theorem num_scan_bounds (buf : List Char) (i : Nat) (hi : i ≤ buf.length) (tb : List Char → List Char)
    (htb : ∀ w, w.length ≤ 100 → (tb w).length ≤ 100) :
    (if charAt buf (scan isdigit (buf.drop i) [] i).2 = '.' then
        scan isdigit (buf.drop ((scan isdigit (buf.drop i) [] i).2 + 1))
          (tb (scan isdigit (buf.drop i) [] i).1) ((scan isdigit (buf.drop i) [] i).2 + 1)
      else scan isdigit (buf.drop i) [] i).2 ≤ buf.length ∧
    (if charAt buf (scan isdigit (buf.drop i) [] i).2 = '.' then
        scan isdigit (buf.drop ((scan isdigit (buf.drop i) [] i).2 + 1))
          (tb (scan isdigit (buf.drop i) [] i).1) ((scan isdigit (buf.drop i) [] i).2 + 1)
      else scan isdigit (buf.drop i) [] i).1.length ≤ 100 := by
  have h1 := scan_le isdigit (buf.drop i) [] i
  have l1 := scan_len isdigit (buf.drop i) [] i (by simp)
  rw [List.length_drop] at h1
  generalize scan isdigit (buf.drop i) [] i = r1 at h1 l1 ⊢
  by_cases hdot : charAt buf r1.2 = '.'
  · rw [if_pos hdot]
    have hne : charAt buf r1.2 ≠ NUL := by rw [hdot]; decide
    have hlt := charAt_lt hne
    have h2 := scan_le isdigit (buf.drop (r1.2 + 1)) (tb r1.1) (r1.2 + 1)
    rw [List.length_drop] at h2
    exact ⟨by omega, scan_len _ _ _ _ (htb _ l1)⟩
  · rw [if_neg hdot]
    exact ⟨by omega, l1⟩

theorem dot_store_len (w : List Char) (h : w.length ≤ 100) :
    (if w.length < 100 then w ++ ['.'] else w).length ≤ 100 := by
  split_ifs with hl
  · rw [List.length_append]; simp; omega
  · exact h

/-- A pull that reads the text leaves the cursor between where it was and the
end of the text. -/
theorem pull_cursor_bounds (E : Env V) (buf : List Char) (pos : Nat) (s : State V)
    (hpb : s.G_pb_token.type = NUL) (hp : pos ≤ buf.length) :
    pos ≤ (pull_token E buf pos s).2.1 ∧ (pull_token E buf pos s).2.1 ≤ buf.length := by
  have h0 : ¬ (s.G_pb_token.type ≠ NUL) := not_not.mpr hpb
  have g1 := skip_space_ge (buf.drop pos) pos
  have g2 := skip_space_le (buf.drop pos) pos
  rw [List.length_drop] at g2
  have hi : skip_space (buf.drop pos) pos ≤ buf.length := by omega
  simp only [pull_token, if_neg h0]
  generalize skip_space (buf.drop pos) pos = i at g1 hi ⊢
  by_cases hop : is_op_char (charAt buf i) = true
  · rw [if_pos hop]
    have hne : charAt buf i ≠ NUL := op_ne_NUL hop
    have := charAt_lt hne
    dsimp only
    omega
  rw [if_neg hop]
  by_cases hnum : (isdigit (charAt buf i) || decide (charAt buf i = '.')) = true
  · rw [if_pos hnum]
    have b1 := num_end_gt hnum (if (scan isdigit (buf.drop i) [] i).1.length < 100
      then (scan isdigit (buf.drop i) [] i).1 ++ ['.'] else (scan isdigit (buf.drop i) [] i).1)
    have b2 := (num_scan_bounds buf i hi
      (fun w => if w.length < 100 then w ++ ['.'] else w) dot_store_len).1
    generalize (if charAt buf (scan isdigit (buf.drop i) [] i).2 = '.' then
        scan isdigit (buf.drop ((scan isdigit (buf.drop i) [] i).2 + 1))
          (if (scan isdigit (buf.drop i) [] i).1.length < 100
            then (scan isdigit (buf.drop i) [] i).1 ++ ['.']
            else (scan isdigit (buf.drop i) [] i).1)
          ((scan isdigit (buf.drop i) [] i).2 + 1)
      else scan isdigit (buf.drop i) [] i) = r2 at b1 b2 ⊢
    split_ifs <;> first | omega | (dsimp only; omega)
  rw [if_neg hnum]
  by_cases hname : (isalpha (charAt buf i) || decide (charAt buf i = '_')) = true
  · rw [if_pos hname]
    have b1 := scan_ge isident (buf.drop i) [] i
    have b2 := scan_le isident (buf.drop i) [] i
    rw [List.length_drop] at b2
    generalize scan isident (buf.drop i) [] i = r at b1 b2 ⊢
    split <;> first | omega | (dsimp only; omega)
  rw [if_neg hname]
  split_ifs <;> first | omega | (dsimp only; omega)

/-- A pull that reads the text reads nothing behind the terminating NUL:
whatever stands there, the result is the same. -/
theorem pull_junk (E : Env V) (buf junk : List Char) (pos : Nat) (s : State V)
    (hp : pos ≤ buf.length) :
    pull_token E (buf ++ NUL :: junk) pos s = pull_token E buf pos s := by
  have g2 := skip_space_le (buf.drop pos) pos
  rw [List.length_drop] at g2
  have hi : skip_space (buf.drop pos) pos ≤ buf.length := by omega
  have e1 : skip_space ((buf ++ NUL :: junk).drop pos) pos = skip_space (buf.drop pos) pos := by
    rw [drop_junk buf junk pos hp, skip_space_junk]
  unfold pull_token
  rw [e1]
  generalize skip_space (buf.drop pos) pos = i at hi
  have e2 : charAt (buf ++ NUL :: junk) i = charAt buf i := charAt_junk buf junk i hi
  have e3 : scan isdigit ((buf ++ NUL :: junk).drop i) [] i = scan isdigit (buf.drop i) [] i := by
    rw [drop_junk buf junk i hi, scan_junk isdigit isdigit_nul]
  have e4 : scan isident ((buf ++ NUL :: junk).drop i) [] i = scan isident (buf.drop i) [] i := by
    rw [drop_junk buf junk i hi, scan_junk isident isident_nul]
  have h1 := scan_le isdigit (buf.drop i) [] i
  rw [List.length_drop] at h1
  have hr : (scan isdigit (buf.drop i) [] i).2 ≤ buf.length := by omega
  have e5 : charAt (buf ++ NUL :: junk) (scan isdigit (buf.drop i) [] i).2 =
      charAt buf (scan isdigit (buf.drop i) [] i).2 := charAt_junk buf junk _ hr
  dsimp only
  rw [e2, e3, e4, e5]
  by_cases hdot : charAt buf (scan isdigit (buf.drop i) [] i).2 = '.'
  · have hne : charAt buf (scan isdigit (buf.drop i) [] i).2 ≠ NUL := by rw [hdot]; decide
    have hlt := charAt_lt hne
    have e6 : ∀ tb, scan isdigit ((buf ++ NUL :: junk).drop ((scan isdigit (buf.drop i) [] i).2 + 1))
        tb ((scan isdigit (buf.drop i) [] i).2 + 1) =
        scan isdigit (buf.drop ((scan isdigit (buf.drop i) [] i).2 + 1))
          tb ((scan isdigit (buf.drop i) [] i).2 + 1) := by
      intro tb
      rw [drop_junk buf junk _ (by omega), scan_junk isdigit isdigit_nul]
    rw [e6]
  · simp only [if_neg hdot]

/-- The scan buffer of `pull_token` holds at most 100 characters, so the
terminator is written at index 100 at most. -/
theorem pull_tbuf_len (buf : List Char) (pos : Nat) (hp : pos ≤ buf.length) :
    (pull_tbuf buf pos).length ≤ 100 := by
  have g2 := skip_space_le (buf.drop pos) pos
  rw [List.length_drop] at g2
  have hi : skip_space (buf.drop pos) pos ≤ buf.length := by omega
  unfold pull_tbuf
  dsimp only
  generalize skip_space (buf.drop pos) pos = i at hi
  by_cases hop : is_op_char (charAt buf i) = true
  · rw [if_pos hop]; simp
  rw [if_neg hop]
  by_cases hnum : (isdigit (charAt buf i) || decide (charAt buf i = '.')) = true
  · rw [if_pos hnum]
    exact (num_scan_bounds buf i hi
      (fun w => if w.length < 100 then w ++ ['.'] else w) dot_store_len).2
  rw [if_neg hnum]
  by_cases hname : (isalpha (charAt buf i) || decide (charAt buf i = '_')) = true
  · rw [if_pos hname]
    exact scan_len _ _ _ _ (by simp)
  · rw [if_neg hname]; simp

/-- The value of a number token is `strtod` of the scan buffer. -/
theorem pull_tbuf_value (E : Env V) (buf : List Char) (pos : Nat) (s : State V)
    (hpb : s.G_pb_token.type = NUL) (hn : (pull_token E buf pos s).1.type = 'n') :
    (pull_token E buf pos s).1.value = E.A.strtod (pull_tbuf buf pos) := by
  have h0 : ¬ (s.G_pb_token.type ≠ NUL) := not_not.mpr hpb
  simp only [pull_token, if_neg h0] at hn ⊢
  unfold pull_tbuf
  dsimp only
  generalize skip_space (buf.drop pos) pos = i at hn ⊢
  by_cases hop : is_op_char (charAt buf i) = true
  · rw [if_pos hop] at hn
    dsimp only at hn
    rw [hn] at hop
    exact absurd hop (by decide)
  rw [if_neg hop] at hn ⊢
  rw [if_neg hop]
  by_cases hnum : (isdigit (charAt buf i) || decide (charAt buf i = '.')) = true
  · rw [if_pos hnum] at hn ⊢
    rw [if_pos hnum]
    by_cases hbad : (if charAt buf (scan isdigit (buf.drop i) [] i).2 = '.' then
        scan isdigit (buf.drop ((scan isdigit (buf.drop i) [] i).2 + 1))
          (if (scan isdigit (buf.drop i) [] i).1.length < 100
            then (scan isdigit (buf.drop i) [] i).1 ++ ['.']
            else (scan isdigit (buf.drop i) [] i).1)
          ((scan isdigit (buf.drop i) [] i).2 + 1)
      else scan isdigit (buf.drop i) [] i).1.length = 100
    · rw [if_pos hbad] at hn
      exact absurd hn (by simp [null_token, NUL])
    · rw [if_neg hbad]
  · rw [if_neg hnum] at hn
    exfalso
    by_cases hname : (isalpha (charAt buf i) || decide (charAt buf i = '_')) = true
    · rw [if_pos hname] at hn
      revert hn
      split
      · dsimp only
        split_ifs <;> decide
      · simp [null_token, NUL]
      · simp [null_token, NUL]
    · rw [if_neg hname] at hn
      revert hn
      split_ifs <;> simp [null_token, NUL]

/-! ## Identifiers of any length -/

/-- The scanning loop on a word of any length: the buffer keeps the first 100
characters, the cursor passes the whole word. -/
theorem scan_take (p : Char → Bool) (w r : List Char)
    (hw : ∀ c ∈ w, p c = true) (hr : ∀ c ∈ r.head?, p c = false) :
    ∀ (tbuf : List Char) (i : Nat), tbuf.length ≤ 100 →
      scan p (w ++ r) tbuf i = ((tbuf ++ w).take 100, i + w.length) := by
  induction w with
  | nil =>
    intro tbuf i hl
    have e : (tbuf ++ []).take 100 = tbuf := by
      rw [List.append_nil]; exact List.take_of_length_le hl
    rw [e]
    cases r with
    | nil => simp [scan]
    | cons c r => simp [scan, hr c (by simp)]
  | cons a w ih =>
    intro tbuf i hl
    have ha : p a = true := hw a (by simp)
    have e : scan p (a :: w ++ r) tbuf i =
        scan p (w ++ r) (if tbuf.length < 100 then tbuf ++ [a] else tbuf) (i + 1) := by
      simp [scan, ha]
    rw [e]
    by_cases hlt : tbuf.length < 100
    · rw [if_pos hlt, ih (fun c hc => hw c (by simp [hc])) _ _
        (by rw [List.length_append]; simp; omega)]
      simp only [List.append_assoc, List.singleton_append, List.length_cons, Prod.mk.injEq,
        true_and]
      omega
    · rw [if_neg hlt, ih (fun c hc => hw c (by simp [hc])) _ _ hl]
      have h100 : tbuf.length = 100 := by omega
      have e1 : (tbuf ++ w).take 100 = tbuf := by
        rw [← h100]; exact List.take_left' rfl
      have e2 : (tbuf ++ a :: w).take 100 = tbuf := by
        rw [← h100]; exact List.take_left' rfl
      rw [e1, e2]
      simp only [List.length_cons, Prod.mk.injEq, true_and]
      omega

theorem name_chars {w : List Char} (hw : is_name w = true) :
    (∃ c0 w1, w = c0 :: w1 ∧ (isalpha c0 = true ∨ c0 = '_')) ∧ ∀ c ∈ w, isident c = true := by
  cases w with
  | nil => simp [is_name] at hw
  | cons a t =>
    simp only [is_name, Bool.and_eq_true, Bool.or_eq_true, decide_eq_true_eq,
      List.all_eq_true] at hw
    refine ⟨⟨a, t, rfl, hw.1⟩, fun c hc => ?_⟩
    rcases List.mem_cons.mp hc with e | e
    · subst e
      rcases hw.1 with h1 | h1
      · simp [isident, h1]
      · simp [isident, h1]
    · exact hw.2 c e

/-- Pulling an identifier of any length from an empty pushback slot, after
optional white space: the cursor passes the whole identifier, the lookup is
that of its first 100 characters, and no error is raised but that of a failed
lookup. -/
theorem pull_ident (E : Env V) {buf : List Char} {p : Nat} {ws w r : List Char}
    (s : State V) (hpb : s.G_pb_token = null_token E) (h : buf.drop p = ws ++ (w ++ r))
    (hws : ∀ x ∈ ws, isspace x = true) (hw : is_name w = true)
    (hr : ∀ c ∈ r.head?, isident c = false) :
    pull_token E buf p s =
      match ht_lookup s.G_varfn_table (some (w.take 100)) with
      | (0, some vf) =>
        (name_token E vf, p + ws.length + w.length, (copy_str E (w.take 100) 0 s).2)
      | (0, none) => (null_token E, p + ws.length + w.length, s)
      | _ => (null_token E, p + ws.length + w.length,
              { s with G_eval_error := EVAL_UNKNOWN_NAME }) := by
  have h0 : ¬ (s.G_pb_token.type ≠ NUL) := by rw [hpb]; simp [null_token]
  obtain ⟨⟨c0, w1, hw1, hc0⟩, hall⟩ := name_chars hw
  have hskip : skip_space (buf.drop p) p = p + ws.length := by
    rw [h, hw1]
    exact skip_space_append ws c0 (w1 ++ r) p hws (namestart_not_space hc0)
  have hdrop : buf.drop (p + ws.length) = c0 :: (w1 ++ r) := by
    rw [drop_add_of_drop h, hw1]; rfl
  have hch : charAt buf (p + ws.length) = c0 := charAt_of_drop hdrop
  have hal : (isalpha c0 || decide (c0 = '_')) = true := by
    rcases hc0 with e | e <;> simp [e]
  have hs : scan isident (buf.drop (p + ws.length)) [] (p + ws.length) =
      (w.take 100, p + ws.length + w.length) := by
    rw [drop_add_of_drop h]
    have := scan_take isident w r hall hr [] (p + ws.length) (by simp)
    simpa using this
  unfold pull_token
  rw [if_neg h0]
  simp only [hskip, hch, namestart_not_op hc0, namestart_not_num hc0, hal, if_true,
    Bool.false_eq_true, if_false, hs]
  rfl

theorem c_string_self {w : List Char} (h : ∀ c ∈ w, c ≠ NUL) : c_string w = w := by
  induction w with
  | nil => rfl
  | cons a t ih =>
    rw [c_string_cons (h a (List.mem_cons_self _ _)),
      ih (fun c hc => h c (List.mem_cons_of_mem _ hc))]

/-- An identifier of more than 100 characters and its first 100 characters
are different keys. -/
theorem head100_differs {w : List Char} (hw : is_name w = true) (hlen : 100 < w.length) :
    strcmp (w.take 100) w ≠ 0 := by
  obtain ⟨_, hall⟩ := name_chars hw
  have hn : ∀ c ∈ w, c ≠ NUL := by
    intro c hc e
    have := hall c hc
    rw [e] at this
    exact absurd this (by decide)
  intro h0
  rw [strcmp_zero_iff, c_string_self hn,
    c_string_self (fun c hc => hn c (List.mem_of_mem_take hc))] at h0
  have := congrArg List.length h0
  rw [List.length_take] at this
  omega

/-- A text that is an identifier whose first 100 characters are not bound
makes `eval` return `EVAL_UNKNOWN_NAME`. -/
theorem eval_unknown_ident (E : Env V) (s : State V) (result : Option V) (w : List Char)
    (hw : is_name w = true)
    (hun : (ht_lookup (eval_table E s) (some (w.take 100))).1 ≠ 0) :
    ∀ fuel, 5 ≤ fuel → outcome (eval E fuel (some w) result s) = some (3, result) := by
  intro fuel hf
  obtain ⟨f, rfl⟩ : ∃ f, fuel = (f + 1 + 3) + 1 := ⟨fuel - 5, by omega⟩
  have hp := @pull_ident V E w 0 [] w []
    { (set_funcs E { s with recurse := s.recurse + 1 }).2 with
        G_eval_error := 0, G_pb_token := null_token E } rfl (by simp) (by simp) hw (by simp)
  have hp1 : pull_token E w 0
      { (set_funcs E { s with recurse := s.recurse + 1 }).2 with
        G_eval_error := 0, G_pb_token := null_token E } =
      (null_token E, 0 + ([] : List Char).length + w.length,
        { (set_funcs E { s with recurse := s.recurse + 1 }).2 with
          G_eval_error := EVAL_UNKNOWN_NAME, G_pb_token := null_token E }) := by
    rw [hp]
    unfold eval_table at hun
    dsimp only
    generalize ht_lookup (set_funcs E { s with recurse := s.recurse + 1 }).2.G_varfn_table
      (some (w.take 100)) = lk at hun
    obtain ⟨rc, v⟩ := lk
    simp only at hun
    split
    · rename_i heq; simp only [Prod.mk.injEq] at heq; exact absurd heq.1 hun
    · rename_i heq; simp only [Prod.mk.injEq] at heq; exact absurd heq.1 hun
    · rfl
  have hi : eval_item E (f + 1) w 0
      { (set_funcs E { s with recurse := s.recurse + 1 }).2 with
          G_eval_error := 0, G_pb_token := null_token E } =
      some (E.A.zero, 0 + ([] : List Char).length + w.length,
        { (set_funcs E { s with recurse := s.recurse + 1 }).2 with
          G_eval_error := EVAL_UNKNOWN_NAME, G_pb_token := null_token E }) := by
    simp [eval_item, hp1, EVAL_UNKNOWN_NAME]
  have he := expr_of_item_err E hi (by simp [EVAL_UNKNOWN_NAME])
  rw [eval_unfold E s _ result _ he]
  simp [EVAL_UNKNOWN_NAME]

/-! ## Functions without a callable -/

theorem fn_zero_initial (E : Env V) : FnValuesZero E (initial_state E) := by
  intro T h
  simp [initial_state] at h

/-- The body of `eval_def_fn` leaves the value of every function at 0. -/
theorem def_fn_body_fn_zero (E : Env V) (hm : ∀ i, E.malloc i = true) (name : List Char)
    (fn : Option (FunctionPtr V)) (data : Data) (args : Int) (s : State V) (hs : TableOk s)
    (hz : FnValuesZero E s) : FnValuesZero E (eval_def_fn_body E name fn data args s).2 := by
  obtain ⟨T, h1, h2, h3, h4, h⟩ := def_fn_body_cases E hm name fn data args s hs
  have hzT : ∀ hb ∈ live T, ∀ f, hb.val = some f → f.fn ≠ none → f.value = E.A.zero := by
    cases hT : s.G_varfn_table with
    | none =>
      rw [h3 hT, create_live]
      intro hb hm0; simp at hm0
    | some T0 => rw [h4 T0 hT]; exact hz T0 hT
  have key : ∀ vf T1, vf.value = E.A.zero → SymPut name vf T T1 →
      (eval_def_fn_body E name fn data args s).2.G_varfn_table = some T1 →
      FnValuesZero E (eval_def_fn_body E name fn data args s).2 := by
    intro vf T1 hvf hp ht1 T2 hT2 hb hbm f hf hfn
    rw [ht1] at hT2
    rw [← Option.some.inj hT2] at hbm
    rcases SymPut_vals h2.1 hp hb hbm with hv | ⟨y, hy, hv⟩
    · rw [hv] at hf; rw [← Option.some.inj hf]; exact hvf
    · exact hzT y hy f (hv.trans hf) hfn
  rcases h with ⟨f, _, _, h5⟩ | ⟨f, T1, hf, hv, hp, _, h6⟩ | ⟨T1, _, hp, _, h6⟩
  · rw [h5]
    intro T2 hT2
    have : T2 = T := by
      dsimp only at hT2; rw [h1] at hT2; exact (Option.some.inj hT2).symm
    rw [this]; exact hzT
  · obtain ⟨hb, hbm, hbv, _⟩ := lookup_mem h2.1 hf
    exact key { f with fn := fn, data := data, nargs := args } T1 (hzT hb hbm f hbv hv) hp h6
  · exact key _ T1 rfl hp h6

theorem set_funcs_loop_fn_zero (E : Env V) (hm : ∀ i, E.malloc i = true) (l : List String) :
    ∀ (i : Nat) (s : State V), TableOk s → FnValuesZero E s →
      FnValuesZero E (set_funcs_loop E l i s).2 := by
  induction l with
  | nil => exact fun _ _ _ hz => hz
  | cons nm rest ih =>
    intro i s hs hz
    have h1 := def_fn_body_fn_zero E hm nm.toList (some (FunctionPtr.native (E.fn i))) none
      (fnargs.getD i 0) s hs hz
    have h2 := def_fn_body_ok E hm nm.toList (some (FunctionPtr.native (E.fn i))) none
      (fnargs.getD i 0) s hs
    simp only [set_funcs_loop]
    split_ifs
    · exact h1
    · exact ih _ _ h2 h1

theorem set_funcs_fn_zero (E : Env V) (hm : ∀ i, E.malloc i = true) (s : State V)
    (hs : TableOk s) (hz : FnValuesZero E s) : FnValuesZero E (set_funcs E s).2 := by
  unfold set_funcs
  split_ifs
  · exact hz
  · exact set_funcs_loop_fn_zero E hm _ _ _ (fun ht h => hs ht h) (fun T h => hz T h)

/-- `eval_def_fn` leaves the value of every function at 0. -/
theorem def_fn_fn_zero (E : Env V) (hm : ∀ i, E.malloc i = true) (name : List Char)
    (fn : Option (FunctionPtr V)) (data : Data) (args : Int) (s : State V) (hs : TableOk s)
    (hz : FnValuesZero E s) : FnValuesZero E (eval_def_fn E name fn data args s).2 :=
  def_fn_body_fn_zero E hm name fn data args _ (set_funcs_ok E hm s hs)
    (set_funcs_fn_zero E hm s hs hz)

/-- `eval_set_var` leaves the value of every function at 0. -/
theorem set_var_fn_zero (E : Env V) (hm : ∀ i, E.malloc i = true) (name : List Char) (v : V)
    (s : State V) (hs : TableOk s) (hz : FnValuesZero E s) :
    FnValuesZero E (eval_set_var E name v s).2 := by
  have hz1 := set_funcs_fn_zero E hm s hs hz
  have hs1 := set_funcs_ok E hm s hs
  obtain ⟨T, h1, h2, _, hc⟩ := set_var_cases E hm name v s hs
  obtain ⟨T0, _, g2, g3, g4, g5⟩ := ensure_table_ok E hm _ hs1
  have hT : T = T0 := by
    unfold sym_table at h1; rw [g2] at h1; exact (Option.some.inj h1).symm
  have hzT : ∀ hb ∈ live T, ∀ f, hb.val = some f → f.fn ≠ none → f.value = E.A.zero := by
    rw [hT]
    cases hX : (set_funcs E s).2.G_varfn_table with
    | none =>
      rw [g4 hX, create_live]
      intro hb hm0; simp at hm0
    | some T1 => rw [g5 T1 hX]; exact hz1 T1 hX
  have key : ∀ vf T1, vf.fn = none → SymPut name vf T T1 →
      (eval_set_var E name v s).2.G_varfn_table = some T1 →
      FnValuesZero E (eval_set_var E name v s).2 := by
    intro vf T1 hvf hp ht1 T2 hT2 hb hbm f hf hfn
    rw [ht1] at hT2
    rw [← Option.some.inj hT2] at hbm
    rcases SymPut_vals h2.1 hp hb hbm with hv | ⟨y, hy, hv⟩
    · rw [hv] at hf; rw [← Option.some.inj hf] at hfn; exact absurd hvf hfn
    · exact hzT y hy f (hv.trans hf) hfn
  rcases hc with ⟨f, _, _, _, h6⟩ | ⟨f, T1, _, hv, hp, _, h6⟩ | ⟨T1, _, hp, _, h6⟩
  · intro T2 hT2
    rw [h6] at hT2
    rw [← Option.some.inj hT2]; exact hzT
  · exact key { f with value := v } T1 hv hp h6
  · exact key _ T1 rfl hp h6

/-- A function found by the lookup of the three calls has the value 0. -/
theorem sym_table_fn_zero (E : Env V) (hm : ∀ i, E.malloc i = true) (s : State V)
    (hs : TableOk s) (hz : FnValuesZero E s) {name : List Char} {f : VarFn V}
    (hl : ht_lookup (sym_table E s) (some name) = (0, some f)) (hfn : f.fn ≠ none) :
    f.value = E.A.zero := by
  obtain ⟨_, h2⟩ := sym_table_found E hl
  cases hT : (set_funcs E s).2.G_varfn_table with
  | none => rw [← h2, hT] at hl; simp [ht_lookup] at hl
  | some T =>
    rw [← h2, hT] at hl
    obtain ⟨hb, hbm, hbv, _⟩ := lookup_mem (set_funcs_ok E hm s hs T hT).1 hl
    exact set_funcs_fn_zero E hm s hs hz T hT hb hbm f hbv hfn

/-- `eval_def_fn` on a name that is not bound, with a `malloc` that does not
fail: it returns 0, the built-ins are installed afterwards, and a lookup of
the name returns the record `create_fn` made. -/
theorem def_fn_fresh (E : Env V) (hm : ∀ i, E.malloc i = true) (s : State V)
    (hs : TableOk s) (name : List Char)
    (hl : (ht_lookup (sym_table E s) (some name)).1 ≠ 0)
    (fn : Option (FunctionPtr V)) (data : Data) (args : Int) :
    (eval_def_fn E name fn data args s).1 = 0 ∧
    (eval_def_fn E name fn data args s).2.done = true ∧
    ht_lookup (eval_def_fn E name fn data args s).2.G_varfn_table (some name) =
      (0, some (create_fn E name fn args data)) := by
  have hd : (eval_def_fn E name fn data args s).2.done = true :=
    (eval_def_fn_body_done E name fn data args _).trans (set_funcs_done E s)
  obtain ⟨T, h1, h2, _, _, h⟩ :=
    def_fn_body_cases E hm name fn data args _ (set_funcs_ok E hm s hs)
  have hl1 : (ht_lookup (some T) (some name)).1 ≠ 0 := by
    rw [← h1]; exact hl
  rcases h with ⟨f1, hf1, _, _⟩ | ⟨f1, T1, hf1, _, _, _, _⟩ | ⟨T1, _, hp, h5, h6⟩
  · rw [hf1] at hl1; exact absurd rfl hl1
  · rw [hf1] at hl1; exact absurd rfl hl1
  · refine ⟨h5, hd, ?_⟩
    unfold eval_def_fn
    rw [h6]
    exact SymPut_lookup h2 hp ((strcmp_zero_iff _ _).mpr rfl)

/-- `eval_def_fn` leaves the symbol table as `SymOk` says. -/
theorem def_fn_ok (E : Env V) (hm : ∀ i, E.malloc i = true) (name : List Char)
    (fn : Option (FunctionPtr V)) (data : Data) (args : Int) (s : State V) (hs : TableOk s) :
    TableOk (eval_def_fn E name fn data args s).2 :=
  def_fn_body_ok E hm name fn data args _ (set_funcs_ok E hm s hs)

/-- What a name bound to a record without a callable is to the calls: a
variable.  `eval_get_var` returns 0 and the value of the record,
`eval_set_var` returns 0 and binds the name to the new value, the tokenizer
gives a variable token, and `eval` of the name returns the value. -/
theorem bound_var_facts (E : Env V) (hm : ∀ i, E.malloc i = true) (t : State V)
    (ht : TableOk t) (hd : t.done = true) (name : List Char) (g : VarFn V)
    (hl : ht_lookup t.G_varfn_table (some name) = (0, some g)) (hg : g.fn = none) :
    (∀ value, (eval_get_var E name value t).1 = 0 ∧
      (eval_get_var E name value t).2.1 = value.map (fun _ => g.value)) ∧
    (∀ v, (eval_set_var E name v t).1 = 0 ∧
      ∃ f, ht_lookup (eval_set_var E name v t).2.G_varfn_table (some name) = (0, some f) ∧
        f.fn = none ∧ f.value = v) ∧
    (is_name name = true → name.length ≤ 100 →
      (∀ (buf : List Char) (p : Nat) (r : List Char), buf.drop p = name ++ r →
        (∀ c ∈ r.head?, isident c = false) →
        (pull_token E buf p { t with G_pb_token := null_token E }).1.type = 'v' ∧
        (pull_token E buf p { t with G_pb_token := null_token E }).1.value = g.value ∧
        (pull_token E buf p { t with G_pb_token := null_token E }).2.1 = p + name.length) ∧
      ∀ result, ∃ n, ∀ fuel, n ≤ fuel →
        outcome (eval E fuel (some name) result t) = some (0, result.map (fun _ => g.value))) := by
  obtain ⟨T, hT⟩ : ∃ T, t.G_varfn_table = some T := by
    cases hX : t.G_varfn_table with
    | none => rw [hX] at hl; simp [ht_lookup] at hl
    | some T => exact ⟨T, rfl⟩
  have hst : sym_table E t = t.G_varfn_table := by
    rw [sym_table_of_done E hd hT, hT]
  have hfree : ∀ f, ht_lookup (sym_table E t) (some name) = (0, some f) → f.fn = none := by
    intro f hf
    rw [hst, hl] at hf
    simp only [Prod.mk.injEq, Option.some.injEq, true_and] at hf
    rw [← hf]; exact hg
  refine ⟨fun value => ?_, fun v => ?_, fun hname hnl => ⟨fun buf p r hb hr => ?_, fun result => ?_⟩⟩
  · have := get_var_eq E hm t ht name value
    rw [hst, hl, get_result_var hg] at this
    exact ⟨(Prod.mk.inj this).1, (Prod.mk.inj this).2⟩
  · obtain ⟨_, hbound⟩ := set_var_lookup E hm name v t ht hfree
    obtain ⟨T1, h1, _, _, hc⟩ := set_var_cases E hm name v t ht
    refine ⟨?_, hbound⟩
    rcases hc with ⟨f, hf, hv, _, _⟩ | ⟨f, T2, _, _, _, h5, _⟩ | ⟨T2, _, _, h5, _⟩
    · exact absurd (hfree f (by rw [h1]; exact hf)) hv
    · exact h5
    · exact h5
  · have hp := pull_name E { t with G_pb_token := null_token E } rfl hb hname hnl hr
      (by exact hl)
    rw [hp]
    refine ⟨by simp [name_token, hg], rfl, rfl⟩
  · refine eval_of_yields E t result (expr_var E _ hname hnl ?_ hg)
    have e := eval_table_of_done E hd
    unfold eval_table at e
    rw [e]
    exact hl

/-- In a freshly loaded program with a `malloc` that does not fail every
built-in name is bound to a function. -/
theorem builtin_bound (E : Env V) (hm : ∀ i, E.malloc i = true) (nm : String)
    (hnm : nm ∈ fnname) :
    ∃ f, ht_lookup (sym_table E (initial_state E)) (some nm.toList) = (0, some f) ∧
      f.fn ≠ none := by
  obtain ⟨g1, g2, g3, _⟩ := set_funcs_initial E hm
  have hb := g3 nm hnm
  unfold Bound at hb
  cases hT : (set_funcs E (initial_state E)).2.G_varfn_table with
  | none => rw [hT] at hb; simp [ht_lookup] at hb
  | some T =>
    rw [hT] at hb
    have hst : sym_table E (initial_state E) = some T := by
      unfold sym_table; rw [ensure_table_some E hT]; exact hT
    rcases sym_lookup_cases (g1 T hT) nm.toList with ⟨f, hf⟩ | hnf
    · obtain ⟨hbk, hbm, hbv, _⟩ := lookup_mem (g1 T hT).1 hf
      exact ⟨f, by rw [hst]; exact hf, g2 T hT hbk hbm f hbv⟩
    · rw [hnf] at hb; simp at hb

/-! ## How `eval_expr` returns -/

/-- C31: `eval_error` is total.  For every code below 0 or above 10 it
returns `Unknown Error Value`; for the codes 0 to 10 it returns the eleven
entries of `G_eval_err_str`, which are pairwise distinct, none of them the
fallback: no error, syntax, divide by zero, unknown name (spelt `Unkown Name`
in the code), bad literal, memory, integer convert, missing close
parentheses, null expression, function evaluation, argument count. -/
theorem C31_error_message_total :
    (∀ err : Int, err < 0 ∨ 10 < err → eval_error err = "Unknown Error Value") ∧
    (∀ err : Int, 0 ≤ err → err ≤ 10 →
      eval_error err ∈ G_eval_err_str ∧ eval_error err ≠ "Unknown Error Value") ∧
    [eval_error 0, eval_error 1, eval_error 2, eval_error 3, eval_error 4, eval_error 5,
      eval_error 6, eval_error 7, eval_error 8, eval_error 9, eval_error 10] =
      ["No Error", "Syntax Error", "Divide By Zero", "Unkown Name", "Bad Literal Value",
       "Error Allocating Memory", "Integer Convert Error", "Missing Close Parentheses",
       "NULL Expression String", "Error in Function Evaluation", "Invalid Argument Count"] ∧
    G_eval_err_str.length = 11 ∧ G_eval_err_str.Nodup := by
  refine ⟨?_, ?_, by decide, by decide, by decide⟩
  · intro err h
    have : err < MIN_ERR_VALUE ∨ err > MAX_ERR_VALUE := h
    simp only [eval_error, if_pos this]
  · intro err h0 h1
    have hcases : err = 0 ∨ err = 1 ∨ err = 2 ∨ err = 3 ∨ err = 4 ∨ err = 5 ∨ err = 6 ∨
        err = 7 ∨ err = 8 ∨ err = 9 ∨ err = 10 := by omega
    rcases hcases with h | h | h | h | h | h | h | h | h | h | h <;> subst h <;> decide

/-- C33: an identifier `w` of more than 100 characters, pulled from an empty
pushback slot.  The cursor passes the whole identifier; the lookup is that of
the first 100 characters, and the truncation raises no error: when that
prefix is bound, the token is the token of its entry and the error flag is
untouched, and when it is not, the flag is `EVAL_UNKNOWN_NAME` as for any
unbound name.  So an identifier with the same first 100 characters gives the
same token.  And a variable set under `w` (with a `malloc` that does not
fail, `w` not being a function, and the prefix not bound) is bound, while the
text `w` evaluates to `EVAL_UNKNOWN_NAME` (3). -/
theorem C33_long_identifier (E : Env V) (s : State V) (buf : List Char) (p : Nat)
    (w r : List Char) (hpb : s.G_pb_token = null_token E) (h : buf.drop p = w ++ r)
    (hw : is_name w = true) (hlen : 100 < w.length) (hr : ∀ c ∈ r.head?, isident c = false) :
    (pull_token E buf p s).2.1 = p + w.length ∧
    (∀ vf, ht_lookup s.G_varfn_table (some (w.take 100)) = (0, some vf) →
      pull_token E buf p s = (name_token E vf, p + w.length, (copy_str E (w.take 100) 0 s).2) ∧
      (pull_token E buf p s).2.2.G_eval_error = s.G_eval_error) ∧
    ((ht_lookup s.G_varfn_table (some (w.take 100))).1 ≠ 0 →
      pull_token E buf p s =
        (null_token E, p + w.length, { s with G_eval_error := EVAL_UNKNOWN_NAME })) ∧
    (∀ (buf2 : List Char) (p2 : Nat) (w2 r2 : List Char), buf2.drop p2 = w2 ++ r2 →
      is_name w2 = true → (∀ c ∈ r2.head?, isident c = false) → w2.take 100 = w.take 100 →
      (pull_token E buf2 p2 s).1 = (pull_token E buf p s).1 ∧
      (pull_token E buf2 p2 s).2.2 = (pull_token E buf p s).2.2) ∧
    ((∀ i, E.malloc i = true) → TableOk s →
      (∀ f, ht_lookup (sym_table E s) (some w) = (0, some f) → f.fn = none) →
      (ht_lookup (sym_table E s) (some (w.take 100))).1 ≠ 0 →
      ∀ (v : V) (result : Option V),
        (eval_set_var E w v s).1 = 0 ∧
        (∃ f, ht_lookup (eval_set_var E w v s).2.G_varfn_table (some w) = (0, some f) ∧
          f.fn = none ∧ f.value = v) ∧
        ∀ fuel, 5 ≤ fuel →
          outcome (eval E fuel (some w) result (eval_set_var E w v s).2) = some (3, result)) := by
  have hp := @pull_ident V E buf p [] w r s hpb (by simpa using h) (by simp) hw hr
  simp only [List.length_nil, Nat.add_zero] at hp
  refine ⟨?_, fun vf hl => ?_, fun hl => ?_, fun buf2 p2 w2 r2 h2 hw2 hr2 he => ?_,
    fun hm hs hfree hpre v result => ?_⟩
  · rw [hp]
    split <;> rfl
  · rw [hp, hl]
    exact ⟨rfl, (copy_str_keeps E _ 0 s).1⟩
  · rw [hp]
    generalize ht_lookup s.G_varfn_table (some (w.take 100)) = lk at hl
    obtain ⟨rc, x⟩ := lk
    simp only at hl
    split
    · rename_i heq; simp only [Prod.mk.injEq] at heq; exact absurd heq.1 hl
    · rename_i heq; simp only [Prod.mk.injEq] at heq; exact absurd heq.1 hl
    · rfl
  · have hp2 := @pull_ident V E buf2 p2 [] w2 r2 s hpb (by simpa using h2) (by simp) hw2 hr2
    simp only [List.length_nil, Nat.add_zero] at hp2
    rw [hp, hp2, he]
    split <;> exact ⟨rfl, rfl⟩
  · obtain ⟨hd, hbound⟩ := set_var_lookup E hm w v s hs hfree
    obtain ⟨T, h1, h2, _, hc⟩ := set_var_cases E hm w v s hs
    have hne := head100_differs hw hlen
    rw [h1] at hpre
    have key : ∀ vf T1, SymPut w vf T T1 →
        (eval_set_var E w v s).2.G_varfn_table = some T1 →
        ∀ fuel, 5 ≤ fuel →
          outcome (eval E fuel (some w) result (eval_set_var E w v s).2) = some (3, result) := by
      intro vf T1 hput ht1
      refine eval_unknown_ident E _ result w hw ?_
      rw [eval_table_of_done E hd, ht1, SymPut_frame h2 hput hne]
      exact hpre
    rcases hc with ⟨f, hf, hv, _, _⟩ | ⟨f, T1, _, _, hput, h5, h6⟩ | ⟨T1, _, hput, h5, h6⟩
    · exact absurd (hfree f (by rw [h1]; exact hf)) hv
    · exact ⟨h5, hbound, key _ T1 hput h6⟩
    · exact ⟨h5, hbound, key _ T1 hput h6⟩

/-- C33 on a freshly loaded program, at the identifier of 101 letters `a`:
the cursor ends at 101, the name can be set as a variable, and evaluating it
gives `EVAL_UNKNOWN_NAME`. -/
theorem C33_witness :
    (pull_token exactEnv long_name 0 (initial_state exactEnv)).2.1 = 0 + 101 ∧
    (eval_set_var exactEnv long_name ⟨5, 1⟩ (initial_state exactEnv)).1 = 0 ∧
    (∀ fuel, 5 ≤ fuel →
      outcome (eval exactEnv fuel (some long_name) (some ⟨0, 1⟩)
        (eval_set_var exactEnv long_name ⟨5, 1⟩ (initial_state exactEnv)).2) =
          some (3, some ⟨0, 1⟩)) :=
  ⟨(C33_long_identifier exactEnv (initial_state exactEnv) long_name 0 long_name [] rfl
      (by simp) (by decide) (by decide) (by simp)).1,
   ((C33_long_identifier exactEnv (initial_state exactEnv) long_name 0 long_name [] rfl
      (by simp) (by decide) (by decide) (by simp)).2.2.2.2 (fun _ => rfl)
      (fun ht h0 => by simp [initial_state] at h0)
      (fun f hf => by
        rw [initial_unbound exactEnv (fun _ => rfl) long_name (by decide)] at hf
        simp at hf)
      (by rw [initial_unbound exactEnv (fun _ => rfl) _ (by decide)]; decide)
      ⟨5, 1⟩ (some ⟨0, 1⟩)).1,
   ((C33_long_identifier exactEnv (initial_state exactEnv) long_name 0 long_name [] rfl
      (by simp) (by decide) (by decide) (by simp)).2.2.2.2 (fun _ => rfl)
      (fun ht h0 => by simp [initial_state] at h0)
      (fun f hf => by
        rw [initial_unbound exactEnv (fun _ => rfl) long_name (by decide)] at hf
        simp at hf)
      (by rw [initial_unbound exactEnv (fun _ => rfl) _ (by decide)]; decide)
      ⟨5, 1⟩ (some ⟨0, 1⟩)).2.2⟩

/-- C34: the pushback slot holds one token.  Pushing a token that is not the
end token into an empty slot returns 0, and the next `pull_token` returns that
very token, whatever the text and the cursor, leaves the cursor where it was
and the slot empty, and changes nothing else; pushing into an occupied slot
returns 1 and changes nothing. -/
theorem C34_pushback (E : Env V) (tok : Token V) (s : State V) :
    (s.G_pb_token.type = NUL → tok.type ≠ NUL →
      (push_token tok s).1 = 0 ∧ (push_token tok s).2 = { s with G_pb_token := tok } ∧
      ∀ buf pos, pull_token E buf pos (push_token tok s).2 =
        (tok, pos, { s with G_pb_token := null_token E })) ∧
    (s.G_pb_token.type ≠ NUL → push_token tok s = (1, s)) := by
  refine ⟨fun h0 ht => ?_, fun h => ?_⟩
  · have h1 : ¬ (s.G_pb_token.type ≠ NUL) := not_not.mpr h0
    have e : push_token tok s = (0, { s with G_pb_token := tok }) := by
      simp only [push_token, if_neg h1]
    rw [e]
    refine ⟨rfl, rfl, fun buf pos => ?_⟩
    exact pull_pb E buf pos { s with G_pb_token := tok } ht
  · simp only [push_token, if_pos h]

/-- C34 on a freshly loaded program: a closing parenthesis is pushed and
pulled again at cursor 3 of the text `1+2`; a second push is refused. -/
theorem C34_witness :
    (push_token (op_token exactEnv ')') (initial_state exactEnv)).1 = 0 ∧
    pull_token exactEnv "1+2".toList 3
      (push_token (op_token exactEnv ')') (initial_state exactEnv)).2 =
        (op_token exactEnv ')', 3, initial_state exactEnv) ∧
    push_token (op_token exactEnv '+')
      (push_token (op_token exactEnv ')') (initial_state exactEnv)).2 =
        (1, (push_token (op_token exactEnv ')') (initial_state exactEnv)).2) :=
  ⟨((C34_pushback exactEnv (op_token exactEnv ')') (initial_state exactEnv)).1
      rfl (by decide)).1,
   ((C34_pushback exactEnv (op_token exactEnv ')') (initial_state exactEnv)).1
      rfl (by decide)).2.2 "1+2".toList 3,
   (C34_pushback exactEnv (op_token exactEnv '+')
      (push_token (op_token exactEnv ')') (initial_state exactEnv)).2).2 (by decide)⟩

/-- C35: the allocation policy of the arena, for a request of `n >= 1` bytes
in a state whose arena variables fit together (`ArenaOk`).  If `n` is at most
the free tail of the head block, `lalloc` returns the current position of
that block, advances the position by `n`, adds no block and does not call
`malloc`.  Otherwise it calls `malloc`; with a block returned, the block has a
capacity of at least `max(n, 5000)`, becomes the head, the pointer is its
offset 0 and the position is `n`; with `malloc` failing, `lalloc` returns
`NULL` and leaves the arena as it was.  After every sequence of such calls
and of `lfreeall` the position is at most the capacity, every span handed out
since the last `lfreeall` lies inside its block, and two spans of one block
do not overlap. -/
theorem C35_arena_policy (E : Env V) (s : State V) (ha : ArenaOk s) (n : Nat) (hn : 1 ≤ n) :
    (n ≤ s.G_cur_data_size - s.G_cur_data_pos →
      lalloc E n s = (true, { s with G_cur_data_pos := s.G_cur_data_pos + n }) ∧
      lalloc_ptr E n s = some (s.G_cur_node.length, s.G_cur_data_pos) ∧
      1 ≤ s.G_cur_node.length) ∧
    (s.G_cur_data_size - s.G_cur_data_pos < n → E.malloc s.mallocs = true →
      ∃ cap, max n 5000 ≤ cap ∧ (lalloc E n s).1 = true ∧
        (lalloc E n s).2.G_cur_node = cap :: s.G_cur_node ∧
        (lalloc E n s).2.G_cur_data_size = cap ∧ (lalloc E n s).2.G_cur_data_pos = n ∧
        lalloc_ptr E n s = some (s.G_cur_node.length + 1, 0)) ∧
    (s.G_cur_data_size - s.G_cur_data_pos < n → E.malloc s.mallocs = false →
      lalloc E n s = (false, { s with mallocs := s.mallocs + 1 }) ∧
      lalloc_ptr E n s = none) ∧
    (∀ ops, PositiveRequests ops →
      (arena_run E ops s []).1.G_cur_data_pos ≤ (arena_run E ops s []).1.G_cur_data_size ∧
      (∀ x ∈ (arena_run E ops s []).2,
        1 ≤ x.block ∧ x.block ≤ (arena_run E ops s []).1.G_cur_node.length ∧
        x.off + x.len ≤ block_capacity (arena_run E ops s []).1 x.block) ∧
      (arena_run E ops s []).2.Pairwise
        (fun a b => a.block = b.block → a.off + a.len ≤ b.off ∨ b.off + b.len ≤ a.off)) := by
  refine ⟨fun h => ?_, fun h hm => ?_, fun h hm => ?_, fun ops hp => ?_⟩
  · rcases lalloc_cases E n s with ⟨_, e, ep⟩ | ⟨h1, _⟩ | ⟨h1, _⟩
    · refine ⟨e, ep, ?_⟩
      cases hN : s.G_cur_node with
      | nil =>
        have a2 := ha.2
        rw [hN] at a2
        simp at a2
        omega
      | cons c t => simp
    · omega
    · omega
  · rcases lalloc_cases E n s with ⟨h1, _⟩ | ⟨_, _, e, ep⟩ | ⟨_, hm1, _⟩
    · omega
    · refine ⟨if n < MIN_ALLOC_SIZE then MIN_ALLOC_SIZE else n + MIN_ALLOC_SIZE, ?_, ?_⟩
      · unfold MIN_ALLOC_SIZE; split_ifs <;> omega
      · rw [e]; exact ⟨rfl, rfl, rfl, rfl, ep⟩
    · rw [hm] at hm1; exact absurd hm1 (by decide)
  · rcases lalloc_cases E n s with ⟨h1, _⟩ | ⟨_, hm1, _⟩ | ⟨_, _, e, ep⟩
    · omega
    · rw [hm] at hm1; exact absurd hm1 (by decide)
    · exact ⟨e, ep⟩
  · obtain ⟨b1, b2, _, b4⟩ := arena_run_ok E ops s [] hp ha
      ⟨fun x hx => by simp at hx, fun x hx => by simp at hx, List.Pairwise.nil⟩
    exact ⟨b1.1, b2, b4⟩

/-- C35 on a freshly loaded program: requests of 10, 20, 6000 and 30 bytes
give a block of 5000 bytes with the spans at 0 and 10 and a block of 11000
bytes with the spans at 0 and 6000; after `lfreeall` a request of 1 byte opens
a new block. -/
theorem C35_witness :
    ArenaOk (initial_state exactEnv) ∧
    (∃ cap, max 10 5000 ≤ cap ∧ (lalloc exactEnv 10 (initial_state exactEnv)).1 = true ∧
      (lalloc exactEnv 10 (initial_state exactEnv)).2.G_cur_node = cap :: [] ∧
      (lalloc exactEnv 10 (initial_state exactEnv)).2.G_cur_data_size = cap ∧
      (lalloc exactEnv 10 (initial_state exactEnv)).2.G_cur_data_pos = 10 ∧
      lalloc_ptr exactEnv 10 (initial_state exactEnv) = some (1, 0)) ∧
    (arena_run exactEnv [.alloc 10, .alloc 20, .alloc 6000, .alloc 30]
      (initial_state exactEnv) []).2 = [⟨2, 6000, 30⟩, ⟨2, 0, 6000⟩, ⟨1, 10, 20⟩, ⟨1, 0, 10⟩] ∧
    (arena_run exactEnv [.alloc 10, .alloc 20, .alloc 6000, .alloc 30]
      (initial_state exactEnv) []).1.G_cur_node = [11000, 5000] ∧
    (arena_run exactEnv [.alloc 10, .free_all, .alloc 1] (initial_state exactEnv) []).2
      = [⟨1, 0, 1⟩] ∧
    (arena_run exactEnv [.alloc 10, .alloc 20, .alloc 6000, .alloc 30]
      (initial_state exactEnv) []).2.Pairwise
        (fun a b => a.block = b.block → a.off + a.len ≤ b.off ∨ b.off + b.len ≤ a.off) :=
  ⟨⟨le_refl _, rfl⟩,
   (C35_arena_policy exactEnv (initial_state exactEnv) ⟨le_refl _, rfl⟩ 10 (by decide)).2.1
     (by decide) rfl,
   by decide, by decide, by decide,
   ((C35_arena_policy exactEnv (initial_state exactEnv) ⟨le_refl _, rfl⟩ 10
     (by decide)).2.2.2 [.alloc 10, .alloc 20, .alloc 6000, .alloc 30]
     (by intro n hn; simp at hn; omega)).2.2⟩

/-- A counterexample to C36 as worded: `lookup` stores the hash code in an
`int` and takes `hc % size` in `unsigned long`, so a code of 2^31 or more is
sign-extended first and the slot is not the hash modulo the table size.  In a
table of 7 slots a key with the code 2^31 stands in slot 0, and 2^31 modulo 7
is 2; in the symbol table of the evaluator (500 slots, `vhash`) a name of 32
letters `a` has the code 2^32 - 97 and the slot 19, where the code modulo 500
is 199. -/
theorem C36_counterexample :
    ((run_ops (ht_create 7 high_hash key_comp false false)
      [.insert (some 1) (some 10) true]).table.getD 0 []).map
        (fun hb => (hb.tag, hb.key, hb.val)) = [(HASHBUCKET_TAG, some 1, some 10)] ∧
    high_hash (some 1) % 7 = 2 ∧
    (lookup (ht_create 500 vhash vcomp false true : hashtable (List Char) Nat)
      (some long_key)).2.1 = 19 ∧
    vhash (some long_key) = 2 ^ 32 - 97 ∧ vhash (some long_key) % 500 = 199 := by
  refine ⟨by decide, by decide, by decide, by decide, by decide⟩

/-- C36, amended: in every table reached from `ht_create` (with at least one
slot) by calls of `ht_insert` and `ht_remove`, every bucket in the chain of
slot `i` carries the live tag and a key whose slot, as `lookup` computes it,
is `i` (the hash code read as an `int` and converted to `unsigned long`,
modulo the table size, which is the code modulo the table size for codes
below 2^31); the slot `lookup` selects is below the table size; `ht_insert`
returns 0 or, when the pool is empty and `malloc` fails, 4; and `ht_iterate`
returns 0 or 5. -/
theorem C36_chains_sound {K W S : Type} (size : Nat) (hash : Option K → Nat)
    (comp : Option K → Option K → Int) (kdel vdel : Bool) (hs : 0 < size)
    (ops : List (TableOp K W)) :
    (∀ i, i < size → ∀ hb ∈ (run_ops (ht_create size hash comp kdel vdel) ops).table.getD i [],
      hb.tag = HASHBUCKET_TAG ∧ slot_index (hash hb.key) size = i ∧
      (hash hb.key % 2 ^ 32 < 2 ^ 31 → hash hb.key % 2 ^ 32 % size = i)) ∧
    (∀ k, (lookup (run_ops (ht_create size hash comp kdel vdel) ops) k).2.1 =
        slot_index (hash k) size ∧
      (lookup (run_ops (ht_create size hash comp kdel vdel) ops) k).2.1 < size) ∧
    (∀ k v m, (ht_insert (some (run_ops (ht_create size hash comp kdel vdel) ops)) k v m).1 = 0 ∨
      ((ht_insert (some (run_ops (ht_create size hash comp kdel vdel) ops)) k v m).1 = 4 ∧
        (run_ops (ht_create size hash comp kdel vdel) ops).pool = [] ∧ m = false)) ∧
    (∀ (f : Nat → Option K → Option W → S → Int × S) (p_rv : Option Int) (st : S),
      (ht_iterate (some (run_ops (ht_create size hash comp kdel vdel) ops)) (some f) p_rv st).rc
        = 0 ∨
      (ht_iterate (some (run_ops (ht_create size hash comp kdel vdel) ops)) (some f) p_rv st).rc
        = 5) := by
  have hwc := create_wf (W := W) size hash comp kdel vdel hs
  have hw := run_ops_wf hwc ops
  obtain ⟨c1, _, c3⟩ := run_ops_config hwc ops
  have hi : InSlot (run_ops (ht_create size hash comp kdel vdel) ops) :=
    (run_ops_keeps (fun t : hashtable K W => InSlot t)
      (fun t op hwt hp => apply_op_inslot hwt hp op) ops _ hwc
      (create_inslot size hash comp kdel vdel)).2
  generalize run_ops (ht_create size hash comp kdel vdel) ops = t at hw c1 c3 hi ⊢
  have c1 : t.hash = hash := c1
  have c3 : t.size = size := c3
  refine ⟨fun i hlt hb hm => ?_, fun k => ?_, fun k v m => ?_, fun f p_rv st => ?_⟩
  · have hlen : i < t.table.length := by rw [hw.2.1, c3]; exact hlt
    have hslot := hi i hlen hb hm
    rw [c1, c3] at hslot
    have hmem : t.table.getD i [] ∈ t.table := by
      rw [List.getD_eq_getElem _ _ hlen]
      exact List.getElem_mem _
    refine ⟨hw.2.2.2.1 _ hmem hb hm, hslot, fun hlow => ?_⟩
    unfold slot_index at hslot
    rw [if_pos hlow] at hslot
    exact hslot
  · have e : (lookup t k).2.1 = slot_index (hash k) size := by
      rcases lookup_cases hw k with ⟨h, _⟩ | ⟨pre, hb, post, _, _, _, h⟩
      · rw [h, c1, c3]
      · rw [h, c1, c3]
    exact ⟨e, by rw [e]; exact slot_index_lt _ _ hs⟩
  · rcases ht_insert_cases hw k v m with ⟨h, hp, hm, _⟩ | ⟨pre, hb, post, _, _, _, h⟩ | ⟨_, _, h⟩
    · exact Or.inr ⟨by rw [h], hp, hm⟩
    · exact Or.inl (by rw [h])
    · exact Or.inl (by rw [h])
  · rw [ht_iterate_eq hw]
    obtain ⟨new, _, _, _, h⟩ := visit_list_spec f (entries t) p_rv st []
    rcases h with ⟨h, _⟩ | ⟨h, _⟩
    · exact Or.inl h
    · exact Or.inr h

/-- C36 on the table of three slots holding 1, 4, 7 and 2. -/
theorem C36_witness :
    (∀ i, i < 3 → ∀ hb ∈ small_table.table.getD i [],
      hb.tag = HASHBUCKET_TAG ∧ slot_index (key_hash hb.key) 3 = i ∧
      (key_hash hb.key % 2 ^ 32 < 2 ^ 31 → key_hash hb.key % 2 ^ 32 % 3 = i)) ∧
    (∀ k v m, (ht_insert (some small_table) k v m).1 = 0 ∨
      ((ht_insert (some small_table) k v m).1 = 4 ∧ small_table.pool = [] ∧ m = false)) ∧
    ((ht_iterate (some small_table) (some visit_count) none 0).rc = 0 ∨
      (ht_iterate (some small_table) (some visit_count) none 0).rc = 5) :=
  ⟨(C36_chains_sound (S := Nat) 3 key_hash key_comp false false (by decide)
      [.insert (some 1) (some 10) true, .insert (some 4) (some 40) true,
       .insert (some 2) (some 20) true, .insert (some 7) (some 70) true]).1,
   (C36_chains_sound (S := Nat) 3 key_hash key_comp false false (by decide)
      [.insert (some 1) (some 10) true, .insert (some 4) (some 40) true,
       .insert (some 2) (some 20) true, .insert (some 7) (some 70) true]).2.2.1,
   (C36_chains_sound 3 key_hash key_comp false false (by decide)
      [.insert (some 1) (some 10) true, .insert (some 4) (some 40) true,
       .insert (some 2) (some 20) true, .insert (some 7) (some 70) true]).2.2.2
      visit_count none 0⟩

/-- C37: the bounds of the tokenizer.  For a text of length `L`, a cursor
`p <= L` and an empty pushback slot, `pull_token` leaves a cursor between `p`
and `L`; it reads nothing behind the terminating NUL (whatever stands in
memory there, it returns the same token, cursor and state); and its scan
buffer holds at most 100 characters when it returns, so the loops stored at
indices below 100 and the terminator went to index 100 at most.  The buffer is
the one the value of a number token is converted from. -/
theorem C37_tokenizer_bounds (E : Env V) (buf : List Char) (pos : Nat) (s : State V)
    (hpb : s.G_pb_token.type = NUL) (hp : pos ≤ buf.length) :
    pos ≤ (pull_token E buf pos s).2.1 ∧ (pull_token E buf pos s).2.1 ≤ buf.length ∧
    (∀ junk, pull_token E (buf ++ NUL :: junk) pos s = pull_token E buf pos s) ∧
    (pull_tbuf buf pos).length ≤ 100 ∧
    ((pull_token E buf pos s).1.type = 'n' →
      (pull_token E buf pos s).1.value = E.A.strtod (pull_tbuf buf pos)) :=
  ⟨(pull_cursor_bounds E buf pos s hpb hp).1, (pull_cursor_bounds E buf pos s hpb hp).2,
   fun junk => pull_junk E buf junk pos s hp, pull_tbuf_len buf pos hp,
   pull_tbuf_value E buf pos s hpb⟩

/-- C37 on a freshly loaded program at the text `12.5+x`, from cursor 0 (the
number, cursor 4 afterwards) and from cursor 6, the end of the text. -/
theorem C37_witness :
    (0 ≤ (pull_token exactEnv "12.5+x".toList 0 (initial_state exactEnv)).2.1 ∧
      (pull_token exactEnv "12.5+x".toList 0 (initial_state exactEnv)).2.1 ≤ 6) ∧
    (pull_token exactEnv "12.5+x".toList 0 (initial_state exactEnv)).2.1 = 4 ∧
    pull_tbuf "12.5+x".toList 0 = "12.5".toList ∧
    (pull_token exactEnv "12.5+x".toList 6 (initial_state exactEnv)).2.1 ≤ 6 ∧
    pull_token exactEnv ("12.5+x".toList ++ NUL :: "99".toList) 6 (initial_state exactEnv) =
      pull_token exactEnv "12.5+x".toList 6 (initial_state exactEnv) :=
  ⟨⟨(C37_tokenizer_bounds exactEnv "12.5+x".toList 0 (initial_state exactEnv) rfl
      (by decide)).1,
    (C37_tokenizer_bounds exactEnv "12.5+x".toList 0 (initial_state exactEnv) rfl
      (by decide)).2.1⟩,
   by decide, by decide,
   (C37_tokenizer_bounds exactEnv "12.5+x".toList 6 (initial_state exactEnv) rfl
      (by decide)).2.1,
   (C37_tokenizer_bounds exactEnv "12.5+x".toList 6 (initial_state exactEnv) rfl
      (by decide)).2.2.1 "99".toList⟩

/-- C38: `eval_def_fn` with a `NULL` callable, with a `malloc` that does not
fail, in a state whose symbol table is as the calls leave it (every function
has the value 0 that `create_fn` gave it).  On a name that is not bound and
on a name bound as a function it returns 0, and the name is then bound to a
record without a callable, with the value 0, the arity and the context given.
That record is a variable to every call: `eval_get_var` returns 0 and stores
0, `eval_set_var` returns 0 and binds the new value, and for an identifier of
at most 100 characters the tokenizer gives a variable token with the value 0
and `eval` of the name returns 0 and stores 0. -/
theorem C38_null_callable (E : Env V) (hm : ∀ i, E.malloc i = true) (s : State V)
    (hs : TableOk s) (hz : FnValuesZero E s) (name : List Char) (ctx : Data) (k : Int)
    (hb : (ht_lookup (sym_table E s) (some name)).1 ≠ 0 ∨
      ∃ f, ht_lookup (sym_table E s) (some name) = (0, some f) ∧ f.fn ≠ none) :
    (eval_def_fn E name none ctx k s).1 = 0 ∧
    (∃ g, ht_lookup (eval_def_fn E name none ctx k s).2.G_varfn_table (some name) =
        (0, some g) ∧ g.fn = none ∧ g.value = E.A.zero ∧ g.nargs = k ∧ g.data = ctx) ∧
    (∀ value, (eval_get_var E name value (eval_def_fn E name none ctx k s).2).1 = 0 ∧
      (eval_get_var E name value (eval_def_fn E name none ctx k s).2).2.1 =
        value.map (fun _ => E.A.zero)) ∧
    (∀ v, (eval_set_var E name v (eval_def_fn E name none ctx k s).2).1 = 0 ∧
      ∃ f, ht_lookup (eval_set_var E name v (eval_def_fn E name none ctx k s).2).2.G_varfn_table
          (some name) = (0, some f) ∧ f.fn = none ∧ f.value = v) ∧
    (is_name name = true → name.length ≤ 100 →
      (∀ (buf : List Char) (p : Nat) (r : List Char), buf.drop p = name ++ r →
        (∀ c ∈ r.head?, isident c = false) →
        (pull_token E buf p
          { (eval_def_fn E name none ctx k s).2 with G_pb_token := null_token E }).1.type = 'v' ∧
        (pull_token E buf p
          { (eval_def_fn E name none ctx k s).2 with G_pb_token := null_token E }).1.value
            = E.A.zero ∧
        (pull_token E buf p
          { (eval_def_fn E name none ctx k s).2 with G_pb_token := null_token E }).2.1
            = p + name.length) ∧
      ∀ result, ∃ n, ∀ fuel, n ≤ fuel →
        outcome (eval E fuel (some name) result (eval_def_fn E name none ctx k s).2) =
          some (0, result.map (fun _ => E.A.zero))) := by
  have hok := def_fn_ok E hm name none ctx k s hs
  have key : ∃ g : VarFn V, (eval_def_fn E name none ctx k s).1 = 0 ∧
      (eval_def_fn E name none ctx k s).2.done = true ∧
      ht_lookup (eval_def_fn E name none ctx k s).2.G_varfn_table (some name) = (0, some g) ∧
      g.fn = none ∧ g.value = E.A.zero ∧ g.nargs = k ∧ g.data = ctx := by
    rcases hb with hb | ⟨f, hf, hfn⟩
    · obtain ⟨h1, hd, hl⟩ := def_fn_fresh E hm s hs name hb none ctx k
      exact ⟨_, h1, hd, hl, rfl, rfl, rfl, rfl⟩
    · obtain ⟨h1, hd, hl⟩ := def_fn_replace E hm s hs name f hf hfn none ctx k
      have hzero : f.value = E.A.zero := sym_table_fn_zero E hm s hs hz hf hfn
      exact ⟨_, h1, hd, hl, rfl, hzero, rfl, rfl⟩
  obtain ⟨g, h1, hd, hl, hg, hv, hk, hc⟩ := key
  obtain ⟨b1, b2, b3⟩ := bound_var_facts E hm _ hok hd name g hl hg
  rw [hv] at b1 b3
  exact ⟨h1, ⟨g, hl, hg, hv, hk, hc⟩, b1, b2, b3⟩

/-- C38 in a freshly loaded program: `v0`, not bound, and the built-in `sin`
are defined with a `NULL` callable; both then read as variables of value 0,
and `sin` can be set to 5. -/
theorem C38_witness :
    (eval_def_fn exactEnv "v0".toList none (some "ctx".toList) 3 (initial_state exactEnv)).1 = 0 ∧
    (eval_get_var exactEnv "v0".toList (some ⟨9, 1⟩)
      (eval_def_fn exactEnv "v0".toList none (some "ctx".toList) 3
        (initial_state exactEnv)).2).2.1 = some ⟨0, 1⟩ ∧
    (eval_def_fn exactEnv "sin".toList none none 1 (initial_state exactEnv)).1 = 0 ∧
    (eval_get_var exactEnv "sin".toList (some ⟨9, 1⟩)
      (eval_def_fn exactEnv "sin".toList none none 1 (initial_state exactEnv)).2).1 = 0 ∧
    (eval_set_var exactEnv "sin".toList ⟨5, 1⟩
      (eval_def_fn exactEnv "sin".toList none none 1 (initial_state exactEnv)).2).1 = 0 ∧
    (∃ n, ∀ fuel, n ≤ fuel →
      outcome (eval exactEnv fuel (some "sin".toList) (some ⟨9, 1⟩)
        (eval_def_fn exactEnv "sin".toList none none 1 (initial_state exactEnv)).2) =
          some (0, some ⟨0, 1⟩)) := by
  have hs : TableOk (initial_state exactEnv) := fun ht h0 => by simp [initial_state] at h0
  have c1 := C38_null_callable exactEnv (fun _ => rfl) (initial_state exactEnv) hs
    (fn_zero_initial exactEnv) "v0".toList (some "ctx".toList) 3
    (Or.inl (by rw [initial_unbound exactEnv (fun _ => rfl) _ (by decide)]; decide))
  have c2 := C38_null_callable exactEnv (fun _ => rfl) (initial_state exactEnv) hs
    (fn_zero_initial exactEnv) "sin".toList none 1
    (Or.inr (builtin_bound exactEnv (fun _ => rfl) "sin" (by decide)))
  exact ⟨c1.1, (c1.2.2.1 (some ⟨9, 1⟩)).2, c2.1, (c2.2.2.1 (some ⟨9, 1⟩)).1,
    (c2.2.2.2.1 ⟨5, 1⟩).1, (c2.2.2.2.2 (by decide) (by decide)).2 (some ⟨9, 1⟩)⟩

/-- C40: `dcomp` does not compare its operands three ways.  It replaces both
by their absolute values and returns -1 when the first is then smaller; its
second test compares `d2` with itself, so it never returns 1 and returns 0 in
every other case.  So `dcomp(2, 1)` is 0 where C40 requires 1, `dcomp(-3, 1)`
is 0 where C40 requires -1, and `dcomp(1, -2)` is -1 where C40 requires 1. -/
theorem C40_dcomp_compares_magnitudes {R : Type} [LinearOrderedRing R] (v1 v2 : R) :
    dcomp v1 v2 = (if |v1| < |v2| then -1 else 0) ∧ dcomp v1 v2 ≠ 1 ∧
    dcomp (2 : Int) 1 = 0 ∧ dcomp (-3 : Int) 1 = 0 ∧ dcomp (1 : Int) (-2) = -1 ∧
    dcomp (1 : Int) 2 = -1 ∧ dcomp (5 : Int) 5 = 0 := by
  have abs1 : ∀ x : R, (if x < 0 then -x else x) = |x| := by
    intro x
    split_ifs with h
    · exact (abs_of_neg h).symm
    · exact (abs_of_nonneg (not_lt.mp h)).symm
  have e : dcomp v1 v2 = (if |v1| < |v2| then -1 else 0) := by
    simp only [dcomp, abs1, gt_iff_lt, lt_self_iff_false, if_false]
  refine ⟨e, ?_, by decide, by decide, by decide, by decide, by decide⟩
  rw [e]
  split_ifs <;> decide

end Libeval
